import Mathlib

/-!
# Pattern playback and editing of sequencer64 (`libseq64/src/sequence.cpp`)

A shallow embedding of the `sequence` class: the event store is a list of
events in store order, the per-pitch sounding counters are a function from
pitch to count, and the master MIDI buss is a log of the calls made on it.
`midipulse` values are unbounded integers; C++ `/` and `%` on them are
`Int.tdiv` and `Int.tmod`.  A `midibyte` is a natural number below 256.
-/

namespace Seq64

/-! ## Constants -/

/-- Status byte of a note-off event (`EVENT_NOTE_OFF`). -/
def EVENT_NOTE_OFF : Nat := 0x80

/-- Status byte of a note-on event (`EVENT_NOTE_ON`). -/
def EVENT_NOTE_ON : Nat := 0x90

/-- Status byte of an aftertouch (polyphonic key pressure) event
(`EVENT_AFTERTOUCH`). -/
def EVENT_AFTERTOUCH : Nat := 0xA0

/-- Status byte of a control-change event (`EVENT_CONTROL_CHANGE`). -/
def EVENT_CONTROL_CHANGE : Nat := 0xB0

/-- Modelled from the spec: `c_midi_notes`, the size of the `m_playing_notes`
array (its declaration is not among the sources); a `midibyte` index is always
inside it. -/
def c_midi_notes : Nat := 256

/-- Modelled from the spec: `c_num_keys`, the number of keys of the piano roll
(its declaration is not among the sources); valid pitches are `0..127`. -/
def c_num_keys : Int := 128

/-- The velocity `add_note` gives its events (`SEQ64_DEFAULT_NOTE_VELOCITY`,
`sequence.cpp` line 46). -/
def SEQ64_DEFAULT_NOTE_VELOCITY : Nat := 100

/-- Conversion of an `int` to `midibyte` (`unsigned char`). -/
def midibyte (n : Int) : Nat := (n % 256).toNat

/-! ## Events -/

/-- Modelled from the spec: the `event` class (its header is not among the
sources): a timestamp, a status byte, two data bytes, the link to the partner
event (the position of the partner in the owning store stands for the C++
pointer) and the three editor flags. -/
structure Event where
  timestamp : Int
  status : Nat
  d0 : Nat
  d1 : Nat
  linked : Option Nat
  selected : Bool
  marked : Bool
  painted : Bool
deriving DecidableEq, Repr

namespace Event

/-- Modelled from the spec: the default-constructed `event` (a note-off with
zeroed timestamp and data, no link, no flag set). -/
def default : Event :=
  { timestamp := 0, status := EVENT_NOTE_OFF, d0 := 0, d1 := 0,
    linked := none, selected := false, marked := false, painted := false }

/-- Modelled from the spec: `event::is_note_on`. -/
def is_note_on (e : Event) : Bool := e.status == EVENT_NOTE_ON

/-- Modelled from the spec: `event::is_note_off`. -/
def is_note_off (e : Event) : Bool := e.status == EVENT_NOTE_OFF

/-- Modelled from the spec: `event::get_note`, the first data byte. -/
def get_note (e : Event) : Nat := e.d0

/-- Modelled from the spec: `event::set_note`, storing a `midibyte`. -/
def set_note (e : Event) (n : Int) : Event := { e with d0 := midibyte n }

/-- Modelled from the spec: `event::set_timestamp`. -/
def set_timestamp (e : Event) (t : Int) : Event := { e with timestamp := t }

/-- Modelled from the spec: `event::set_status`. -/
def set_status (e : Event) (st : Nat) : Event := { e with status := st }

/-- Modelled from the spec: `event::set_data` with two data bytes. -/
def set_data (e : Event) (a b : Int) : Event :=
  { e with d0 := midibyte a, d1 := midibyte b }

/-- Modelled from the spec: `event::select`. -/
def select (e : Event) : Event := { e with selected := true }

/-- Modelled from the spec: `event::mark`. -/
def mark (e : Event) : Event := { e with marked := true }

/-- Modelled from the spec: `event::unmark`. -/
def unmark (e : Event) : Event := { e with marked := false }

/-- Modelled from the spec: `event::is_linked`. -/
def is_linked (e : Event) : Bool := e.linked.isSome

end Event

/-! ## The output sink -/

/-- One call on the master MIDI buss: `play(bus, &event, channel)` or
`flush()`. -/
inductive BusCall where
  | play (bus : Nat) (ev : Event) (channel : Nat)
  | flush
deriving DecidableEq, Repr

/-- The events a log of buss calls forwarded, in order. -/
def sent_events : List BusCall → List Event
  | [] => []
  | BusCall.play _ ev _ :: rest => ev :: sent_events rest
  | BusCall.flush :: rest => sent_events rest

/-! ## Triggers -/

/-- Modelled from the spec: a trigger, the segment `tick_start..tick_end`
(inclusive) of the song timeline with its phase `offset`. -/
structure Trigger where
  tick_start : Int
  tick_end : Int
  offset : Int
  selected : Bool
deriving DecidableEq, Repr

/-! ## The pattern -/

/-- The members of `sequence` that playback and editing read or write.
`sink` is the log of the calls made on `m_masterbus`; `events_undo` and
`events_redo` are the two stacks of store snapshots, top first;
`iterator_draw` is the position in the store of `m_iterator_draw`. -/
structure Sequence where
  events : List Event
  triggers : List Trigger
  midi_channel : Nat
  bus : Nat
  song_mute : Bool
  playing_notes : Nat → Int
  was_playing : Bool
  playing : Bool
  queued : Bool
  dirty_main : Bool
  dirty_edit : Bool
  dirty_perf : Bool
  dirty_names : Bool
  last_tick : Int
  trigger_offset : Int
  ppqn : Int
  length : Int
  snap_tick : Int
  sink : List BusCall
  events_undo : List (List Event)
  events_redo : List (List Event)
  iterator_draw : Nat

/-- The principal constructor (`sequence.cpp` lines 65-123); `ppqn` is the
value `choose_ppqn` returned.  The sink starts with an empty log. -/
def Sequence.create (ppqn : Int) : Sequence :=
  { events := [], triggers := [], midi_channel := 0, bus := 0,
    song_mute := false, playing_notes := fun _ => 0,
    was_playing := false, playing := false, queued := false,
    dirty_main := true, dirty_edit := true, dirty_perf := true,
    dirty_names := true, last_tick := 0, trigger_offset := 0,
    ppqn := ppqn, length := 4 * ppqn, snap_tick := Int.tdiv ppqn 4,
    sink := [], events_undo := [], events_redo := [], iterator_draw := 0 }

/-- Modelled from the spec: `sequence::set_dirty` (defined in the header),
raising the four dirty flags. -/
def set_dirty (s : Sequence) : Sequence :=
  { s with dirty_main := true, dirty_edit := true, dirty_perf := true,
           dirty_names := true }

/-! ## Emission -/

/-- `sequence::put_event_on_bus` (`sequence.cpp` lines 3031-3058). -/
def put_event_on_bus (s : Sequence) (ev : Event) : Sequence :=
  let note := ev.get_note
  let s1 : Sequence :=
    if ev.is_note_on then
      { s with playing_notes := fun n =>
          if n = note then s.playing_notes n + 1 else s.playing_notes n }
    else s
  let skip : Bool := ev.is_note_off && decide (s1.playing_notes note ≤ 0)
  let s2 : Sequence :=
    if ev.is_note_off && !skip then
      { s1 with playing_notes := fun n =>
          if n = note then s1.playing_notes n - 1 else s1.playing_notes n }
    else s1
  if !skip then
    { s2 with sink := s2.sink ++
        [BusCall.play s2.bus ev s2.midi_channel, BusCall.flush] }
  else s2

/-- The note-off that `off_playing_notes` builds for pitch `x`: a default
event after `set_status(EVENT_NOTE_OFF)` and `set_data(x, 0)`. -/
def note_off_event (x : Nat) : Event :=
  (Event.default.set_status EVENT_NOTE_OFF).set_data x 0

/-- The inner `while (m_playing_notes[x] > 0)` loop of `off_playing_notes`
(`sequence.cpp` lines 3074-3080); the first argument bounds the number of
iterations. -/
def off_playing_loop : Nat → Nat → Sequence → Sequence
  | 0, _, s => s
  | fuel + 1, x, s =>
    if s.playing_notes x > 0 then
      off_playing_loop fuel x
        { s with
          sink := s.sink ++ [BusCall.play s.bus (note_off_event x) s.midi_channel],
          playing_notes := fun n =>
            if n = x then s.playing_notes n - 1 else s.playing_notes n }
    else s

/-- `sequence::off_playing_notes` (`sequence.cpp` lines 3067-3083): for each
pitch the inner loop runs while the count is positive, which is at most
`count.toNat` iterations, and the buss is flushed at the end. -/
def off_playing_notes (s : Sequence) : Sequence :=
  let s1 := (List.range c_midi_notes).foldl
    (fun st x => off_playing_loop (st.playing_notes x).toNat x st) s
  { s1 with sink := s1.sink ++ [BusCall.flush] }

/-- `sequence::set_playing` (`sequence.cpp` lines 2891-2904). -/
def set_playing (s : Sequence) (p : Bool) : Sequence :=
  let s1 : Sequence :=
    if p != s.playing then
      let s2 : Sequence := { s with playing := p }
      let s3 : Sequence := if !p then off_playing_notes s2 else s2
      set_dirty s3
    else s
  { s1 with queued := false }

/-- `sequence::set_trigger_offset` (`sequence.cpp` lines 2192-2203). -/
def set_trigger_offset (s : Sequence) (trigger_offset : Int) : Sequence :=
  if s.length > 0 then
    { s with trigger_offset :=
        Int.tmod (Int.tmod trigger_offset s.length + s.length) s.length }
  else
    { s with trigger_offset := trigger_offset }

/-! ## The playback step -/

/-- What the trigger step of song mode hands back to `play`: whether a
trigger is turning the pattern off after this frame, the two ticks that
bracket the frame (both passed by reference) and the pattern as the step left
it. -/
structure TriggerPlay where
  turning_off : Bool
  start_tick : Int
  end_tick : Int
  seq : Sequence

/-- The emission loop of `play` (`sequence.cpp` lines 453-469).  The position
`i` in the store stands for the iterator `e`; `put` is the call made for an
event inside the frame, given the position, the running `offset_base` and the
event.  The first argument bounds the number of iterations; `none` means the
bound was reached before the loop ended. -/
def play_loop {σ : Type} (put : σ → Nat → Int → Event → σ) (evs : List Event)
    (length start_tick_offset end_tick_offset : Int) :
    Nat → Nat → Int → σ → Option σ
  | 0, _, _, _ => none
  | fuel + 1, i, offset_base, s =>
    match evs[i]? with
    | none => some s
    | some er =>
      let stamp := er.timestamp + offset_base
      if start_tick_offset ≤ stamp ∧ stamp ≤ end_tick_offset then
        let s1 := put s i offset_base er
        if i + 1 = evs.length then
          play_loop put evs length start_tick_offset end_tick_offset fuel 0
            (offset_base + length) s1
        else
          play_loop put evs length start_tick_offset end_tick_offset fuel (i + 1)
            offset_base s1
      else if stamp > end_tick_offset then some s
      else if i + 1 = evs.length then
        play_loop put evs length start_tick_offset end_tick_offset fuel 0
          (offset_base + length) s
      else
        play_loop put evs length start_tick_offset end_tick_offset fuel (i + 1)
          offset_base s

/-- The first part of `play` (`sequence.cpp` lines 408-445): the frame ticks
and the pattern after the mute check and, in song mode, the trigger step
`tp` (`triggers::play`, which is not among the sources). -/
def play_frame (tp : Sequence → Int → Int → TriggerPlay) (s : Sequence)
    (tick : Int) (playback_mode : Bool) : TriggerPlay :=
  let start_tick := s.last_tick
  let end_tick := tick
  if s.song_mute then
    { turning_off := false, start_tick := start_tick, end_tick := end_tick,
      seq := set_playing s false }
  else if playback_mode then tp s start_tick end_tick
  else
    { turning_off := false, start_tick := start_tick, end_tick := end_tick,
      seq := s }

/-- `sequence::play` (`sequence.cpp` lines 404-476).  The result is `none`
when the bound `fuel` on the emission loop is reached, or when `m_length` is
zero while playing (the division `m_last_tick / m_length` is undefined). -/
def play (tp : Sequence → Int → Int → TriggerPlay) (fuel : Nat) (s : Sequence)
    (tick : Int) (playback_mode : Bool) : Option Sequence :=
  let r := play_frame tp s tick playback_mode
  let s1 := r.seq
  let start_tick_offset := r.start_tick + s1.length - s1.trigger_offset
  let end_tick_offset := r.end_tick + s1.length - s1.trigger_offset
  let played : Option Sequence :=
    if s1.playing then
      if s1.length = 0 then none
      else
        let times_played := Int.tdiv s1.last_tick s1.length
        let offset_base := times_played * s1.length
        play_loop (fun st _ _ er => put_event_on_bus st er) s1.events s1.length
          start_tick_offset end_tick_offset fuel 0 offset_base s1
    else some s1
  played.map fun s2 =>
    let s3 := if r.turning_off then set_playing s2 false else s2
    { s3 with last_tick := r.end_tick + 1, was_playing := s3.playing }

/-- The occurrences `play` hands to `put_event_on_bus`, in call order: the
same loop as in `play`, with the call replaced by recording the position in
the store, the running `offset_base` and the event. -/
def play_calls (tp : Sequence → Int → Int → TriggerPlay) (fuel : Nat)
    (s : Sequence) (tick : Int) (playback_mode : Bool) :
    Option (List (Nat × Int × Event)) :=
  let r := play_frame tp s tick playback_mode
  let s1 := r.seq
  let start_tick_offset := r.start_tick + s1.length - s1.trigger_offset
  let end_tick_offset := r.end_tick + s1.length - s1.trigger_offset
  if s1.playing then
    if s1.length = 0 then none
    else
      let times_played := Int.tdiv s1.last_tick s1.length
      let offset_base := times_played * s1.length
      play_loop (fun tr i ob er => tr ++ [(i, ob, er)]) s1.events s1.length
        start_tick_offset end_tick_offset fuel 0 offset_base []
  else some []

/-- Modelled from the spec: `triggers::play` (`triggers.cpp` is not among the
sources).  The last trigger boundary at or before the end of the frame decides
the state the pattern should be in; a pattern that must turn on starts its
frame at that boundary, a playing pattern whose trigger ended inside the frame
has the end of its frame moved to the trigger end and is reported as turning
off, so that the events due before that point are still emitted. -/
def triggers_play (s : Sequence) (start_tick end_tick : Int) : TriggerPlay :=
  let scan : Bool × Int × Int × Bool :=
    s.triggers.foldl
      (fun (acc : Bool × Int × Int × Bool) (t : Trigger) =>
        if acc.2.2.2 then acc
        else
          let a1 : Bool × Int × Int :=
            if t.tick_start ≤ end_tick then (true, t.tick_start, t.offset)
            else (acc.1, acc.2.1, acc.2.2.1)
          let a2 : Bool × Int × Int :=
            if t.tick_end ≤ end_tick then (false, t.tick_end, t.offset) else a1
          (a2.1, a2.2.1, a2.2.2,
            decide (t.tick_start > end_tick) || decide (t.tick_end > end_tick)))
      (false, 0, 0, false)
  let trigger_state := scan.1
  let trigger_tick := scan.2.1
  let trigger_offset := scan.2.2.1
  let r : TriggerPlay :=
    if trigger_state != s.playing then
      if trigger_state then
        { turning_off := false,
          start_tick := if trigger_tick < s.last_tick then s.last_tick else trigger_tick,
          end_tick := end_tick, seq := set_playing s true }
      else
        { turning_off := true, start_tick := start_tick, end_tick := trigger_tick,
          seq := s }
    else
      { turning_off := false, start_tick := start_tick, end_tick := end_tick,
        seq := s }
  let s1 : Sequence :=
    if s.triggers.length = 0 ∧ r.seq.playing then set_playing r.seq false else r.seq
  { r with seq := set_trigger_offset s1 trigger_offset }

/-! ## The event store -/

/-- Modelled from the spec: the tie-break rank of an event in the store order
(`event::get_rank`, not among the sources): note-offs come before note-ons at
equal timestamps. -/
def Event.get_rank (e : Event) : Nat :=
  if e.status = EVENT_NOTE_ON then 1 else 0

/-- Modelled from the spec: the order of the store (`event::operator <`), by
timestamp and then by rank. -/
def event_lt (a b : Event) : Bool :=
  decide (a.timestamp < b.timestamp) ||
    (decide (a.timestamp = b.timestamp) && decide (a.get_rank < b.get_rank))

/-- Modelled from the spec: `event_list::sort`, the stable sort of the store
by `event_lt`. -/
def event_sort (evs : List Event) : List Event :=
  evs.insertionSort (fun a b => event_lt b a = false)

/-- The loop of `std::list::merge`: while both lists have elements, the head
of the second list is moved out when it is smaller than the head of the first,
else the head of the first stays in place.  The first argument bounds the
number of steps. -/
def merge_loop : Nat → List Event → List Event → List Event
  | 0, xs, ys => xs ++ ys
  | _ + 1, [], ys => ys
  | _ + 1, xs, [] => xs
  | n + 1, x :: xs, y :: ys =>
    if event_lt y x then y :: merge_loop n (x :: xs) ys
    else x :: merge_loop n xs (y :: ys)

/-- Modelled from the spec: `event_list::merge(el, presort)` on the list
implementation of the store: `el` is sorted first when `presort` is set, then
merged into the store by `std::list::merge`, which takes one step per
element. -/
def event_list_merge (store el : List Event) (presort : Bool) : List Event :=
  let el1 := if presort then event_sort el else el
  merge_loop (store.length + el1.length) store el1

/-- Modelled from the spec: `event_list::mark_selected`, marking every
selected event. -/
def mark_selected (evs : List Event) : List Event :=
  evs.map (fun e => if e.selected then e.mark else e)

/-! ## Copy and paste -/

/-- `sequence::copy_selected` (`sequence.cpp` lines 1317-1342): the new
content of the static clipboard.  With nothing selected the function reads the
timestamp of `begin()` of an empty list, which is undefined: `none`. -/
def copy_selected (s : Sequence) : Option (List Event) :=
  let clipboard := s.events.filter (fun e => e.selected)
  match clipboard with
  | [] => none
  | first :: _ =>
    let first_tick := first.timestamp
    some (clipboard.map (fun e => e.set_timestamp (e.timestamp - first_tick)))

/-- The highest note of a clipboard, as the loop of `paste_selected` finds it
(`sequence.cpp` lines 1391-1396), starting from 0. -/
def paste_highest_note (clipbd : List Event) : Int :=
  clipbd.foldl (fun (h : Int) e => if (e.get_note : Int) > h then (e.get_note : Int) else h) 0

/-- `sequence::paste_selected` up to and including `m_events.sort()`
(`sequence.cpp` lines 1380-1421): the event store before `verify_and_link`.
With an empty clipboard the function dereferences `begin()` of an empty list,
which is undefined: `none`. -/
def paste_selected_merge (s : Sequence) (clipboard : List Event) (tick : Int)
    (note : Int) : Option (List Event) :=
  let clipbd := clipboard.map (fun e => e.set_timestamp (e.timestamp + tick))
  match clipbd with
  | [] => none
  | er :: _ =>
    let clipbd1 :=
      if er.is_note_on || er.is_note_off then
        let highest_note := paste_highest_note clipbd
        clipbd.map (fun e => e.set_note ((e.get_note : Int) - (highest_note - note)))
      else clipbd
    some (event_sort (event_list_merge s.events clipbd1 false))

/-- The copy of an event moved by `dt` pulses in time and by `dn` keys in
pitch, everything else kept: what the round trip of copy and paste is to
produce for a selected event. -/
def shifted_copy (e : Event) (dt dn : Int) : Event :=
  { e with timestamp := e.timestamp + dt, d0 := ((e.d0 : Int) + dn).toNat }

/-! ## Quantizing -/

/-- The shift `quantize_events` computes for a timestamp (`sequence.cpp`
lines 3274-3283), the clamp against the pattern length included, for
`snap_tick` and `divide` other than 0.  With `snap_tick` or `divide` 0 the
code divides by zero; `quantize_step` gives `none` for that and does not get
here. -/
def quantize_delta (timestamp snap_tick divide length : Int) : Int :=
  let timestamp_remander := Int.tmod timestamp snap_tick
  let timestamp_delta :=
    if timestamp_remander < Int.tdiv snap_tick 2 then
      - (Int.tdiv timestamp_remander divide)
    else Int.tdiv (snap_tick - timestamp_remander) divide
  if timestamp_delta + timestamp ≥ length then - timestamp else timestamp_delta

/-- Whether the loop of `quantize_events` picks the event (`sequence.cpp`
lines 3258-3266). -/
def quantize_canselect (er : Event) (status cc : Nat) : Bool :=
  let is_match := er.status == status
  let canselect :=
    if status == EVENT_CONTROL_CHANGE then is_match && er.d0 == cc else is_match
  if !er.marked then false else canselect

/-- One iteration of the loop of `quantize_events` (`sequence.cpp` lines
3254-3296), for the event at position `i`: the state is the store, whose
events the loop selects, and `quantized_events`, to which `add(e, false)`
pushes.  For a picked event the loop computes `timestamp % snap_tick` and
divides by `divide` (lines 3275-3280): with `snap_tick` or `divide` 0 that is
a division by zero, `none`.  A link that points outside the store is a
dangling pointer: `none`. -/
def quantize_step (status cc : Nat) (snap_tick divide length : Int) (linked : Bool)
    (st : List Event × List Event) (i : Nat) : Option (List Event × List Event) :=
  match st.1[i]? with
  | none => some st
  | some er =>
    if quantize_canselect er status cc then
      if snap_tick = 0 ∨ divide = 0 then none else
      let e := er
      let store1 := st.1.set i er.select
      let e := e.unmark
      let timestamp_delta := quantize_delta e.timestamp snap_tick divide length
      let e := e.set_timestamp (e.timestamp + timestamp_delta)
      let quantized1 := e :: st.2
      if er.is_linked && linked then
        match er.linked with
        | none => some (store1, quantized1)
        | some j =>
          match store1[j]? with
          | none => none
          | some partner =>
            let f := partner.unmark
            let store2 := store1.set j partner.select
            let f := f.set_timestamp (f.timestamp + timestamp_delta)
            some (store2, f :: quantized1)
      else some (store1, quantized1)
    else some st

/-- The first part of `quantize_events` (`sequence.cpp` lines 3250-3296):
`mark_selected` and the loop over the store; the result is the store and
`quantized_events` as they are before `remove_marked`. -/
def quantize_scan (evs : List Event) (status cc : Nat) (snap_tick divide length : Int)
    (linked : Bool) : Option (List Event × List Event) :=
  (List.range evs.length).foldlM
    (quantize_step status cc snap_tick divide length linked) (mark_selected evs, [])

/-- The quantized copy the loop of `quantize_events` pushes for a picked
event `er`. -/
def quantize_copy (er : Event) (snap_tick divide length : Int) : Event :=
  er.unmark.set_timestamp
    (er.unmark.timestamp + quantize_delta er.unmark.timestamp snap_tick divide length)

/-- The shift of quantization in the words of the specification: with
`r = timestamp mod snap`, earlier by `r / divide` when `r < snap / 2`, else
later by `(snap - r) / divide`. -/
def spec_quantize_shift (timestamp snap divide : Int) : Int :=
  if timestamp % snap < snap / 2 then - ((timestamp % snap) / divide)
  else (snap - timestamp % snap) / divide

/-- The state of the store during the loop of `quantize_events`, compared
with the store `store0` the loop started from: same length, and at every
position the same event up to the `selected` flag, which the loop only ever
sets. -/
def quantize_inv (store0 store : List Event) : Prop :=
  store.length = store0.length ∧
  ∀ (j : Nat) (e0 : Event), store0[j]? = some e0 →
    ∃ e : Event, store[j]? = some e ∧ e.select = e0.select ∧
      (e0.selected = true → e.selected = true)

/-! ## Moving notes -/

/-- The timestamp `move_selected_notes` gives a moved event (`sequence.cpp`
lines 1078-1095). -/
def move_timestamp (timestamp delta_tick length : Int) (noteon : Bool) : Int :=
  let t0 := timestamp + delta_tick
  let t1 := if t0 > length then t0 - length else t0
  let t2 := if t1 < 0 then t1 + length else t1
  let t3 := if t2 = 0 ∧ noteon = false then length - 2 else t2
  if t3 = length ∧ noteon = true then 0 else t3

/-- The tick of a moved event after the two wrapping steps of
`move_selected_notes` (`sequence.cpp` lines 1078-1089), before the edge
rules. -/
def move_wrap (timestamp delta_tick length : Int) : Int :=
  let t0 := timestamp + delta_tick
  let t1 := if t0 > length then t0 - length else t0
  if t1 < 0 then t1 + length else t1

/-- The replacement `move_selected_notes` adds for a marked event
(`sequence.cpp` lines 1072-1100), if its new pitch is on the keyboard. -/
def move_replacement (er : Event) (delta_tick : Int) (delta_note : Int) (length : Int) :
    Option Event :=
  if er.marked then
    let e := er.unmark
    let new_note : Int := (e.get_note : Int) + delta_note
    if new_note ≥ 0 ∧ new_note < c_num_keys then
      let noteon := e.is_note_on
      let timestamp := move_timestamp e.timestamp delta_tick length noteon
      some (((e.set_timestamp timestamp).set_note (midibyte new_note)).select)
    else none
  else none

/-- The events the loop of `move_selected_notes` hands to `add_event`, in
order (`sequence.cpp` lines 1066-1103), after `mark_selected`.  `add_event`
puts each new event into the store the loop is walking; the store is kept in
order, so the events it held stay in their relative order and are each visited
once, and the added events are unmarked, so the loop passes over them. -/
def move_selected_added (evs : List Event) (delta_tick : Int) (delta_note : Int)
    (length : Int) : List Event :=
  (mark_selected evs).filterMap (fun er => move_replacement er delta_tick delta_note length)

/-! ## The emission loop, unrolled

The loop of `play` walks the store again and again.  Its `j`-th iteration
(counting from 0) is at position `j % n` of the store, in round `j / n`, where
`n` is the number of stored events. -/

/-- Position in the store of the `j`-th iteration. -/
def occ_index (evs : List Event) (j : Nat) : Nat := j % evs.length

/-- Running `offset_base` at the `j`-th iteration, when the loop started with
`ob0`. -/
def occ_base (evs : List Event) (length ob0 : Int) (j : Nat) : Int :=
  ob0 + ((j / evs.length : Nat) : Int) * length

/-- Event read at the `j`-th iteration. -/
def occ_event (evs : List Event) (j : Nat) : Event :=
  evs.getD (j % evs.length) Event.default

/-- The `stamp` computed at the `j`-th iteration. -/
def occ_stamp (evs : List Event) (length ob0 : Int) (j : Nat) : Int :=
  (occ_event evs j).timestamp + occ_base evs length ob0 j

/-- The occurrence handed to `put` at the `j`-th iteration: position, running
`offset_base` and event. -/
def occ (evs : List Event) (length ob0 : Int) (j : Nat) : Nat × Int × Event :=
  (occ_index evs j, occ_base evs length ob0 j, occ_event evs j)

/-- Whether the stamp of the `j`-th iteration lies in the closed frame
`start_tick_offset..end_tick_offset`. -/
def in_frame (evs : List Event) (length ob0 sto eto : Int) (j : Nat) : Bool :=
  decide (sto ≤ occ_stamp evs length ob0 j) && decide (occ_stamp evs length ob0 j ≤ eto)

/-- The store is in time order and every timestamp lies in `[0, length)`. -/
def store_in_order (evs : List Event) (length : Int) : Prop :=
  evs.Pairwise (fun a b => a.timestamp ≤ b.timestamp) ∧
  ∀ e ∈ evs, 0 ≤ e.timestamp ∧ e.timestamp < length

/-- The last two assignments of `play` (`sequence.cpp` lines 474-475) for a
frame that ends at `end_tick`. -/
def frame_end (s : Sequence) (end_tick : Int) : Sequence :=
  { s with last_tick := end_tick + 1, was_playing := s.playing }

/-- The song tick at which an occurrence handed to `put_event_on_bus` is
due: the timestamp of the event plus the trigger offset plus `m * length`,
where `m * length` is the running `offset_base` less one pattern length. -/
def effective_time (s : Sequence) (c : Nat × Int × Event) : Int :=
  c.2.2.timestamp + s.trigger_offset + (c.2.1 - s.length)

/-- The pattern with its cursor and `m_was_playing` replaced. -/
def with_cursor (s : Sequence) (last_tick : Int) (was_playing : Bool) : Sequence :=
  { s with last_tick := last_tick, was_playing := was_playing }

/-- The events of the first `N` iterations whose stamp lies in the frame, in
iteration order. -/
def frame_events (evs : List Event) (length ob0 sto eto : Int) (N : Nat) : List Event :=
  ((List.range' 0 N).filter (in_frame evs length ob0 sto eto)).map (occ_event evs)

/-! ## More of the event class -/

/-- Status byte of a program-change event (`EVENT_PROGRAM_CHANGE`). -/
def EVENT_PROGRAM_CHANGE : Nat := 0xC0

/-- Status byte of a channel-pressure event (`EVENT_CHANNEL_PRESSURE`). -/
def EVENT_CHANNEL_PRESSURE : Nat := 0xD0

/-- Modelled from the spec: `SEQ64_MIDI_COUNT_MAX`, the number of values of a
MIDI data byte (its definition is not among the sources). -/
def SEQ64_MIDI_COUNT_MAX : Int := 128

/-- Modelled from the spec: `event::is_one_byte_msg`: program change and
channel pressure carry one data byte ("patch or pressure"). -/
def is_one_byte_msg (status : Nat) : Bool :=
  status == EVENT_PROGRAM_CHANGE || status == EVENT_CHANNEL_PRESSURE

/-- Modelled from the spec: `event::unselect`. -/
def Event.unselect (e : Event) : Event := { e with selected := false }

/-! ## Trigger offset, note range, note lookup -/

/-- `sequence::get_minmax_note_events` (`sequence.cpp` lines 2593-2620): the
returned flag, `lowest` and `highest`. -/
def get_minmax_note_events (s : Sequence) : Bool × Int × Int :=
  s.events.foldl
    (fun (acc : Bool × Int × Int) er =>
      if er.is_note_on || er.is_note_off then
        if (er.get_note : Int) < acc.2.1 then (true, (er.get_note : Int), acc.2.2)
        else if (er.get_note : Int) > acc.2.2 then (true, acc.2.1, (er.get_note : Int))
        else acc
      else acc)
    (false, SEQ64_MIDI_COUNT_MAX - 1, -1)

/-- The outer loop of `sequence::intersect_notes` (`sequence.cpp` lines
2056-2088) from the position `on` whose event heads the list.  `eoff` is bound
once, to the event after `on`; the inner `while` moves the iterator `off` but
not the reference, so the test that follows reads that same event.  Reading
it when `on` is the last event dereferences `end()`: `none`.  The result is
`some (some (start, ender, note))` for `true` and `some none` for `false`. -/
def intersect_notes_loop (position position_note : Int) :
    List Event → Option (Option (Int × Int × Int))
  | [] => some none
  | eon :: rest =>
    if position_note = (eon.get_note : Int) ∧ eon.is_note_on = true then
      match rest with
      | [] => none
      | eoff :: _ =>
        if eon.get_note = eoff.get_note ∧ eoff.is_note_off = true ∧
            eon.timestamp ≤ position ∧ position ≤ eoff.timestamp then
          some (some (eon.timestamp, eoff.timestamp, (eon.get_note : Int)))
        else intersect_notes_loop position position_note rest
    else intersect_notes_loop position position_note rest

/-- `sequence::intersect_notes` (`sequence.cpp` lines 2046-2089). -/
def intersect_notes (s : Sequence) (position position_note : Int) :
    Option (Option (Int × Int × Int)) :=
  intersect_notes_loop position position_note s.events

/-- What the specification asks of `intersect_notes`: the first note-on of
pitch `position_note` whose next following note-off of the same pitch, other
events possibly in between, encloses `position`. -/
def spec_intersect_notes (position position_note : Int) :
    List Event → Option (Int × Int × Int)
  | [] => none
  | eon :: rest =>
    if position_note = (eon.get_note : Int) ∧ eon.is_note_on = true then
      match rest.find? (fun e => e.is_note_off && e.get_note == eon.get_note) with
      | some eoff =>
        if eon.timestamp ≤ position ∧ position ≤ eoff.timestamp then
          some (eon.timestamp, eoff.timestamp, (eon.get_note : Int))
        else spec_intersect_notes position position_note rest
      | none => spec_intersect_notes position position_note rest
    else spec_intersect_notes position position_note rest

/-! ## Changing event data -/

/-- Modelled from the spec: `event_list::count_selected_events`, the number
of selected events of the status (and controller, for a control change). -/
def count_selected_events (evs : List Event) (status cc : Nat) : Nat :=
  (evs.filter (fun e =>
    e.selected && e.status == status &&
      (status != EVENT_CONTROL_CHANGE || e.d0 == cc))).length

/-- The value `change_event_data_range` computes for an event at `tick`
(`sequence.cpp` lines 1513-1522). -/
def change_event_newdata (tick tick_s tick_f data_s data_f : Int) : Int :=
  let newdata := Int.tdiv ((tick - tick_s) * data_f + (tick_f - tick) * data_s) (tick_f - tick_s)
  let newdata := if newdata < 0 then 0 else newdata
  if newdata ≥ SEQ64_MIDI_COUNT_MAX then SEQ64_MIDI_COUNT_MAX - 1 else newdata

/-- Whether the loop of `change_event_data_range` changes the event
(`sequence.cpp` lines 1494-1506), for the current value of `tick_f`. -/
def change_event_good (er : Event) (tick_s tick_f : Int) (status cc : Nat)
    (have_selection : Bool) : Bool :=
  let is_match := er.status == status
  let good := if status == EVENT_CONTROL_CHANGE then is_match && er.d0 == cc else is_match
  let good := if !(decide (er.timestamp ≥ tick_s) && decide (er.timestamp ≤ tick_f)) then false
    else good
  if have_selection && !er.selected then false else good

/-- One iteration of the loop of `change_event_data_range` (`sequence.cpp`
lines 1489-1537): the state is the events already passed (in reverse), the
current `tick_f`, which the loop moves when it equals `tick_s`, and
`result`. -/
def change_event_step (tick_s : Int) (status cc : Nat) (data_s data_f : Int)
    (have_selection : Bool) (acc : List Event × Int × Bool) (er : Event) :
    List Event × Int × Bool :=
  if change_event_good er tick_s acc.2.1 status cc have_selection then
    let tick_f := if acc.2.1 = tick_s then tick_s + 1 else acc.2.1
    let newdata := change_event_newdata er.timestamp tick_s tick_f data_s data_f
    let d0 : Int := if is_one_byte_msg status then newdata else (er.d0 : Int)
    let d1 : Int := if is_one_byte_msg status then (er.d1 : Int) else newdata
    (er.set_data d0 d1 :: acc.1, tick_f, true)
  else (er :: acc.1, acc.2.1, acc.2.2)

/-- `sequence::change_event_data_range` (`sequence.cpp` lines 1475-1539): the
pattern afterwards and the returned flag. -/
def change_event_data_range (s : Sequence) (tick_s tick_f : Int) (status cc : Nat)
    (data_s data_f : Int) : Sequence × Bool :=
  let have_selection := decide (count_selected_events s.events status cc ≠ 0)
  let r := s.events.foldl
    (change_event_step tick_s status cc data_s data_f have_selection) ([], tick_f, false)
  ({ s with events := r.1.reverse }, r.2.2)

/-! ## Removing events -/

/-- Where a link to position `j` points after the event at position `k` was
erased from a store that is then `n` events long: positions after `k` move
down by one, and a link to the erased event itself is left pointing past the
end of the store, as the C++ pointer is left dangling. -/
def shift_link (k n j : Nat) : Nat :=
  if j < k then j else if j = k then n else j - 1

/-- Modelled from the spec: `event_list::remove(iterator)`, the erasure of the
element at position `k` of the store.  The links of the other events keep
pointing at the same events. -/
def erase_event (evs : List Event) (k : Nat) : List Event :=
  (evs.eraseIdx k).map
    (fun e => { e with linked := e.linked.map (shift_link k (evs.length - 1)) })

/-- `sequence::reset_draw_marker` (`sequence.cpp` lines 2550-2555). -/
def reset_draw_marker (s : Sequence) : Sequence :=
  { s with iterator_draw := 0 }

/-- The body of `sequence::remove(event_list::iterator)` (`sequence.cpp`
lines 522-528) for the iterator at position `i`, which refers to `er`. -/
def remove_iterator_body (s : Sequence) (i : Nat) (er : Event) : Sequence :=
  let s1 : Sequence :=
    if er.is_note_off && decide (s.playing_notes er.get_note > 0) then
      { s with
        sink := s.sink ++ [BusCall.play s.bus er s.midi_channel],
        playing_notes := fun n =>
          if n = er.get_note then s.playing_notes n - 1 else s.playing_notes n }
    else s
  { s1 with events := erase_event s1.events i }

/-- `sequence::remove(event_list::iterator)` (`sequence.cpp` lines 519-529).
An iterator that refers to no element of the store is not to be passed:
`none`. -/
def remove_iterator (s : Sequence) (i : Nat) : Option Sequence :=
  match s.events[i]? with
  | none => none
  | some er => some (remove_iterator_body s i er)

/-- `sequence::remove(event &)` (`sequence.cpp` lines 545-557); `k` is the
position in the store of the event the reference refers to (a position outside
the store for an event that is not in it).  The loop compares addresses and
erases the element it finds with `m_events.remove(i)`. -/
def remove_event (s : Sequence) (k : Nat) : Sequence :=
  match (List.range s.events.length).find? (fun i => i == k) with
  | some i => { s with events := erase_event s.events i }
  | none => s

/-- The loop of `sequence::remove_marked` (`sequence.cpp` lines 570-582) with
the iterator at position `i`; after a removal the next element is at the same
position.  The first argument bounds the number of iterations. -/
def remove_marked_loop : Nat → Nat → Sequence → Sequence
  | 0, _, s => s
  | fuel + 1, i, s =>
    match s.events[i]? with
    | none => s
    | some er =>
      if er.marked then remove_marked_loop fuel i (remove_iterator_body s i er)
      else remove_marked_loop fuel (i + 1) s

/-- `sequence::remove_marked` (`sequence.cpp` lines 566-584); the loop takes
one iteration per stored event. -/
def remove_marked (s : Sequence) : Sequence :=
  reset_draw_marker (remove_marked_loop s.events.length 0 s)

/-! ## Linking notes -/

/-- Modelled from the spec: the first step of `event_list::verify_and_link`,
which forgets the old links and marks. -/
def clear_links (evs : List Event) : List Event :=
  evs.map (fun e => { e with linked := none, marked := false })

/-- Whether the event at position `j` is a note-off of pitch `note` that is
not linked yet. -/
def is_free_note_off (evs : List Event) (note : Nat) (j : Nat) : Bool :=
  match evs[j]? with
  | some f => f.is_note_off && f.get_note == note && !f.is_linked
  | none => false

/-- Modelled from the spec: the pairing step of `event_list::verify_and_link`
for the event at position `i`: a note-on is paired with the next note-off of
its pitch that is not linked yet, looking first after it and then, for a note
that wraps around the end of the pattern, from the start of the store up to
it; both events are linked to each other. -/
def link_step (evs : List Event) (i : Nat) : List Event :=
  match evs[i]? with
  | none => evs
  | some eon =>
    if eon.is_note_on && !eon.is_linked then
      match (List.range' (i + 1) (evs.length - (i + 1)) ++ List.range i).find?
          (is_free_note_off evs eon.get_note) with
      | none => evs
      | some j =>
        match evs[j]? with
        | none => evs
        | some eoff =>
          (evs.set i { eon with linked := some j }).set j { eoff with linked := some i }
    else evs

/-- Modelled from the spec: the scan of `event_list::verify_and_link` over
the store in time order. -/
def link_notes (evs : List Event) : List Event :=
  (List.range evs.length).foldl link_step evs

/-- Whether a timestamp lies outside `[0, length)`. -/
def out_of_range (length : Int) (e : Event) : Bool :=
  decide (e.timestamp < 0) || decide (e.timestamp ≥ length)

/-- Whether the partner of an event lies outside `[0, length)`. -/
def partner_out_of_range (length : Int) (evs : List Event) (e : Event) : Bool :=
  match e.linked with
  | none => false
  | some j =>
    match evs[j]? with
    | some f => out_of_range length f
    | none => false

/-- Modelled from the spec: the last step of `event_list::verify_and_link`,
which marks for pruning the events whose linkage cannot be resolved within the
pattern: a note-on left without a note-off, an event outside `[0, length)`,
and the partner of such an event. -/
def mark_unresolved (length : Int) (evs : List Event) : List Event :=
  evs.map (fun e =>
    if (e.is_note_on && !e.is_linked) || out_of_range length e ||
        partner_out_of_range length evs e then e.mark
    else e)

/-- Modelled from the spec: `event_list::verify_and_link(length)`
(`event_list.cpp` is not among the sources): links are rebuilt by a scan in
time order, and the events to drop are left marked. -/
def event_list_verify_and_link (length : Int) (evs : List Event) : List Event :=
  mark_unresolved length (link_notes (clear_links evs))

/-- `sequence::verify_and_link` (`sequence.cpp` lines 485-491). -/
def verify_and_link (s : Sequence) : Sequence :=
  remove_marked { s with events := event_list_verify_and_link s.length s.events }

/-- An event without its link and without its editor flags `selected` and
`marked`: what relinking and unselecting leave untouched. -/
def Event.bare (e : Event) : Event :=
  { e with linked := none, selected := false, marked := false }

/-- Every link in the store is answered: the event a link points to links
back, and the two are a note-on and a note-off. -/
def links_paired (evs : List Event) : Prop :=
  ∀ (a b : Nat) (ea : Event), evs[a]? = some ea → ea.linked = some b →
    ∃ eb : Event, evs[b]? = some eb ∧ eb.linked = some a ∧
      ((ea.is_note_on = true ∧ eb.is_note_off = true) ∨
        (ea.is_note_off = true ∧ eb.is_note_on = true))

/-- Every note-on that is not marked for removal is linked to a note-off that
is not marked either and links back to it. -/
def kept_notes_linked (evs : List Event) : Prop :=
  ∀ (a : Nat) (ea : Event), evs[a]? = some ea → ea.marked = false → ea.is_note_on = true →
    ∃ (b : Nat) (eb : Event), ea.linked = some b ∧ evs[b]? = some eb ∧
      eb.marked = false ∧ eb.is_note_off = true ∧ eb.linked = some a

/-! ## Undo and redo -/

/-- Modelled from the spec: `event_list::unselect_all`. -/
def unselect_all (evs : List Event) : List Event := evs.map Event.unselect

/-- `sequence::unselect` (`sequence.cpp` lines 1045-1050). -/
def unselect (s : Sequence) : Sequence :=
  { s with events := unselect_all s.events }

/-- `sequence::push_undo` (`sequence.cpp` lines 200-205). -/
def push_undo (s : Sequence) : Sequence :=
  { s with events_undo := s.events :: s.events_undo }

/-- `sequence::pop_undo` (`sequence.cpp` lines 216-228). -/
def pop_undo (s : Sequence) : Sequence :=
  match s.events_undo with
  | [] => s
  | top :: rest =>
    unselect (verify_and_link
      { s with events_redo := s.events :: s.events_redo, events := top,
               events_undo := rest })

/-- `sequence::pop_redo` (`sequence.cpp` lines 239-251). -/
def pop_redo (s : Sequence) : Sequence :=
  match s.events_redo with
  | [] => s
  | top :: rest =>
    unselect (verify_and_link
      { s with events_undo := s.events :: s.events_undo, events := top,
               events_redo := rest })

/-! ## The pattern length -/

/-- `sequence::set_length` (`sequence.cpp` lines 2861-2879).  `adjust` stands
for `triggers::adjust_offsets_to_length`, which is not among the sources and
works on the trigger list only, as does `triggers::set_length`. -/
def set_length (adjust : Int → List Trigger → List Trigger) (s : Sequence) (len : Int)
    (adjust_triggers : Bool) : Sequence :=
  let was_playing := s.playing
  let s1 := set_playing s false
  let len1 := if len < Int.tdiv s1.ppqn 4 then Int.tdiv s1.ppqn 4 else len
  let s2 : Sequence :=
    if adjust_triggers then { s1 with triggers := adjust len1 s1.triggers } else s1
  let s3 : Sequence := { s2 with length := len1 }
  let s4 := verify_and_link s3
  let s5 := reset_draw_marker s4
  if was_playing then set_playing s5 true else s5

/-! ## Pasting -/

/-- `sequence::paste_selected` (`sequence.cpp` lines 1380-1424). -/
def paste_selected (s : Sequence) (clipboard : List Event) (tick : Int) (note : Int) :
    Option Sequence :=
  match paste_selected_merge s clipboard tick note with
  | none => none
  | some evs => some (reset_draw_marker (verify_and_link { s with events := evs }))

/-! ## Selecting notes -/

/-- The actions of `select_note_events` and `select_events` (the enumeration
`select_action_e` of `sequence.hpp`). -/
inductive select_action_e where
  | e_select
  | e_select_one
  | e_is_selected
  | e_would_select
  | e_deselect
  | e_toggle_selection
  | e_remove_one
deriving DecidableEq, Repr

/-- The test `select_note_events` makes on the span `stick .. ftick` of a
linked note (`sequence.cpp` lines 817-823). -/
def span_in_range (stick ftick tick_s tick_f : Int) : Bool :=
  let tick_and := decide (stick ≤ tick_f) && decide (ftick ≥ tick_s)
  let tick_or := decide (stick ≤ tick_f) || decide (ftick ≥ tick_s)
  (decide (stick ≤ ftick) && tick_and) || (decide (stick > ftick) && tick_or)

/-- The call `select()` on the event at position `k` of the store. -/
def select_at (evs : List Event) (k : Nat) : List Event :=
  match evs[k]? with
  | some e => evs.set k e.select
  | none => evs

/-- The call `unselect()` on the event at position `k` of the store. -/
def unselect_at (evs : List Event) (k : Nat) : List Event :=
  match evs[k]? with
  | some e => evs.set k e.unselect
  | none => evs

/-- What `select_note_events` does with a linked event `er` at position `i`
whose span passed the test (`sequence.cpp` lines 824-872); `j` is the position
of the linked event.  The result is the pattern, `result`, and whether the
loop is left with `break`. -/
def select_linked_action (action : select_action_e) (s : Sequence) (result : Int)
    (i j : Nat) (er : Event) : Sequence × Int × Bool :=
  match action with
  | .e_select =>
    ({ s with events := select_at (select_at s.events i) j }, result + 1, false)
  | .e_select_one =>
    ({ s with events := select_at (select_at s.events i) j }, result + 1, true)
  | .e_is_selected => if er.selected then (s, 1, true) else (s, result, false)
  | .e_would_select => (s, 1, true)
  | .e_deselect =>
    ({ s with events := unselect_at (unselect_at s.events i) j }, 0, false)
  | .e_toggle_selection =>
    if er.is_note_on then
      if er.selected then
        ({ s with events := unselect_at (unselect_at s.events i) j }, result + 1, false)
      else
        ({ s with events := select_at (select_at s.events i) j }, result + 1, false)
    else (s, result, false)
  | .e_remove_one =>
    (reset_draw_marker
      (remove_event (remove_event s i) (shift_link i (s.events.length - 1) j)),
      result + 1, true)

/-- What `select_note_events` does with an unlinked event `er` at position `i`
whose timestamp passed the test (`sequence.cpp` lines 879-924). -/
def select_single_action (action : select_action_e) (s : Sequence) (result : Int)
    (i : Nat) (er : Event) : Sequence × Int × Bool :=
  match action with
  | .e_select => ({ s with events := select_at s.events i }, result + 1, false)
  | .e_select_one => ({ s with events := select_at s.events i }, result + 1, true)
  | .e_is_selected => if er.selected then (s, 1, true) else (s, result, false)
  | .e_would_select => (s, 1, true)
  | .e_deselect => ({ s with events := unselect_at s.events i }, 0, false)
  | .e_toggle_selection =>
    if er.selected then ({ s with events := unselect_at s.events i }, result + 1, false)
    else ({ s with events := select_at s.events i }, result + 1, false)
  | .e_remove_one => (reset_draw_marker (remove_event s i), result + 1, true)

/-- One iteration of the loop of `select_note_events` (`sequence.cpp` lines
798-927) on the event `er` at position `i`.  The link of an event is a pointer
the loop reads through; a link that refers to no event of the store gives
`none`. -/
def select_note_step (tick_s : Int) (note_h : Int) (tick_f : Int) (note_l : Int)
    (action : select_action_e) (s : Sequence) (result : Int) (i : Nat) (er : Event) :
    Option (Sequence × Int × Bool) :=
  if (er.get_note : Int) ≤ note_h ∧ (er.get_note : Int) ≥ note_l then
    match er.linked with
    | some j =>
      match s.events[j]? with
      | none => none
      | some ev =>
        let stick : Int :=
          if er.is_note_off then ev.timestamp
          else if er.is_note_on then er.timestamp else 0
        let ftick : Int :=
          if er.is_note_off then er.timestamp
          else if er.is_note_on then ev.timestamp else 0
        if span_in_range stick ftick tick_s tick_f then
          some (select_linked_action action s result i j er)
        else some (s, result, false)
    | none =>
      if er.timestamp ≥ tick_s - 16 ∧ er.timestamp ≤ tick_f then
        some (select_single_action action s result i er)
      else some (s, result, false)
  else some (s, result, false)

/-- The loop of `select_note_events` over the positions of the store. -/
def select_note_loop (tick_s : Int) (note_h : Int) (tick_f : Int) (note_l : Int)
    (action : select_action_e) : List Nat → Sequence → Int → Option (Sequence × Int)
  | [], s, result => some (s, result)
  | i :: rest, s, result =>
    match s.events[i]? with
    | none => some (s, result)
    | some er =>
      match select_note_step tick_s note_h tick_f note_l action s result i er with
      | none => none
      | some (s1, r1, stop) =>
        if stop then some (s1, r1)
        else select_note_loop tick_s note_h tick_f note_l action rest s1 r1

/-- `sequence::select_note_events` (`sequence.cpp` lines 786-931): the pattern
afterwards and the returned count. -/
def select_note_events (s : Sequence) (tick_s : Int) (note_h : Int) (tick_f : Int)
    (note_l : Int) (action : select_action_e) : Option (Sequence × Int) :=
  select_note_loop tick_s note_h tick_f note_l action (List.range s.events.length) s 0

/-- Whether the event at position `k` of the store is selected. -/
def selected_at (evs : List Event) (k : Nat) : Bool :=
  match evs[k]? with
  | some e => e.selected
  | none => false

/-- A note of the store: the note-on `eon` at position `a` and the note-off
`eoff` at position `b`, linked to each other. -/
def linked_pair (evs : List Event) (a b : Nat) (eon eoff : Event) : Prop :=
  evs[a]? = some eon ∧ evs[b]? = some eoff ∧
  eon.is_note_on = true ∧ eoff.is_note_off = true ∧
  eon.linked = some b ∧ eoff.linked = some a

/-- A value clamped to the range `0..127` of a MIDI data byte. -/
def clamp_data (x : Int) : Int := max 0 (min x 127)

/-- What `change_event_data_range` leaves of an event it changes, for the new
value `v`: the value in data byte 0 for a one-byte message and in data byte 1
otherwise, everything else kept. -/
def with_new_data (er : Event) (status : Nat) (v : Int) : Event :=
  if is_one_byte_msg status then { er with d0 := v.toNat } else { er with d1 := v.toNat }

/-! ## Adding notes -/

/-- Modelled from the spec: `event::paint`. -/
def Event.paint (e : Event) : Event := { e with painted := true }

/-- Modelled from the spec: `event::is_painted`. -/
def Event.is_painted (e : Event) : Bool := e.painted

/-- Modelled from the spec: `event::get_note_velocity`, the second data
byte. -/
def Event.get_note_velocity (e : Event) : Nat := e.d1

/-- Modelled from the spec: `event_list::add`, which inserts the event and
keeps the store sorted by time and rank. -/
def event_list_add (evs : List Event) (e : Event) : List Event :=
  event_sort (evs ++ [e])

/-- `sequence::add_event(const event &)` (`sequence.cpp` lines 1659-1674);
the container is taken to have room, so that `m_events.add` succeeds. -/
def add_event (s : Sequence) (er : Event) : Sequence :=
  set_dirty (reset_draw_marker { s with events := event_list_add s.events er })

/-- The `mark()` call on the event at position `k` of the store. -/
def mark_at (evs : List Event) (k : Nat) : List Event :=
  match evs[k]? with
  | some e => evs.set k e.mark
  | none => evs

/-- The loop of `add_note` over the store when `paint` is set (`sequence.cpp`
lines 1579-1601), with the iterator at position `i`: the result is the pattern
and `ignore`.  A painted note-on at `tick` of another pitch is marked together
with the event it is linked to; one of the same pitch ends the loop.  The
first list holds the positions still to visit.  A link that refers to no
event of the store is a dangling pointer: `none`. -/
def add_note_paint_loop (tick : Int) (note : Int) :
    List Nat → Sequence → Option (Sequence × Bool)
  | [], s => some (s, false)
  | i :: rest, s =>
    match s.events[i]? with
    | none => some (s, false)
    | some er =>
      if er.is_painted && er.is_note_on && decide (er.timestamp = tick) then
        if (er.get_note : Int) = note then some (s, true)
        else
          let evs1 := mark_at s.events i
          match er.linked with
          | some j =>
            match evs1[j]? with
            | none => none
            | some _ =>
              add_note_paint_loop tick note rest
                (set_dirty { s with events := mark_at evs1 j })
          | none =>
            add_note_paint_loop tick note rest (set_dirty { s with events := evs1 })
      else add_note_paint_loop tick note rest s

/-- The note-on `add_note` builds (`sequence.cpp` lines 1609-1615): a default
event, painted when `paint` is set, with the status, the data bytes and the
timestamp set. -/
def add_note_on (tick : Int) (note : Int) (paint : Bool) : Event :=
  let e := if paint then Event.default.paint else Event.default
  ((e.set_status EVENT_NOTE_ON).set_data note SEQ64_DEFAULT_NOTE_VELOCITY).set_timestamp tick

/-- The note-off `add_note` builds from the same local event (`sequence.cpp`
lines 1617-1620). -/
def add_note_off (tick length : Int) (note : Int) (paint : Bool) : Event :=
  (((add_note_on tick note paint).set_status EVENT_NOTE_OFF).set_data note
    SEQ64_DEFAULT_NOTE_VELOCITY).set_timestamp (tick + length)

/-- The two calls of `add_event` in `add_note` (`sequence.cpp` lines
1605-1621), unless `ignore` is set. -/
def add_note_pair (s : Sequence) (tick length : Int) (note : Int) (paint ignore : Bool) :
    Sequence :=
  if !ignore then
    add_event (add_event s (add_note_on tick note paint))
      (add_note_off tick length note paint)
  else s

/-- `sequence::add_note` up to the call of `verify_and_link` (`sequence.cpp`
lines 1564-1622): the pattern before relinking. -/
def add_note_events (s : Sequence) (tick length : Int) (note : Int) (paint : Bool) :
    Option Sequence :=
  if tick ≥ 0 ∧ note ≥ 0 ∧ note < c_num_keys then
    if paint then
      match add_note_paint_loop tick note (List.range s.events.length) s with
      | none => none
      | some r => some (add_note_pair (remove_marked r.1) tick length note paint r.2)
    else some (add_note_pair s tick length note paint false)
  else some s

/-- `sequence::add_note` (`sequence.cpp` lines 1564-1624). -/
def add_note (s : Sequence) (tick length : Int) (note : Int) (paint : Bool) :
    Option Sequence :=
  (add_note_events s tick length note paint).map verify_and_link

/-! ## The draw cursor -/

/-- The values of `draw_type` that `get_next_note_event` returns. -/
inductive draw_type where
  | DRAW_FIN
  | DRAW_NORMAL_LINKED
  | DRAW_NOTE_ON
  | DRAW_NOTE_OFF
deriving DecidableEq, Repr

/-- The five locations `get_next_note_event` writes through its pointer
parameters. -/
structure NoteDraw where
  tick_s : Int
  tick_f : Int
  note : Nat
  selected : Bool
  velocity : Nat
deriving DecidableEq, Repr

/-- The loop of `get_next_note_event` (`sequence.cpp` lines 2642-2679) over
the events from `m_iterator_draw` on, which is at position `i`: the new
position of the iterator, the returned value and the output locations.  The
link of a note-on is a pointer the function reads through; a link that refers
to no event of the store gives `none`. -/
def get_next_note_scan (evs : List Event) : List Event → Nat → NoteDraw →
    Option (Nat × draw_type × NoteDraw)
  | [], i, out => some (i, draw_type.DRAW_FIN, out)
  | drawevent :: rest, i, out =>
    let out1 : NoteDraw :=
      { out with tick_s := drawevent.timestamp, note := drawevent.get_note,
                 selected := drawevent.selected,
                 velocity := drawevent.get_note_velocity }
    if drawevent.is_note_on && drawevent.is_linked then
      match drawevent.linked with
      | none => none
      | some j =>
        match evs[j]? with
        | none => none
        | some l =>
          some (i + 1, draw_type.DRAW_NORMAL_LINKED, { out1 with tick_f := l.timestamp })
    else if drawevent.is_note_on && !drawevent.is_linked then
      some (i + 1, draw_type.DRAW_NOTE_ON, out1)
    else if drawevent.is_note_off && !drawevent.is_linked then
      some (i + 1, draw_type.DRAW_NOTE_OFF, out1)
    else get_next_note_scan evs rest (i + 1) out1

/-- `sequence::get_next_note_event` (`sequence.cpp` lines 2634-2681); `out`
holds what the five output locations held before the call. -/
def get_next_note_event (s : Sequence) (out : NoteDraw) :
    Option (Sequence × draw_type × NoteDraw) :=
  (get_next_note_scan s.events (s.events.drop s.iterator_draw) s.iterator_draw
      { out with tick_f := 0 }).map
    (fun r => ({ s with iterator_draw := r.1 }, r.2.1, r.2.2))

/-- Successive calls of `get_next_note_event`, `n` of them, each handed the
output locations as the call before left them: the pattern afterwards and
what each call returned and left in the output locations. -/
def draw_calls : Nat → Sequence → NoteDraw → Option (Sequence × List (draw_type × NoteDraw))
  | 0, s, _ => some (s, [])
  | n + 1, s, out =>
    match get_next_note_event s out with
    | none => none
    | some (s1, d, out1) =>
      match draw_calls n s1 out1 with
      | none => none
      | some (s2, ds) => some (s2, (d, out1) :: ds)

/-- What the draw cursor is to produce for one event of the store, in the
words of the specification: a linked note-on gives `DRAW_NORMAL_LINKED` with
the timestamp of the linked event as finish tick, an unlinked note-on
`DRAW_NOTE_ON`, an unlinked note-off `DRAW_NOTE_OFF`, and a linked note-off or
an event that is no note gives nothing. -/
def spec_note_draw (evs : List Event) (ev : Event) : Option (draw_type × NoteDraw) :=
  if ev.is_note_on then
    match ev.linked with
    | some j =>
      some (draw_type.DRAW_NORMAL_LINKED,
        { tick_s := ev.timestamp, tick_f := ((evs[j]?).map Event.timestamp).getD 0,
          note := ev.get_note, selected := ev.selected, velocity := ev.d1 })
    | none =>
      some (draw_type.DRAW_NOTE_ON,
        { tick_s := ev.timestamp, tick_f := 0, note := ev.get_note,
          selected := ev.selected, velocity := ev.d1 })
  else if ev.is_note_off && !ev.is_linked then
    some (draw_type.DRAW_NOTE_OFF,
      { tick_s := ev.timestamp, tick_f := 0, note := ev.get_note,
        selected := ev.selected, velocity := ev.d1 })
  else none

/-- What is compared of one result of the draw cursor: the returned value,
and the output locations unless the value is `DRAW_FIN`. -/
def draw_view (r : draw_type × NoteDraw) : draw_type × Option NoteDraw :=
  if r.1 = draw_type.DRAW_FIN then (draw_type.DRAW_FIN, none) else (r.1, some r.2)

/-! ## Bus and channel -/

/-- `sequence::set_midi_bus` (`sequence.cpp` lines 2830-2837). -/
def set_midi_bus (s : Sequence) (mb : Nat) : Sequence :=
  set_dirty { off_playing_notes s with bus := mb }

/-- `sequence::set_midi_channel` (`sequence.cpp` lines 2987-2994). -/
def set_midi_channel (s : Sequence) (ch : Nat) : Sequence :=
  set_dirty { off_playing_notes s with midi_channel := ch }

/-! ## Growing notes -/

/-- The timestamp `grow_selected` gives the copy of a note-off with timestamp
`off_timestamp` (`sequence.cpp` lines 1187-1211). -/
def grow_timestamp (off_timestamp delta_tick length : Int) : Int :=
  let len := delta_tick + off_timestamp
  let len := if len > length then len - length else len
  let len := if len < 0 then len + length else len
  if len = 0 then length - 2 else len

/-- The loop of `grow_selected` (`sequence.cpp` lines 1181-1229) over the
positions of the store: the state is the store, in which the loop unmarks the
note-ons it picks, and the events it hands to `add_event`, in call order.
`add_event` puts each copy into the store the loop is walking; the copies are
unmarked note-off copies, which the loop passes over, and the events the store
held keep their relative order.  A link that refers to no event of the store
is a dangling pointer: `none`. -/
def grow_selected_loop (delta_tick length : Int) :
    List Nat → List Event → List Event → Option (List Event × List Event)
  | [], store, added => some (store, added)
  | i :: rest, store, added =>
    match store[i]? with
    | none => some (store, added)
    | some er =>
      if er.marked && er.is_note_on && er.is_linked then
        match er.linked with
        | none => none
        | some j =>
          match store[j]? with
          | none => none
          | some off =>
            let len := grow_timestamp off.timestamp delta_tick length
            let store1 := store.set i er.unmark
            let e := off.unmark.set_timestamp len
            grow_selected_loop delta_tick length rest store1 (added ++ [e])
      else grow_selected_loop delta_tick length rest store added

/-- The first part of `grow_selected` (`sequence.cpp` lines 1175-1229):
`mark_selected` and the loop; the result is the store as the loop leaves it,
without the copies, and the copies handed to `add_event`. -/
def grow_selected_scan (evs : List Event) (delta_tick length : Int) :
    Option (List Event × List Event) :=
  grow_selected_loop delta_tick length (List.range evs.length) (mark_selected evs) []

/-- `sequence::grow_selected` (`sequence.cpp` lines 1175-1231). -/
def grow_selected (s : Sequence) (delta_tick : Int) : Option Sequence :=
  match grow_selected_scan s.events delta_tick s.length with
  | none => none
  | some (store, added) =>
    some (verify_and_link
      (remove_marked (added.foldl add_event (reset_draw_marker { s with events := store }))))

/-- The `offset_base` the emission loop of `play` starts with (`sequence.cpp`
lines 450-451). -/
def play_offset_base (s : Sequence) : Int :=
  Int.tdiv s.last_tick s.length * s.length

/-- The `start_tick_offset` of `play` for the frame `r` (`sequence.cpp` line
447). -/
def play_window_start (r : TriggerPlay) : Int :=
  r.start_tick + r.seq.length - r.seq.trigger_offset

/-- The `end_tick_offset` of `play` for the frame `r` (`sequence.cpp` line
448). -/
def play_window_end (r : TriggerPlay) : Int :=
  r.end_tick + r.seq.length - r.seq.trigger_offset

/-- The events of the iterations before the `J`-th of the emission loop whose
stamp has reached the start of the frame `r`, in iteration order. -/
def loop_events (r : TriggerPlay) (J : Nat) : List Event :=
  ((List.range' 0 J).filter
    (fun k => decide (play_window_start r ≤
      occ_stamp r.seq.events r.seq.length (play_offset_base r.seq) k))).map
    (occ_event r.seq.events)

/-- The pattern after `put_event_on_bus` was called for the events of
`loop_events r J`, in order. -/
def play_emitted (r : TriggerPlay) (J : Nat) : Sequence :=
  (loop_events r J).foldl put_event_on_bus r.seq

/-! ## Splitting a trigger -/

/-- The position in the pattern that playback is at for the song tick `tick`
under the trigger offset `offset`: the tick less the offset, reduced modulo
the pattern length as `sequence::get_last_tick` does (`sequence.cpp` lines
2815-2822). -/
def trigger_phase (length offset tick : Int) : Int :=
  if length > 0 then Int.tmod (tick + length - offset) length else tick - offset

/-- Modelled from the spec: the offset a trigger is given when it is made, the
offset wrapped into the pattern length (the rule of `set_trigger_offset`). -/
def adjust_offset (length offset : Int) : Int :=
  if length > 0 then Int.tmod (Int.tmod offset length + length) length else offset

/-- Modelled from the spec: `triggers::split(trig, splittick)` (`triggers.cpp`
is not among the sources): the trigger is truncated right before `splittick`,
and a new trigger covers the ticks from `splittick` to the old end, with the
offset recomputed for the pattern length. -/
def trigger_split (length : Int) (trig : Trigger) (splittick : Int) : Trigger × Trigger :=
  ({ trig with tick_end := splittick - 1 },
   { trig with tick_start := splittick, offset := adjust_offset length trig.offset })

/-- Modelled from the spec: `triggers::split(splittick)`, which locates the
first trigger that contains `splittick` and puts its two halves in its
place. -/
def triggers_split (length : Int) : List Trigger → Int → List Trigger
  | [], _ => []
  | t :: rest, splittick =>
    if t.tick_start ≤ splittick ∧ splittick ≤ t.tick_end then
      (trigger_split length t splittick).1 :: (trigger_split length t splittick).2 :: rest
    else t :: triggers_split length rest splittick

/-- `sequence::split_trigger(midipulse)` (`sequence.cpp` lines 2237-2242). -/
def split_trigger (s : Sequence) (splittick : Int) : Sequence :=
  { s with triggers := triggers_split s.length s.triggers splittick }

/-! ## Transport ticks -/

/-- Modelled from the spec: the conversion of a frame delta of the transport
to a tick delta (`jack_assistant.cpp` is not among the sources; the header
declares only the fields).  With `carry` the remainder carried from the call
before, in units of `1 / (sample_rate * 60)` pulse, the exact value
`frames * ppqn * bpm / (sample_rate * 60)` plus the carried remainder is
rounded to the nearest pulse, and what the rounding leaves is the new
remainder. -/
def tick_delta (ppqn bpm sample_rate carry frames : Int) : Int × Int :=
  let num := frames * ppqn * bpm + carry
  let den := sample_rate * 60
  let ticks := (2 * num + den) / (2 * den)
  (ticks, num - ticks * den)

/-- Modelled from the spec: successive conversions, each handed the remainder
the one before left: the sum of the tick deltas and the last remainder. -/
def ticks_run (ppqn bpm sample_rate : Int) : Int → List Int → Int × Int
  | carry, [] => (0, carry)
  | carry, frames :: rest =>
    let r := tick_delta ppqn bpm sample_rate carry frames
    let r2 := ticks_run ppqn bpm sample_rate r.2 rest
    (r.1 + r2.1, r2.2)

/-! ## Queries on the selection box -/

/-- The test `select_note_events` makes before it acts on the event `er`
(`sequence.cpp` lines 801-823 and 877-878): the pitch lies in
`[note_l, note_h]`, and for a linked event the span of its note passes
`span_in_range`, for an unlinked event the timestamp lies in
`[tick_s - 16, tick_f]`. -/
def select_box_test (evs : List Event) (tick_s : Int) (note_h : Int) (tick_f : Int)
    (note_l : Int) (er : Event) : Bool :=
  decide ((er.get_note : Int) ≤ note_h ∧ (er.get_note : Int) ≥ note_l) &&
    match er.linked with
    | some j =>
      match evs[j]? with
      | none => false
      | some ev =>
        span_in_range
          (if er.is_note_off then ev.timestamp
            else if er.is_note_on then er.timestamp else 0)
          (if er.is_note_off then er.timestamp
            else if er.is_note_on then ev.timestamp else 0) tick_s tick_f
    | none => decide (er.timestamp ≥ tick_s - 16 ∧ er.timestamp ≤ tick_f)

/-! ## Cutting, moving, quantizing and transposing -/

/-- An event without its link: what is compared of the events of a store
whose positions have moved. -/
def Event.unlink (e : Event) : Event := { e with linked := none }

/-- `sequence::mark_selected` (`sequence.cpp` lines 592-598). -/
def Sequence.mark_selected (s : Sequence) : Sequence :=
  reset_draw_marker { s with events := Seq64.mark_selected s.events }

/-- `sequence::cut_selected` (`sequence.cpp` lines 1353-1362); the static
clipboard is passed in and handed back.  `copy_selected` with nothing selected
is undefined: `none`. -/
def cut_selected (s : Sequence) (clipboard : List Event) (copyevents : Bool) :
    Option (Sequence × List Event) :=
  let s1 := push_undo s
  let clip : Option (List Event) :=
    if copyevents then copy_selected s1 else some clipboard
  match clip with
  | none => none
  | some c => some (remove_marked s1.mark_selected, c)

/-- `sequence::move_selected_notes` up to the call of `verify_and_link`
(`sequence.cpp` lines 1062-1104): `mark_selected`, the loop, whose new events
`add_event` puts into the store, and `remove_marked`. -/
def move_selected_notes_edit (s : Sequence) (delta_tick : Int) (delta_note : Int) :
    Sequence :=
  remove_marked
    ((move_selected_added s.events delta_tick delta_note s.length).foldl add_event
      s.mark_selected)

/-- `sequence::move_selected_notes` (`sequence.cpp` lines 1062-1106). -/
def move_selected_notes (s : Sequence) (delta_tick : Int) (delta_note : Int) : Sequence :=
  verify_and_link (move_selected_notes_edit s delta_tick delta_note)

/-- `sequence::quantize_events` up to the call of `verify_and_link`
(`sequence.cpp` lines 3243-3298): the loop, `remove_marked`, and the merge of
`quantized_events`, which are sorted first. -/
def quantize_events_edit (s : Sequence) (status cc : Nat) (snap_tick divide : Int)
    (linked : Bool) : Option Sequence :=
  match quantize_scan s.events status cc snap_tick divide s.length linked with
  | none => none
  | some st =>
    let s1 := remove_marked (reset_draw_marker { s with events := st.1 })
    some { s1 with events := event_list_merge s1.events st.2 true }

/-- `sequence::quantize_events` (`sequence.cpp` lines 3243-3300). -/
def quantize_events (s : Sequence) (status cc : Nat) (snap_tick divide : Int)
    (linked : Bool) : Option Sequence :=
  (quantize_events_edit s status cc snap_tick divide linked).map verify_and_link

/-- Modelled from the spec: `SEQ64_OCTAVE_SIZE`, the number of semitones of an
octave. -/
def SEQ64_OCTAVE_SIZE : Int := 12

/-- Modelled from the spec: `event::is_note` (the `event` header is not among
the sources), as the comment of `transpose_notes` describes it (`sequence.cpp`
lines 3150-3155): the test for note-on and note-off was replaced by this call
so that aftertouch events are transposed too.  It holds of note-offs, note-ons
and aftertouch events. -/
def Event.is_note (e : Event) : Bool :=
  e.is_note_on || e.is_note_off || e.status == EVENT_AFTERTOUCH

/-- The loop `for (int x = 0; x < steps; ++x) note += transpose_table[note %
SEQ64_OCTAVE_SIZE]` of `transpose_notes` (`sequence.cpp` lines 3202-3203);
`table` is the row of the transpose table for the scale.  A negative `note`
gives a negative index into the table: `none`. -/
def transpose_steps (table : Nat → Int) : Nat → Int → Option Int
  | 0, note => some note
  | x + 1, note =>
    if note < 0 then none
    else transpose_steps table x (note + table (Int.tmod note SEQ64_OCTAVE_SIZE).toNat)

/-- The new pitch `transpose_notes` computes for the pitch `note`
(`sequence.cpp` lines 3195-3206). -/
def transpose_note (table : Nat → Int) (steps : Nat) (note : Nat) : Option Int :=
  let off_scale : Bool := decide (table (Int.tmod (note : Int) SEQ64_OCTAVE_SIZE).toNat = 0)
  let note1 : Int := if off_scale then (note : Int) - 1 else (note : Int)
  match transpose_steps table steps note1 with
  | none => none
  | some note2 => some (if off_scale then note2 + 1 else note2)

/-- The loop of `transpose_notes` (`sequence.cpp` lines 3181-3212) over the
marked store: the content of `transposed_events`. -/
def transposed_events (table : Nat → Int) (steps : Nat) : List Event → Option (List Event)
  | [] => some []
  | er :: rest =>
    if er.marked && er.is_note then
      match transpose_note table steps er.get_note with
      | none => none
      | some note =>
        match transposed_events table steps rest with
        | none => none
        | some l => some ((er.unmark.set_note note) :: l)
    else transposed_events table steps rest

/-- `sequence::transpose_notes` up to the call of `verify_and_link`
(`sequence.cpp` lines 3164-3213).  `table_up` and `table_dn` are the rows of
`c_scales_transpose_up` and `c_scales_transpose_dn` for the scale; the tables
are not among the sources. -/
def transpose_notes_edit (table_up table_dn : Nat → Int) (s : Sequence) (steps : Int) :
    Option Sequence :=
  let s1 := s.mark_selected
  let table := if steps < 0 then table_dn else table_up
  let n : Nat := (if steps < 0 then steps * -1 else steps).toNat
  match transposed_events table n s1.events with
  | none => none
  | some l =>
    let s2 := remove_marked s1
    some { s2 with events := event_list_merge s2.events l true }

/-- `sequence::transpose_notes` (`sequence.cpp` lines 3164-3215). -/
def transpose_notes (table_up table_dn : Nat → Int) (s : Sequence) (steps : Int) :
    Option Sequence :=
  (transpose_notes_edit table_up table_dn s steps).map verify_and_link

/-! ## Stretching -/

/-- Conversion of a `long` to `unsigned` (32 bits). -/
def to_unsigned (n : Int) : Nat := (n % 4294967296).toNat

/-- The first loop of `stretch_selected` (`sequence.cpp` lines 1123-1136):
`first_ev` and `last_ev`, the `unsigned` bounds of the timestamps of the
selected events. -/
def stretch_bounds (evs : List Event) : Nat × Nat :=
  evs.foldl
    (fun (acc : Nat × Nat) er =>
      if er.selected then
        (if er.timestamp < (acc.1 : Int) then to_unsigned er.timestamp else acc.1,
          if er.timestamp > (acc.2 : Int) then to_unsigned er.timestamp else acc.2)
      else acc)
    (0x7fffffff, 0)

/-- `sequence::stretch_selected` (`sequence.cpp` lines 1119-1162).  The
product in `float` arithmetic, `midipulse(ratio * x)` with
`ratio = float(new_len) / float(old_len)`, is the parameter `scaled`, given
`new_len`, `old_len` and `x`.  `add_event` puts each copy into the store the
loop is walking; the copies are unmarked, so the loop passes over them. -/
def stretch_selected (scaled : Nat → Nat → Int → Int) (s : Sequence) (delta_tick : Int) :
    Sequence :=
  let first_ev := (stretch_bounds s.events).1
  let last_ev := (stretch_bounds s.events).2
  let old_len := to_unsigned ((last_ev : Int) - (first_ev : Int))
  let new_len := to_unsigned ((old_len : Int) + delta_tick)
  if new_len > 1 then
    let s1 := s.mark_selected
    let added := s1.events.filterMap (fun er =>
      if er.marked then
        some ((er.set_timestamp
          (scaled new_len old_len (er.timestamp - (first_ev : Int)) + (first_ev : Int))).unmark)
      else none)
    verify_and_link (remove_marked (added.foldl add_event s1))
  else s

/-! ## Assignment -/

/-- Modelled from the spec: `sequence::zero_markers` (defined in the header),
which puts the play cursor at tick 0. -/
def zero_markers (s : Sequence) : Sequence := { s with last_tick := 0 }

/-- `sequence::partial_assign` (`sequence.cpp` lines 149-175) for a source
`rhs` that is another pattern than `s`; the log of the calls made on the buss
stays with the pattern. -/
def partial_assign (s rhs : Sequence) : Sequence :=
  verify_and_link (zero_markers
    { s with
      events := rhs.events, triggers := rhs.triggers, midi_channel := rhs.midi_channel,
      bus := rhs.bus, playing := false, ppqn := rhs.ppqn, length := rhs.length,
      playing_notes := fun n => if n < c_midi_notes then 0 else s.playing_notes n })

/-- The sounding count of every pitch is at least zero. -/
def counts_nonneg (s : Sequence) : Prop := ∀ n : Nat, 0 ≤ s.playing_notes n

/-- What `quantized_events` may hold, in terms of the store `store0` the loop
started from: the quantized copy of a picked event, or, when `linked` is set,
the copy of the event it is linked to, moved by the same amount; the
`selected` flag apart. -/
def quantize_pushed (store0 : List Event) (status cc : Nat) (snap divide length : Int)
    (linked : Bool) (x : Event) : Prop :=
  ∃ (i : Nat) (e0 : Event), store0[i]? = some e0 ∧ quantize_canselect e0 status cc = true ∧
    (x.select = (quantize_copy e0 snap divide length).select ∨
      (linked = true ∧ ∃ (j : Nat) (p0 : Event), e0.linked = some j ∧ store0[j]? = some p0 ∧
        x.select = (p0.unmark.set_timestamp
          (p0.unmark.timestamp + quantize_delta e0.unmark.timestamp snap divide length)).select))

/-! ## Example states -/

/-- A pattern with two notes of pitch 60 and one of pitch 62 sounding. -/
def sounding_seq : Sequence :=
  { Sequence.create 192 with
    playing_notes := fun n => if n = 60 then 2 else if n = 62 then 1 else 0 }

/-- A muted pattern that is still playing, with pitch 60 sounding. -/
def muted_seq : Sequence :=
  { Sequence.create 192 with
    song_mute := true, playing := true,
    playing_notes := fun n => if n = 60 then 1 else 0 }

/-- A note-on of pitch 60 and velocity 100 at tick 0. -/
def on_60 : Event :=
  { Event.default with status := EVENT_NOTE_ON, d0 := 60, d1 := 100 }

/-- A note-off of pitch 60 at tick 100. -/
def off_60 : Event :=
  { Event.default with timestamp := 100, d0 := 60, d1 := 100 }

/-- The one-bar pattern in song mode with one trigger covering ticks 0 to 500
of the song. -/
def song_seq : Sequence :=
  { Sequence.create 192 with
    events := [on_60, off_60], playing := true,
    triggers := [{ tick_start := 0, tick_end := 500, offset := 0, selected := false }] }

/-- A playing pattern whose trigger offset, 700, is larger than its length,
48 (the offset was wrapped for an earlier, longer length); one note-on at
tick 0. -/
def offset_seq : Sequence :=
  { Sequence.create 192 with
    events := [on_60], playing := true, length := 48, trigger_offset := 700 }

/-- An unselected note-on of pitch 72 at tick 0. -/
def key_72 : Event :=
  { Event.default with status := EVENT_NOTE_ON, d0 := 72, d1 := 100 }

/-- A selected note-on of pitch 60 at tick 10. -/
def sel_on : Event :=
  { Event.default with timestamp := 10, status := EVENT_NOTE_ON, d0 := 60, d1 := 100,
                       selected := true }

/-- A selected note-off of pitch 60 at tick 50. -/
def sel_off : Event :=
  { Event.default with timestamp := 50, d0 := 60, d1 := 100, selected := true }

/-- A one-bar pattern holding a selected note (`sel_on`, `sel_off`) after an
unselected note-on. -/
def edit_seq : Sequence :=
  { Sequence.create 192 with events := [key_72, sel_on, sel_off] }

/-- A pattern holding a single note-on, of pitch 60. -/
def one_note_seq : Sequence :=
  { Sequence.create 192 with events := [on_60] }

/-- A note-on of pitch 62 at tick 10. -/
def on_62 : Event :=
  { Event.default with timestamp := 10, status := EVENT_NOTE_ON, d0 := 62, d1 := 100 }

/-- A note-off of pitch 62 at tick 110. -/
def off_62 : Event :=
  { Event.default with timestamp := 110, d0 := 62, d1 := 100 }

/-- Two overlapping notes: pitch 60 from tick 0 to 100 and pitch 62 from tick
10 to 110. -/
def chord_seq : Sequence :=
  { Sequence.create 192 with events := [on_60, on_62, off_60, off_62] }

/-- A selected control change (controller 7, value 0) at tick 30. -/
def cc_event : Event :=
  { Event.default with timestamp := 30, status := EVENT_CONTROL_CHANGE, d0 := 7, d1 := 0,
                       selected := true }

/-- A pattern holding `cc_event`. -/
def cc_seq : Sequence :=
  { Sequence.create 192 with events := [cc_event] }

/-- The note of pitch 60 from tick 0 to tick 100, its two events linked to
each other. -/
def linked_note_seq : Sequence :=
  { Sequence.create 192 with
    events := [{ on_60 with linked := some 1 }, { off_60 with linked := some 0 }] }

/-- A pattern holding the note-off `off_60` while pitch 60 is sounding. -/
def held_off_seq : Sequence :=
  { Sequence.create 192 with
    events := [off_60], playing_notes := fun n => if n = 60 then 1 else 0 }

/-- The pattern `linked_note_seq` after `push_undo` and an edit that removed
both events. -/
def edited_seq : Sequence :=
  { push_undo linked_note_seq with events := [] }

/-- The pattern `edit_seq` with the two events of its selected note linked to
each other. -/
def edit_seq_linked : Sequence :=
  { Sequence.create 192 with
    events := [key_72, { sel_on with linked := some 2 }, { sel_off with linked := some 1 }] }

/-- The pattern `song_seq` with its trigger ending at tick 50, while the note
of pitch 60 is held. -/
def short_trigger_seq : Sequence :=
  { song_seq with
    triggers := [{ tick_start := 0, tick_end := 50, offset := 0, selected := false }] }

/-- A one-bar pattern with one trigger over the ticks 100 to 199, the span
`[100, 200)`, with offset 100. -/
def span_seq : Sequence :=
  { Sequence.create 192 with
    triggers := [{ tick_start := 100, tick_end := 199, offset := 100, selected := false }] }

/-- Two selected control changes of controller 7, at ticks 30 and 31. -/
def cc_pair_seq : Sequence :=
  { Sequence.create 192 with events := [cc_event, { cc_event with timestamp := 31 }] }

/-- A selected aftertouch event for pitch 60 at tick 20. -/
def sel_touch : Event :=
  { Event.default with timestamp := 20, status := EVENT_AFTERTOUCH, d0 := 60, d1 := 64,
                       selected := true }

/-- A pattern whose four events are all selected: the note `sel_on`,
`sel_off` of pitch 60 and, between the two, the aftertouch event `sel_touch`
and the control change `cc_event`. -/
def mixed_seq : Sequence :=
  { Sequence.create 192 with events := [sel_on, sel_touch, cc_event, sel_off] }

/-- A transposition table with every pitch class in the scale, one semitone
up per step. -/
def chromatic_up : Nat → Int := fun _ => 1

/-- A transposition table with every pitch class in the scale, one semitone
down per step. -/
def chromatic_dn : Nat → Int := fun _ => -1

/-- A note of pitch 60 that wraps around the end of the pattern: its note-off
at tick 5 comes first in the store, its note-on at tick 700 last, the two
linked to each other. -/
def wrapped_note_seq : Sequence :=
  { Sequence.create 192 with
    events := [{ off_60 with timestamp := 5, linked := some 1 },
               { on_60 with timestamp := 700, linked := some 0 }] }

/-- The one-bar pattern of the end-to-end example: length 768, a note-on at
tick 0 and its note-off at tick 100, playing, cursor at 0. -/
def one_bar_seq : Sequence :=
  { Sequence.create 192 with events := [on_60, off_60], playing := true }

end Seq64

namespace Seq64

/-! ## Emission: lemmas -/

theorem off_playing_loop_eq (x : Nat) :
    ∀ (fuel : Nat) (s : Sequence), (s.playing_notes x).toNat ≤ fuel →
      off_playing_loop fuel x s =
        { s with
          sink := s.sink ++ List.replicate (s.playing_notes x).toNat
            (BusCall.play s.bus (note_off_event x) s.midi_channel),
          playing_notes := fun n =>
            if n = x then min (s.playing_notes x) 0 else s.playing_notes n } := by
  intro fuel
  induction fuel with
  | zero =>
    intro s h
    have h0 : s.playing_notes x ≤ 0 := by omega
    have h1 : (s.playing_notes x).toNat = 0 := by omega
    simp only [off_playing_loop, h1, List.replicate_zero, List.append_nil]
    cases s
    simp only [Sequence.mk.injEq, true_and, and_true]
    funext n
    by_cases hn : n = x
    · subst hn; simp only [if_true]; simp only at h0; omega
    · simp [hn]
  | succ fuel ih =>
    intro s h
    by_cases hpos : s.playing_notes x > 0
    · have hto : (s.playing_notes x).toNat = (s.playing_notes x - 1).toNat + 1 := by omega
      rw [off_playing_loop, if_pos hpos, ih]
      · cases s
        simp only [Sequence.mk.injEq, true_and, and_true, if_true]
        simp only at hto hpos
        constructor
        · funext n
          by_cases hn : n = x
          · subst hn; simp only [if_true]; omega
          · simp [hn]
        · rw [hto, List.replicate_succ, List.append_assoc]
          rfl
      · simp only [if_true]; omega
    · have h0 : s.playing_notes x ≤ 0 := by omega
      have h1 : (s.playing_notes x).toNat = 0 := by omega
      rw [off_playing_loop, if_neg hpos]
      simp only [h1, List.replicate_zero, List.append_nil]
      cases s
      simp only [Sequence.mk.injEq, true_and, and_true]
      funext n
      by_cases hn : n = x
      · subst hn; simp only [if_true]; simp only at h0; omega
      · simp [hn]

/-- The calls `off_playing_notes` makes for the pitches `xs`, read off the
counts of `s`. -/
theorem off_playing_fold_eq :
    ∀ (xs : List Nat) (s : Sequence), xs.Nodup →
      xs.foldl (fun st x => off_playing_loop (st.playing_notes x).toNat x st) s =
        { s with
          sink := s.sink ++ xs.flatMap (fun x =>
            List.replicate (s.playing_notes x).toNat
              (BusCall.play s.bus (note_off_event x) s.midi_channel)),
          playing_notes := fun n =>
            if n ∈ xs then min (s.playing_notes n) 0 else s.playing_notes n } := by
  intro xs
  induction xs with
  | nil => intro s _; simp
  | cons x xs ih =>
    intro s hnd
    have hx : x ∉ xs := (List.nodup_cons.mp hnd).1
    have hxs : xs.Nodup := (List.nodup_cons.mp hnd).2
    rw [List.foldl_cons, off_playing_loop_eq x _ s (le_refl _), ih _ hxs]
    cases s with
    | mk events triggers midi_channel bus song_mute playing_notes was_playing playing
        queued dm de dp dn last_tick trigger_offset ppqn length snap_tick sink
        events_undo events_redo iterator_draw =>
    simp only [Sequence.mk.injEq, true_and, and_true, List.flatMap_cons,
      List.append_assoc, List.mem_cons]
    constructor
    · funext n
      by_cases hn : n = x
      · subst hn; simp [hx]
      · simp [hn]
    · congr 2
      apply List.flatMap_congr
      intro y hy
      have hyx : y ≠ x := fun h => hx (h ▸ hy)
      simp [hyx]

theorem off_playing_notes_eq (s : Sequence) :
    off_playing_notes s =
      { s with
        sink := s.sink ++ (List.range c_midi_notes).flatMap (fun x =>
            List.replicate (s.playing_notes x).toNat
              (BusCall.play s.bus (note_off_event x) s.midi_channel))
          ++ [BusCall.flush],
        playing_notes := fun n =>
          if n < c_midi_notes then min (s.playing_notes n) 0 else s.playing_notes n } := by
  unfold off_playing_notes
  rw [off_playing_fold_eq _ s (List.nodup_range _)]
  simp only [List.mem_range]

theorem sent_events_append (a b : List BusCall) :
    sent_events (a ++ b) = sent_events a ++ sent_events b := by
  induction a with
  | nil => rfl
  | cons c a ih => cases c <;> simp [sent_events, ih]

/-! ## Emission: the claims -/

/-- C5: `put_event_on_bus` on a note-on raises the sounding count of its pitch
by one and forwards the event; on a note-off whose pitch has count `<= 0` it
forwards nothing and leaves the pattern as it was; on a note-off whose pitch
has a positive count it lowers that count by one and forwards the event; on
any other event it forwards the event with every count unchanged. -/
theorem put_event_on_bus_counts (s : Sequence) (ev : Event) :
    (ev.is_note_on = true →
      (put_event_on_bus s ev).playing_notes ev.get_note
          = s.playing_notes ev.get_note + 1 ∧
      (∀ n, n ≠ ev.get_note →
        (put_event_on_bus s ev).playing_notes n = s.playing_notes n) ∧
      (put_event_on_bus s ev).sink
          = s.sink ++ [BusCall.play s.bus ev s.midi_channel, BusCall.flush]) ∧
    (ev.is_note_off = true → s.playing_notes ev.get_note ≤ 0 →
      put_event_on_bus s ev = s) ∧
    (ev.is_note_off = true → 0 < s.playing_notes ev.get_note →
      (put_event_on_bus s ev).playing_notes ev.get_note
          = s.playing_notes ev.get_note - 1 ∧
      (∀ n, n ≠ ev.get_note →
        (put_event_on_bus s ev).playing_notes n = s.playing_notes n) ∧
      (put_event_on_bus s ev).sink
          = s.sink ++ [BusCall.play s.bus ev s.midi_channel, BusCall.flush]) ∧
    (ev.is_note_on = false → ev.is_note_off = false →
      (put_event_on_bus s ev).playing_notes = s.playing_notes ∧
      (put_event_on_bus s ev).sink
          = s.sink ++ [BusCall.play s.bus ev s.midi_channel, BusCall.flush]) := by
  refine ⟨?_, ?_, ?_, ?_⟩
  · intro hon
    have hoff : ev.is_note_off = false := by
      simp only [Event.is_note_on, Event.is_note_off, beq_iff_eq, beq_eq_false_iff_ne] at hon ⊢
      rw [hon]; decide
    refine ⟨?_, ?_, ?_⟩
    · simp [put_event_on_bus, hon, hoff]
    · intro n hn; simp [put_event_on_bus, hon, hoff, hn]
    · simp [put_event_on_bus, hon, hoff]
  · intro hoff hle
    have hon : ev.is_note_on = false := by
      simp only [Event.is_note_on, Event.is_note_off, beq_iff_eq, beq_eq_false_iff_ne] at hoff ⊢
      rw [hoff]; decide
    simp [put_event_on_bus, hon, hoff, hle]
  · intro hoff hpos
    have hon : ev.is_note_on = false := by
      simp only [Event.is_note_on, Event.is_note_off, beq_iff_eq, beq_eq_false_iff_ne] at hoff ⊢
      rw [hoff]; decide
    have hnle : ¬ s.playing_notes ev.get_note ≤ 0 := by omega
    refine ⟨?_, ?_, ?_⟩
    · simp [put_event_on_bus, hon, hoff, hnle]
    · intro n hn; simp [put_event_on_bus, hon, hoff, hnle, hn]
    · simp [put_event_on_bus, hon, hoff, hnle]
  · intro hon hoff
    simp [put_event_on_bus, hon, hoff]

/-- C6: from a state whose sounding counts are non-negative,
`off_playing_notes` sends for each pitch `x`, in pitch order, exactly
`count x` note-offs of pitch `x` and velocity 0 (then flushes) and leaves
every count at zero; a second call made right after sends no event (only the
flush) and changes no count. -/
theorem off_playing_notes_twice (s : Sequence)
    (h : ∀ x, x < c_midi_notes → 0 ≤ s.playing_notes x) :
    (off_playing_notes s).sink =
        s.sink ++ (List.range c_midi_notes).flatMap (fun x =>
          List.replicate (s.playing_notes x).toNat
            (BusCall.play s.bus (note_off_event x) s.midi_channel))
        ++ [BusCall.flush] ∧
    (∀ x, x < c_midi_notes →
      (note_off_event x).is_note_off = true ∧ (note_off_event x).get_note = x ∧
      (note_off_event x).d1 = 0) ∧
    (∀ x, x < c_midi_notes → (off_playing_notes s).playing_notes x = 0) ∧
    (off_playing_notes (off_playing_notes s)).sink
        = (off_playing_notes s).sink ++ [BusCall.flush] ∧
    sent_events (off_playing_notes (off_playing_notes s)).sink
        = sent_events (off_playing_notes s).sink ∧
    (off_playing_notes (off_playing_notes s)).playing_notes
        = (off_playing_notes s).playing_notes := by
  have hzero : ∀ x, x < c_midi_notes → (off_playing_notes s).playing_notes x = 0 := by
    intro x hx
    rw [off_playing_notes_eq]
    simp only [hx, if_true]
    have := h x hx
    omega
  have hnone : (List.range c_midi_notes).flatMap (fun x =>
      List.replicate ((off_playing_notes s).playing_notes x).toNat
        (BusCall.play (off_playing_notes s).bus (note_off_event x)
          (off_playing_notes s).midi_channel)) = [] := by
    rw [List.flatMap_eq_nil_iff]
    intro x hx
    rw [hzero x (List.mem_range.mp hx)]
    rfl
  have hsink2 : (off_playing_notes (off_playing_notes s)).sink
      = (off_playing_notes s).sink ++ [BusCall.flush] := by
    rw [off_playing_notes_eq (off_playing_notes s)]
    simp only [hnone, List.append_nil]
  refine ⟨?_, ?_, hzero, hsink2, ?_, ?_⟩
  · rw [off_playing_notes_eq]
  · intro x hx
    have hx' : x < 256 := hx
    have hm : ((x : Int) % 256).toNat = x := by omega
    refine ⟨rfl, ?_, ?_⟩
    · simp [note_off_event, Event.set_data, Event.set_status, Event.get_note, midibyte, hm]
    · simp [note_off_event, Event.set_data, Event.set_status, midibyte]
  · rw [hsink2, sent_events_append]
    exact List.append_nil _
  · rw [off_playing_notes_eq (off_playing_notes s)]
    funext n
    by_cases hn : n < c_midi_notes
    · simp only [hn, if_true, hzero n hn]; rfl
    · simp only [hn, if_false]

theorem put_event_on_bus_counts_witness :
    on_60.is_note_on = true ∧
    (put_event_on_bus sounding_seq on_60).playing_notes 60 = 3 ∧
    (put_event_on_bus sounding_seq on_60).sink
      = [BusCall.play 0 on_60 0, BusCall.flush] :=
  ⟨rfl, ((put_event_on_bus_counts sounding_seq on_60).1 rfl).1,
    ((put_event_on_bus_counts sounding_seq on_60).1 rfl).2.2⟩

theorem off_playing_notes_twice_witness :
    (∀ x, x < c_midi_notes → 0 ≤ sounding_seq.playing_notes x) ∧
    (∀ x, x < c_midi_notes → (off_playing_notes sounding_seq).playing_notes x = 0) ∧
    sent_events (off_playing_notes (off_playing_notes sounding_seq)).sink
      = sent_events (off_playing_notes sounding_seq).sink :=
  have h : ∀ x, x < c_midi_notes → 0 ≤ sounding_seq.playing_notes x := by
    intro x _
    show (0 : Int) ≤ if x = 60 then 2 else if x = 62 then 1 else 0
    split
    · decide
    · split <;> decide
  ⟨h, (off_playing_notes_twice sounding_seq h).2.2.1,
    (off_playing_notes_twice sounding_seq h).2.2.2.2.1⟩

/-! ## The playback step: muting -/

set_option maxRecDepth 100000 in
/-- C4 fails as stated: a muted pattern that was still playing with pitch 60
sounding forwards an event to the sink during `play`, the note-off by which
`set_playing(false)` silences that pitch. -/
theorem play_muted_forwards_note_off :
    muted_seq.song_mute = true ∧
    ∃ s1, play triggers_play 0 muted_seq 10 false = some s1 ∧
      sent_events s1.sink = [note_off_event 60] ∧
      sent_events muted_seq.sink = [] := by
  refine ⟨rfl, { set_playing muted_seq false with
      last_tick := 10 + 1, was_playing := (set_playing muted_seq false).playing },
    rfl, ?_, rfl⟩
  decide

/-- C4, amended: when `song_mute` is set, `play` hands no stored event to
`put_event_on_bus` and returns with `playing` false and the cursor at
`tick + 1`; the only calls on the sink are those of `off_playing_notes`, made
when the pattern was playing: one note-off per sounding count, then a flush. -/
theorem play_muted (tp : Sequence → Int → Int → TriggerPlay) (fuel : Nat)
    (s : Sequence) (tick : Int) (mode : Bool) (h : s.song_mute = true) :
    play_calls tp fuel s tick mode = some [] ∧
    ∃ s1, play tp fuel s tick mode = some s1 ∧
      s1.playing = false ∧ s1.last_tick = tick + 1 ∧
      s1.sink = s.sink ++
        (if s.playing then
          (List.range c_midi_notes).flatMap (fun x =>
            List.replicate (s.playing_notes x).toNat
              (BusCall.play s.bus (note_off_event x) s.midi_channel))
            ++ [BusCall.flush]
         else []) := by
  have hp : (set_playing s false).playing = false := by
    unfold set_playing
    by_cases hpl : s.playing = true
    · simp [hpl, set_dirty, off_playing_notes_eq]
    · simp at hpl; simp [hpl]
  have hsink : (set_playing s false).sink = s.sink ++
        (if s.playing then
          (List.range c_midi_notes).flatMap (fun x =>
            List.replicate (s.playing_notes x).toNat
              (BusCall.play s.bus (note_off_event x) s.midi_channel))
            ++ [BusCall.flush]
         else []) := by
    unfold set_playing
    by_cases hpl : s.playing = true
    · simp [hpl, set_dirty, off_playing_notes_eq]
    · simp at hpl; simp [hpl]
  refine ⟨?_, ?_⟩
  · simp [play_calls, play_frame, h, hp]
  · refine ⟨{ set_playing s false with
        last_tick := tick + 1, was_playing := (set_playing s false).playing },
      ?_, ?_, ?_, ?_⟩
    · simp only [play, play_frame, h, if_true, hp, Bool.false_eq_true, if_false,
        Option.map_some']
    · exact hp
    · rfl
    · exact hsink

theorem play_muted_witness :
    muted_seq.song_mute = true ∧
    play_calls triggers_play 0 muted_seq 10 true = some [] :=
  ⟨rfl, (play_muted triggers_play 0 muted_seq 10 true rfl).1⟩

/-! ## The emission loop: unrolling -/

theorem occ_next (evs : List Event) (L ob0 : Int) (j : Nat) (hn : 0 < evs.length) :
    (occ_index evs j + 1 = evs.length →
        occ_index evs (j + 1) = 0 ∧
        occ_base evs L ob0 (j + 1) = occ_base evs L ob0 j + L) ∧
    (occ_index evs j + 1 ≠ evs.length →
        occ_index evs (j + 1) = occ_index evs j + 1 ∧
        occ_base evs L ob0 (j + 1) = occ_base evs L ob0 j) := by
  have hdm := Nat.div_add_mod j evs.length
  have hlt := Nat.mod_lt j hn
  unfold occ_index occ_base
  constructor
  · intro h
    have hu := (Nat.div_mod_unique (a := j + 1) (d := j / evs.length + 1) (c := 0) hn).mpr
      ⟨by rw [Nat.mul_add]; omega, hn⟩
    rw [hu.1, hu.2]
    refine ⟨rfl, ?_⟩
    push_cast
    ring
  · intro h
    have hu := (Nat.div_mod_unique (a := j + 1) (d := j / evs.length)
      (c := j % evs.length + 1) hn).mpr ⟨by omega, by omega⟩
    rw [hu.1, hu.2]
    exact ⟨rfl, rfl⟩

theorem occ_getElem (evs : List Event) (j : Nat) (hn : 0 < evs.length) :
    evs[occ_index evs j]? = some (occ_event evs j) := by
  have hlt := Nat.mod_lt j hn
  unfold occ_index occ_event
  rw [List.getElem?_eq_getElem hlt, List.getD_eq_getElem _ _ hlt]

/-- The loop, started at its `j`-th iteration, runs up to the first iteration
`j + d` whose stamp is past the end of the frame, calling `put` at every
iteration in between whose stamp has reached the start of the frame. -/
theorem play_loop_run {σ : Type} (put : σ → Nat → Int → Event → σ)
    (evs : List Event) (L sto eto ob0 : Int) (hn : 0 < evs.length) :
    ∀ (d j fuel : Nat) (s : σ),
      (∀ k, j ≤ k → k < j + d → occ_stamp evs L ob0 k ≤ eto) →
      eto < occ_stamp evs L ob0 (j + d) → d < fuel →
      play_loop put evs L sto eto fuel (occ_index evs j) (occ_base evs L ob0 j) s =
        some (((List.range' j d).filter
            (fun k => decide (sto ≤ occ_stamp evs L ob0 k))).foldl
          (fun st k => put st (occ_index evs k) (occ_base evs L ob0 k) (occ_event evs k))
          s) := by
  intro d
  induction d with
  | zero =>
    intro j fuel s _ hstop hfuel
    obtain ⟨f, rfl⟩ : ∃ f, fuel = f + 1 := ⟨fuel - 1, by omega⟩
    have hstop' : eto < (occ_event evs j).timestamp + occ_base evs L ob0 j := hstop
    have hnot : ¬ (sto ≤ (occ_event evs j).timestamp + occ_base evs L ob0 j ∧
        (occ_event evs j).timestamp + occ_base evs L ob0 j ≤ eto) := by
      intro h; omega
    simp only [play_loop, occ_getElem evs j hn, hnot, if_false, gt_iff_lt, hstop', if_true,
      List.range'_zero, List.filter_nil, List.foldl_nil]
  | succ d ih =>
    intro j fuel s hbelow hstop hfuel
    obtain ⟨f, rfl⟩ : ∃ f, fuel = f + 1 := ⟨fuel - 1, by omega⟩
    have hj : occ_stamp evs L ob0 j ≤ eto := hbelow j (le_refl _) (by omega)
    have hj' : (occ_event evs j).timestamp + occ_base evs L ob0 j ≤ eto := hj
    have hngt : ¬ eto < (occ_event evs j).timestamp + occ_base evs L ob0 j := by omega
    have hnext := occ_next evs L ob0 j hn
    have hrec : ∀ s1 : σ,
        play_loop put evs L sto eto f (occ_index evs (j + 1))
          (occ_base evs L ob0 (j + 1)) s1 = _ :=
      fun s1 => ih (j + 1) f s1
        (fun k hk1 hk2 => hbelow k (by omega) (by omega))
        (by rw [show j + 1 + d = j + (d + 1) by omega]; exact hstop) (by omega)
    rw [List.range'_succ, List.filter_cons]
    by_cases hin : sto ≤ occ_stamp evs L ob0 j
    · have hin' : sto ≤ (occ_event evs j).timestamp + occ_base evs L ob0 j := hin
      simp only [hin, decide_True, if_true, List.foldl_cons]
      by_cases hend : occ_index evs j + 1 = evs.length
      · simp only [play_loop, occ_getElem evs j hn, hin', hj', and_self, if_true, hend]
        rw [← (hnext.1 hend).1, ← (hnext.1 hend).2]
        exact hrec _
      · simp only [play_loop, occ_getElem evs j hn, hin', hj', and_self, if_true, hend,
          if_false]
        rw [← (hnext.2 hend).1, ← (hnext.2 hend).2]
        exact hrec _
    · have hin' : ¬ sto ≤ (occ_event evs j).timestamp + occ_base evs L ob0 j := hin
      simp only [hin, decide_False, Bool.false_eq_true, if_false]
      by_cases hend : occ_index evs j + 1 = evs.length
      · simp only [play_loop, occ_getElem evs j hn, hin', false_and, if_false, gt_iff_lt,
          hngt, hend, if_true]
        rw [← (hnext.1 hend).1, ← (hnext.1 hend).2]
        exact hrec _
      · simp only [play_loop, occ_getElem evs j hn, hin', false_and, if_false, gt_iff_lt,
          hngt, hend]
        rw [← (hnext.2 hend).1, ← (hnext.2 hend).2]
        exact hrec _

theorem occ_stamp_stop_exists (evs : List Event) (L ob0 eto : Int) (hL : 0 < L)
    (hn : 0 < evs.length) : ∃ j, eto < occ_stamp evs L ob0 j := by
  refine ⟨evs.length * (eto - ob0 - (evs.getD 0 Event.default).timestamp + 1).toNat, ?_⟩
  unfold occ_stamp occ_event occ_base
  rw [Nat.mul_mod_right, Nat.mul_div_cancel_left _ hn]
  generalize (evs.getD 0 Event.default).timestamp = t0
  have hK : eto - ob0 - t0 + 1 ≤ ((eto - ob0 - t0 + 1).toNat : Int) := Int.self_le_toNat _
  have hK0 : (0 : Int) ≤ ((eto - ob0 - t0 + 1).toNat : Int) := Int.natCast_nonneg _
  have hmul : ((eto - ob0 - t0 + 1).toNat : Int) * 1 ≤ ((eto - ob0 - t0 + 1).toNat : Int) * L :=
    Int.mul_le_mul_of_nonneg_left (by omega) hK0
  omega

/-- For a positive pattern length the emission loop ends for every store and
every frame: there is an iteration count `J` such that, given more than `J`
iterations, the loop returns, having called `put` exactly at the iterations
before `J` whose stamp has reached the start of the frame. -/
theorem play_loop_total {σ : Type} (put : σ → Nat → Int → Event → σ)
    (evs : List Event) (L sto eto ob0 : Int) (hL : 0 < L) :
    ∃ J : Nat,
      (∀ k, k < J → occ_stamp evs L ob0 k ≤ eto) ∧
      (0 < evs.length → eto < occ_stamp evs L ob0 J) ∧
      ∀ (fuel : Nat) (s : σ), J < fuel →
        play_loop put evs L sto eto fuel 0 ob0 s =
          some (((List.range' 0 J).filter
              (fun k => decide (sto ≤ occ_stamp evs L ob0 k))).foldl
            (fun st k => put st (occ_index evs k) (occ_base evs L ob0 k) (occ_event evs k))
            s) := by
  by_cases hn : 0 < evs.length
  · have hex := occ_stamp_stop_exists evs L ob0 eto hL hn
    refine ⟨Nat.find hex, ?_, fun _ => Nat.find_spec hex, ?_⟩
    · intro k hk
      have := Nat.find_min hex hk
      omega
    · intro fuel s hfuel
      have h0 : occ_index evs 0 = 0 := by simp [occ_index]
      have hb : occ_base evs L ob0 0 = ob0 := by simp [occ_base]
      have hrun := play_loop_run put evs L sto eto ob0 hn (Nat.find hex) 0 fuel s
        (fun k _ hk => by
          have := Nat.find_min hex (show k < Nat.find hex by omega)
          omega)
        (by rw [Nat.zero_add]; exact Nat.find_spec hex) hfuel
      rw [h0, hb] at hrun
      exact hrun
  · have hnil : evs = [] := List.length_eq_zero.mp (by omega)
    subst hnil
    refine ⟨0, fun k hk => absurd hk (Nat.not_lt_zero k), fun h => absurd h hn, ?_⟩
    intro fuel s hfuel
    obtain ⟨f, rfl⟩ : ∃ f, fuel = f + 1 := ⟨fuel - 1, by omega⟩
    simp [play_loop]

theorem set_playing_length (s : Sequence) (p : Bool) :
    (set_playing s p).length = s.length := by
  unfold set_playing
  by_cases h1 : (p != s.playing) = true
  · by_cases h2 : (!p) = true
    · simp only [h1, h2, if_true, set_dirty, off_playing_notes_eq]
    · simp only [h1, h2, if_true, set_dirty]; rfl
  · simp only [h1]; rfl

/-- The result of `play` in terms of the frame and of the emission loop. -/
theorem play_unfold (tp : Sequence → Int → Int → TriggerPlay) (fuel : Nat)
    (s : Sequence) (tick : Int) (mode : Bool) :
    play tp fuel s tick mode =
      (if (play_frame tp s tick mode).seq.playing then
        if (play_frame tp s tick mode).seq.length = 0 then none
        else
          play_loop (fun st _ _ er => put_event_on_bus st er)
            (play_frame tp s tick mode).seq.events (play_frame tp s tick mode).seq.length
            ((play_frame tp s tick mode).start_tick + (play_frame tp s tick mode).seq.length
              - (play_frame tp s tick mode).seq.trigger_offset)
            ((play_frame tp s tick mode).end_tick + (play_frame tp s tick mode).seq.length
              - (play_frame tp s tick mode).seq.trigger_offset)
            fuel 0
            (Int.tdiv (play_frame tp s tick mode).seq.last_tick
              (play_frame tp s tick mode).seq.length
              * (play_frame tp s tick mode).seq.length)
            (play_frame tp s tick mode).seq
      else some (play_frame tp s tick mode).seq).map
      (fun s2 =>
        { (if (play_frame tp s tick mode).turning_off then set_playing s2 false else s2) with
          last_tick := (play_frame tp s tick mode).end_tick + 1,
          was_playing :=
            (if (play_frame tp s tick mode).turning_off then set_playing s2 false
              else s2).playing }) := rfl

theorem play_frame_end_tick (tp : Sequence → Int → Int → TriggerPlay) (s : Sequence)
    (tick : Int) (mode : Bool) (h : mode = false ∨ s.song_mute = true) :
    (play_frame tp s tick mode).end_tick = tick := by
  unfold play_frame
  by_cases hm : s.song_mute = true
  · simp [hm]
  · rcases h with h | h
    · simp [hm, h]
    · exact absurd h hm

/-! ## The playback step: the cursor -/

set_option maxRecDepth 100000 in
/-- C3 fails as stated in song mode: the playing one-bar pattern whose only
trigger ends at tick 500 is played to tick 767; the trigger step moves the end
of the frame to 500 and `play` leaves `last_tick` at 501, not at 768. -/
theorem play_song_mode_last_tick_not_tick_succ :
    ∃ s1, play triggers_play 8 song_seq 767 true = some s1 ∧
      s1.last_tick = 501 ∧ s1.last_tick ≠ 767 + 1 := by
  refine ⟨{ set_playing (put_event_on_bus (put_event_on_bus
      (triggers_play song_seq 0 767).seq on_60) off_60) false with
      last_tick := 500 + 1, was_playing := false }, ?_, ?_, ?_⟩
  · rfl
  · rfl
  · decide

/-- C3, amended: for a pattern of positive length (also after the trigger
step) `play` returns, given enough loop iterations, and leaves `last_tick` at
one past the end of the frame as the first part of `play` left it; that end is
`tick` itself in live mode and whenever `song_mute` is set. -/
theorem play_last_tick (tp : Sequence → Int → Int → TriggerPlay) (s : Sequence)
    (tick : Int) (mode : Bool) (hL : 0 < s.length)
    (htp : 0 < (tp s s.last_tick tick).seq.length) :
    ∃ fuel0, ∀ fuel, fuel0 ≤ fuel →
      ∃ s1, play tp fuel s tick mode = some s1 ∧
        s1.last_tick = (play_frame tp s tick mode).end_tick + 1 ∧
        ((mode = false ∨ s.song_mute = true) → s1.last_tick = tick + 1) := by
  have hrL : 0 < (play_frame tp s tick mode).seq.length := by
    unfold play_frame
    by_cases hm : s.song_mute = true
    · simp only [hm, if_true, set_playing_length]; exact hL
    · by_cases hmode : mode = true
      · simp only [hm, hmode, if_true, if_false, Bool.false_eq_true]; exact htp
      · simp only [hm, hmode, if_false, Bool.false_eq_true]; exact hL
  have hne : ¬ (play_frame tp s tick mode).seq.length = 0 := by omega
  by_cases hpl : (play_frame tp s tick mode).seq.playing = true
  · obtain ⟨J, _, _, hrun⟩ := play_loop_total (fun st _ _ er => put_event_on_bus st er)
      (play_frame tp s tick mode).seq.events (play_frame tp s tick mode).seq.length
      ((play_frame tp s tick mode).start_tick + (play_frame tp s tick mode).seq.length
        - (play_frame tp s tick mode).seq.trigger_offset)
      ((play_frame tp s tick mode).end_tick + (play_frame tp s tick mode).seq.length
        - (play_frame tp s tick mode).seq.trigger_offset)
      (Int.tdiv (play_frame tp s tick mode).seq.last_tick
        (play_frame tp s tick mode).seq.length * (play_frame tp s tick mode).seq.length) hrL
    refine ⟨J + 1, fun fuel hfuel => ?_⟩
    rw [play_unfold, if_pos hpl, if_neg hne, hrun fuel _ (by omega)]
    refine ⟨_, rfl, rfl, fun h => ?_⟩
    show (play_frame tp s tick mode).end_tick + 1 = tick + 1
    rw [play_frame_end_tick tp s tick mode h]
  · refine ⟨0, fun fuel _ => ?_⟩
    rw [play_unfold, if_neg hpl]
    refine ⟨_, rfl, rfl, fun h => ?_⟩
    show (play_frame tp s tick mode).end_tick + 1 = tick + 1
    rw [play_frame_end_tick tp s tick mode h]

set_option maxRecDepth 100000 in
theorem play_last_tick_witness :
    0 < one_bar_seq.length ∧
    0 < (triggers_play one_bar_seq one_bar_seq.last_tick 767).seq.length ∧
    ∃ fuel0, ∀ fuel, fuel0 ≤ fuel →
      ∃ s1, play triggers_play fuel one_bar_seq 767 false = some s1 ∧
        s1.last_tick = (play_frame triggers_play one_bar_seq 767 false).end_tick + 1 ∧
        ((false = false ∨ one_bar_seq.song_mute = true) → s1.last_tick = 767 + 1) :=
  ⟨by decide, by decide,
    play_last_tick triggers_play one_bar_seq 767 false (by decide) (by decide)⟩

/-! ## The emission loop on a store in time order -/

theorem occ_event_mem (evs : List Event) (j : Nat) (hn : 0 < evs.length) :
    occ_event evs j ∈ evs := by
  have hlt := Nat.mod_lt j hn
  unfold occ_event
  rw [List.getD_eq_getElem _ _ hlt]
  exact List.getElem_mem _

theorem occ_stamp_le_succ (evs : List Event) (L ob0 : Int) (hn : 0 < evs.length)
    (hst : store_in_order evs L) (j : Nat) :
    occ_stamp evs L ob0 j ≤ occ_stamp evs L ob0 (j + 1) := by
  have hnext := occ_next evs L ob0 j hn
  have hj := hst.2 _ (occ_event_mem evs j hn)
  have hj1 := hst.2 _ (occ_event_mem evs (j + 1) hn)
  unfold occ_stamp
  by_cases hend : occ_index evs j + 1 = evs.length
  · rw [(hnext.1 hend).2]; omega
  · rw [(hnext.2 hend).2]
    have hlt : j % evs.length < evs.length := Nat.mod_lt j hn
    have hlt1 : j % evs.length + 1 < evs.length := by
      have : occ_index evs j = j % evs.length := rfl
      omega
    have hidx : (j + 1) % evs.length = j % evs.length + 1 := (hnext.2 hend).1
    have hpw := (List.pairwise_iff_getElem.mp hst.1) (j % evs.length) (j % evs.length + 1)
      hlt hlt1 (by omega)
    have e1 : occ_event evs j = evs[j % evs.length] := by
      unfold occ_event; rw [List.getD_eq_getElem _ _ hlt]
    have e2 : occ_event evs (j + 1) = evs[j % evs.length + 1] := by
      unfold occ_event; rw [hidx, List.getD_eq_getElem _ _ hlt1]
    rw [e1, e2]
    omega

theorem occ_stamp_mono (evs : List Event) (L ob0 : Int) (hn : 0 < evs.length)
    (hst : store_in_order evs L) {j k : Nat} (hjk : j ≤ k) :
    occ_stamp evs L ob0 j ≤ occ_stamp evs L ob0 k := by
  induction k with
  | zero =>
    have : j = 0 := by omega
    subst this; exact le_refl _
  | succ k ih =>
    by_cases h : j = k + 1
    · subst h; exact le_refl _
    · exact le_trans (ih (by omega)) (occ_stamp_le_succ evs L ob0 hn hst k)

/-- On a store in time order, once the first iteration past the end of the
frame is known, the iterations that call `put` are those inside the frame,
whatever longer stretch of iterations is looked at. -/
theorem filter_in_frame_stable (evs : List Event) (L ob0 sto eto : Int)
    (hn : 0 < evs.length) (hst : store_in_order evs L) (J N : Nat) (hJN : J ≤ N)
    (hbelow : ∀ k, k < J → occ_stamp evs L ob0 k ≤ eto)
    (hstop : eto < occ_stamp evs L ob0 J) :
    (List.range' 0 J).filter (fun k => decide (sto ≤ occ_stamp evs L ob0 k)) =
      (List.range' 0 N).filter (in_frame evs L ob0 sto eto) := by
  obtain ⟨d, rfl⟩ : ∃ d, N = J + d := ⟨N - J, by omega⟩
  have hsplit : List.range' 0 (J + d) = List.range' 0 J ++ List.range' J d := by
    have := List.range'_append_1 0 J d
    rw [Nat.zero_add, Nat.add_comm d J] at this
    exact this.symm
  rw [hsplit, List.filter_append]
  have h2 : (List.range' J d).filter (in_frame evs L ob0 sto eto) = [] := by
    rw [List.filter_eq_nil_iff]
    intro k hk
    have hk' := (List.mem_range'_1.mp hk).1
    have := occ_stamp_mono evs L ob0 hn hst hk'
    simp only [in_frame, Bool.and_eq_true, decide_eq_true_eq, not_and]
    intro _; omega
  rw [h2, List.append_nil]
  apply List.filter_congr
  intro k hk
  have hk' := (List.mem_range'_1.mp hk).2
  have := hbelow k (by omega)
  simp [in_frame, this]

theorem foldl_record {α β : Type} (f : α → β) (l : List α) (init : List β) :
    l.foldl (fun tr k => tr ++ [f k]) init = init ++ l.map f := by
  induction l generalizing init with
  | nil => simp
  | cons a l ih => simp [ih]

theorem play_frame_live (tp : Sequence → Int → Int → TriggerPlay) (s : Sequence)
    (tick : Int) (hmute : s.song_mute = false) :
    play_frame tp s tick false =
      { turning_off := false, start_tick := s.last_tick, end_tick := tick, seq := s } := by
  simp [play_frame, hmute]

/-- Live mode on a non-empty store in time order: `play` returns once the
loop may run past the first iteration beyond the frame, and the calls it made
are those of the iterations inside the frame, in iteration order. -/
theorem play_live_eq (tp : Sequence → Int → Int → TriggerPlay) (s : Sequence)
    (tick : Int) (hmute : s.song_mute = false) (hplay : s.playing = true)
    (hL : 0 < s.length) (hn : 0 < s.events.length)
    (hst : store_in_order s.events s.length) :
    ∃ J : Nat, ∀ N fuel : Nat, J ≤ N → J < fuel →
      play_calls tp fuel s tick false =
        some (((List.range' 0 N).filter
          (in_frame s.events s.length (Int.tdiv s.last_tick s.length * s.length)
            (s.last_tick + s.length - s.trigger_offset)
            (tick + s.length - s.trigger_offset))).map
          (occ s.events s.length (Int.tdiv s.last_tick s.length * s.length))) ∧
      play tp fuel s tick false =
        some (frame_end
          (((List.range' 0 N).filter
            (in_frame s.events s.length (Int.tdiv s.last_tick s.length * s.length)
              (s.last_tick + s.length - s.trigger_offset)
              (tick + s.length - s.trigger_offset))).foldl
            (fun st k => put_event_on_bus st (occ_event s.events k)) s) tick) := by
  have hne : ¬ s.length = 0 := by omega
  obtain ⟨J, hbelow, hstop, _⟩ := play_loop_total (fun (st : Sequence) _ _ er =>
      put_event_on_bus st er) s.events s.length
      (s.last_tick + s.length - s.trigger_offset) (tick + s.length - s.trigger_offset)
      (Int.tdiv s.last_tick s.length * s.length) hL
  have hstop' := hstop hn
  have h0 : occ_index s.events 0 = 0 := by simp [occ_index]
  have hb : occ_base s.events s.length (Int.tdiv s.last_tick s.length * s.length) 0
      = Int.tdiv s.last_tick s.length * s.length := by simp [occ_base]
  refine ⟨J, fun N fuel hJN hfuel => ?_⟩
  have hfilter := filter_in_frame_stable s.events s.length
    (Int.tdiv s.last_tick s.length * s.length)
    (s.last_tick + s.length - s.trigger_offset) (tick + s.length - s.trigger_offset)
    hn hst J N hJN hbelow hstop'
  constructor
  · have hrun := play_loop_run (fun (tr : List (Nat × Int × Event)) i ob er =>
        tr ++ [(i, ob, er)]) s.events s.length
      (s.last_tick + s.length - s.trigger_offset) (tick + s.length - s.trigger_offset)
      (Int.tdiv s.last_tick s.length * s.length) hn J 0 fuel []
      (fun k _ hk => hbelow k (by omega)) (by rw [Nat.zero_add]; exact hstop') hfuel
    rw [h0, hb, hfilter] at hrun
    unfold play_calls
    rw [play_frame_live tp s tick hmute]
    simp only [hplay, if_true, hne, if_false]
    rw [hrun]
    have := foldl_record (occ s.events s.length (Int.tdiv s.last_tick s.length * s.length))
      ((List.range' 0 N).filter
        (in_frame s.events s.length (Int.tdiv s.last_tick s.length * s.length)
          (s.last_tick + s.length - s.trigger_offset)
          (tick + s.length - s.trigger_offset))) []
    rw [List.nil_append] at this
    exact congrArg some this
  · have hrun := play_loop_run (fun (st : Sequence) _ _ er => put_event_on_bus st er)
      s.events s.length
      (s.last_tick + s.length - s.trigger_offset) (tick + s.length - s.trigger_offset)
      (Int.tdiv s.last_tick s.length * s.length) hn J 0 fuel s
      (fun k _ hk => hbelow k (by omega)) (by rw [Nat.zero_add]; exact hstop') hfuel
    rw [h0, hb, hfilter] at hrun
    rw [play_unfold, play_frame_live tp s tick hmute]
    simp only [hplay, if_true, hne, if_false]
    rw [hrun]
    rfl

theorem occ_inj (evs : List Event) (L ob0 : Int) (hL : 0 < L)
    {j k : Nat} (h : occ evs L ob0 j = occ evs L ob0 k) : j = k := by
  unfold occ at h
  have h1 : occ_index evs j = occ_index evs k := congrArg Prod.fst h
  have h2 : occ_base evs L ob0 j = occ_base evs L ob0 k := congrArg (fun c => c.2.1) h
  unfold occ_index at h1
  unfold occ_base at h2
  have h3 : ((j / evs.length : Nat) : Int) * L = ((k / evs.length : Nat) : Int) * L := by
    omega
  have h4 : ((j / evs.length : Nat) : Int) = ((k / evs.length : Nat) : Int) :=
    mul_right_cancel₀ (ne_of_gt hL) h3
  have h5 : j / evs.length = k / evs.length := by exact_mod_cast h4
  have hj := Nat.div_add_mod j evs.length
  have hk := Nat.div_add_mod k evs.length
  rw [h5, h1] at hj
  omega

/-- The iteration at which the loop meets the event at position `i` in round
`d` of the walk. -/
theorem occ_at (evs : List Event) (L ob0 : Int) (i d : Nat) (hi : i < evs.length) :
    occ evs L ob0 (evs.length * d + i) = (i, ob0 + (d : Int) * L, evs[i]) := by
  have hn : 0 < evs.length := by omega
  have hmod : (evs.length * d + i) % evs.length = i := by
    rw [Nat.mul_add_mod, Nat.mod_eq_of_lt hi]
  have hdiv : (evs.length * d + i) / evs.length = d := by
    rw [Nat.mul_add_div hn, Nat.div_eq_of_lt hi, Nat.add_zero]
  unfold occ occ_index occ_base occ_event
  rw [hmod, hdiv, List.getD_eq_getElem _ _ hi]

theorem occ_stamp_eq (evs : List Event) (L ob0 : Int) (k : Nat) :
    occ_stamp evs L ob0 k = (occ evs L ob0 k).2.2.timestamp + (occ evs L ob0 k).2.1 := rfl

theorem play_live_empty (tp : Sequence → Int → Int → TriggerPlay) (s : Sequence)
    (tick : Int) (hmute : s.song_mute = false) (hplay : s.playing = true)
    (hL : 0 < s.length) (hn : s.events = []) (fuel : Nat) (hfuel : 1 ≤ fuel) :
    play_calls tp fuel s tick false = some [] ∧
    play tp fuel s tick false = some (frame_end s tick) := by
  have hne : ¬ s.length = 0 := by omega
  obtain ⟨f, rfl⟩ : ∃ f, fuel = f + 1 := ⟨fuel - 1, by omega⟩
  constructor
  · unfold play_calls
    rw [play_frame_live tp s tick hmute]
    simp only [hplay, if_true, hne, if_false, hn, play_loop, List.getElem?_nil]
  · rw [play_unfold, play_frame_live tp s tick hmute]
    simp only [hplay, if_true, hne, if_false, hn, play_loop, List.getElem?_nil]
    rfl

/-! ## The playback step: what a live frame emits -/

/-- C1: live mode, not muted, playing, `length > 0`, `last_tick >= 0`, trigger
offset `t` in `[0, length)`, store in time order with timestamps in
`[0, length)`.  Given enough loop iterations `play(tick, false)` returns, and
the list `tr` of occurrences it handed to `put_event_on_bus` has no
occurrence twice, contains the occurrence of the event at position `i` in
round `m` exactly when `timestamp + t + m * length` lies in
`[last_tick, tick]`, contains nothing but such occurrences, and is in
non-decreasing order of that effective time. -/
theorem play_live_emits_frame (tp : Sequence → Int → Int → TriggerPlay)
    (s : Sequence) (tick : Int) (hmute : s.song_mute = false)
    (hplay : s.playing = true) (hL : 0 < s.length) (hlast : 0 ≤ s.last_tick)
    (ht : 0 ≤ s.trigger_offset ∧ s.trigger_offset < s.length)
    (hst : store_in_order s.events s.length) :
    ∃ (fuel0 : Nat) (tr : List (Nat × Int × Event)),
      (∀ fuel, fuel0 ≤ fuel →
        play_calls tp fuel s tick false = some tr ∧
        play tp fuel s tick false =
          some (frame_end (tr.foldl (fun st c => put_event_on_bus st c.2.2) s) tick)) ∧
      tr.Nodup ∧
      (∀ (i : Nat) (m : Int) (hi : i < s.events.length),
        (i, (m + 1) * s.length, s.events[i]) ∈ tr ↔
          (s.last_tick ≤ s.events[i].timestamp + s.trigger_offset + m * s.length ∧
            s.events[i].timestamp + s.trigger_offset + m * s.length ≤ tick)) ∧
      (∀ c ∈ tr, ∃ (i : Nat) (m : Int) (hi : i < s.events.length),
        c = (i, (m + 1) * s.length, s.events[i])) ∧
      tr.Pairwise (fun c1 c2 => effective_time s c1 ≤ effective_time s c2) := by
  by_cases hn : 0 < s.events.length
  · obtain ⟨J, hJ⟩ := play_live_eq tp s tick hmute hplay hL hn hst
    -- abbreviations
    have hq : Int.tdiv s.last_tick s.length = s.last_tick / s.length :=
      Int.tdiv_eq_ediv hlast (le_of_lt hL)
    have hqle : s.last_tick / s.length * s.length ≤ s.last_tick :=
      Int.ediv_mul_le _ (ne_of_gt hL)
    rw [hq] at hJ
    generalize hob : s.last_tick / s.length * s.length = ob0 at hJ hqle
    generalize hsto : s.last_tick + s.length - s.trigger_offset = sto at hJ
    generalize heto : tick + s.length - s.trigger_offset = eto at hJ
    -- the trace does not depend on the stretch of iterations looked at
    have hstable : ∀ N, J ≤ N →
        ((List.range' 0 N).filter (in_frame s.events s.length ob0 sto eto)).map
            (occ s.events s.length ob0) =
          ((List.range' 0 J).filter (in_frame s.events s.length ob0 sto eto)).map
            (occ s.events s.length ob0) := by
      intro N hN
      have h1 := (hJ N (N + 1) hN (by omega)).1
      have h2 := (hJ J (N + 1) (le_refl _) (by omega)).1
      rw [h1] at h2
      exact Option.some.inj h2
    have hmem : ∀ c, c ∈ ((List.range' 0 J).filter
        (in_frame s.events s.length ob0 sto eto)).map (occ s.events s.length ob0) ↔
        ∃ k, in_frame s.events s.length ob0 sto eto k = true ∧
          occ s.events s.length ob0 k = c := by
      intro c
      constructor
      · intro h
        obtain ⟨k, hk, hkc⟩ := List.mem_map.mp h
        exact ⟨k, (List.mem_filter.mp hk).2, hkc⟩
      · rintro ⟨k, hk, hkc⟩
        rw [← hstable (max J (k + 1)) (le_max_left _ _)]
        refine List.mem_map.mpr ⟨k, List.mem_filter.mpr ⟨?_, hk⟩, hkc⟩
        rw [List.mem_range'_1]
        have := le_max_right J (k + 1)
        omega
    have hnodup : (((List.range' 0 J).filter
        (in_frame s.events s.length ob0 sto eto)).map (occ s.events s.length ob0)).Nodup :=
      List.Nodup.map_on (fun x _ y _ h => occ_inj s.events s.length ob0 hL h)
        (List.Nodup.filter _ (List.nodup_range' 0 J))
    refine ⟨J + 1, _, fun fuel hfuel => ⟨(hJ J fuel (le_refl _) (by omega)).1, ?_⟩,
      hnodup, ?_, ?_, ?_⟩
    · rw [(hJ J fuel (le_refl _) (by omega)).2, List.foldl_map]
      rfl
    · intro i m hi
      have hti := hst.2 _ (List.getElem_mem hi)
      rw [hmem]
      constructor
      swap
      · intro hwin
        -- the round in which the occurrence is met
        have hd : 0 ≤ m + 1 - s.last_tick / s.length := by
          by_contra hneg
          have h1 : m + 2 - s.last_tick / s.length ≤ 0 := by omega
          have h2 : (m + 2 - s.last_tick / s.length) * s.length ≤ 0 :=
            mul_nonpos_of_nonpos_of_nonneg h1 (le_of_lt hL)
          have h3 : (m + 2 - s.last_tick / s.length) * s.length
              = m * s.length + 2 * s.length - ob0 := by rw [← hob]; ring
          omega
        refine ⟨s.events.length * (m + 1 - s.last_tick / s.length).toNat + i, ?_, ?_⟩
        · have hocc := occ_at s.events s.length ob0 i
            (m + 1 - s.last_tick / s.length).toNat hi
          have hbase : ob0 + ((m + 1 - s.last_tick / s.length).toNat : Int) * s.length
              = (m + 1) * s.length := by
            rw [Int.toNat_of_nonneg hd, ← hob]; ring
          have hm1 : (m + 1) * s.length = m * s.length + s.length := by ring
          simp only [in_frame, occ_stamp_eq, hocc, hbase, Bool.and_eq_true,
            decide_eq_true_eq]
          omega
        · have hocc := occ_at s.events s.length ob0 i
            (m + 1 - s.last_tick / s.length).toNat hi
          have hbase : ob0 + ((m + 1 - s.last_tick / s.length).toNat : Int) * s.length
              = (m + 1) * s.length := by
            rw [Int.toNat_of_nonneg hd, ← hob]; ring
          rw [hocc, hbase]
      · rintro ⟨k, hk, hkc⟩
        have hm1 : (m + 1) * s.length = m * s.length + s.length := by ring
        simp only [in_frame, occ_stamp_eq, hkc, Bool.and_eq_true, decide_eq_true_eq] at hk
        omega
    · intro c hc
      obtain ⟨k, _, hkc⟩ := (hmem c).mp hc
      have hlt := Nat.mod_lt k hn
      refine ⟨k % s.events.length, s.last_tick / s.length + (k / s.events.length : Nat) - 1,
        hlt, ?_⟩
      rw [← hkc]
      unfold occ occ_index occ_base occ_event
      rw [List.getD_eq_getElem _ _ hlt, ← hob]
      congr 2
      ring
    · rw [List.pairwise_map]
      apply List.Pairwise.filter
      refine List.Pairwise.imp ?_ (List.pairwise_lt_range' 0 J)
      intro a b hab
      have := occ_stamp_mono s.events s.length ob0 hn hst (le_of_lt hab)
      rw [occ_stamp_eq, occ_stamp_eq] at this
      unfold effective_time
      omega
  · have hnil : s.events = [] := List.length_eq_zero.mp (by omega)
    refine ⟨1, [], fun fuel hfuel => ?_, List.nodup_nil, ?_, ?_, List.Pairwise.nil⟩
    · exact play_live_empty tp s tick hmute hplay hL hnil fuel hfuel
    · intro i m hi
      exact absurd hi (by omega)
    · intro c hc
      exact absurd hc (List.not_mem_nil c)

/-! ## Two frames in a row -/

theorem put_event_on_bus_fields (s : Sequence) (ev : Event) :
    (put_event_on_bus s ev).events = s.events ∧
    (put_event_on_bus s ev).length = s.length ∧
    (put_event_on_bus s ev).trigger_offset = s.trigger_offset ∧
    (put_event_on_bus s ev).playing = s.playing ∧
    (put_event_on_bus s ev).song_mute = s.song_mute := by
  unfold put_event_on_bus
  by_cases h1 : ev.is_note_on = true <;> by_cases h2 : ev.is_note_off = true <;>
    by_cases h3 : s.playing_notes ev.get_note ≤ 0 <;>
    by_cases h4 : s.playing_notes ev.get_note + 1 ≤ 0 <;>
    simp [h1, h2, h3, h4]

theorem put_event_on_bus_with_cursor (s : Sequence) (ev : Event) (lt : Int) (wp : Bool) :
    put_event_on_bus (with_cursor s lt wp) ev = with_cursor (put_event_on_bus s ev) lt wp := by
  unfold put_event_on_bus with_cursor
  by_cases h1 : ev.is_note_on = true <;> by_cases h2 : ev.is_note_off = true <;>
    by_cases h3 : s.playing_notes ev.get_note ≤ 0 <;>
    by_cases h4 : s.playing_notes ev.get_note + 1 ≤ 0 <;>
    simp [h1, h2, h3, h4]

theorem foldl_put_fields (l : List Event) :
    ∀ s : Sequence,
      (l.foldl put_event_on_bus s).events = s.events ∧
      (l.foldl put_event_on_bus s).length = s.length ∧
      (l.foldl put_event_on_bus s).trigger_offset = s.trigger_offset ∧
      (l.foldl put_event_on_bus s).playing = s.playing ∧
      (l.foldl put_event_on_bus s).song_mute = s.song_mute := by
  induction l with
  | nil => intro s; exact ⟨rfl, rfl, rfl, rfl, rfl⟩
  | cons e l ih =>
    intro s
    have h1 := put_event_on_bus_fields s e
    have h2 := ih (put_event_on_bus s e)
    rw [List.foldl_cons]
    exact ⟨h2.1.trans h1.1, h2.2.1.trans h1.2.1, h2.2.2.1.trans h1.2.2.1,
      h2.2.2.2.1.trans h1.2.2.2.1, h2.2.2.2.2.trans h1.2.2.2.2⟩

theorem foldl_put_with_cursor (l : List Event) (lt : Int) (wp : Bool) :
    ∀ s : Sequence,
      l.foldl put_event_on_bus (with_cursor s lt wp) =
        with_cursor (l.foldl put_event_on_bus s) lt wp := by
  induction l with
  | nil => intro s; rfl
  | cons e l ih =>
    intro s
    rw [List.foldl_cons, List.foldl_cons, put_event_on_bus_with_cursor, ih]

/-- A list in non-decreasing order of `f`, cut to a window `lo..hi`, is the
part in `lo..mid` followed by the part in `mid+1..hi`. -/
theorem filter_window_split (f : Nat → Int) (lo mid hi : Int) (h1 : lo ≤ mid + 1)
    (h2 : mid ≤ hi) :
    ∀ l : List Nat, l.Pairwise (fun a b => f a ≤ f b) →
      l.filter (fun k => decide (lo ≤ f k) && decide (f k ≤ hi)) =
        l.filter (fun k => decide (lo ≤ f k) && decide (f k ≤ mid)) ++
        l.filter (fun k => decide (mid + 1 ≤ f k) && decide (f k ≤ hi)) := by
  intro l
  induction l with
  | nil => intro _; rfl
  | cons x xs ih =>
    intro hpw
    have hx : ∀ y ∈ xs, f x ≤ f y := (List.pairwise_cons.mp hpw).1
    have hxs := (List.pairwise_cons.mp hpw).2
    by_cases hmid : f x ≤ mid
    · have hnot2 : ¬ (mid + 1 ≤ f x) := by omega
      have hhi : f x ≤ hi := by omega
      by_cases hlo : lo ≤ f x
      · simp only [List.filter_cons, hlo, hhi, hmid, hnot2, decide_True, decide_False,
          Bool.and_self, Bool.false_and, if_true, Bool.false_eq_true, if_false,
          List.cons_append]
        rw [ih hxs]
      · simp only [List.filter_cons, hlo, hhi, hmid, hnot2, decide_True, decide_False,
          Bool.false_and, Bool.false_eq_true, if_false]
        exact ih hxs
    · have hall : ∀ y ∈ x :: xs, mid < f y := by
        intro y hy
        rcases List.mem_cons.mp hy with rfl | hy
        · omega
        · have := hx y hy; omega
      have hnil : (x :: xs).filter (fun k => decide (lo ≤ f k) && decide (f k ≤ mid)) = [] := by
        rw [List.filter_eq_nil_iff]
        intro y hy
        have := hall y hy
        simp only [Bool.and_eq_true, decide_eq_true_eq, not_and]
        intro _; omega
      rw [hnil, List.nil_append]
      apply List.filter_congr
      intro y hy
      have := hall y hy
      have e1 : decide (lo ≤ f y) = true := by simp only [decide_eq_true_eq]; omega
      have e2 : decide (mid + 1 ≤ f y) = true := by simp only [decide_eq_true_eq]; omega
      rw [e1, e2]

theorem occ_shift (evs : List Event) (L ob0 : Int) (c k : Nat) (hn : 0 < evs.length) :
    occ_stamp evs L (ob0 + (c : Int) * L) k = occ_stamp evs L ob0 (c * evs.length + k) ∧
    occ_event evs (c * evs.length + k) = occ_event evs k := by
  have hmod : (c * evs.length + k) % evs.length = k % evs.length := by
    rw [Nat.add_comm, Nat.add_mul_mod_self_right]
  have hdiv : (c * evs.length + k) / evs.length = k / evs.length + c := by
    rw [Nat.add_comm, Nat.add_mul_div_right _ _ hn]
  unfold occ_stamp occ_base occ_event
  rw [hmod, hdiv]
  refine ⟨?_, rfl⟩
  push_cast
  ring

/-- The events of a frame do not depend on the round the loop starts in, as
long as the skipped rounds hold nothing of the frame. -/
theorem frame_events_shift (evs : List Event) (L ob0 sto eto : Int) (c N : Nat)
    (hn : 0 < evs.length)
    (hskip : ∀ k, k < c * evs.length → in_frame evs L ob0 sto eto k = false) :
    frame_events evs L (ob0 + (c : Int) * L) sto eto N =
      frame_events evs L ob0 sto eto (c * evs.length + N) := by
  unfold frame_events
  have hsplit : List.range' 0 (c * evs.length + N)
      = List.range' 0 (c * evs.length) ++ List.range' (c * evs.length) N := by
    have := List.range'_append_1 0 (c * evs.length) N
    rw [Nat.zero_add, Nat.add_comm N] at this
    exact this.symm
  have hnil : (List.range' 0 (c * evs.length)).filter (in_frame evs L ob0 sto eto) = [] := by
    rw [List.filter_eq_nil_iff]
    intro k hk
    have hk' := (List.mem_range'_1.mp hk).2
    rw [hskip k (by omega)]
    exact Bool.false_ne_true
  have hmap : List.range' (c * evs.length) N
      = (List.range' 0 N).map (fun x => c * evs.length + x) := by
    rw [List.map_add_range', Nat.add_zero]
  rw [hsplit, List.filter_append, hnil, List.nil_append, hmap, List.filter_map,
    List.map_map]
  have hp : (in_frame evs L ob0 sto eto ∘ fun x => c * evs.length + x)
      = in_frame evs L (ob0 + (c : Int) * L) sto eto := by
    funext k
    simp only [Function.comp, in_frame, (occ_shift evs L ob0 c k hn).1]
  have hf : (occ_event evs ∘ fun x => c * evs.length + x) = occ_event evs := by
    funext k
    exact (occ_shift evs L ob0 c k hn).2
  rw [hp, hf]

/-- Live mode on a non-empty store in time order, in terms of the events
handed to `put_event_on_bus`. -/
theorem play_live_events (tp : Sequence → Int → Int → TriggerPlay) (s : Sequence)
    (tick : Int) (hmute : s.song_mute = false) (hplay : s.playing = true)
    (hL : 0 < s.length) (hn : 0 < s.events.length)
    (hst : store_in_order s.events s.length) :
    ∃ J : Nat, ∀ N fuel : Nat, J ≤ N → J < fuel →
      play tp fuel s tick false =
        some (frame_end
          ((frame_events s.events s.length (Int.tdiv s.last_tick s.length * s.length)
              (s.last_tick + s.length - s.trigger_offset)
              (tick + s.length - s.trigger_offset) N).foldl put_event_on_bus s) tick) ∧
      frame_events s.events s.length (Int.tdiv s.last_tick s.length * s.length)
          (s.last_tick + s.length - s.trigger_offset)
          (tick + s.length - s.trigger_offset) N =
        frame_events s.events s.length (Int.tdiv s.last_tick s.length * s.length)
          (s.last_tick + s.length - s.trigger_offset)
          (tick + s.length - s.trigger_offset) J := by
  obtain ⟨J, hJ⟩ := play_live_eq tp s tick hmute hplay hL hn hst
  refine ⟨J, fun N fuel hN hfuel => ⟨?_, ?_⟩⟩
  · rw [(hJ N fuel hN hfuel).2]
    unfold frame_events
    rw [List.foldl_map]
  · have h1 := (hJ N (N + 1) hN (by omega)).1
    have h2 := (hJ J (N + 1) (le_refl _) (by omega)).1
    rw [h1] at h2
    have h3 := congrArg (List.map (fun c : Nat × Int × Event => c.2.2)) (Option.some.inj h2)
    rw [List.map_map, List.map_map] at h3
    exact h3

theorem frame_events_split (evs : List Event) (L ob0 sto mid eto : Int) (N : Nat)
    (hn : 0 < evs.length) (hst : store_in_order evs L) (h1 : sto ≤ mid + 1)
    (h2 : mid ≤ eto) :
    frame_events evs L ob0 sto eto N =
      frame_events evs L ob0 sto mid N ++ frame_events evs L ob0 (mid + 1) eto N := by
  unfold frame_events
  rw [← List.map_append]
  congr 1
  exact filter_window_split (occ_stamp evs L ob0) sto mid eto h1 h2 (List.range' 0 N)
    (List.Pairwise.imp (fun h => occ_stamp_mono evs L ob0 hn hst (le_of_lt h))
      (List.pairwise_lt_range' 0 N))

theorem frame_skip (evs : List Event) (L ob0 sto eto bound : Int) (c : Nat)
    (hL : 0 < L) (hn : 0 < evs.length) (hst : store_in_order evs L)
    (hb : ob0 + (c : Int) * L ≤ bound) (hsto : bound ≤ sto) :
    ∀ k, k < c * evs.length → in_frame evs L ob0 sto eto k = false := by
  intro k hk
  have hts := (hst.2 _ (occ_event_mem evs k hn)).2
  have hdiv : k / evs.length < c := Nat.div_lt_of_lt_mul (by rw [Nat.mul_comm]; exact hk)
  have hdiv' : ((k / evs.length : Nat) : Int) + 1 ≤ (c : Int) := by exact_mod_cast hdiv
  have hmul := Int.mul_le_mul_of_nonneg_right hdiv' (le_of_lt hL)
  rw [add_mul, one_mul] at hmul
  have hstamp : occ_stamp evs L ob0 k
      = (occ_event evs k).timestamp + (ob0 + ((k / evs.length : Nat) : Int) * L) := rfl
  have hlt : ¬ sto ≤ occ_stamp evs L ob0 k := by rw [hstamp]; omega
  simp [in_frame, hlt]

/-! ## The playback step: two frames in a row -/

/-- C2, amended: in live mode, for a playing, unmuted pattern of positive
length whose store is in time order with timestamps in `[0, length)`, with
`last_tick >= 0` and trigger offset at most `length`: for `a <= b` with
`last_tick <= a + 1`, `play(a)` followed by `play(b)` ends, given enough loop
iterations, in the very state in which the single call `play(b)` ends - the
same calls on the sink in the same order, the same sounding counts, the same
`last_tick`. -/
theorem play_frames_compose (tp : Sequence → Int → Int → TriggerPlay)
    (s : Sequence) (a b : Int) (hmute : s.song_mute = false)
    (hplay : s.playing = true) (hL : 0 < s.length) (hlast : 0 ≤ s.last_tick)
    (ht : s.trigger_offset ≤ s.length) (hst : store_in_order s.events s.length)
    (hab : a ≤ b) (hla : s.last_tick ≤ a + 1) :
    ∃ fuel0, ∀ fuel, fuel0 ≤ fuel →
      ∃ s1 s2, play tp fuel s a false = some s1 ∧
        play tp fuel s1 b false = some s2 ∧
        play tp fuel s b false = some s2 := by
  by_cases hn : 0 < s.events.length
  · obtain ⟨J1, hJ1⟩ := play_live_events tp s a hmute hplay hL hn hst
    obtain ⟨J3, hJ3⟩ := play_live_events tp s b hmute hplay hL hn hst
    have hq0 : Int.tdiv s.last_tick s.length = s.last_tick / s.length :=
      Int.tdiv_eq_ediv hlast (le_of_lt hL)
    have hq1 : Int.tdiv (a + 1) s.length = (a + 1) / s.length :=
      Int.tdiv_eq_ediv (by omega) (le_of_lt hL)
    have hqle : s.last_tick / s.length ≤ (a + 1) / s.length := Int.ediv_le_ediv hL hla
    have hq1le : (a + 1) / s.length * s.length ≤ a + 1 := Int.ediv_mul_le _ (ne_of_gt hL)
    obtain ⟨c, hc⟩ : ∃ c : Nat, (a + 1) / s.length = s.last_tick / s.length + (c : Int) :=
      ⟨((a + 1) / s.length - s.last_tick / s.length).toNat, by omega⟩
    have hcL : (a + 1) / s.length * s.length
        = s.last_tick / s.length * s.length + (c : Int) * s.length := by
      rw [hc]; ring
    rw [hq0] at hJ1 hJ3
    -- the state after the first frame
    obtain ⟨s1, hs1⟩ : ∃ s1, s1 = frame_end
        ((frame_events s.events s.length (s.last_tick / s.length * s.length)
          (s.last_tick + s.length - s.trigger_offset)
          (a + s.length - s.trigger_offset) J1).foldl put_event_on_bus s) a := ⟨_, rfl⟩
    have hf := foldl_put_fields (frame_events s.events s.length
      (s.last_tick / s.length * s.length) (s.last_tick + s.length - s.trigger_offset)
      (a + s.length - s.trigger_offset) J1) s
    have hs1ev : s1.events = s.events := by rw [hs1]; exact hf.1
    have hs1len : s1.length = s.length := by rw [hs1]; exact hf.2.1
    have hs1to : s1.trigger_offset = s.trigger_offset := by rw [hs1]; exact hf.2.2.1
    have hs1pl : s1.playing = true := by rw [hs1]; exact hf.2.2.2.1.trans hplay
    have hs1mu : s1.song_mute = false := by rw [hs1]; exact hf.2.2.2.2.trans hmute
    have hs1last : s1.last_tick = a + 1 := by rw [hs1]; rfl
    obtain ⟨J2, hJ2⟩ := play_live_events tp s1 b hs1mu hs1pl (by rw [hs1len]; exact hL)
      (by rw [hs1ev]; exact hn) (by rw [hs1ev, hs1len]; exact hst)
    have hsto2 : a + 1 + s.length - s.trigger_offset
        = a + s.length - s.trigger_offset + 1 := by ring
    simp only [hs1ev, hs1len, hs1to, hs1last, hq1, hcL, hsto2] at hJ2
    refine ⟨J1 + J2 + J3 + 1, fun fuel hfuel => ?_⟩
    have h1 := (hJ1 J1 fuel (le_refl _) (by omega)).1
    rw [← hs1] at h1
    have h2 := (hJ2 (J1 + J2 + J3) fuel (by omega) (by omega)).1
    have h3 := (hJ3 (c * s.events.length + (J1 + J2 + J3)) fuel (by omega) (by omega)).1
    have hE1 := (hJ1 (c * s.events.length + (J1 + J2 + J3)) fuel (by omega) (by omega)).2
    have hshift := frame_events_shift s.events s.length (s.last_tick / s.length * s.length)
      (a + s.length - s.trigger_offset + 1) (b + s.length - s.trigger_offset) c
      (J1 + J2 + J3) hn
      (frame_skip s.events s.length (s.last_tick / s.length * s.length) _ _ (a + 1) c hL hn
        hst (by omega) (by omega))
    have hsplit := frame_events_split s.events s.length (s.last_tick / s.length * s.length)
      (s.last_tick + s.length - s.trigger_offset) (a + s.length - s.trigger_offset)
      (b + s.length - s.trigger_offset) (c * s.events.length + (J1 + J2 + J3)) hn hst
      (by omega) (by omega)
    refine ⟨s1, _, h1, h2, ?_⟩
    rw [h3, hsplit, hE1, hshift, List.foldl_append]
    congr 1
    rw [hs1]
    show _ = frame_end (List.foldl put_event_on_bus (with_cursor _ _ _) _) b
    rw [foldl_put_with_cursor]
    rfl
  · have hnil : s.events = [] := List.length_eq_zero.mp (by omega)
    refine ⟨1, fun fuel hfuel => ?_⟩
    have h1 := (play_live_empty tp s a hmute hplay hL hnil fuel hfuel).2
    have h3 := (play_live_empty tp s b hmute hplay hL hnil fuel hfuel).2
    have h2 := (play_live_empty tp (frame_end s a) b hmute hplay hL hnil fuel hfuel).2
    exact ⟨_, _, h1, h2, h3⟩

set_option maxRecDepth 100000 in
theorem play_frames_compose_witness :
    one_bar_seq.song_mute = false ∧ one_bar_seq.playing = true ∧
    0 < one_bar_seq.length ∧ 0 ≤ one_bar_seq.last_tick ∧
    one_bar_seq.trigger_offset ≤ one_bar_seq.length ∧
    store_in_order one_bar_seq.events one_bar_seq.length ∧
    (767 : Int) ≤ 1535 ∧ one_bar_seq.last_tick ≤ 767 + 1 ∧
    (∃ fuel0, ∀ fuel, fuel0 ≤ fuel →
      ∃ s1 s2, play triggers_play fuel one_bar_seq 767 false = some s1 ∧
        play triggers_play fuel s1 1535 false = some s2 ∧
        play triggers_play fuel one_bar_seq 1535 false = some s2) ∧
    (∃ s1 s2, play triggers_play 8 one_bar_seq 767 false = some s1 ∧
        sent_events s1.sink = [on_60, off_60] ∧
        play triggers_play 8 s1 1535 false = some s2 ∧
        sent_events s2.sink = [on_60, off_60, on_60, off_60]) :=
  ⟨rfl, rfl, by decide, by decide, by decide, ⟨by decide, by decide⟩, by decide,
    by decide,
    play_frames_compose triggers_play one_bar_seq 767 1535 rfl rfl (by decide) (by decide)
      (by decide) ⟨by decide, by decide⟩ (by decide) (by decide),
    ⟨frame_end (put_event_on_bus (put_event_on_bus one_bar_seq on_60) off_60) 767,
     frame_end (put_event_on_bus (put_event_on_bus
      (frame_end (put_event_on_bus (put_event_on_bus one_bar_seq on_60) off_60) 767)
        on_60) off_60) 1535,
     rfl, by decide, rfl, by decide⟩⟩

set_option maxRecDepth 100000 in
/-- C2 fails as stated: the pattern of length 48 with trigger offset 700 and a
note-on at tick 0, cursor at 0, satisfies every condition the claim lists;
`play(99)` followed by `play(700)` forwards nothing, while the single call
`play(700)` forwards the note-on twice. -/
theorem play_frames_do_not_compose :
    offset_seq.song_mute = false ∧ offset_seq.playing = true ∧
    0 < offset_seq.length ∧ store_in_order offset_seq.events offset_seq.length ∧
    (99 : Int) ≤ 700 ∧ offset_seq.last_tick ≤ 99 + 1 ∧
    ∃ s1 s2 s3, play triggers_play 8 offset_seq 99 false = some s1 ∧
      play triggers_play 8 s1 700 false = some s2 ∧
      play triggers_play 8 offset_seq 700 false = some s3 ∧
      sent_events s2.sink = [] ∧ sent_events s3.sink = [on_60, on_60] :=
  ⟨rfl, rfl, by decide, ⟨by decide, by decide⟩, by decide, by decide,
    frame_end offset_seq 99, frame_end (frame_end offset_seq 99) 700,
    frame_end (put_event_on_bus (put_event_on_bus offset_seq on_60) on_60) 700,
    rfl, rfl, rfl, by decide, by decide⟩

set_option maxRecDepth 100000 in
theorem play_live_emits_frame_witness :
    one_bar_seq.song_mute = false ∧ one_bar_seq.playing = true ∧
    0 < one_bar_seq.length ∧ 0 ≤ one_bar_seq.last_tick ∧
    (0 ≤ one_bar_seq.trigger_offset ∧ one_bar_seq.trigger_offset < one_bar_seq.length) ∧
    store_in_order one_bar_seq.events one_bar_seq.length ∧
    (∃ (fuel0 : Nat) (tr : List (Nat × Int × Event)),
      (∀ fuel, fuel0 ≤ fuel →
        play_calls triggers_play fuel one_bar_seq 767 false = some tr ∧
        play triggers_play fuel one_bar_seq 767 false =
          some (frame_end (tr.foldl (fun st c => put_event_on_bus st c.2.2) one_bar_seq)
            767)) ∧
      tr.Nodup ∧
      (∀ (i : Nat) (m : Int) (hi : i < one_bar_seq.events.length),
        (i, (m + 1) * one_bar_seq.length, one_bar_seq.events[i]) ∈ tr ↔
          (one_bar_seq.last_tick ≤ one_bar_seq.events[i].timestamp
              + one_bar_seq.trigger_offset + m * one_bar_seq.length ∧
            one_bar_seq.events[i].timestamp + one_bar_seq.trigger_offset
              + m * one_bar_seq.length ≤ 767)) ∧
      (∀ c ∈ tr, ∃ (i : Nat) (m : Int) (hi : i < one_bar_seq.events.length),
        c = (i, (m + 1) * one_bar_seq.length, one_bar_seq.events[i])) ∧
      tr.Pairwise (fun c1 c2 =>
        effective_time one_bar_seq c1 ≤ effective_time one_bar_seq c2)) ∧
    play_calls triggers_play 8 one_bar_seq 767 false
      = some [(0, 768, on_60), (1, 768, off_60)] :=
  ⟨rfl, rfl, by decide, by decide, ⟨by decide, by decide⟩, ⟨by decide, by decide⟩,
    play_live_emits_frame triggers_play one_bar_seq 767 rfl rfl (by decide) (by decide)
      ⟨by decide, by decide⟩ ⟨by decide, by decide⟩,
    by decide⟩

/-! ## Copy and paste: the round trip -/

theorem merge_loop_perm : ∀ (n : Nat) (xs ys : List Event),
    (merge_loop n xs ys).Perm (xs ++ ys) := by
  intro n
  induction n with
  | zero => intro xs ys; exact List.Perm.refl _
  | succ n ih =>
    intro xs ys
    cases xs with
    | nil => simp [merge_loop]
    | cons x xs =>
      cases ys with
      | nil => simp [merge_loop]
      | cons y ys =>
        by_cases hlt : event_lt y x = true
        · simp only [merge_loop, hlt, if_true]
          exact ((ih (x :: xs) ys).cons y).trans List.perm_middle.symm
        · simp only [merge_loop, hlt, if_false]
          exact (ih xs (y :: ys)).cons x

theorem event_sort_perm (evs : List Event) : (event_sort evs).Perm evs :=
  List.perm_insertionSort _ evs

theorem paste_highest_note_fold (l : List Event) :
    ∀ init : Int,
      init ≤ l.foldl (fun (h : Int) e =>
          if (e.get_note : Int) > h then (e.get_note : Int) else h) init ∧
      (∀ e ∈ l, (e.get_note : Int) ≤ l.foldl (fun (h : Int) e =>
          if (e.get_note : Int) > h then (e.get_note : Int) else h) init) ∧
      (l.foldl (fun (h : Int) e =>
          if (e.get_note : Int) > h then (e.get_note : Int) else h) init = init ∨
        ∃ e ∈ l, (e.get_note : Int) = l.foldl (fun (h : Int) e =>
          if (e.get_note : Int) > h then (e.get_note : Int) else h) init) := by
  induction l with
  | nil => intro init; simp
  | cons x l ih =>
    intro init
    rw [List.foldl_cons]
    obtain ⟨h1, h2, h3⟩ := ih (if (x.get_note : Int) > init then (x.get_note : Int) else init)
    have hstep : init ≤ (if (x.get_note : Int) > init then (x.get_note : Int) else init) ∧
        (x.get_note : Int) ≤ (if (x.get_note : Int) > init then (x.get_note : Int) else init) := by
      split <;> omega
    refine ⟨le_trans hstep.1 h1, ?_, ?_⟩
    · intro e he
      rcases List.mem_cons.mp he with rfl | he
      · exact le_trans hstep.2 h1
      · exact h2 e he
    · rcases h3 with h3 | ⟨e, he, h3⟩
      · by_cases hx : (x.get_note : Int) > init
        · right
          refine ⟨x, List.mem_cons_self _ _, ?_⟩
          rw [h3, if_pos hx]
        · left
          rw [h3, if_neg hx]
      · exact Or.inr ⟨e, List.mem_cons_of_mem _ he, h3⟩

/-- C7: when the selection is non-empty and made of note-on and note-off
events, with `e0` the first selected event in store order and `h` the highest
selected pitch, and every selected pitch moved by `note - h` stays in
`0..127`, then `copy_selected` followed by `paste_selected(tick, note)` leaves
in the store, before relinking, the events it held - timestamps and data
untouched - and exactly one copy of every selected event, moved by
`tick - e0.timestamp` in time and by `note - h` in pitch. -/
theorem copy_paste_round_trip (s : Sequence) (tick note : Int) (e0 : Event)
    (rest : List Event) (h : Nat)
    (hsel : s.events.filter (fun e => e.selected) = e0 :: rest)
    (hnotes : ∀ e ∈ e0 :: rest, e.is_note_on = true ∨ e.is_note_off = true)
    (hmax : (∀ e ∈ e0 :: rest, e.d0 ≤ h) ∧ ∃ e ∈ e0 :: rest, e.d0 = h)
    (hkeys : ∀ e ∈ e0 :: rest,
      0 ≤ (e.d0 : Int) + (note - h) ∧ (e.d0 : Int) + (note - h) ≤ 127) :
    ∃ clip res, copy_selected s = some clip ∧
      paste_selected_merge s clip tick note = some res ∧
      res.Perm (s.events ++
        (e0 :: rest).map (fun e => shifted_copy e (tick - e0.timestamp) (note - h))) := by
  -- the clipboard after the copy
  have hclip : copy_selected s =
      some ((e0 :: rest).map (fun e => e.set_timestamp (e.timestamp - e0.timestamp))) := by
    simp only [copy_selected, hsel]
  -- the first event of the pasted clipboard is a note
  have hfirst : (((e0.set_timestamp (e0.timestamp - e0.timestamp)).set_timestamp
        ((e0.set_timestamp (e0.timestamp - e0.timestamp)).timestamp + tick)).is_note_on
      || ((e0.set_timestamp (e0.timestamp - e0.timestamp)).set_timestamp
        ((e0.set_timestamp (e0.timestamp - e0.timestamp)).timestamp + tick)).is_note_off)
      = true := by
    have := hnotes e0 (List.mem_cons_self _ _)
    simpa [Event.is_note_on, Event.is_note_off, Event.set_timestamp] using this
  -- the highest note found by the loop is `h`
  have hhigh : paste_highest_note
      (((e0 :: rest).map (fun e => e.set_timestamp (e.timestamp - e0.timestamp))).map
        (fun e => e.set_timestamp (e.timestamp + tick))) = (h : Int) := by
    obtain ⟨_, h2, h3⟩ := paste_highest_note_fold
      (((e0 :: rest).map (fun e => e.set_timestamp (e.timestamp - e0.timestamp))).map
        (fun e => e.set_timestamp (e.timestamp + tick))) 0
    unfold paste_highest_note
    obtain ⟨em, hem, hemh⟩ := hmax.2
    have hge : (em.d0 : Int) ≤ _ :=
      h2 ((em.set_timestamp (em.timestamp - e0.timestamp)).set_timestamp
        ((em.set_timestamp (em.timestamp - e0.timestamp)).timestamp + tick))
      (List.mem_map.mpr ⟨_, List.mem_map.mpr ⟨em, hem, rfl⟩, rfl⟩)
    rw [hemh] at hge
    rcases h3 with h3 | ⟨e, he, h3⟩
    · rw [h3] at hge ⊢
      omega
    · obtain ⟨e1, he1, rfl⟩ := List.mem_map.mp he
      obtain ⟨e2, he2, rfl⟩ := List.mem_map.mp he1
      have hle : e2.d0 ≤ h := hmax.1 e2 he2
      have h3' : (e2.d0 : Int) = _ := h3
      rw [← h3'] at hge ⊢
      omega
  -- the pasted events are the shifted copies
  have hcopies : (((e0 :: rest).map
        (fun e => e.set_timestamp (e.timestamp - e0.timestamp))).map
        (fun e => e.set_timestamp (e.timestamp + tick))).map
        (fun e => e.set_note ((e.get_note : Int) - ((h : Int) - note)))
      = (e0 :: rest).map (fun e => shifted_copy e (tick - e0.timestamp) (note - h)) := by
    rw [List.map_map, List.map_map]
    apply List.map_congr_left
    intro e he
    have hk := hkeys e he
    have hmb : midibyte ((e.d0 : Int) - ((h : Int) - note))
        = ((e.d0 : Int) + (note - h)).toNat := by
      unfold midibyte
      congr 1
      omega
    simp only [Function.comp, Event.set_timestamp, Event.set_note, Event.get_note,
      shifted_copy, hmb]
    congr 1
    ring
  have hpaste : paste_selected_merge s
        ((e0 :: rest).map (fun e => e.set_timestamp (e.timestamp - e0.timestamp))) tick note
      = some (event_sort (event_list_merge s.events
          ((e0 :: rest).map (fun e => shifted_copy e (tick - e0.timestamp) (note - h)))
          false)) := by
    rw [← hcopies, ← hhigh]
    simp only [paste_selected_merge, List.map_cons]
    rw [if_pos hfirst]
  exact ⟨_, _, hclip, hpaste, (event_sort_perm _).trans (merge_loop_perm _ _ _)⟩

/-! ## Quantizing: the loop -/

theorem select_of_selected (e : Event) (h : e.selected = true) : e.select = e := by
  cases e
  simp only [Event.select] at h ⊢
  simp [h]

theorem quantize_inv_set (store0 store : List Event) (i : Nat) (er : Event)
    (hinv : quantize_inv store0 store) (hi : store[i]? = some er) :
    quantize_inv store0 (store.set i er.select) := by
  refine ⟨by rw [List.length_set]; exact hinv.1, ?_⟩
  intro j e0 hj
  obtain ⟨e, he, hcore, hsel⟩ := hinv.2 j e0 hj
  by_cases hij : i = j
  · subst hij
    have hlt : i < store.length := by
      rcases List.getElem?_eq_some_iff.mp hi with ⟨h, _⟩
      exact h
    rw [hi] at he
    have hee : er = e := Option.some.inj he
    subst hee
    refine ⟨er.select, ?_, ?_, fun _ => rfl⟩
    · rw [List.getElem?_set_self hlt]
    · rw [← hcore]; rfl
  · refine ⟨e, ?_, hcore, hsel⟩
    rw [List.getElem?_set_ne hij]
    exact he

/-- The loop of `quantize_events` over the positions `is` of a store whose
links point inside it: it runs to its end, and every picked event that was
selected when the loop began has its quantized copy in `quantized_events`. -/
theorem quantize_fold (store0 : List Event) (status cc : Nat) (snap divide length : Int)
    (linked : Bool) (hsnap : snap ≠ 0) (hdiv : divide ≠ 0)
    (hlinks : ∀ (j : Nat) (e0 : Event) (k : Nat),
      store0[j]? = some e0 → e0.linked = some k → k < store0.length) :
    ∀ (is : List Nat) (store q : List Event), quantize_inv store0 store →
      (∀ i ∈ is, i < store0.length) →
      ∃ store1 q1,
        is.foldlM (quantize_step status cc snap divide length linked) (store, q)
          = some (store1, q1) ∧
        quantize_inv store0 store1 ∧ (∀ e ∈ q, e ∈ q1) ∧
        ∀ i ∈ is, ∀ e0, store0[i]? = some e0 → e0.selected = true →
          quantize_canselect e0 status cc = true →
          quantize_copy e0 snap divide length ∈ q1 := by
  intro is
  induction is with
  | nil =>
    intro store q hinv _
    exact ⟨store, q, rfl, hinv, fun e he => he, fun i hi => absurd hi (List.not_mem_nil i)⟩
  | cons i is ih =>
    intro store q hinv hlt
    have hi : i < store0.length := hlt i (List.mem_cons_self _ _)
    have his : ∀ k ∈ is, k < store0.length := fun k hk => hlt k (List.mem_cons_of_mem _ hk)
    obtain ⟨er, her, hcore, hsel⟩ := hinv.2 i store0[i] (List.getElem?_eq_getElem hi)
    -- one step
    have hstep : ∃ store1 q1,
        quantize_step status cc snap divide length linked (store, q) i = some (store1, q1) ∧
        quantize_inv store0 store1 ∧ (∀ e ∈ q, e ∈ q1) ∧
        (store0[i].selected = true → quantize_canselect store0[i] status cc = true →
          quantize_copy store0[i] snap divide length ∈ q1) := by
      by_cases hcan : quantize_canselect er status cc = true
      · have hcopy : store0[i].selected = true →
            quantize_copy store0[i] snap divide length = quantize_copy er snap divide length := by
          intro h0
          have h1 := hsel h0
          have : er = store0[i] := by
            rw [← select_of_selected er h1, ← select_of_selected store0[i] h0]
            exact hcore
          rw [this]
        have hinv1 := quantize_inv_set store0 store i er hinv her
        by_cases hl : (er.is_linked && linked) = true
        · -- the partner is copied too
          obtain ⟨k, hk⟩ : ∃ k, er.linked = some k := by
            have : er.is_linked = true := by
              simp only [Bool.and_eq_true] at hl; exact hl.1
            exact Option.isSome_iff_exists.mp this
          have hk0 : store0[i].linked = some k := by
            have := congrArg Event.linked hcore
            simp only [Event.select] at this
            rw [← this]; exact hk
          have hklt : k < store0.length :=
            hlinks i store0[i] k (List.getElem?_eq_getElem hi) hk0
          obtain ⟨partner, hpartner, _, _⟩ :=
            hinv1.2 k store0[k] (List.getElem?_eq_getElem hklt)
          refine ⟨(store.set i er.select).set k partner.select,
            (partner.unmark.set_timestamp (partner.unmark.timestamp +
              quantize_delta er.unmark.timestamp snap divide length)) ::
              quantize_copy er snap divide length :: q, ?_, ?_, ?_, ?_⟩
          · simp only [quantize_step, her, hcan, if_true, hl, hk, hpartner, hsnap, hdiv,
              or_self, if_false]
            rfl
          · exact quantize_inv_set store0 _ k partner hinv1 hpartner
          · intro e he
            exact List.mem_cons_of_mem _ (List.mem_cons_of_mem _ he)
          · intro h0 _
            rw [hcopy h0]
            exact List.mem_cons_of_mem _ (List.mem_cons_self _ _)
        · refine ⟨store.set i er.select, quantize_copy er snap divide length :: q,
            ?_, hinv1, ?_, ?_⟩
          · simp only [quantize_step, her, hcan, if_true, hl, hsnap, hdiv, or_self, if_false]
            rfl
          · intro e he
            exact List.mem_cons_of_mem _ he
          · intro h0 _
            rw [hcopy h0]
            exact List.mem_cons_self _ _
      · refine ⟨store, q, ?_, hinv, fun e he => he, ?_⟩
        · simp only [quantize_step, her, hcan]
          rfl
        · intro h0 hcan0
          have h1 := hsel h0
          have : er = store0[i] := by
            rw [← select_of_selected er h1, ← select_of_selected store0[i] h0]
            exact hcore
          rw [this] at hcan
          exact absurd hcan0 hcan
    obtain ⟨store1, q1, hs1, hinv1, hq1, hc1⟩ := hstep
    obtain ⟨store2, q2, hs2, hinv2, hq2, hc2⟩ := ih store1 q1 hinv1 his
    refine ⟨store2, q2, ?_, hinv2, fun e he => hq2 e (hq1 e he), ?_⟩
    · rw [List.foldlM_cons, hs1]
      exact hs2
    · intro j hj e0 he0 hsel0 hcan0
      rcases List.mem_cons.mp hj with rfl | hj
      · have hee : store0[j] = e0 := by
          rw [List.getElem?_eq_getElem hi] at he0
          exact Option.some.inj he0
        rw [← hee] at hsel0 hcan0 ⊢
        exact hq2 _ (hc1 hsel0 hcan0)
      · exact hc2 j hj e0 he0 hsel0 hcan0

theorem quantize_delta_eq (ts snap divide length : Int) (hts : 0 ≤ ts) (hsnap : 0 < snap)
    (hdiv : 0 < divide) :
    quantize_delta ts snap divide length =
      if spec_quantize_shift ts snap divide + ts ≥ length then - ts
      else spec_quantize_shift ts snap divide := by
  have hr0 : 0 ≤ ts % snap := Int.emod_nonneg ts (ne_of_gt hsnap)
  have hrlt : ts % snap < snap := Int.emod_lt_of_pos ts hsnap
  have e1 : Int.tmod ts snap = ts % snap := Int.tmod_eq_emod hts (le_of_lt hsnap)
  have e2 : Int.tdiv snap 2 = snap / 2 := Int.tdiv_eq_ediv (le_of_lt hsnap) (by decide)
  have e3 : Int.tdiv (ts % snap) divide = ts % snap / divide :=
    Int.tdiv_eq_ediv hr0 (le_of_lt hdiv)
  have e4 : Int.tdiv (snap - ts % snap) divide = (snap - ts % snap) / divide :=
    Int.tdiv_eq_ediv (by omega) (le_of_lt hdiv)
  unfold quantize_delta spec_quantize_shift
  simp only [e1, e2, e3, e4]

theorem spec_quantize_shift_ge (ts snap divide : Int) (hts : 0 ≤ ts) (hsnap : 0 < snap)
    (hdiv : 0 < divide) : 0 ≤ ts + spec_quantize_shift ts snap divide := by
  have hr0 : 0 ≤ ts % snap := Int.emod_nonneg ts (ne_of_gt hsnap)
  have hrlt : ts % snap < snap := Int.emod_lt_of_pos ts hsnap
  have hq : 0 ≤ ts / snap := Int.ediv_nonneg hts (le_of_lt hsnap)
  have hmul : 0 ≤ snap * (ts / snap) := mul_nonneg (le_of_lt hsnap) hq
  have hdm : snap * (ts / snap) + ts % snap = ts := Int.ediv_add_emod ts snap
  have hle : ts % snap / divide ≤ ts % snap := Int.ediv_le_self _ hr0
  have hge : 0 ≤ (snap - ts % snap) / divide := Int.ediv_nonneg (by omega) (le_of_lt hdiv)
  unfold spec_quantize_shift
  split <;> omega

theorem quantize_canselect_mark (er : Event) (status cc : Nat) (hstatus : er.status = status)
    (hcc : status = EVENT_CONTROL_CHANGE → er.d0 = cc) :
    quantize_canselect er.mark status cc = true := by
  unfold quantize_canselect
  by_cases h : status = EVENT_CONTROL_CHANGE
  · simp [Event.mark, hstatus, h, hcc h]
  · simp [Event.mark, hstatus, h]

/-- The first part of `quantize_events` on a store whose links point inside
it: it runs to its end, and for every selected event `er` it picks, the copy
of `er`, unmarked and moved by `quantize_delta`, is in `quantized_events`. -/
theorem quantize_scan_copy (evs : List Event) (status cc : Nat)
    (snap divide length : Int) (linked : Bool) (i : Nat) (er : Event)
    (hsnap : snap ≠ 0) (hdiv : divide ≠ 0)
    (hlinks : ∀ e ∈ evs, ∀ k, e.linked = some k → k < evs.length)
    (hi : evs[i]? = some er) (hsel : er.selected = true) (hstatus : er.status = status)
    (hcc : status = EVENT_CONTROL_CHANGE → er.d0 = cc) :
    ∃ st, quantize_scan evs status cc snap divide length linked = some st ∧
      { er with marked := false,
                timestamp := er.timestamp + quantize_delta er.timestamp snap divide length }
        ∈ st.2 := by
  have hlen : (mark_selected evs).length = evs.length := by simp [mark_selected]
  have hget : ∀ (j : Nat) (e0 : Event), (mark_selected evs)[j]? = some e0 →
      ∃ e, evs[j]? = some e ∧ e0 = (if e.selected then e.mark else e) := by
    intro j e0 h
    simp only [mark_selected, List.getElem?_map, Option.map_eq_some'] at h
    obtain ⟨e, he, hee⟩ := h
    exact ⟨e, he, hee.symm⟩
  have hlinks' : ∀ (j : Nat) (e0 : Event) (k : Nat), (mark_selected evs)[j]? = some e0 →
      e0.linked = some k → k < (mark_selected evs).length := by
    intro j e0 k h hk
    obtain ⟨e, he, rfl⟩ := hget j e0 h
    have hmem : e ∈ evs := by
      obtain ⟨hj, hje⟩ := List.getElem?_eq_some_iff.mp he
      rw [← hje]
      exact List.getElem_mem hj
    rw [hlen]
    apply hlinks e hmem k
    by_cases hs : e.selected = true
    · simpa [hs, Event.mark] using hk
    · simpa [hs] using hk
  have hilt : i < evs.length := (List.getElem?_eq_some_iff.mp hi).1
  obtain ⟨store1, q1, hrun, _, _, hcopy⟩ := quantize_fold (mark_selected evs) status cc snap
    divide length linked hsnap hdiv hlinks' (List.range evs.length) (mark_selected evs) []
    ⟨rfl, fun j e0 h => ⟨e0, h, rfl, id⟩⟩
    (fun j hj => by rw [hlen]; exact List.mem_range.mp hj)
  refine ⟨(store1, q1), hrun, ?_⟩
  have hmark : (mark_selected evs)[i]? = some er.mark := by
    simp only [mark_selected, List.getElem?_map, hi, Option.map_some', hsel, if_true]
  exact hcopy i (List.mem_range.mpr hilt) er.mark hmark hsel
    (quantize_canselect_mark er status cc hstatus hcc)

/-! ## Quantizing: the claims -/

/-- C8: for a selected event `er` of the requested status (and controller,
for a control change) with timestamp `ts >= 0`, and `snap > 0`, `divide > 0`:
with `r = ts mod snap`, the quantized copy is `er` moved earlier by
`r / divide` when `r < snap / 2` and later by `(snap - r) / divide` otherwise,
unless that would reach or pass the pattern length. -/
theorem quantize_events_shift (evs : List Event) (status cc : Nat)
    (snap divide length : Int) (linked : Bool) (i : Nat) (er : Event)
    (hlinks : ∀ e ∈ evs, ∀ k, e.linked = some k → k < evs.length)
    (hi : evs[i]? = some er) (hsel : er.selected = true) (hstatus : er.status = status)
    (hcc : status = EVENT_CONTROL_CHANGE → er.d0 = cc)
    (hts : 0 ≤ er.timestamp) (hsnap : 0 < snap) (hdiv : 0 < divide) :
    ∃ st, quantize_scan evs status cc snap divide length linked = some st ∧
      (er.timestamp % snap < snap / 2 →
        er.timestamp - er.timestamp % snap / divide < length →
        { er with marked := false,
                  timestamp := er.timestamp - er.timestamp % snap / divide } ∈ st.2) ∧
      (¬ er.timestamp % snap < snap / 2 →
        er.timestamp + (snap - er.timestamp % snap) / divide < length →
        { er with marked := false,
                  timestamp := er.timestamp + (snap - er.timestamp % snap) / divide }
          ∈ st.2) := by
  obtain ⟨st, hrun, hmem⟩ := quantize_scan_copy evs status cc snap divide length linked i er
    (ne_of_gt hsnap) (ne_of_gt hdiv) hlinks hi hsel hstatus hcc
  rw [quantize_delta_eq er.timestamp snap divide length hts hsnap hdiv] at hmem
  refine ⟨st, hrun, ?_, ?_⟩
  · intro hr hlt
    have hshift : spec_quantize_shift er.timestamp snap divide
        = - (er.timestamp % snap / divide) := by
      unfold spec_quantize_shift; rw [if_pos hr]
    rw [hshift, if_neg (by omega)] at hmem
    have : er.timestamp + - (er.timestamp % snap / divide)
        = er.timestamp - er.timestamp % snap / divide := by ring
    rw [this] at hmem
    exact hmem
  · intro hr hlt
    have hshift : spec_quantize_shift er.timestamp snap divide
        = (snap - er.timestamp % snap) / divide := by
      unfold spec_quantize_shift; rw [if_neg hr]
    rw [hshift, if_neg (by omega)] at hmem
    exact hmem

/-- C9: for a selected event `er` of the requested status with timestamp
`ts >= 0` (`snap > 0`, `divide > 0`, `length > 0`), the quantized copy of `er`
has its timestamp in `[0, length)`; when `ts` plus the shift would reach or
pass the pattern length, the copy is placed at timestamp 0. -/
theorem quantize_events_clamp (evs : List Event) (status cc : Nat)
    (snap divide length : Int) (linked : Bool) (i : Nat) (er : Event)
    (hlinks : ∀ e ∈ evs, ∀ k, e.linked = some k → k < evs.length)
    (hi : evs[i]? = some er) (hsel : er.selected = true) (hstatus : er.status = status)
    (hcc : status = EVENT_CONTROL_CHANGE → er.d0 = cc)
    (hts : 0 ≤ er.timestamp) (hsnap : 0 < snap) (hdiv : 0 < divide) (hlen : 0 < length) :
    ∃ st, quantize_scan evs status cc snap divide length linked = some st ∧
      ∃ t : Int, { er with marked := false, timestamp := t } ∈ st.2 ∧
        0 ≤ t ∧ t < length ∧
        (er.timestamp + spec_quantize_shift er.timestamp snap divide ≥ length → t = 0) := by
  obtain ⟨st, hrun, hmem⟩ := quantize_scan_copy evs status cc snap divide length linked i er
    (ne_of_gt hsnap) (ne_of_gt hdiv) hlinks hi hsel hstatus hcc
  rw [quantize_delta_eq er.timestamp snap divide length hts hsnap hdiv] at hmem
  have hge := spec_quantize_shift_ge er.timestamp snap divide hts hsnap hdiv
  refine ⟨st, hrun, _, hmem, ?_, ?_, ?_⟩
  · split <;> omega
  · split <;> omega
  · intro h
    rw [if_pos (by omega)]
    omega

theorem edit_seq_links :
    ∀ e ∈ edit_seq.events, ∀ k, e.linked = some k → k < edit_seq.events.length := by
  intro e he k hk
  have hnone : e.linked = none := by
    have hmem : e ∈ [key_72, sel_on, sel_off] := he
    simp only [List.mem_cons, List.mem_singleton, List.not_mem_nil, or_false] at hmem
    rcases hmem with rfl | rfl | rfl <;> rfl
  rw [hnone] at hk
  exact absurd hk (by simp)

theorem copy_paste_round_trip_witness :
    edit_seq.events.filter (fun e => e.selected) = sel_on :: [sel_off] ∧
    (∀ e ∈ sel_on :: [sel_off], e.is_note_on = true ∨ e.is_note_off = true) ∧
    ((∀ e ∈ sel_on :: [sel_off], e.d0 ≤ 60) ∧ ∃ e ∈ sel_on :: [sel_off], e.d0 = 60) ∧
    (∀ e ∈ sel_on :: [sel_off],
      0 ≤ (e.d0 : Int) + (62 - (60 : Nat)) ∧ (e.d0 : Int) + (62 - (60 : Nat)) ≤ 127) ∧
    ∃ clip res, copy_selected edit_seq = some clip ∧
      paste_selected_merge edit_seq clip 100 62 = some res ∧
      res.Perm (edit_seq.events ++
        (sel_on :: [sel_off]).map
          (fun e => shifted_copy e (100 - sel_on.timestamp) (62 - (60 : Nat)))) :=
  ⟨by decide, by decide, ⟨by decide, by decide⟩, by decide,
    copy_paste_round_trip edit_seq 100 62 sel_on [sel_off] 60 (by decide) (by decide)
      ⟨by decide, by decide⟩ (by decide)⟩

theorem quantize_events_shift_witness :
    edit_seq.events[1]? = some sel_on ∧ sel_on.selected = true ∧
    sel_on.status = EVENT_NOTE_ON ∧ 0 ≤ sel_on.timestamp ∧ (0 : Int) < 48 ∧ (0 : Int) < 1 ∧
    ∃ st, quantize_scan edit_seq.events EVENT_NOTE_ON 0 48 1 768 false = some st ∧
      (sel_on.timestamp % 48 < 48 / 2 →
        sel_on.timestamp - sel_on.timestamp % 48 / 1 < 768 →
        { sel_on with marked := false,
                      timestamp := sel_on.timestamp - sel_on.timestamp % 48 / 1 } ∈ st.2) ∧
      (¬ sel_on.timestamp % 48 < 48 / 2 →
        sel_on.timestamp + (48 - sel_on.timestamp % 48) / 1 < 768 →
        { sel_on with marked := false,
                      timestamp := sel_on.timestamp + (48 - sel_on.timestamp % 48) / 1 }
          ∈ st.2) :=
  ⟨rfl, rfl, rfl, by decide, by decide, by decide,
    quantize_events_shift edit_seq.events EVENT_NOTE_ON 0 48 1 768 false 1 sel_on
      edit_seq_links rfl rfl rfl (fun h => absurd h (by decide)) (by decide) (by decide)
      (by decide)⟩

theorem quantize_events_clamp_witness :
    edit_seq.events[2]? = some sel_off ∧ sel_off.selected = true ∧
    sel_off.status = EVENT_NOTE_OFF ∧ 0 ≤ sel_off.timestamp ∧
    (0 : Int) < 48 ∧ (0 : Int) < 1 ∧ (0 : Int) < 40 ∧
    ∃ st, quantize_scan edit_seq.events EVENT_NOTE_OFF 0 48 1 40 false = some st ∧
      ∃ t : Int, { sel_off with marked := false, timestamp := t } ∈ st.2 ∧
        0 ≤ t ∧ t < 40 ∧
        (sel_off.timestamp + spec_quantize_shift sel_off.timestamp 48 1 ≥ 40 → t = 0) :=
  ⟨rfl, rfl, rfl, by decide, by decide, by decide, by decide,
    quantize_events_clamp edit_seq.events EVENT_NOTE_OFF 0 48 1 40 false 2 sel_off
      edit_seq_links rfl rfl rfl (fun h => absurd h (by decide)) (by decide) (by decide)
      (by decide) (by decide)⟩

/-! ## Moving notes -/

/-- C10 fails as stated: with pattern length 768 the selected note-on at tick
10 moved by `delta_tick = 2304` is replaced by a note-on at tick 1546, outside
`[0, 768]`: the move wraps by one pattern length only, and no edge rule is
involved. -/
theorem move_selected_notes_far_delta :
    sel_on ∈ edit_seq.events ∧ sel_on.selected = true ∧
    (0 ≤ sel_on.timestamp ∧ sel_on.timestamp ≤ edit_seq.length) ∧
    move_selected_added edit_seq.events 2304 0 edit_seq.length
      = [{ sel_on with timestamp := 1546 }, { sel_off with timestamp := 1586 }] ∧
    ¬ ((1546 : Int) ≤ edit_seq.length) := by
  refine ⟨by decide, rfl, by decide, by decide, by decide⟩

theorem move_timestamp_edge (t d L : Int) (noteon : Bool) :
    move_timestamp t d L noteon =
      if move_wrap t d L = 0 ∧ noteon = false then L - 2
      else if move_wrap t d L = L ∧ noteon = true then 0 else move_wrap t d L := by
  unfold move_timestamp move_wrap
  simp only
  generalize (if (if t + d > L then t + d - L else t + d) < 0
    then (if t + d > L then t + d - L else t + d) + L
    else (if t + d > L then t + d - L else t + d)) = w
  cases noteon <;> by_cases hz : w = 0 <;> simp [hz]

theorem move_wrap_range (t d L : Int) (ht : 0 ≤ t ∧ t ≤ L)
    (hd : - L ≤ d ∧ d ≤ L) :
    0 ≤ move_wrap t d L ∧ move_wrap t d L ≤ L ∧ (move_wrap t d L - (t + d)) % L = 0 := by
  have hcases : move_wrap t d L = t + d - L ∨ move_wrap t d L = t + d + L ∨
      move_wrap t d L = t + d := by
    unfold move_wrap
    simp only
    split <;> split <;> omega
  have hrange : 0 ≤ move_wrap t d L ∧ move_wrap t d L ≤ L := by
    unfold move_wrap
    simp only
    split <;> split <;> omega
  refine ⟨hrange.1, hrange.2, ?_⟩
  rcases hcases with h | h | h
  · have : move_wrap t d L - (t + d) = L * (-1) := by rw [h]; ring
    rw [this, Int.mul_emod_right]
  · have : move_wrap t d L - (t + d) = L * 1 := by rw [h]; ring
    rw [this, Int.mul_emod_right]
  · rw [h, sub_self]; rfl

/-- C10, amended: for a selected event with timestamp `t` in `[0, length]`
whose new pitch is on the keyboard, and
`-length <= delta_tick <= length`: `move_selected_notes` adds the replacement
of the event (selected, unmarked, new pitch) at a timestamp that is the tick
`w = move_wrap t delta_tick length`, which lies in `[0, length]` and is
congruent to `t + delta_tick` modulo `length`, the two edge rules aside: a
note-off with `w = 0` goes to `length - 2`, and a note-on with `w = length`
goes to 0. -/
theorem move_selected_notes_wraps (evs : List Event) (delta_tick delta_note length : Int)
    (er : Event) (her : er ∈ evs) (hsel : er.selected = true)
    (hnote : 0 ≤ (er.d0 : Int) + delta_note ∧ (er.d0 : Int) + delta_note < c_num_keys)
    (ht : 0 ≤ er.timestamp ∧ er.timestamp ≤ length)
    (hd : - length ≤ delta_tick ∧ delta_tick ≤ length) :
    0 ≤ move_wrap er.timestamp delta_tick length ∧
    move_wrap er.timestamp delta_tick length ≤ length ∧
    (move_wrap er.timestamp delta_tick length - (er.timestamp + delta_tick)) % length = 0 ∧
    { er with
      marked := false, selected := true,
      d0 := ((er.d0 : Int) + delta_note).toNat,
      timestamp :=
        if move_wrap er.timestamp delta_tick length = 0 ∧ er.is_note_on = false
          then length - 2
        else if move_wrap er.timestamp delta_tick length = length ∧ er.is_note_on = true
          then 0
        else move_wrap er.timestamp delta_tick length }
      ∈ move_selected_added evs delta_tick delta_note length := by
  have hkeys : (er.d0 : Int) + delta_note < 128 := hnote.2
  have hmb : midibyte ((midibyte ((er.d0 : Int) + delta_note) : Nat) : Int)
      = ((er.d0 : Int) + delta_note).toNat := by
    unfold midibyte
    omega
  have hmark : er.mark ∈ mark_selected evs := by
    unfold mark_selected
    exact List.mem_map.mpr ⟨er, her, by simp [hsel]⟩
  have hrep : move_replacement er.mark delta_tick delta_note length =
      some { er with
        marked := false, selected := true,
        d0 := ((er.d0 : Int) + delta_note).toNat,
        timestamp := move_timestamp er.timestamp delta_tick length er.is_note_on } := by
    have hn : ((er.mark.unmark.get_note : Nat) : Int) + delta_note ≥ 0 ∧
        ((er.mark.unmark.get_note : Nat) : Int) + delta_note < c_num_keys := hnote
    have hm : er.mark.marked = true := rfl
    unfold move_replacement
    rw [if_pos hm]
    simp only [hn, and_self, if_true]
    simp only [Event.select, Event.set_note, Event.set_timestamp, Event.unmark, Event.mark,
      Event.get_note, Event.is_note_on, hmb]
  have hmem : { er with
        marked := false, selected := true,
        d0 := ((er.d0 : Int) + delta_note).toNat,
        timestamp := move_timestamp er.timestamp delta_tick length er.is_note_on }
      ∈ move_selected_added evs delta_tick delta_note length :=
    List.mem_filterMap.mpr ⟨er.mark, hmark, hrep⟩
  obtain ⟨h1, h2, h3⟩ := move_wrap_range er.timestamp delta_tick length ht hd
  rw [move_timestamp_edge] at hmem
  exact ⟨h1, h2, h3, hmem⟩

theorem move_selected_notes_wraps_witness :
    sel_off ∈ edit_seq.events ∧ sel_off.selected = true ∧
    (0 ≤ (sel_off.d0 : Int) + 0 ∧ (sel_off.d0 : Int) + 0 < c_num_keys) ∧
    (0 ≤ sel_off.timestamp ∧ sel_off.timestamp ≤ 768) ∧
    (- (768 : Int) ≤ -50 ∧ (-50 : Int) ≤ 768) ∧
    (0 ≤ move_wrap sel_off.timestamp (-50) 768 ∧
      move_wrap sel_off.timestamp (-50) 768 ≤ 768 ∧
      (move_wrap sel_off.timestamp (-50) 768 - (sel_off.timestamp + -50)) % 768 = 0 ∧
      { sel_off with
        marked := false, selected := true,
        d0 := ((sel_off.d0 : Int) + 0).toNat,
        timestamp :=
          if move_wrap sel_off.timestamp (-50) 768 = 0 ∧ sel_off.is_note_on = false
            then 768 - 2
          else if move_wrap sel_off.timestamp (-50) 768 = 768 ∧ sel_off.is_note_on = true
            then 0
          else move_wrap sel_off.timestamp (-50) 768 }
        ∈ move_selected_added edit_seq.events (-50) 0 768) ∧
    move_selected_added edit_seq.events (-50) 0 768
      = [{ sel_on with timestamp := 728 }, { sel_off with timestamp := 766 }] :=
  ⟨by decide, rfl, by decide, by decide, by decide,
    move_selected_notes_wraps edit_seq.events (-50) 0 768 sel_off (by decide) rfl
      (by decide) (by decide) (by decide),
    by decide⟩

/-! ## The trigger offset -/

theorem tmod_bounds (x L : Int) (hL : 0 < L) : - L < Int.tmod x L ∧ Int.tmod x L < L := by
  refine ⟨?_, Int.tmod_lt_of_pos x hL⟩
  by_cases hx : 0 ≤ x
  · have := Int.tmod_nonneg L hx
    omega
  · have hneg : Int.tmod x L = - Int.tmod (-x) L := by
      rw [Int.tmod_def, Int.tmod_def, Int.neg_tdiv]
      ring
    have h1 := Int.tmod_lt_of_pos (-x) hL
    omega

/-- C20: for a pattern length `L > 0` and every integer `x`,
`set_trigger_offset(x)` stores the residue `x mod L`, a value in `[0, L)`;
for `L <= 0` it stores `x` itself. -/
theorem set_trigger_offset_residue (s : Sequence) (x : Int) :
    (0 < s.length →
      (set_trigger_offset s x).trigger_offset = x % s.length ∧
      0 ≤ (set_trigger_offset s x).trigger_offset ∧
      (set_trigger_offset s x).trigger_offset < s.length) ∧
    (s.length ≤ 0 → (set_trigger_offset s x).trigger_offset = x) := by
  constructor
  · intro hL
    have hb := tmod_bounds x s.length hL
    have hval : (set_trigger_offset s x).trigger_offset = x % s.length := by
      unfold set_trigger_offset
      rw [if_pos hL]
      show Int.tmod (Int.tmod x s.length + s.length) s.length = x % s.length
      rw [Int.tmod_eq_emod (by omega) (le_of_lt hL), Int.tmod_def]
      have : x - s.length * x.tdiv s.length + s.length
          = x + s.length * (1 - x.tdiv s.length) := by ring
      rw [this, Int.add_mul_emod_self_left]
    rw [hval]
    exact ⟨rfl, Int.emod_nonneg x (ne_of_gt hL), Int.emod_lt_of_pos x hL⟩
  · intro hL
    unfold set_trigger_offset
    rw [if_neg (by omega)]

theorem set_trigger_offset_residue_witness :
    (set_trigger_offset one_bar_seq (-5)).trigger_offset = 763 ∧
    (set_trigger_offset one_bar_seq (-5)).trigger_offset = (-5) % one_bar_seq.length :=
  ⟨by decide, ((set_trigger_offset_residue one_bar_seq (-5)).1 (by decide)).1⟩

/-! ## The note range -/

/-- C17, at the failing input: the store holds one note-on, of pitch 60, so
the maximum pitch over its note events is 60; `get_minmax_note_events` returns
`true` with `lowest = 60` and `highest = -1`. -/
theorem get_minmax_note_events_single_note :
    one_note_seq.events = [on_60] ∧ on_60.is_note_on = true ∧ on_60.get_note = 60 ∧
    get_minmax_note_events one_note_seq = (true, 60, -1) := by
  refine ⟨rfl, rfl, rfl, ?_⟩
  decide

/-- What `get_minmax_note_events` does get right: with no note event in the
store it returns `false`, 127 and -1. -/
theorem get_minmax_note_events_no_notes (s : Sequence)
    (h : ∀ e ∈ s.events, (e.is_note_on || e.is_note_off) = false) :
    get_minmax_note_events s = (false, 127, -1) := by
  unfold get_minmax_note_events
  have key : ∀ (l : List Event) (acc : Bool × Int × Int),
      (∀ e ∈ l, (e.is_note_on || e.is_note_off) = false) →
      l.foldl (fun (acc : Bool × Int × Int) er =>
        if er.is_note_on || er.is_note_off then
          if (er.get_note : Int) < acc.2.1 then (true, (er.get_note : Int), acc.2.2)
          else if (er.get_note : Int) > acc.2.2 then (true, acc.2.1, (er.get_note : Int))
          else acc
        else acc) acc = acc := by
    intro l
    induction l with
    | nil => intro acc _; rfl
    | cons e l ih =>
      intro acc hl
      rw [List.foldl_cons, hl e (List.mem_cons_self _ _)]
      exact ih acc (fun e he => hl e (List.mem_cons_of_mem _ he))
  rw [key s.events _ h]
  rfl

/-! ## Looking up the note under a position -/

/-- C18, at the failing input: the store holds a note-on of pitch 60 at tick
0 whose next note-off of pitch 60 is at tick 100, with a note-on of pitch 62
in between; for position 50 and pitch 60 the specification finds that note,
and `intersect_notes` returns `false`. -/
theorem intersect_notes_misses_note :
    chord_seq.events = [on_60, on_62, off_60, off_62] ∧
    spec_intersect_notes 50 60 chord_seq.events = some (0, 100, 60) ∧
    intersect_notes chord_seq 50 60 = some none := by
  refine ⟨rfl, ?_, ?_⟩ <;> decide

/-! ## Changing event data -/

/-- With `tick_s < tick_f` the loop of `change_event_data_range` never moves
`tick_f`, and it is a map over the store. -/
theorem change_event_fold (tick_s tick_f : Int) (status cc : Nat) (data_s data_f : Int)
    (hs : Bool) (hlt : tick_s < tick_f) :
    ∀ (l acc : List Event) (r : Bool),
      l.foldl (change_event_step tick_s status cc data_s data_f hs) (acc, tick_f, r) =
        ((l.map (fun er =>
            if change_event_good er tick_s tick_f status cc hs then
              er.set_data
                (if is_one_byte_msg status then
                  change_event_newdata er.timestamp tick_s tick_f data_s data_f
                 else (er.d0 : Int))
                (if is_one_byte_msg status then (er.d1 : Int)
                 else change_event_newdata er.timestamp tick_s tick_f data_s data_f)
            else er)).reverse ++ acc,
          tick_f,
          r || l.any (fun er => change_event_good er tick_s tick_f status cc hs)) := by
  intro l
  induction l with
  | nil => intro acc r; simp
  | cons e l ih =>
    intro acc r
    have hne : ¬ tick_f = tick_s := by omega
    rw [List.foldl_cons]
    by_cases hg : change_event_good e tick_s tick_f status cc hs = true
    · have hstep : change_event_step tick_s status cc data_s data_f hs (acc, tick_f, r) e =
          (e.set_data
            (if is_one_byte_msg status then
              change_event_newdata e.timestamp tick_s tick_f data_s data_f
             else (e.d0 : Int))
            (if is_one_byte_msg status then (e.d1 : Int)
             else change_event_newdata e.timestamp tick_s tick_f data_s data_f) :: acc,
           tick_f, true) := by
        simp only [change_event_step, hg, if_true, hne, if_false]
      rw [hstep, ih]
      simp [hg]
    · have hstep : change_event_step tick_s status cc data_s data_f hs (acc, tick_f, r) e =
          (e :: acc, tick_f, r) := by
        simp only [change_event_step, hg]
        rfl
      rw [hstep, ih]
      simp [hg]

theorem change_event_newdata_eq (t ts tf ds df : Int) :
    change_event_newdata t ts tf ds df
      = clamp_data (Int.tdiv ((t - ts) * df + (tf - t) * ds) (tf - ts)) := by
  unfold change_event_newdata clamp_data SEQ64_MIDI_COUNT_MAX
  simp only
  generalize Int.tdiv ((t - ts) * df + (tf - t) * ds) (tf - ts) = q
  by_cases h1 : q < 0
  · rw [if_pos h1, if_neg (by omega)]
    omega
  · rw [if_neg h1]
    by_cases h2 : q ≥ 128
    · rw [if_pos h2]; omega
    · rw [if_neg h2]; omega

/-- C19: for `tick_s < tick_f`, `change_event_data_range` leaves every event
it does not pick as it was, and gives every event it picks, at timestamp `t`,
the value `clamp(((t - tick_s) * data_f + (tick_f - t) * data_s) /
(tick_f - tick_s), 0, 127)` with truncating division, written to data byte 0
for a one-byte message and to data byte 1 otherwise, the other byte, the
status and the timestamp kept; the quotient before truncation is the linear
interpolation `data_s + (data_f - data_s) (t - tick_s) / (tick_f - tick_s)`, so
an event at `tick_s` gets `data_s` and one at `tick_f` gets `data_f`, clamped;
the call returns `true` exactly when it picked an event. -/
theorem change_event_data_range_interpolates (s : Sequence) (tick_s tick_f : Int)
    (status cc : Nat) (data_s data_f : Int) (hlt : tick_s < tick_f)
    (hbytes : ∀ e ∈ s.events, e.d0 < 256 ∧ e.d1 < 256) :
    (change_event_data_range s tick_s tick_f status cc data_s data_f).1.events =
      s.events.map (fun er =>
        if change_event_good er tick_s tick_f status cc
            (decide (count_selected_events s.events status cc ≠ 0)) then
          with_new_data er status
            (clamp_data (Int.tdiv
              ((er.timestamp - tick_s) * data_f + (tick_f - er.timestamp) * data_s)
              (tick_f - tick_s)))
        else er) ∧
    (change_event_data_range s tick_s tick_f status cc data_s data_f).2 =
      s.events.any (fun er => change_event_good er tick_s tick_f status cc
        (decide (count_selected_events s.events status cc ≠ 0))) ∧
    (∀ t : Int,
      (((t - tick_s) * data_f + (tick_f - t) * data_s : Int) : ℚ) / ((tick_f - tick_s : Int) : ℚ)
        = (data_s : ℚ) + ((data_f : ℚ) - data_s) * ((t : ℚ) - tick_s) / ((tick_f : ℚ) - tick_s)) ∧
    clamp_data (Int.tdiv ((tick_s - tick_s) * data_f + (tick_f - tick_s) * data_s)
      (tick_f - tick_s)) = clamp_data data_s ∧
    clamp_data (Int.tdiv ((tick_f - tick_s) * data_f + (tick_f - tick_f) * data_s)
      (tick_f - tick_s)) = clamp_data data_f := by
  have hne : tick_f - tick_s ≠ 0 := by omega
  refine ⟨?_, ?_, ?_, ?_, ?_⟩
  · unfold change_event_data_range
    simp only [change_event_fold tick_s tick_f status cc data_s data_f _ hlt,
      List.append_nil, List.reverse_reverse]
    apply List.map_congr_left
    intro er her
    by_cases hg : change_event_good er tick_s tick_f status cc
        (decide (count_selected_events s.events status cc ≠ 0)) = true
    · rw [if_pos hg, if_pos hg, change_event_newdata_eq]
      have hb := hbytes er her
      have hc : 0 ≤ clamp_data (Int.tdiv
          ((er.timestamp - tick_s) * data_f + (tick_f - er.timestamp) * data_s)
          (tick_f - tick_s)) ∧
          clamp_data (Int.tdiv
          ((er.timestamp - tick_s) * data_f + (tick_f - er.timestamp) * data_s)
          (tick_f - tick_s)) ≤ 127 := by
        unfold clamp_data; omega
      generalize clamp_data (Int.tdiv
          ((er.timestamp - tick_s) * data_f + (tick_f - er.timestamp) * data_s)
          (tick_f - tick_s)) = v at hc
      have hv : midibyte v = v.toNat := by unfold midibyte; omega
      have h0 : midibyte (er.d0 : Int) = er.d0 := by unfold midibyte; omega
      have h1 : midibyte (er.d1 : Int) = er.d1 := by unfold midibyte; omega
      unfold with_new_data Event.set_data
      by_cases hone : is_one_byte_msg status = true
      · simp only [hone, if_true, hv, h1]
      · simp only [hone, Bool.false_eq_true, if_false, hv, h0]
    · rw [if_neg hg, if_neg hg]
  · unfold change_event_data_range
    simp only [change_event_fold tick_s tick_f status cc data_s data_f _ hlt,
      Bool.false_or]
  · intro t
    have hq : ((tick_f : ℚ) - tick_s) ≠ 0 := by
      have : ((tick_f - tick_s : Int) : ℚ) ≠ 0 := by exact_mod_cast hne
      push_cast at this
      exact this
    push_cast
    field_simp
    ring
  · have : (tick_s - tick_s) * data_f + (tick_f - tick_s) * data_s
        = data_s * (tick_f - tick_s) := by ring
    rw [this, Int.mul_tdiv_cancel _ hne]
  · have : (tick_f - tick_s) * data_f + (tick_f - tick_f) * data_s
        = data_f * (tick_f - tick_s) := by ring
    rw [this, Int.mul_tdiv_cancel _ hne]

/-! ## Removing events: lemmas -/

theorem getElem?_erase_event (evs : List Event) (k a : Nat) :
    (erase_event evs k)[a]? =
      (if a < k then evs[a]? else evs[a + 1]?).map
        (fun e => { e with linked := e.linked.map (shift_link k (evs.length - 1)) }) := by
  unfold erase_event
  rw [List.getElem?_map, List.getElem?_eraseIdx]

theorem erase_event_bare (evs : List Event) (k : Nat) :
    (erase_event evs k).map Event.bare = (evs.eraseIdx k).map Event.bare := by
  unfold erase_event
  rw [List.map_map]
  apply List.map_congr_left
  intro e _
  rfl

theorem erase_event_length (evs : List Event) (k : Nat) (hk : k < evs.length) :
    (erase_event evs k).length = evs.length - 1 := by
  unfold erase_event
  rw [List.length_map, List.length_eraseIdx, if_pos hk]

/-- Erasing an event that is marked for removal keeps every kept note-on
linked to its kept note-off. -/
theorem kept_notes_linked_erase (evs : List Event) (k : Nat) (ek : Event)
    (hk : evs[k]? = some ek) (hmarked : ek.marked = true) (h : kept_notes_linked evs) :
    kept_notes_linked (erase_event evs k) := by
  intro a' ea' hea' hunm hon
  rw [getElem?_erase_event] at hea'
  obtain ⟨ea, hea, rfl⟩ := Option.map_eq_some'.mp hea'
  -- the position of `ea` before the erasure
  obtain ⟨a, ha, hak, hshift⟩ : ∃ a, evs[a]? = some ea ∧ a ≠ k ∧
      shift_link k (evs.length - 1) a = a' := by
    by_cases hlt : a' < k
    · rw [if_pos hlt] at hea
      exact ⟨a', hea, by omega, by simp [shift_link, hlt]⟩
    · rw [if_neg hlt] at hea
      refine ⟨a' + 1, hea, by omega, ?_⟩
      unfold shift_link
      rw [if_neg (by omega), if_neg (by omega)]
      omega
  obtain ⟨b, eb, hlink, heb, hbunm, hboff, hback⟩ := h a ea ha hunm hon
  have hbk : b ≠ k := by
    intro hbk
    rw [hbk, hk] at heb
    have := Option.some.inj heb
    rw [this] at hmarked
    rw [hmarked] at hbunm
    exact absurd hbunm (by simp)
  refine ⟨shift_link k (evs.length - 1) b,
    { eb with linked := eb.linked.map (shift_link k (evs.length - 1)) }, ?_, ?_, hbunm, hboff, ?_⟩
  · show ea.linked.map _ = _
    rw [hlink]; rfl
  · rw [getElem?_erase_event]
    by_cases hlt : b < k
    · have : shift_link k (evs.length - 1) b = b := by simp [shift_link, hlt]
      rw [this, if_pos hlt, heb]; rfl
    · have hb1 : shift_link k (evs.length - 1) b = b - 1 := by
        unfold shift_link
        rw [if_neg hlt, if_neg hbk]
      rw [hb1, if_neg (by omega), show b - 1 + 1 = b by omega, heb]; rfl
  · show eb.linked.map _ = _
    rw [hback, ← hshift]; rfl

/-! ## The loop of remove_marked -/

theorem remove_iterator_body_events (s : Sequence) (i : Nat) (er : Event) :
    (remove_iterator_body s i er).events = erase_event s.events i := by
  unfold remove_iterator_body
  by_cases h : (er.is_note_off && decide (s.playing_notes er.get_note > 0)) = true
  · simp only [h, if_true]
  · simp only [h]; rfl

theorem remove_marked_loop_kept (fuel : Nat) :
    ∀ (i : Nat) (s : Sequence), kept_notes_linked s.events →
      kept_notes_linked (remove_marked_loop fuel i s).events := by
  induction fuel with
  | zero => intro i s h; exact h
  | succ fuel ih =>
    intro i s h
    unfold remove_marked_loop
    cases hi : s.events[i]? with
    | none => exact h
    | some er =>
      simp only
      by_cases hm : er.marked = true
      · rw [if_pos hm]
        apply ih
        rw [remove_iterator_body_events]
        exact kept_notes_linked_erase s.events i er hi hm h
      · rw [if_neg hm]
        exact ih (i + 1) s h

/-- The loop of `remove_marked`, given one iteration per event still ahead,
leaves no marked event in the store. -/
theorem remove_marked_loop_unmarked (fuel : Nat) :
    ∀ (i : Nat) (s : Sequence), s.events.length ≤ i + fuel →
      (∀ (a : Nat) (e : Event), a < i → s.events[a]? = some e → e.marked = false) →
      ∀ e ∈ (remove_marked_loop fuel i s).events, e.marked = false := by
  induction fuel with
  | zero =>
    intro i s hlen hbefore e he
    obtain ⟨a, ha, hae⟩ := List.getElem_of_mem he
    exact hbefore a e (by simp only [remove_marked_loop] at ha; omega)
      (by rw [List.getElem?_eq_getElem]; exact congrArg some hae)
  | succ fuel ih =>
    intro i s hlen hbefore
    unfold remove_marked_loop
    cases hi : s.events[i]? with
    | none =>
      intro e he
      obtain ⟨a, ha, hae⟩ := List.getElem_of_mem he
      have hge : s.events.length ≤ i := by
        by_contra hlt
        rw [List.getElem?_eq_getElem (by omega)] at hi
        exact absurd hi (by simp)
      exact hbefore a e (by simp only at ha; omega)
        (by rw [List.getElem?_eq_getElem]; exact congrArg some hae)
    | some er =>
      simp only
      have hilt : i < s.events.length := (List.getElem?_eq_some_iff.mp hi).1
      by_cases hm : er.marked = true
      · rw [if_pos hm]
        apply ih
        · rw [remove_iterator_body_events, erase_event_length _ _ hilt]
          omega
        · intro a e ha hae
          rw [remove_iterator_body_events, getElem?_erase_event, if_pos ha] at hae
          obtain ⟨e0, he0, rfl⟩ := Option.map_eq_some'.mp hae
          exact hbefore a e0 ha he0
      · rw [if_neg hm]
        apply ih
        · omega
        · intro a e ha hae
          by_cases hai : a = i
          · subst hai
            rw [hi] at hae
            have := Option.some.inj hae
            subst this
            simpa using hm
          · exact hbefore a e (by omega) hae

/-! ## Linking notes: lemmas -/

theorem note_on_not_off (e : Event) (h : e.is_note_on = true) : e.is_note_off = false := by
  simp only [Event.is_note_on, Event.is_note_off, beq_iff_eq, beq_eq_false_iff_ne] at h ⊢
  rw [h]; decide

theorem is_free_note_off_spec (evs : List Event) (note j : Nat)
    (h : is_free_note_off evs note j = true) :
    ∃ f : Event, evs[j]? = some f ∧ f.is_note_off = true ∧ f.linked = none := by
  unfold is_free_note_off at h
  cases hj : evs[j]? with
  | none => rw [hj] at h; exact absurd h (by simp)
  | some f =>
    rw [hj] at h
    simp only [Bool.and_eq_true, Bool.not_eq_true', Event.is_linked] at h
    refine ⟨f, rfl, h.1.1, ?_⟩
    cases hl : f.linked with
    | none => rfl
    | some b => rw [hl] at h; exact absurd h.2 (by simp)

/-- What one pairing step does to the store: nothing, or it links an unlinked
note-on at `i` and an unlinked note-off at `j` to each other. -/
theorem link_step_cases (evs : List Event) (i : Nat) :
    link_step evs i = evs ∨
    ∃ (j : Nat) (eon eoff : Event), evs[i]? = some eon ∧ evs[j]? = some eoff ∧
      eon.is_note_on = true ∧ eon.linked = none ∧
      eoff.is_note_off = true ∧ eoff.linked = none ∧
      link_step evs i =
        (evs.set i { eon with linked := some j }).set j { eoff with linked := some i } := by
  unfold link_step
  cases hi : evs[i]? with
  | none => exact Or.inl rfl
  | some eon =>
    simp only
    by_cases hc : (eon.is_note_on && !eon.is_linked) = true
    · rw [if_pos hc]
      cases hf : (List.range' (i + 1) (evs.length - (i + 1)) ++ List.range i).find?
          (is_free_note_off evs eon.get_note) with
      | none => exact Or.inl rfl
      | some j =>
        simp only
        obtain ⟨f, hj, hoff, hfl⟩ := is_free_note_off_spec evs eon.get_note j
          (List.find?_some hf)
        rw [hj]
        simp only [Bool.and_eq_true, Bool.not_eq_true', Event.is_linked] at hc
        have honl : eon.linked = none := by
          cases hl : eon.linked with
          | none => rfl
          | some b => rw [hl] at hc; exact absurd hc.2 (by simp)
        exact Or.inr ⟨j, eon, f, rfl, hj, hc.1, honl, hoff, hfl, rfl⟩
    · rw [if_neg hc]
      exact Or.inl rfl

theorem getElem?_set_set (evs : List Event) (i j : Nat) (x y : Event) (hij : i ≠ j)
    (hi : i < evs.length) (hj : j < evs.length) (a : Nat) :
    ((evs.set i x).set j y)[a]? =
      if a = j then some y else if a = i then some x else evs[a]? := by
  by_cases haj : a = j
  · subst haj
    rw [if_pos rfl, List.getElem?_set_self (by rw [List.length_set]; exact hj)]
  · rw [if_neg haj, List.getElem?_set_ne (fun h => haj h.symm)]
    by_cases hai : a = i
    · subst hai
      rw [if_pos rfl, List.getElem?_set_self hi]
    · rw [if_neg hai, List.getElem?_set_ne (fun h => hai h.symm)]

theorem link_step_paired (evs : List Event) (i : Nat) (h : links_paired evs) :
    links_paired (link_step evs i) := by
  rcases link_step_cases evs i with heq | ⟨j, eon, eoff, hi, hj, hon, honl, hoff, hoffl, heq⟩
  · rw [heq]; exact h
  · rw [heq]
    have hilt : i < evs.length := (List.getElem?_eq_some_iff.mp hi).1
    have hjlt : j < evs.length := (List.getElem?_eq_some_iff.mp hj).1
    have hij : i ≠ j := by
      intro hij
      rw [hij, hj] at hi
      have := Option.some.inj hi
      rw [this] at hoff
      rw [note_on_not_off eon hon] at hoff
      exact absurd hoff (by simp)
    intro a b ea hea hlink
    rw [getElem?_set_set evs i j _ _ hij hilt hjlt] at hea
    by_cases haj : a = j
    · rw [if_pos haj] at hea
      have hea' := Option.some.inj hea
      subst hea'
      have hb : b = i := (Option.some.inj hlink).symm
      subst hb
      refine ⟨{ eon with linked := some j }, ?_, by rw [haj], Or.inr ⟨hoff, hon⟩⟩
      rw [getElem?_set_set evs b j _ _ hij hilt hjlt, if_neg hij, if_pos rfl]
    · rw [if_neg haj] at hea
      by_cases hai : a = i
      · rw [if_pos hai] at hea
        have hea' := Option.some.inj hea
        subst hea'
        have hb : b = j := (Option.some.inj hlink).symm
        subst hb
        refine ⟨{ eoff with linked := some i }, ?_, by rw [hai], Or.inl ⟨hon, hoff⟩⟩
        rw [getElem?_set_set evs i b _ _ hij hilt hjlt, if_pos rfl]
      · rw [if_neg hai] at hea
        obtain ⟨eb, heb, hback, hkinds⟩ := h a b ea hea hlink
        have hbi : b ≠ i := by
          intro hbi
          rw [hbi, hi] at heb
          have := Option.some.inj heb
          rw [← this, honl] at hback
          exact absurd hback (by simp)
        have hbj : b ≠ j := by
          intro hbj
          rw [hbj, hj] at heb
          have := Option.some.inj heb
          rw [← this, hoffl] at hback
          exact absurd hback (by simp)
        refine ⟨eb, ?_, hback, hkinds⟩
        rw [getElem?_set_set evs i j _ _ hij hilt hjlt, if_neg hbj, if_neg hbi]
        exact heb

theorem link_step_map (evs : List Event) (i : Nat) {β : Type} (g : Event → β)
    (hg : ∀ (e : Event) (l : Option Nat), g { e with linked := l } = g e) :
    (link_step evs i).map g = evs.map g := by
  rcases link_step_cases evs i with heq | ⟨j, eon, eoff, hi, hj, _, _, _, _, heq⟩
  · rw [heq]
  · rw [heq]
    have hilt : i < evs.length := (List.getElem?_eq_some_iff.mp hi).1
    have hjlt : j < evs.length := (List.getElem?_eq_some_iff.mp hj).1
    apply List.ext_getElem?
    intro a
    rw [List.getElem?_map, List.getElem?_map]
    by_cases hij : i = j
    · subst hij
      rw [List.set_set]
      by_cases hai : a = i
      · subst hai
        rw [List.getElem?_set_self hilt, hj]
        exact congrArg some (hg eoff _)
      · rw [List.getElem?_set_ne (fun h => hai h.symm)]
    · rw [getElem?_set_set evs i j _ _ hij hilt hjlt]
      by_cases haj : a = j
      · rw [if_pos haj, haj, hj]
        exact congrArg some (hg eoff _)
      · rw [if_neg haj]
        by_cases hai : a = i
        · rw [if_pos hai, hai, hi]
          exact congrArg some (hg eon _)
        · rw [if_neg hai]

theorem link_notes_fold_paired (is : List Nat) :
    ∀ evs : List Event, links_paired evs → links_paired (is.foldl link_step evs) := by
  induction is with
  | nil => intro evs h; exact h
  | cons i is ih => intro evs h; exact ih _ (link_step_paired evs i h)

theorem link_notes_fold_map (is : List Nat) {β : Type} (g : Event → β)
    (hg : ∀ (e : Event) (l : Option Nat), g { e with linked := l } = g e) :
    ∀ evs : List Event, (is.foldl link_step evs).map g = evs.map g := by
  induction is with
  | nil => intro evs; rfl
  | cons i is ih =>
    intro evs
    rw [List.foldl_cons, ih, link_step_map evs i g hg]

theorem clear_links_paired (evs : List Event) : links_paired (clear_links evs) := by
  intro a b ea hea hlink
  unfold clear_links at hea
  rw [List.getElem?_map] at hea
  obtain ⟨e, _, rfl⟩ := Option.map_eq_some'.mp hea
  exact absurd hlink (by simp)

theorem link_notes_paired (evs : List Event) : links_paired (link_notes (clear_links evs)) :=
  link_notes_fold_paired _ _ (clear_links_paired evs)

theorem link_notes_unmarked (evs : List Event) :
    ∀ e ∈ link_notes (clear_links evs), e.marked = false := by
  intro e he
  have hmap : (link_notes (clear_links evs)).map Event.marked
      = (clear_links evs).map Event.marked :=
    link_notes_fold_map _ Event.marked (fun _ _ => rfl) _
  have hmem : e.marked ∈ (link_notes (clear_links evs)).map Event.marked :=
    List.mem_map_of_mem _ he
  rw [hmap] at hmem
  unfold clear_links at hmem
  rw [List.map_map] at hmem
  obtain ⟨e0, _, he0⟩ := List.mem_map.mp hmem
  rw [← he0]
  rfl

theorem note_off_not_on (e : Event) (h : e.is_note_off = true) : e.is_note_on = false := by
  cases hon : e.is_note_on with
  | false => rfl
  | true => rw [note_on_not_off e hon] at h; exact absurd h (by simp)

theorem getElem?_mark_unresolved (length : Int) (evs : List Event) (a : Nat) :
    (mark_unresolved length evs)[a]? = (evs[a]?).map (fun e =>
      if ((e.is_note_on && !e.is_linked) || out_of_range length e ||
          partner_out_of_range length evs e) = true then e.mark
      else e) := by
  unfold mark_unresolved
  rw [List.getElem?_map]

theorem mark_unresolved_kept (length : Int) (evs : List Event) (hp : links_paired evs)
    (hu : ∀ e ∈ evs, e.marked = false) :
    kept_notes_linked (mark_unresolved length evs) := by
  intro a ea' hea' hmk hon
  rw [getElem?_mark_unresolved] at hea'
  obtain ⟨ea, hea, hx⟩ := Option.map_eq_some'.mp hea'
  by_cases hc : ((ea.is_note_on && !ea.is_linked) || out_of_range length ea ||
      partner_out_of_range length evs ea) = true
  · rw [if_pos hc] at hx
    rw [← hx] at hmk
    exact absurd hmk (by simp [Event.mark])
  · rw [if_neg hc] at hx
    subst hx
    simp only [Bool.or_eq_true, Bool.and_eq_true, Bool.not_eq_true', not_or, not_and,
      Bool.not_eq_false, Bool.not_eq_true] at hc
    obtain ⟨⟨hlinked, hin⟩, hpart⟩ := hc
    have hl := hlinked hon
    cases hlk : ea.linked with
    | none => simp [Event.is_linked, hlk] at hl
    | some b =>
      obtain ⟨eb, heb, hback, hkinds⟩ := hp a b ea hea hlk
      have hoff : eb.is_note_off = true := by
        rcases hkinds with h | h
        · exact h.2
        · rw [note_on_not_off ea hon] at h; exact absurd h.1 (by simp)
      have hbin : out_of_range length eb = false := by
        simp only [partner_out_of_range, hlk, heb] at hpart
        exact hpart
      have hbpart : partner_out_of_range length evs eb = false := by
        simp only [partner_out_of_range, hback, hea]
        exact hin
      have hbm : eb.marked = false :=
        hu eb (by
          obtain ⟨hlt, hget⟩ := List.getElem?_eq_some_iff.mp heb
          rw [← hget]
          exact List.getElem_mem hlt)
      refine ⟨b, eb, rfl, ?_, hbm, hoff, hback⟩
      rw [getElem?_mark_unresolved, heb]
      simp only [Option.map_some', note_off_not_on eb hoff, hbin, hbpart, Bool.false_and,
        Bool.or_self, Bool.false_eq_true, if_false]

/-! ## Removing the marked events: what is kept -/

theorem remove_marked_loop_proj {β : Type} (g : Sequence → β)
    (hg : ∀ (s : Sequence) (i : Nat) (er : Event), g (remove_iterator_body s i er) = g s)
    (fuel : Nat) : ∀ (i : Nat) (s : Sequence), g (remove_marked_loop fuel i s) = g s := by
  induction fuel with
  | zero => intro i s; rfl
  | succ fuel ih =>
    intro i s
    simp only [remove_marked_loop]
    cases hi : s.events[i]? with
    | none => rfl
    | some er =>
      simp only
      by_cases hm : er.marked = true
      · rw [if_pos hm, ih, hg]
      · rw [if_neg hm, ih]

theorem remove_iterator_body_fields (s : Sequence) (i : Nat) (er : Event) :
    (remove_iterator_body s i er).length = s.length ∧
    (remove_iterator_body s i er).ppqn = s.ppqn ∧
    (remove_iterator_body s i er).playing = s.playing ∧
    (remove_iterator_body s i er).events_undo = s.events_undo ∧
    (remove_iterator_body s i er).events_redo = s.events_redo := by
  unfold remove_iterator_body
  by_cases h : (er.is_note_off && decide (s.playing_notes er.get_note > 0)) = true
  · simp only [h, if_true, and_self]
  · simp only [h, Bool.false_eq_true, if_false, and_self]

theorem verify_and_link_fields (s : Sequence) :
    (verify_and_link s).length = s.length ∧
    (verify_and_link s).ppqn = s.ppqn ∧
    (verify_and_link s).playing = s.playing ∧
    (verify_and_link s).events_undo = s.events_undo ∧
    (verify_and_link s).events_redo = s.events_redo := by
  unfold verify_and_link remove_marked reset_draw_marker
  refine ⟨?_, ?_, ?_, ?_, ?_⟩
  · exact remove_marked_loop_proj Sequence.length
      (fun s i er => (remove_iterator_body_fields s i er).1) _ _ _
  · exact remove_marked_loop_proj Sequence.ppqn
      (fun s i er => (remove_iterator_body_fields s i er).2.1) _ _ _
  · exact remove_marked_loop_proj Sequence.playing
      (fun s i er => (remove_iterator_body_fields s i er).2.2.1) _ _ _
  · exact remove_marked_loop_proj Sequence.events_undo
      (fun s i er => (remove_iterator_body_fields s i er).2.2.2.1) _ _ _
  · exact remove_marked_loop_proj Sequence.events_redo
      (fun s i er => (remove_iterator_body_fields s i er).2.2.2.2) _ _ _

theorem remove_marked_loop_clean (fuel : Nat) :
    ∀ (i : Nat) (s : Sequence), (∀ e ∈ s.events, e.marked = false) →
      remove_marked_loop fuel i s = s := by
  induction fuel with
  | zero => intro i s _; rfl
  | succ fuel ih =>
    intro i s h
    simp only [remove_marked_loop]
    cases hi : s.events[i]? with
    | none => rfl
    | some er =>
      simp only
      have hm : er.marked = false := h er (by
        obtain ⟨hlt, hget⟩ := List.getElem?_eq_some_iff.mp hi
        rw [← hget]
        exact List.getElem_mem hlt)
      rw [hm]
      simp only [Bool.false_eq_true, if_false]
      exact ih (i + 1) s h

theorem remove_marked_loop_sublist (fuel : Nat) :
    ∀ (i : Nat) (s : Sequence),
      ((remove_marked_loop fuel i s).events.map Event.bare).Sublist
        (s.events.map Event.bare) := by
  induction fuel with
  | zero => intro i s; exact List.Sublist.refl _
  | succ fuel ih =>
    intro i s
    simp only [remove_marked_loop]
    cases hi : s.events[i]? with
    | none => exact List.Sublist.refl _
    | some er =>
      simp only
      by_cases hm : er.marked = true
      · rw [if_pos hm]
        refine (ih i _).trans ?_
        rw [remove_iterator_body_events, erase_event_bare]
        exact (List.eraseIdx_sublist _ _).map _
      · rw [if_neg hm]
        exact ih (i + 1) s

theorem event_list_verify_and_link_bare (length : Int) (evs : List Event) :
    (event_list_verify_and_link length evs).map Event.bare = evs.map Event.bare := by
  unfold event_list_verify_and_link
  have h1 : (mark_unresolved length (link_notes (clear_links evs))).map Event.bare
      = (link_notes (clear_links evs)).map Event.bare := by
    unfold mark_unresolved
    rw [List.map_map]
    apply List.map_congr_left
    intro e _
    simp only [Function.comp]
    split
    · rfl
    · rfl
  have h2 : (link_notes (clear_links evs)).map Event.bare
      = (clear_links evs).map Event.bare :=
    link_notes_fold_map _ Event.bare (fun _ _ => rfl) _
  rw [h1, h2]
  unfold clear_links
  rw [List.map_map]
  rfl

theorem verify_and_link_events (s : Sequence) :
    (verify_and_link s).events =
      (remove_marked_loop (event_list_verify_and_link s.length s.events).length 0
        { s with events := event_list_verify_and_link s.length s.events }).events := rfl

theorem verify_and_link_kept (s : Sequence) :
    kept_notes_linked (verify_and_link s).events ∧
    ∀ e ∈ (verify_and_link s).events, e.marked = false := by
  rw [verify_and_link_events]
  constructor
  · apply remove_marked_loop_kept
    exact mark_unresolved_kept _ _ (link_notes_paired _) (link_notes_unmarked _)
  · apply remove_marked_loop_unmarked
    · simp
    · intro a e ha; exact absurd ha (Nat.not_lt_zero a)

/-! ## Claims on removal, relinking, undo, length and pasting -/

/-- C13: after `verify_and_link`, every note-on still in the store is linked
to a stored note-off that links back to it, so no stored note-on is unpaired
or carries a dangling link; and the store holds only events it held before, in
their order (compared without links and editor flags). -/
theorem verify_and_link_links_every_note_on (s : Sequence) (a : Nat) (ea : Event)
    (hea : (verify_and_link s).events[a]? = some ea) (hon : ea.is_note_on = true) :
    (∃ (b : Nat) (eb : Event), ea.linked = some b ∧
      (verify_and_link s).events[b]? = some eb ∧
      eb.is_note_off = true ∧ eb.linked = some a) ∧
    ((verify_and_link s).events.map Event.bare).Sublist (s.events.map Event.bare) := by
  obtain ⟨hk, hu⟩ := verify_and_link_kept s
  have hm : ea.marked = false := hu ea (by
    obtain ⟨hlt, hget⟩ := List.getElem?_eq_some_iff.mp hea
    rw [← hget]
    exact List.getElem_mem hlt)
  obtain ⟨b, eb, h1, h2, _, h4, h5⟩ := hk a ea hea hm hon
  refine ⟨⟨b, eb, h1, h2, h4, h5⟩, ?_⟩
  rw [verify_and_link_events]
  refine (remove_marked_loop_sublist _ 0 _).trans ?_
  show ((event_list_verify_and_link s.length s.events).map Event.bare).Sublist _
  rw [event_list_verify_and_link_bare]

set_option maxRecDepth 100000 in
theorem verify_and_link_links_every_note_on_witness :
    (verify_and_link edit_seq).events
      = [{ sel_on with linked := some 1 }, { sel_off with linked := some 0 }] ∧
    ((∃ (b : Nat) (eb : Event), ({ sel_on with linked := some 1 } : Event).linked = some b ∧
      (verify_and_link edit_seq).events[b]? = some eb ∧
      eb.is_note_off = true ∧ eb.linked = some 0) ∧
    ((verify_and_link edit_seq).events.map Event.bare).Sublist
      (edit_seq.events.map Event.bare)) :=
  ⟨by decide,
    verify_and_link_links_every_note_on edit_seq 0 { sel_on with linked := some 1 }
      (by decide) (by decide)⟩

set_option maxRecDepth 100000 in
/-- C12: on the pattern holding one note-off of pitch 60 while pitch 60 is
sounding, `remove(iterator)` sends the note-off, lowers the count to 0 and
erases the event, whereas `remove(event&)` erases the event without sending
anything and leaves the count at 1. -/
theorem remove_event_sends_no_note_off :
    (remove_iterator held_off_seq 0).map
        (fun s => (s.sink, s.playing_notes 60, s.events))
      = some ([BusCall.play 0 off_60 0], 0, []) ∧
    (remove_event held_off_seq 0).sink = [] ∧
    (remove_event held_off_seq 0).playing_notes 60 = 1 ∧
    (remove_event held_off_seq 0).events = [] := by
  refine ⟨?_, ?_, ?_, ?_⟩ <;> decide

theorem change_event_data_range_interpolates_witness :
    (0 : Int) < 60 ∧
    (change_event_data_range cc_seq 0 60 EVENT_CONTROL_CHANGE 7 0 120).1.events
      = [{ cc_event with d1 := 60 }] :=
  ⟨by decide,
    ((change_event_data_range_interpolates cc_seq 0 60 EVENT_CONTROL_CHANGE 7 0 120
      (by decide) (by decide)).1).trans (by decide)⟩

theorem verify_and_link_clean (s : Sequence)
    (h : ∀ e ∈ event_list_verify_and_link s.length s.events, e.marked = false) :
    (verify_and_link s).events.map Event.bare = s.events.map Event.bare := by
  rw [verify_and_link_events, remove_marked_loop_clean _ 0 _ h]
  exact event_list_verify_and_link_bare s.length s.events

theorem remove_marked_loop_events_congr (fuel : Nat) :
    ∀ (i : Nat) (s t : Sequence), s.events = t.events →
      (remove_marked_loop fuel i s).events = (remove_marked_loop fuel i t).events := by
  induction fuel with
  | zero => intro i s t h; exact h
  | succ fuel ih =>
    intro i s t h
    simp only [remove_marked_loop]
    rw [← h]
    cases hi : s.events[i]? with
    | none => exact h
    | some er =>
      simp only
      by_cases hm : er.marked = true
      · rw [if_pos hm, if_pos hm]
        apply ih
        rw [remove_iterator_body_events, remove_iterator_body_events, h]
      · rw [if_neg hm, if_neg hm]
        exact ih (i + 1) s t h

theorem verify_and_link_events_eq (s t : Sequence) (h1 : s.events = t.events)
    (h2 : s.length = t.length) :
    (verify_and_link s).events = (verify_and_link t).events := by
  rw [verify_and_link_events, verify_and_link_events, h1, h2]
  exact remove_marked_loop_events_congr _ 0 _ _ rfl

theorem unselect_all_bare (evs : List Event) :
    (unselect_all evs).map Event.bare = evs.map Event.bare := by
  unfold unselect_all
  rw [List.map_map]
  rfl

theorem pop_undo_eq (s : Sequence) (snap : List Event) (rest : List (List Event))
    (h : s.events_undo = snap :: rest) :
    pop_undo s = unselect (verify_and_link
      { s with events_redo := s.events :: s.events_redo, events := snap,
               events_undo := rest }) := by
  unfold pop_undo
  rw [h]

theorem pop_redo_eq (s : Sequence) (top : List Event) (rest : List (List Event))
    (h : s.events_redo = top :: rest) :
    pop_redo s = unselect (verify_and_link
      { s with events_undo := s.events :: s.events_undo, events := top,
               events_redo := rest }) := by
  unfold pop_redo
  rw [h]

/-- C14: undo and redo round trip.  Let the undo stack hold the snapshot
`snap` on top (as `push_undo` leaves it) and let the store have been edited in
any way since.  `pop_undo` makes the store the snapshot after
`verify_and_link` and `unselect`, puts the edited store on the redo stack and
takes the snapshot off the undo stack; when relinking finds nothing to prune
in the snapshot, the store is the snapshot up to links and editor flags.  A
`pop_redo` issued next makes the store the edited store the same way, puts
the restored store back on the undo stack and takes the edited store off the
redo stack.  On an empty undo or redo stack the calls change nothing. -/
theorem undo_redo_round_trip (s : Sequence) (snap : List Event)
    (rest : List (List Event)) (h : s.events_undo = snap :: rest) :
    (push_undo { s with events := snap, events_undo := rest }).events_undo
      = s.events_undo ∧
    (pop_undo s).events
      = unselect_all (verify_and_link { s with events := snap }).events ∧
    ((∀ e ∈ event_list_verify_and_link s.length snap, e.marked = false) →
      (pop_undo s).events.map Event.bare = snap.map Event.bare) ∧
    (pop_undo s).events_redo = s.events :: s.events_redo ∧
    (pop_undo s).events_undo = rest ∧
    (pop_redo (pop_undo s)).events
      = unselect_all (verify_and_link s).events ∧
    ((∀ e ∈ event_list_verify_and_link s.length s.events, e.marked = false) →
      (pop_redo (pop_undo s)).events.map Event.bare = s.events.map Event.bare) ∧
    (pop_redo (pop_undo s)).events_undo = (pop_undo s).events :: rest ∧
    (pop_redo (pop_undo s)).events_redo = s.events_redo ∧
    (∀ t : Sequence, t.events_undo = [] → pop_undo t = t) ∧
    (∀ t : Sequence, t.events_redo = [] → pop_redo t = t) := by
  have hu := pop_undo_eq s snap rest h
  have hf := verify_and_link_fields
    { s with events_redo := s.events :: s.events_redo, events := snap, events_undo := rest }
  have hev : (pop_undo s).events
      = unselect_all (verify_and_link { s with events := snap }).events := by
    rw [hu]
    exact congrArg unselect_all (verify_and_link_events_eq _ _ rfl rfl)
  have hredo : (pop_undo s).events_redo = s.events :: s.events_redo := by
    rw [hu]; exact hf.2.2.2.2
  have hundo : (pop_undo s).events_undo = rest := by
    rw [hu]; exact hf.2.2.2.1
  have hlen : (pop_undo s).length = s.length := by
    rw [hu]; exact hf.1
  have hr := pop_redo_eq (pop_undo s) s.events s.events_redo hredo
  have hf2 := verify_and_link_fields
    { pop_undo s with events_undo := (pop_undo s).events :: (pop_undo s).events_undo,
                      events := s.events, events_redo := s.events_redo }
  have hev2 : (pop_redo (pop_undo s)).events
      = unselect_all (verify_and_link s).events := by
    rw [hr]
    exact congrArg unselect_all (verify_and_link_events_eq _ _ rfl hlen)
  refine ⟨?_, hev, ?_, hredo, hundo, hev2, ?_, ?_, ?_, ?_, ?_⟩
  · rw [h]; rfl
  · intro hc
    rw [hev, unselect_all_bare]
    exact verify_and_link_clean { s with events := snap } hc
  · intro hc
    rw [hev2, unselect_all_bare]
    exact verify_and_link_clean s hc
  · rw [hr]
    show (verify_and_link _).events_undo = _
    rw [hf2.2.2.2.1, hundo]
  · rw [hr]
    show (verify_and_link _).events_redo = _
    rw [hf2.2.2.2.2]
  · intro t ht
    unfold pop_undo
    rw [ht]
  · intro t ht
    unfold pop_redo
    rw [ht]

set_option maxRecDepth 100000 in
theorem undo_redo_round_trip_witness :
    edited_seq.events_undo = [linked_note_seq.events] ∧
    (pop_undo edited_seq).events = linked_note_seq.events ∧
    (pop_undo edited_seq).events_redo = [[]] ∧
    (pop_redo (pop_undo edited_seq)).events = [] :=
  have h := undo_redo_round_trip edited_seq linked_note_seq.events [] rfl
  ⟨rfl, h.2.1.trans (by decide), h.2.2.2.1, h.2.2.2.2.2.1.trans (by decide)⟩

theorem set_playing_playing (s : Sequence) (p : Bool) : (set_playing s p).playing = p := by
  unfold set_playing
  by_cases h1 : (p != s.playing) = true
  · by_cases h2 : (!p) = true
    · simp only [h1, h2, if_true, set_dirty, off_playing_notes_eq]
    · simp only [h1, h2, if_true, set_dirty]; rfl
  · simp only [h1]
    simp only [bne_iff_ne, ne_eq, not_not] at h1
    exact h1.symm

theorem set_playing_ppqn (s : Sequence) (p : Bool) : (set_playing s p).ppqn = s.ppqn := by
  unfold set_playing
  by_cases h1 : (p != s.playing) = true
  · by_cases h2 : (!p) = true
    · simp only [h1, h2, if_true, set_dirty, off_playing_notes_eq]
    · simp only [h1, h2, if_true, set_dirty]; rfl
  · simp only [h1]; rfl

theorem set_length_fields (adjust : Int → List Trigger → List Trigger) (s : Sequence)
    (len : Int) (adjust_triggers : Bool) :
    (set_length adjust s len adjust_triggers).length
      = (if len < Int.tdiv s.ppqn 4 then Int.tdiv s.ppqn 4 else len) ∧
    (set_length adjust s len adjust_triggers).playing = s.playing := by
  unfold set_length
  simp only [set_playing_ppqn]
  constructor
  · have hlen : ∀ s2 : Sequence, (reset_draw_marker (verify_and_link s2)).length = s2.length :=
      fun s2 => (verify_and_link_fields s2).1
    by_cases hp : s.playing = true
    · rw [if_pos hp, set_playing_length, hlen]
    · rw [if_neg hp, hlen]
  · have hpl : ∀ s2 : Sequence, (reset_draw_marker (verify_and_link s2)).playing = s2.playing :=
      fun s2 => (verify_and_link_fields s2).2.2.1
    by_cases hp : s.playing = true
    · rw [if_pos hp, set_playing_playing, hp]
    · rw [if_neg hp, hpl]
      have hp2 : s.playing = false := by
        cases h : s.playing with
        | false => rfl
        | true => exact absurd h hp
      by_cases ha : adjust_triggers = true
      · simp only [ha, if_true]
        rw [hp2]; exact set_playing_playing s false
      · simp only [ha]
        rw [hp2]; exact set_playing_playing s false

/-- C15, the claim fails: with PPQN 1 the lower bound `PPQN / 4` is 0, and
`set_length(0)` leaves the length at 0, which is not positive. -/
theorem set_length_zero_ppqn_one :
    (1 : Int) ≤ (Sequence.create 1).ppqn ∧
    (set_length (fun _ t => t) (Sequence.create 1) 0 false).length = 0 :=
  ⟨by decide, (set_length_fields _ _ _ _).1.trans (by decide)⟩

/-- C15, amended: a newly constructed pattern has length `4 * PPQN`, positive
for every PPQN of at least 1; and for a pattern whose PPQN is at least 4,
`set_length(len, adjust)` leaves the length at `max(len, PPQN / 4)`, which is
positive, for every `len`, and the playing flag as it was before the call. -/
theorem set_length_positive (adjust : Int → List Trigger → List Trigger) (s : Sequence)
    (len : Int) (adjust_triggers : Bool) (ppqn : Int) (h1 : 1 ≤ ppqn) (h4 : 4 ≤ s.ppqn) :
    (Sequence.create ppqn).length = 4 * ppqn ∧ 0 < (Sequence.create ppqn).length ∧
    (set_length adjust s len adjust_triggers).length = max len (Int.tdiv s.ppqn 4) ∧
    0 < (set_length adjust s len adjust_triggers).length ∧
    (set_length adjust s len adjust_triggers).playing = s.playing := by
  obtain ⟨hl, hp⟩ := set_length_fields adjust s len adjust_triggers
  have hq : 0 < Int.tdiv s.ppqn 4 := by
    have h0 : (0 : Int) ≤ s.ppqn := by omega
    have h44 : (0 : Int) ≤ 4 := by decide
    have := Int.tdiv_eq_ediv h0 h44
    rw [this]; omega
  have hc : (Sequence.create ppqn).length = 4 * ppqn := rfl
  refine ⟨hc, by rw [hc]; omega, ?_, ?_, hp⟩
  · rw [hl]
    by_cases h : len < Int.tdiv s.ppqn 4
    · rw [if_pos h, max_eq_right (le_of_lt h)]
    · rw [if_neg h, max_eq_left (not_lt.mp h)]
  · rw [hl]
    by_cases h : len < Int.tdiv s.ppqn 4
    · rw [if_pos h]; exact hq
    · rw [if_neg h]; omega

theorem set_length_positive_witness :
    (1 : Int) ≤ 192 ∧ (4 : Int) ≤ one_bar_seq.ppqn ∧
    (Sequence.create 192).length = 768 ∧
    (set_length (fun _ t => t) one_bar_seq (-5) true).length = 48 ∧
    (set_length (fun _ t => t) one_bar_seq (-5) true).playing = true :=
  have h := set_length_positive (fun _ t => t) one_bar_seq (-5) true 192
    (by decide) (by decide)
  ⟨by decide, by decide, h.1, h.2.2.1.trans (by decide), h.2.2.2.2⟩

/-- C16: `paste_selected` called while the clipboard is empty reads the first
element of the empty clipboard copy, which is undefined: it has no defined
result, whereas with an event on the clipboard it has one. -/
theorem paste_selected_empty_clipboard (s : Sequence) (tick note : Int) :
    paste_selected s [] tick note = none ∧
    ∀ (e : Event) (es : List Event),
      (paste_selected s (e :: es) tick note).isSome = true := by
  constructor
  · rfl
  · intro e es
    rfl


/-! ## Selecting notes: lemmas -/

theorem span_in_range_iff (stick ftick tick_s tick_f : Int) :
    span_in_range stick ftick tick_s tick_f = true ↔
      (stick ≤ ftick ∧ stick ≤ tick_f ∧ tick_s ≤ ftick) ∨
      (ftick < stick ∧ (stick ≤ tick_f ∨ tick_s ≤ ftick)) := by
  simp only [span_in_range, Bool.or_eq_true, Bool.and_eq_true, decide_eq_true_eq,
    ge_iff_le, gt_iff_lt]

theorem select_eq_fields (e e0 : Event) (h : e.select = e0.select) :
    e.timestamp = e0.timestamp ∧ e.status = e0.status ∧ e.d0 = e0.d0 ∧
      e.linked = e0.linked :=
  have h1 := congrArg Event.timestamp h
  have h2 := congrArg Event.status h
  have h3 := congrArg Event.d0 h
  have h4 := congrArg Event.linked h
  ⟨h1, h2, h3, h4⟩

theorem quantize_inv_refl (evs : List Event) : quantize_inv evs evs :=
  ⟨rfl, fun _ e0 h => ⟨e0, h, rfl, id⟩⟩

theorem quantize_inv_back (store0 store : List Event) (i : Nat) (e : Event)
    (h : quantize_inv store0 store) (hi : store[i]? = some e) :
    ∃ e0 : Event, store0[i]? = some e0 ∧ e.select = e0.select ∧
      (e0.selected = true → e.selected = true) := by
  have hlt : i < store.length := (List.getElem?_eq_some_iff.mp hi).1
  have hlt0 : i < store0.length := by rw [← h.1]; exact hlt
  obtain ⟨e1, he1, hcore, hsel⟩ := h.2 i (store0.get ⟨i, hlt0⟩)
    (List.getElem?_eq_getElem hlt0)
  rw [hi] at he1
  have := Option.some.inj he1
  subst this
  exact ⟨_, List.getElem?_eq_getElem hlt0, hcore, hsel⟩

theorem select_at_inv (store0 store : List Event) (k : Nat)
    (h : quantize_inv store0 store) : quantize_inv store0 (select_at store k) := by
  unfold select_at
  cases hk : store[k]? with
  | none => exact h
  | some e => exact quantize_inv_set store0 store k e h hk

theorem selected_at_select_at (evs : List Event) (k a : Nat) :
    selected_at (select_at evs k) a = true ↔
      selected_at evs a = true ∨ (a = k ∧ k < evs.length) := by
  unfold select_at
  cases hk : evs[k]? with
  | none =>
    simp only
    have hge : ¬ k < evs.length := by
      intro hlt
      rw [List.getElem?_eq_getElem hlt] at hk
      exact absurd hk (by simp)
    constructor
    · intro h; exact Or.inl h
    · intro h
      rcases h with h | ⟨_, h⟩
      · exact h
      · exact absurd h hge
  | some e =>
    simp only
    have hlt : k < evs.length := (List.getElem?_eq_some_iff.mp hk).1
    by_cases hak : a = k
    · subst hak
      unfold selected_at
      rw [List.getElem?_set_self hlt]
      constructor
      · intro _; exact Or.inr ⟨rfl, hlt⟩
      · intro _; rfl
    · unfold selected_at
      rw [List.getElem?_set_ne (fun h => hak h.symm)]
      constructor
      · intro h; exact Or.inl h
      · intro h
        rcases h with h | ⟨h, _⟩
        · exact h
        · exact absurd h hak

theorem selected_at_of_inv (store0 store : List Event) (k : Nat) (e0 : Event)
    (h : quantize_inv store0 store) (hk : store0[k]? = some e0) :
    ∃ e : Event, store[k]? = some e ∧ e.select = e0.select ∧
      selected_at store k = e.selected := by
  obtain ⟨e, he, hcore, _⟩ := h.2 k e0 hk
  refine ⟨e, he, hcore, ?_⟩
  unfold selected_at
  rw [he]

/-- An event of the store that touches the pair, directly or through its link,
is one of the two events of the pair and links to the other. -/
theorem linked_pair_touch (evs : List Event) (a b i j : Nat) (eon eoff e0 : Event)
    (hp : links_paired evs) (hpair : linked_pair evs a b eon eoff)
    (hi : evs[i]? = some e0) (hl : e0.linked = some j)
    (ht : i = a ∨ i = b ∨ j = a ∨ j = b) :
    (i = a ∧ j = b ∧ e0 = eon) ∨ (i = b ∧ j = a ∧ e0 = eoff) := by
  obtain ⟨ha, hb, _, _, hab, hba⟩ := hpair
  obtain ⟨ej, hj, hback, _⟩ := hp i j e0 hi hl
  have hia : i = a → (i = a ∧ j = b ∧ e0 = eon) := by
    intro h
    subst h
    rw [ha] at hi
    have h0 := Option.some.inj hi
    subst h0
    rw [hab] at hl
    exact ⟨rfl, (Option.some.inj hl).symm, rfl⟩
  have hib : i = b → (i = b ∧ j = a ∧ e0 = eoff) := by
    intro h
    subst h
    rw [hb] at hi
    have h0 := Option.some.inj hi
    subst h0
    rw [hba] at hl
    exact ⟨rfl, (Option.some.inj hl).symm, rfl⟩
  rcases ht with h | h | h | h
  · exact Or.inl (hia h)
  · exact Or.inr (hib h)
  · subst h
    rw [ha] at hj
    have h0 := Option.some.inj hj
    subst h0
    rw [hab] at hback
    exact Or.inr (hib (Option.some.inj hback).symm)
  · subst h
    rw [hb] at hj
    have h0 := Option.some.inj hj
    subst h0
    rw [hba] at hback
    exact Or.inl (hia (Option.some.inj hback).symm)

theorem select_note_step_unlinked (tick_s note_h tick_f note_l : Int) (s : Sequence)
    (r : Int) (i : Nat) (er : Event) (hl : er.linked = none) :
    select_note_step tick_s note_h tick_f note_l .e_select s r i er =
      if (er.get_note : Int) ≤ note_h ∧ (er.get_note : Int) ≥ note_l then
        if er.timestamp ≥ tick_s - 16 ∧ er.timestamp ≤ tick_f then
          some ({ s with events := select_at s.events i }, r + 1, false)
        else some (s, r, false)
      else some (s, r, false) := by
  unfold select_note_step
  rw [hl]
  rfl

theorem select_note_step_linked (tick_s note_h tick_f note_l : Int) (s : Sequence)
    (r : Int) (i j : Nat) (er ev : Event) (hl : er.linked = some j)
    (hj : s.events[j]? = some ev) :
    select_note_step tick_s note_h tick_f note_l .e_select s r i er =
      if (er.get_note : Int) ≤ note_h ∧ (er.get_note : Int) ≥ note_l then
        if span_in_range
            (if er.is_note_off then ev.timestamp
              else if er.is_note_on then er.timestamp else 0)
            (if er.is_note_off then er.timestamp
              else if er.is_note_on then ev.timestamp else 0) tick_s tick_f then
          some ({ s with events := select_at (select_at s.events i) j }, r + 1, false)
        else some (s, r, false)
      else some (s, r, false) := by
  unfold select_note_step
  rw [hl]
  simp only [hj]
  rfl

theorem select_note_step_pair (evs0 : List Event) (a b : Nat) (eon eoff : Event)
    (hp : links_paired evs0) (hpair : linked_pair evs0 a b eon eoff)
    (tick_s note_h tick_f note_l : Int)
    (hpitch : (eon.get_note : Int) ≤ note_h ∧ (eon.get_note : Int) ≥ note_l)
    (s : Sequence) (r : Int) (i : Nat) (er : Event)
    (hinv : quantize_inv evs0 s.events) (hi : s.events[i]? = some er) :
    ∃ (s1 : Sequence) (r1 : Int),
      select_note_step tick_s note_h tick_f note_l .e_select s r i er
        = some (s1, r1, false) ∧
      quantize_inv evs0 s1.events ∧
      (∀ k, selected_at s.events k = true → selected_at s1.events k = true) ∧
      (span_in_range eon.timestamp eoff.timestamp tick_s tick_f = true → i = a →
        selected_at s1.events a = true ∧ selected_at s1.events b = true) ∧
      (span_in_range eon.timestamp eoff.timestamp tick_s tick_f = false →
        ∀ k, (k = a ∨ k = b) → selected_at s1.events k = true →
          selected_at s.events k = true) := by
  obtain ⟨e0, he0, hcore, _⟩ := quantize_inv_back evs0 s.events i er hinv hi
  obtain ⟨hts, hst, hd0, hlk⟩ := select_eq_fields er e0 hcore
  have hnon : er.is_note_on = e0.is_note_on := by
    unfold Event.is_note_on; rw [hst]
  have hnoff : er.is_note_off = e0.is_note_off := by
    unfold Event.is_note_off; rw [hst]
  have hlen : s.events.length = evs0.length := hinv.1
  have hilt : i < s.events.length := (List.getElem?_eq_some_iff.mp hi).1
  obtain ⟨ha, hb, hon, hoff, hab, hba⟩ := hpair
  have hpair : linked_pair evs0 a b eon eoff := ⟨ha, hb, hon, hoff, hab, hba⟩
  have halt : a < s.events.length := by
    rw [hlen]; exact (List.getElem?_eq_some_iff.mp ha).1
  have hblt : b < s.events.length := by
    rw [hlen]; exact (List.getElem?_eq_some_iff.mp hb).1
  cases hl : er.linked with
  | none =>
    have hl0 : e0.linked = none := by rw [← hlk]; exact hl
    have hia : i ≠ a := by
      intro h
      rw [h, ha] at he0
      rw [← Option.some.inj he0, hab] at hl0
      exact absurd hl0 (by simp)
    have hib : i ≠ b := by
      intro h
      rw [h, hb] at he0
      rw [← Option.some.inj he0, hba] at hl0
      exact absurd hl0 (by simp)
    rw [select_note_step_unlinked tick_s note_h tick_f note_l s r i er hl]
    by_cases hc : ((er.get_note : Int) ≤ note_h ∧ (er.get_note : Int) ≥ note_l) ∧
        (er.timestamp ≥ tick_s - 16 ∧ er.timestamp ≤ tick_f)
    · rw [if_pos hc.1, if_pos hc.2]
      refine ⟨_, _, rfl, select_at_inv _ _ _ hinv, ?_, ?_, ?_⟩
      · intro k hk
        exact (selected_at_select_at _ _ _).mpr (Or.inl hk)
      · intro _ h; exact absurd h hia
      · intro _ k hk hsel
        rcases (selected_at_select_at _ _ _).mp hsel with h | ⟨h, _⟩
        · exact h
        · rcases hk with hk | hk
          · exact absurd (h.symm.trans hk) hia
          · exact absurd (h.symm.trans hk) hib
    · have hres : (if (er.get_note : Int) ≤ note_h ∧ (er.get_note : Int) ≥ note_l then
            if er.timestamp ≥ tick_s - 16 ∧ er.timestamp ≤ tick_f then
              some (({ s with events := select_at s.events i } : Sequence), r + 1, false)
            else some (s, r, false)
          else some (s, r, false)) = some (s, r, false) := by
        by_cases h1 : (er.get_note : Int) ≤ note_h ∧ (er.get_note : Int) ≥ note_l
        · rw [if_pos h1]
          by_cases h2 : er.timestamp ≥ tick_s - 16 ∧ er.timestamp ≤ tick_f
          · exact absurd ⟨h1, h2⟩ hc
          · rw [if_neg h2]
        · rw [if_neg h1]
      rw [hres]
      refine ⟨s, r, rfl, hinv, fun _ h => h, ?_, fun _ _ _ h => h⟩
      intro _ h; exact absurd h hia
  | some j =>
    have hl0 : e0.linked = some j := by rw [← hlk]; exact hl
    obtain ⟨ej0, hj0, hback, _⟩ := hp i j e0 he0 hl0
    obtain ⟨ev, hj, hevcore, _⟩ := hinv.2 j ej0 hj0
    have hjlt : j < s.events.length := (List.getElem?_eq_some_iff.mp hj).1
    have hevts : ev.timestamp = ej0.timestamp := (select_eq_fields ev ej0 hevcore).1
    rw [select_note_step_linked tick_s note_h tick_f note_l s r i j er ev hl hj]
    -- when the iteration touches the pair, its span is the span of the pair
    have hspan : (i = a ∨ i = b ∨ j = a ∨ j = b) →
        span_in_range
            (if er.is_note_off then ev.timestamp
              else if er.is_note_on then er.timestamp else 0)
            (if er.is_note_off then er.timestamp
              else if er.is_note_on then ev.timestamp else 0) tick_s tick_f
          = span_in_range eon.timestamp eoff.timestamp tick_s tick_f ∧
        (er.get_note = eon.get_note ∨ i = b) ∧
        ((i = a ∧ j = b) ∨ (i = b ∧ j = a)) := by
      intro ht
      rcases linked_pair_touch evs0 a b i j eon eoff e0 hp hpair he0 hl0 ht with
        ⟨h1, h2, h3⟩ | ⟨h1, h2, h3⟩
      · subst h3
        have hej : ej0 = eoff := by
          rw [h2, hb] at hj0; exact (Option.some.inj hj0).symm
        rw [hnoff, hnon, note_on_not_off e0 hon, hon, hts, hevts, hej]
        exact ⟨rfl, Or.inl hd0, Or.inl ⟨h1, h2⟩⟩
      · subst h3
        have hej : ej0 = eon := by
          rw [h2, ha] at hj0; exact (Option.some.inj hj0).symm
        rw [hnoff, hoff, hts, hevts, hej]
        exact ⟨rfl, Or.inr h1, Or.inr ⟨h1, h2⟩⟩
    by_cases hc : ((er.get_note : Int) ≤ note_h ∧ (er.get_note : Int) ≥ note_l) ∧
        span_in_range
            (if er.is_note_off then ev.timestamp
              else if er.is_note_on then er.timestamp else 0)
            (if er.is_note_off then er.timestamp
              else if er.is_note_on then ev.timestamp else 0) tick_s tick_f = true
    · rw [if_pos hc.1, if_pos hc.2]
      refine ⟨_, _, rfl, select_at_inv _ _ _ (select_at_inv _ _ _ hinv), ?_, ?_, ?_⟩
      · intro k hk
        exact (selected_at_select_at _ _ _).mpr
          (Or.inl ((selected_at_select_at _ _ _).mpr (Or.inl hk)))
      · intro _ hia
        obtain ⟨_, _, hij⟩ := hspan (Or.inl hia)
        have hjb : j = b := by
          rcases hij with h | h
          · exact h.2
          · exact h.2.trans (hia.symm.trans h.1)
        have hlen2 : (select_at s.events i).length = s.events.length := by
          unfold select_at
          rw [hi]
          exact List.length_set _ _ _
        constructor
        · exact (selected_at_select_at _ _ _).mpr
            (Or.inl ((selected_at_select_at _ _ _).mpr (Or.inr ⟨hia.symm, hilt⟩)))
        · exact (selected_at_select_at _ _ _).mpr
            (Or.inr ⟨hjb.symm, by rw [hlen2]; exact hjlt⟩)
      · intro hC k hk hsel
        rcases (selected_at_select_at _ _ _).mp hsel with h | ⟨h, _⟩
        · rcases (selected_at_select_at _ _ _).mp h with h | ⟨h, _⟩
          · exact h
          · have ht : i = a ∨ i = b ∨ j = a ∨ j = b := by
              rcases hk with hk | hk
              · exact Or.inl (h.symm.trans hk)
              · exact Or.inr (Or.inl (h.symm.trans hk))
            rw [(hspan ht).1, hC] at hc
            exact absurd hc.2 (by simp)
        · have ht : i = a ∨ i = b ∨ j = a ∨ j = b := by
            rcases hk with hk | hk
            · exact Or.inr (Or.inr (Or.inl (h.symm.trans hk)))
            · exact Or.inr (Or.inr (Or.inr (h.symm.trans hk)))
          rw [(hspan ht).1, hC] at hc
          exact absurd hc.2 (by simp)
    · have hres : (if (er.get_note : Int) ≤ note_h ∧ (er.get_note : Int) ≥ note_l then
            if span_in_range
                (if er.is_note_off then ev.timestamp
                  else if er.is_note_on then er.timestamp else 0)
                (if er.is_note_off then er.timestamp
                  else if er.is_note_on then ev.timestamp else 0) tick_s tick_f then
              some (({ s with events := select_at (select_at s.events i) j } : Sequence),
                r + 1, false)
            else some (s, r, false)
          else some (s, r, false)) = some (s, r, false) := by
        by_cases h1 : (er.get_note : Int) ≤ note_h ∧ (er.get_note : Int) ≥ note_l
        · rw [if_pos h1]
          by_cases h2 : span_in_range
                (if er.is_note_off then ev.timestamp
                  else if er.is_note_on then er.timestamp else 0)
                (if er.is_note_off then er.timestamp
                  else if er.is_note_on then ev.timestamp else 0) tick_s tick_f = true
          · exact absurd ⟨h1, h2⟩ hc
          · rw [if_neg h2]
        · rw [if_neg h1]
      rw [hres]
      refine ⟨s, r, rfl, hinv, fun _ h => h, ?_, fun _ _ _ h => h⟩
      intro hC hia
      obtain ⟨hsp, hnote, _⟩ := hspan (Or.inl hia)
      have hn : er.get_note = eon.get_note := by
        rcases hnote with h | h
        · exact h
        · -- i = a and i = b: the note-on would be the note-off
          have : eon = eoff := by
            rw [← hia, h, hb] at ha
            exact (Option.some.inj ha).symm
          rw [this, note_off_not_on eoff hoff] at hon
          exact absurd hon (by simp)
      exfalso
      apply hc
      refine ⟨by rw [hn]; exact hpitch, ?_⟩
      rw [hsp]; exact hC

theorem select_note_loop_pair (evs0 : List Event) (a b : Nat) (eon eoff : Event)
    (hp : links_paired evs0) (hpair : linked_pair evs0 a b eon eoff)
    (tick_s note_h tick_f note_l : Int)
    (hpitch : (eon.get_note : Int) ≤ note_h ∧ (eon.get_note : Int) ≥ note_l) :
    ∀ (ps : List Nat) (s : Sequence) (r : Int), (∀ i ∈ ps, i < evs0.length) →
      quantize_inv evs0 s.events →
      ∃ (s1 : Sequence) (r1 : Int),
        select_note_loop tick_s note_h tick_f note_l .e_select ps s r = some (s1, r1) ∧
        quantize_inv evs0 s1.events ∧
        (∀ k, selected_at s.events k = true → selected_at s1.events k = true) ∧
        (span_in_range eon.timestamp eoff.timestamp tick_s tick_f = true → a ∈ ps →
          selected_at s1.events a = true ∧ selected_at s1.events b = true) ∧
        (span_in_range eon.timestamp eoff.timestamp tick_s tick_f = false →
          ∀ k, (k = a ∨ k = b) → selected_at s1.events k = true →
            selected_at s.events k = true) := by
  intro ps
  induction ps with
  | nil =>
    intro s r _ hinv
    refine ⟨s, r, rfl, hinv, fun _ h => h, ?_, fun _ _ _ h => h⟩
    intro _ h
    exact absurd h (List.not_mem_nil a)
  | cons i ps ih =>
    intro s r hps hinv
    have hilt : i < s.events.length := by
      rw [hinv.1]; exact hps i (List.mem_cons_self i ps)
    have hi : s.events[i]? = some (s.events.get ⟨i, hilt⟩) := List.getElem?_eq_getElem hilt
    obtain ⟨s1, r1, hstep, hinv1, hmono1, hC1, hN1⟩ :=
      select_note_step_pair evs0 a b eon eoff hp hpair tick_s note_h tick_f note_l hpitch
        s r i _ hinv hi
    obtain ⟨s2, r2, hloop, hinv2, hmono2, hC2, hN2⟩ :=
      ih s1 r1 (fun k hk => hps k (List.mem_cons_of_mem i hk)) hinv1
    refine ⟨s2, r2, ?_, hinv2, fun k h => hmono2 k (hmono1 k h), ?_, ?_⟩
    · simp only [select_note_loop]
      rw [hi]
      simp only
      rw [hstep]
      simp only [Bool.false_eq_true, if_false]
      exact hloop
    · intro hC hmem
      rcases List.mem_cons.mp hmem with h | h
      · obtain ⟨h1, h2⟩ := hC1 hC h.symm
        exact ⟨hmono2 a h1, hmono2 b h2⟩
      · exact hC2 hC h
    · intro hC k hk hsel
      exact hN1 hC k hk (hN2 hC k hk hsel)

/-- C11, the claim fails: the note from tick 0 to tick 100 has neither its
on-time nor its off-time in the query range `[40, 60]`, and `select_note_events`
with `e_select` selects both of its events. -/
theorem select_note_events_selects_spanning_note :
    linked_pair linked_note_seq.events 0 1
      { on_60 with linked := some 1 } { off_60 with linked := some 0 } ∧
    ¬ ((40 ≤ on_60.timestamp ∧ on_60.timestamp ≤ 60) ∨
       (40 ≤ off_60.timestamp ∧ off_60.timestamp ≤ 60)) ∧
    (select_note_events linked_note_seq 40 127 60 0 .e_select).map
        (fun r => (r.1.events.map Event.selected, r.2))
      = some ([true, true], 2) := by
  refine ⟨?_, ?_, ?_⟩
  · unfold linked_pair; decide
  · decide
  · decide

/-- C11, amended: in a store whose links are all answered, `select_note_events`
with `e_select` returns, changes nothing but selection flags, and a linked
note-on/note-off pair whose pitch lies in `[note_l, note_h]`, not both of its
events selected before, has both of its events selected afterwards if and only
if the span of the note meets the query range: on-time at most off-time,
on-time at most `tick_f` and off-time at least `tick_s`; or, for a note whose
off-time is before its on-time, on-time at most `tick_f` or off-time at least
`tick_s`. -/
theorem select_note_events_selects_overlap (s : Sequence) (a b : Nat) (eon eoff : Event)
    (tick_s note_h tick_f note_l : Int)
    (hp : links_paired s.events) (hpair : linked_pair s.events a b eon eoff)
    (hpitch : note_l ≤ (eon.get_note : Int) ∧ (eon.get_note : Int) ≤ note_h)
    (hun : ¬ (eon.selected = true ∧ eoff.selected = true)) :
    ∃ (s1 : Sequence) (n : Int),
      select_note_events s tick_s note_h tick_f note_l .e_select = some (s1, n) ∧
      quantize_inv s.events s1.events ∧
      ((selected_at s1.events a = true ∧ selected_at s1.events b = true) ↔
        ((eon.timestamp ≤ eoff.timestamp ∧ eon.timestamp ≤ tick_f ∧
            tick_s ≤ eoff.timestamp) ∨
          (eoff.timestamp < eon.timestamp ∧
            (eon.timestamp ≤ tick_f ∨ tick_s ≤ eoff.timestamp)))) := by
  obtain ⟨s1, n, hloop, hinv, _, hC, hN⟩ :=
    select_note_loop_pair s.events a b eon eoff hp hpair tick_s note_h tick_f note_l
      ⟨hpitch.2, hpitch.1⟩ (List.range s.events.length) s 0
      (fun i hi => List.mem_range.mp hi) (quantize_inv_refl s.events)
  refine ⟨s1, n, hloop, hinv, ?_⟩
  rw [← span_in_range_iff]
  have halt : a < s.events.length := (List.getElem?_eq_some_iff.mp hpair.1).1
  constructor
  · intro hsel
    cases hsp : span_in_range eon.timestamp eoff.timestamp tick_s tick_f with
    | true => rfl
    | false =>
      exfalso
      apply hun
      have h1 := hN hsp a (Or.inl rfl) hsel.1
      have h2 := hN hsp b (Or.inr rfl) hsel.2
      unfold selected_at at h1 h2
      rw [hpair.1] at h1
      rw [hpair.2.1] at h2
      exact ⟨h1, h2⟩
  · intro hsp
    exact hC hsp (List.mem_range.mpr halt)

set_option maxRecDepth 100000 in
theorem select_note_events_selects_overlap_witness :
    links_paired linked_note_seq.events ∧
    (∃ (s1 : Sequence) (n : Int),
      select_note_events linked_note_seq 40 127 60 0 .e_select = some (s1, n) ∧
      quantize_inv linked_note_seq.events s1.events ∧
      ((selected_at s1.events 0 = true ∧ selected_at s1.events 1 = true) ↔
        (((0 : Int) ≤ 100 ∧ (0 : Int) ≤ 60 ∧ (40 : Int) ≤ 100) ∨
          ((100 : Int) < 0 ∧ ((0 : Int) ≤ 60 ∨ (40 : Int) ≤ 100))))) :=
  have hp : links_paired linked_note_seq.events := by
    intro a b ea hea hlink
    have ha : a < 2 := (List.getElem?_eq_some_iff.mp hea).1
    interval_cases a
    · have h0 := Option.some.inj hea
      subst h0
      have hb := Option.some.inj hlink
      subst hb
      exact ⟨_, rfl, rfl, Or.inl ⟨rfl, rfl⟩⟩
    · have h0 := Option.some.inj hea
      subst h0
      have hb := Option.some.inj hlink
      subst hb
      exact ⟨_, rfl, rfl, Or.inr ⟨rfl, rfl⟩⟩
  ⟨hp, select_note_events_selects_overlap linked_note_seq 0 1
    { on_60 with linked := some 1 } { off_60 with linked := some 0 } 40 127 60 0 hp
    ⟨rfl, rfl, rfl, rfl, rfl, rfl⟩ (by decide) (by decide)⟩


/-! ## Adding a note -/

/-- C21: for `tick >= 0` and `0 <= note < c_num_keys`, `add_note(tick, length,
note, false)` adds, before relinking, exactly two events to the store: a
note-on at `tick` and a note-off at `tick + length`, both of pitch `note` and
velocity 100, with no link and no flag set; for `tick < 0` or a pitch outside
the keyboard it adds nothing and leaves the pattern as it was. -/
theorem add_note_adds_note_pair (s : Sequence) (tick length note : Int) :
    (0 ≤ tick ∧ 0 ≤ note ∧ note < c_num_keys →
      (∃ s1, add_note_events s tick length note false = some s1 ∧
        s1.events.Perm
          (s.events ++
            [add_note_on tick note false, add_note_off tick length note false])) ∧
      add_note_on tick note false =
        { timestamp := tick, status := EVENT_NOTE_ON, d0 := note.toNat, d1 := 100,
          linked := none, selected := false, marked := false, painted := false } ∧
      add_note_off tick length note false =
        { timestamp := tick + length, status := EVENT_NOTE_OFF, d0 := note.toNat, d1 := 100,
          linked := none, selected := false, marked := false, painted := false }) ∧
    (¬ (0 ≤ tick ∧ 0 ≤ note ∧ note < c_num_keys) →
      add_note_events s tick length note false = some s) := by
  constructor
  · intro h
    have hc : tick ≥ 0 ∧ note ≥ 0 ∧ note < c_num_keys := h
    have hnote : midibyte note = note.toNat := by
      have h2 : note < 128 := h.2.2
      have h1 := h.2.1
      unfold midibyte
      rw [Int.emod_eq_of_lt h1 (by omega)]
    have hvel : midibyte ((SEQ64_DEFAULT_NOTE_VELOCITY : Nat) : Int) = 100 := by decide
    refine ⟨?_, ?_, ?_⟩
    · refine ⟨add_note_pair s tick length note false false, ?_, ?_⟩
      · unfold add_note_events
        rw [if_pos hc]
        rfl
      · show (event_sort (event_sort (s.events ++ [add_note_on tick note false])
          ++ [add_note_off tick length note false])).Perm _
        refine (event_sort_perm _).trans ?_
        have h1 := (event_sort_perm (s.events ++ [add_note_on tick note false])).append_right
          [add_note_off tick length note false]
        refine h1.trans ?_
        rw [List.append_assoc]
        rfl
    · simp only [add_note_on, Event.set_timestamp, Event.set_data, Event.set_status,
        Event.default, hnote, hvel, Bool.false_eq_true, if_false]
    · simp only [add_note_off, add_note_on, Event.set_timestamp, Event.set_data,
        Event.set_status, Event.default, hnote, hvel, Bool.false_eq_true, if_false]
  · intro h
    have hc : ¬ (tick ≥ 0 ∧ note ≥ 0 ∧ note < c_num_keys) := h
    unfold add_note_events
    rw [if_neg hc]

/-! ## Bus and channel -/

/-- C25: for a pattern whose sounding counts are not negative, `set_midi_bus`
and `set_midi_channel` leave every sounding count at zero, having sent one
note-off per sounding count on the old bus and the old channel, followed by a
flush; the field has its new value on return and the other of the two is
unchanged. -/
theorem set_midi_bus_channel_silence (s : Sequence) (mb ch : Nat)
    (h : ∀ x, x < c_midi_notes → 0 ≤ s.playing_notes x) :
    ((∀ x, x < c_midi_notes → (set_midi_bus s mb).playing_notes x = 0) ∧
      (set_midi_bus s mb).sink =
        s.sink ++ (List.range c_midi_notes).flatMap (fun x =>
          List.replicate (s.playing_notes x).toNat
            (BusCall.play s.bus (note_off_event x) s.midi_channel))
        ++ [BusCall.flush] ∧
      (set_midi_bus s mb).bus = mb ∧
      (set_midi_bus s mb).midi_channel = s.midi_channel) ∧
    ((∀ x, x < c_midi_notes → (set_midi_channel s ch).playing_notes x = 0) ∧
      (set_midi_channel s ch).sink =
        s.sink ++ (List.range c_midi_notes).flatMap (fun x =>
          List.replicate (s.playing_notes x).toNat
            (BusCall.play s.bus (note_off_event x) s.midi_channel))
        ++ [BusCall.flush] ∧
      (set_midi_channel s ch).midi_channel = ch ∧
      (set_midi_channel s ch).bus = s.bus) := by
  have hzero : ∀ x, x < c_midi_notes → (off_playing_notes s).playing_notes x = 0 := by
    intro x hx
    rw [off_playing_notes_eq]
    simp only [hx, if_true]
    have := h x hx
    omega
  have hsink : (off_playing_notes s).sink =
      s.sink ++ (List.range c_midi_notes).flatMap (fun x =>
        List.replicate (s.playing_notes x).toNat
          (BusCall.play s.bus (note_off_event x) s.midi_channel))
      ++ [BusCall.flush] := by
    rw [off_playing_notes_eq]
  have hbus : (off_playing_notes s).bus = s.bus := by rw [off_playing_notes_eq]
  have hch : (off_playing_notes s).midi_channel = s.midi_channel := by
    rw [off_playing_notes_eq]
  have e1 : (set_midi_bus s mb).playing_notes = (off_playing_notes s).playing_notes := by
    simp only [set_midi_bus, set_dirty]
  have e2 : (set_midi_bus s mb).sink = (off_playing_notes s).sink := by
    simp only [set_midi_bus, set_dirty]
  have e3 : (set_midi_bus s mb).midi_channel = (off_playing_notes s).midi_channel := by
    simp only [set_midi_bus, set_dirty]
  have e4 : (set_midi_channel s ch).playing_notes = (off_playing_notes s).playing_notes := by
    simp only [set_midi_channel, set_dirty]
  have e5 : (set_midi_channel s ch).sink = (off_playing_notes s).sink := by
    simp only [set_midi_channel, set_dirty]
  have e6 : (set_midi_channel s ch).bus = (off_playing_notes s).bus := by
    simp only [set_midi_channel, set_dirty]
  refine ⟨⟨?_, e2.trans hsink, rfl, e3.trans hch⟩, ⟨?_, e5.trans hsink, rfl, e6.trans hbus⟩⟩
  · intro x hx
    rw [e1]
    exact hzero x hx
  · intro x hx
    rw [e4]
    exact hzero x hx

theorem set_midi_bus_channel_silence_witness :
    (∀ x, x < c_midi_notes → 0 ≤ sounding_seq.playing_notes x) ∧
    (∀ x, x < c_midi_notes → (set_midi_bus sounding_seq 3).playing_notes x = 0) ∧
    (set_midi_bus sounding_seq 3).bus = 3 ∧
    (set_midi_channel sounding_seq 5).midi_channel = 5 :=
  have h : ∀ x, x < c_midi_notes → 0 ≤ sounding_seq.playing_notes x := by
    intro x _
    show (0 : Int) ≤ if x = 60 then 2 else if x = 62 then 1 else 0
    split
    · decide
    · split <;> decide
  ⟨h, (set_midi_bus_channel_silence sounding_seq 3 5 h).1.1,
    (set_midi_bus_channel_silence sounding_seq 3 5 h).1.2.2.1,
    (set_midi_bus_channel_silence sounding_seq 3 5 h).2.2.2.1⟩


/-! ## The draw cursor: lemmas -/

theorem spec_note_draw_not_fin (evs : List Event) (ev : Event) (d : draw_type × NoteDraw)
    (h : spec_note_draw evs ev = some d) : draw_view d = (d.1, some d.2) := by
  unfold spec_note_draw at h
  unfold draw_view
  split at h
  · split at h
    · rw [← Option.some.inj h]; rfl
    · rw [← Option.some.inj h]; rfl
  · split at h
    · rw [← Option.some.inj h]; rfl
    · exact absurd h (by simp)

/-- One call of the loop of `get_next_note_event`, started with a zeroed
finish tick on the events `rest` that are left: with nothing left to draw it
runs to the end of the store and returns `DRAW_FIN`; else it stops right after
the first event to draw, with its result. -/
theorem get_next_note_scan_spec (evs : List Event) :
    ∀ (rest : List Event) (i : Nat) (out : NoteDraw), out.tick_f = 0 →
      (∀ e ∈ rest, e.is_note_on = true → ∀ j, e.linked = some j → j < evs.length) →
      (rest.filterMap (spec_note_draw evs) = [] →
        ∃ out1, get_next_note_scan evs rest i out
          = some (i + rest.length, draw_type.DRAW_FIN, out1)) ∧
      (∀ d ds, rest.filterMap (spec_note_draw evs) = d :: ds →
        ∃ k, get_next_note_scan evs rest i out = some (i + k + 1, d.1, d.2) ∧
          (rest.drop (k + 1)).filterMap (spec_note_draw evs) = ds) := by
  intro rest
  induction rest with
  | nil =>
    intro i out _ _
    refine ⟨fun _ => ⟨out, rfl⟩, ?_⟩
    intro d ds h
    exact absurd h (by simp)
  | cons ev rest ih =>
    intro i out hout hl
    have hl' : ∀ e ∈ rest, e.is_note_on = true → ∀ j, e.linked = some j → j < evs.length :=
      fun e he => hl e (List.mem_cons_of_mem ev he)
    by_cases hon : ev.is_note_on = true
    · cases hlk : ev.linked with
      | none =>
        have hspec : spec_note_draw evs ev = some (draw_type.DRAW_NOTE_ON,
            { tick_s := ev.timestamp, tick_f := 0, note := ev.get_note,
              selected := ev.selected, velocity := ev.d1 }) := by
          unfold spec_note_draw
          rw [if_pos hon, hlk]
        have hscan : get_next_note_scan evs (ev :: rest) i out =
            some (i + 1, draw_type.DRAW_NOTE_ON,
              { tick_s := ev.timestamp, tick_f := 0, note := ev.get_note,
                selected := ev.selected, velocity := ev.d1 }) := by
          simp only [get_next_note_scan, hon, Event.is_linked, hlk, Option.isSome_none,
            Bool.and_false, Bool.false_eq_true, if_false, Bool.not_false, Bool.and_self,
            if_true, Event.get_note_velocity, hout]
        rw [List.filterMap_cons_some hspec]
        refine ⟨fun h => absurd h (by simp), ?_⟩
        intro d ds h
        obtain ⟨h1, h2⟩ := List.cons.inj h
        subst h1
        refine ⟨0, hscan, ?_⟩
        rw [← h2]; rfl
      | some j =>
        have hj : j < evs.length := hl ev (List.mem_cons_self ev rest) hon j hlk
        have hspec : spec_note_draw evs ev = some (draw_type.DRAW_NORMAL_LINKED,
            { tick_s := ev.timestamp, tick_f := (evs.get ⟨j, hj⟩).timestamp,
              note := ev.get_note, selected := ev.selected, velocity := ev.d1 }) := by
          unfold spec_note_draw
          rw [if_pos hon, hlk]
          simp only [List.getElem?_eq_getElem hj, Option.map_some', Option.getD_some,
            List.get_eq_getElem]
        have hscan : get_next_note_scan evs (ev :: rest) i out =
            some (i + 1, draw_type.DRAW_NORMAL_LINKED,
              { tick_s := ev.timestamp, tick_f := (evs.get ⟨j, hj⟩).timestamp,
                note := ev.get_note, selected := ev.selected, velocity := ev.d1 }) := by
          simp only [get_next_note_scan, hon, Event.is_linked, hlk, Option.isSome_some,
            Bool.and_self, if_true, List.getElem?_eq_getElem hj, Event.get_note_velocity,
            List.get_eq_getElem]
        rw [List.filterMap_cons_some hspec]
        refine ⟨fun h => absurd h (by simp), ?_⟩
        intro d ds h
        obtain ⟨h1, h2⟩ := List.cons.inj h
        subst h1
        refine ⟨0, hscan, ?_⟩
        rw [← h2]; rfl
    · have hon' : ev.is_note_on = false := by
        cases h : ev.is_note_on with
        | false => rfl
        | true => exact absurd h hon
      by_cases hoff : (ev.is_note_off && !ev.is_linked) = true
      · have hspec : spec_note_draw evs ev = some (draw_type.DRAW_NOTE_OFF,
            { tick_s := ev.timestamp, tick_f := 0, note := ev.get_note,
              selected := ev.selected, velocity := ev.d1 }) := by
          unfold spec_note_draw
          rw [if_neg hon, if_pos hoff]
        have hscan : get_next_note_scan evs (ev :: rest) i out =
            some (i + 1, draw_type.DRAW_NOTE_OFF,
              { tick_s := ev.timestamp, tick_f := 0, note := ev.get_note,
                selected := ev.selected, velocity := ev.d1 }) := by
          simp only [get_next_note_scan, hon', Bool.false_and, Bool.false_eq_true, if_false,
            hoff, if_true, Event.get_note_velocity, hout]
        rw [List.filterMap_cons_some hspec]
        refine ⟨fun h => absurd h (by simp), ?_⟩
        intro d ds h
        obtain ⟨h1, h2⟩ := List.cons.inj h
        subst h1
        refine ⟨0, hscan, ?_⟩
        rw [← h2]; rfl
      · have hspec : spec_note_draw evs ev = none := by
          unfold spec_note_draw
          rw [if_neg hon, if_neg hoff]
        have hscan : get_next_note_scan evs (ev :: rest) i out =
            get_next_note_scan evs rest (i + 1)
              { out with tick_s := ev.timestamp, note := ev.get_note,
                         selected := ev.selected, velocity := ev.get_note_velocity } := by
          simp only [get_next_note_scan, hon', Bool.false_and, Bool.false_eq_true, if_false,
            hoff]
        rw [List.filterMap_cons_none hspec, hscan]
        obtain ⟨ih1, ih2⟩ := ih (i + 1)
          { out with tick_s := ev.timestamp, note := ev.get_note,
                     selected := ev.selected, velocity := ev.get_note_velocity } hout hl'
        constructor
        · intro h
          obtain ⟨out1, ho⟩ := ih1 h
          refine ⟨out1, ?_⟩
          rw [ho, List.length_cons]
          congr 2
          omega
        · intro d ds h
          obtain ⟨k, hk, hds⟩ := ih2 d ds h
          refine ⟨k + 1, ?_, ?_⟩
          · rw [hk]
            congr 2
            omega
          · exact hds

theorem draw_calls_spec (evs : List Event)
    (hl : ∀ e ∈ evs, e.is_note_on = true → ∀ j, e.linked = some j → j < evs.length) :
    ∀ (n : Nat) (s : Sequence) (out : NoteDraw), s.events = evs →
      s.iterator_draw ≤ evs.length →
      ∃ (s1 : Sequence) (rs : List (draw_type × NoteDraw)),
        draw_calls n s out = some (s1, rs) ∧
        { s1 with iterator_draw := s.iterator_draw } = s ∧
        rs.map draw_view =
          (((evs.drop s.iterator_draw).filterMap (spec_note_draw evs)).map
              (fun d => (d.1, some d.2))).take n ++
            List.replicate
              (n - ((evs.drop s.iterator_draw).filterMap (spec_note_draw evs)).length)
              (draw_type.DRAW_FIN, none) := by
  intro n
  induction n with
  | zero =>
    intro s out _ _
    exact ⟨s, [], rfl, rfl, by simp⟩
  | succ n ih =>
    intro s out hev hp
    have hmem : ∀ e ∈ evs.drop s.iterator_draw, e.is_note_on = true →
        ∀ j, e.linked = some j → j < evs.length :=
      fun e he => hl e (List.mem_of_mem_drop he)
    obtain ⟨hfin, hdraw⟩ := get_next_note_scan_spec evs (evs.drop s.iterator_draw)
      s.iterator_draw { out with tick_f := 0 } rfl hmem
    cases hds : (evs.drop s.iterator_draw).filterMap (spec_note_draw evs) with
    | nil =>
      obtain ⟨out1, hscan⟩ := hfin hds
      have hend : s.iterator_draw + (evs.drop s.iterator_draw).length = evs.length := by
        rw [List.length_drop]; omega
      rw [hend] at hscan
      have hcall : get_next_note_event s out
          = some ({ s with iterator_draw := evs.length }, draw_type.DRAW_FIN, out1) := by
        unfold get_next_note_event
        rw [hev, hscan]
        rfl
      obtain ⟨s2, rs, hrest, hsame, hrs⟩ :=
        ih { s with iterator_draw := evs.length } out1 hev (le_refl _)
      have hnil : (evs.drop evs.length).filterMap (spec_note_draw evs) = [] := by
        rw [List.drop_length]; rfl
      refine ⟨s2, (draw_type.DRAW_FIN, out1) :: rs, ?_, ?_, ?_⟩
      · simp only [draw_calls, hcall, hrest]
      · have h1 := congrArg (fun t : Sequence => { t with iterator_draw := s.iterator_draw })
          hsame
        exact h1
      · rw [List.map_cons, hrs]
        simp only [hnil, List.map_nil, List.take_nil, List.nil_append, List.length_nil,
          Nat.sub_zero, List.replicate_succ]
        rfl
    | cons d ds =>
      obtain ⟨k, hscan, hrestds⟩ := hdraw d ds hds
      have hklt : s.iterator_draw + k + 1 ≤ evs.length := by
        by_contra hgt
        have hlen : (evs.drop s.iterator_draw).length ≤ k := by
          rw [List.length_drop]; omega
        -- the scan never passes the end of the store
        have hbound : ∀ (rest : List Event) (i : Nat) (o : NoteDraw)
            (r : Nat × draw_type × NoteDraw),
            get_next_note_scan evs rest i o = some r → r.1 ≤ i + rest.length := by
          intro rest
          induction rest with
          | nil =>
            intro i o r h
            simp only [get_next_note_scan] at h
            rw [← Option.some.inj h]
            exact le_refl _
          | cons ev rest ihr =>
            intro i o r h
            simp only [get_next_note_scan] at h
            split at h
            · split at h
              · exact absurd h (by simp)
              · split at h
                · exact absurd h (by simp)
                · rw [← Option.some.inj h, List.length_cons]
                  show i + 1 ≤ i + (rest.length + 1)
                  omega
            · split at h
              · rw [← Option.some.inj h, List.length_cons]
                show i + 1 ≤ i + (rest.length + 1)
                omega
              · split at h
                · rw [← Option.some.inj h, List.length_cons]
                  show i + 1 ≤ i + (rest.length + 1)
                  omega
                · have := ihr (i + 1) _ r h
                  rw [List.length_cons]
                  omega
        have hb := hbound _ _ _ _ hscan
        have hb' : s.iterator_draw + k + 1 ≤ s.iterator_draw + (evs.drop s.iterator_draw).length :=
          hb
        omega
      have hcall : get_next_note_event s out
          = some ({ s with iterator_draw := s.iterator_draw + k + 1 }, d.1, d.2) := by
        unfold get_next_note_event
        rw [hev, hscan]
        rfl
      obtain ⟨s2, rs, hrest, hsame, hrs⟩ :=
        ih { s with iterator_draw := s.iterator_draw + k + 1 } d.2 hev hklt
      have hdd : (evs.drop (s.iterator_draw + k + 1)).filterMap (spec_note_draw evs) = ds := by
        have e : (evs.drop s.iterator_draw).drop (k + 1)
            = evs.drop (s.iterator_draw + k + 1) := List.drop_drop _ _ _
        rw [← hrestds, e]
      have hview : draw_view (d.1, d.2) = (d.1, some d.2) := by
        have hmemd : d ∈ (evs.drop s.iterator_draw).filterMap (spec_note_draw evs) := by
          rw [hds]; exact List.mem_cons_self d ds
        obtain ⟨ev, _, hev2⟩ := List.mem_filterMap.mp hmemd
        exact spec_note_draw_not_fin evs ev d hev2
      refine ⟨s2, (d.1, d.2) :: rs, ?_, ?_, ?_⟩
      · simp only [draw_calls, hcall, hrest]
      · have h1 := congrArg (fun t : Sequence => { t with iterator_draw := s.iterator_draw })
          hsame
        exact h1
      · rw [List.map_cons, hrs, hview]
        simp only [hdd, List.map_cons, List.take_succ_cons, List.length_cons,
          Nat.succ_sub_succ, List.cons_append]

/-- C22: on a store whose note-ons link inside it, the calls of
`get_next_note_event` after `reset_draw_marker` return, in store order, one
result for every note-on (`DRAW_NORMAL_LINKED` with the timestamp of the
linked event as finish tick when it is linked, `DRAW_NOTE_ON` otherwise) and
for every unlinked note-off (`DRAW_NOTE_OFF`), passing over linked note-offs
and events that are no notes, and `DRAW_FIN` on every call after that; the
calls change nothing of the pattern but the position of the cursor. -/
theorem get_next_note_event_single_pass (s : Sequence) (out : NoteDraw) (n : Nat)
    (hl : ∀ e ∈ s.events, e.is_note_on = true →
      ∀ j, e.linked = some j → j < s.events.length) :
    ∃ (s1 : Sequence) (rs : List (draw_type × NoteDraw)),
      draw_calls n (reset_draw_marker s) out = some (s1, rs) ∧
      { s1 with iterator_draw := 0 } = reset_draw_marker s ∧
      rs.map draw_view =
        ((s.events.filterMap (spec_note_draw s.events)).map
            (fun d => (d.1, some d.2))).take n ++
          List.replicate (n - (s.events.filterMap (spec_note_draw s.events)).length)
            (draw_type.DRAW_FIN, none) := by
  obtain ⟨s1, rs, h1, h2, h3⟩ :=
    draw_calls_spec s.events hl n (reset_draw_marker s) out rfl (Nat.zero_le _)
  refine ⟨s1, rs, h1, h2, ?_⟩
  rw [h3]
  rfl

theorem get_next_note_event_single_pass_witness :
    (∀ e ∈ linked_note_seq.events, e.is_note_on = true →
      ∀ j, e.linked = some j → j < linked_note_seq.events.length) ∧
    (linked_note_seq.events.filterMap (spec_note_draw linked_note_seq.events)
      = [(draw_type.DRAW_NORMAL_LINKED,
          { tick_s := 0, tick_f := 100, note := 60, selected := false, velocity := 100 })]) ∧
    (∃ (s1 : Sequence) (rs : List (draw_type × NoteDraw)),
      draw_calls 3 (reset_draw_marker linked_note_seq)
          { tick_s := 0, tick_f := 0, note := 0, selected := false, velocity := 0 }
        = some (s1, rs) ∧
      { s1 with iterator_draw := 0 } = reset_draw_marker linked_note_seq ∧
      rs.map draw_view =
        ((linked_note_seq.events.filterMap (spec_note_draw linked_note_seq.events)).map
            (fun d => (d.1, some d.2))).take 3 ++
          List.replicate
            (3 - (linked_note_seq.events.filterMap
              (spec_note_draw linked_note_seq.events)).length)
            (draw_type.DRAW_FIN, none)) :=
  have hl : ∀ e ∈ linked_note_seq.events, e.is_note_on = true →
      ∀ j, e.linked = some j → j < linked_note_seq.events.length := by
    decide
  ⟨hl, by decide,
    get_next_note_event_single_pass linked_note_seq
      { tick_s := 0, tick_f := 0, note := 0, selected := false, velocity := 0 } 3 hl⟩

/-! ## Moving notes: the edge rules -/

/-- The replacement of a selected event whose new pitch is on the keyboard is
among the events `move_selected_notes` adds. -/
theorem move_selected_added_mem (evs : List Event) (delta_tick delta_note length : Int)
    (er : Event) (her : er ∈ evs) (hsel : er.selected = true)
    (hnote : 0 ≤ (er.d0 : Int) + delta_note ∧ (er.d0 : Int) + delta_note < c_num_keys) :
    { er with
      marked := false, selected := true,
      d0 := ((er.d0 : Int) + delta_note).toNat,
      timestamp := move_timestamp er.timestamp delta_tick length er.is_note_on }
      ∈ move_selected_added evs delta_tick delta_note length := by
  have hkeys : (er.d0 : Int) + delta_note < 128 := hnote.2
  have hmb : midibyte ((midibyte ((er.d0 : Int) + delta_note) : Nat) : Int)
      = ((er.d0 : Int) + delta_note).toNat := by
    unfold midibyte
    omega
  have hmark : er.mark ∈ mark_selected evs := by
    unfold mark_selected
    exact List.mem_map.mpr ⟨er, her, by simp [hsel]⟩
  have hrep : move_replacement er.mark delta_tick delta_note length =
      some { er with
        marked := false, selected := true,
        d0 := ((er.d0 : Int) + delta_note).toNat,
        timestamp := move_timestamp er.timestamp delta_tick length er.is_note_on } := by
    have hn : ((er.mark.unmark.get_note : Nat) : Int) + delta_note ≥ 0 ∧
        ((er.mark.unmark.get_note : Nat) : Int) + delta_note < c_num_keys := hnote
    have hm : er.mark.marked = true := rfl
    unfold move_replacement
    rw [if_pos hm]
    simp only [hn, and_self, if_true]
    simp only [Event.select, Event.set_note, Event.set_timestamp, Event.unmark, Event.mark,
      Event.get_note, Event.is_note_on, hmb]
  exact List.mem_filterMap.mpr ⟨er.mark, hmark, hrep⟩

/-- C27, the claim fails for the note-on: with pattern length 768 the selected
note-on at tick 10 moved by 758 pulses lands exactly on the length, and its
replacement is put at tick 0, which is not 2 pulses away from the length. -/
theorem move_selected_notes_note_on_to_start :
    sel_on ∈ edit_seq.events ∧ sel_on.is_note_on = true ∧
    move_wrap sel_on.timestamp 758 edit_seq.length = edit_seq.length ∧
    move_selected_added edit_seq.events 758 0 edit_seq.length
      = [{ sel_on with timestamp := 0 }, { sel_off with timestamp := 40 }] ∧
    (0 : Int) ≠ edit_seq.length - 2 ∧ (0 : Int) ≠ edit_seq.length + 2 := by
  refine ⟨by decide, rfl, by decide, by decide, by decide, by decide⟩

/-- C27, amended: for a selected event whose new pitch is on the keyboard,
`move_selected_notes` puts the replacement of an event that is not a note-on
(a note-off in particular) at `length - 2` when its wrapped timestamp is
exactly 0, and the replacement of a note-on at 0 when its wrapped timestamp is
exactly `length`. -/
theorem move_selected_notes_edge_rules (evs : List Event)
    (delta_tick delta_note length : Int) (er : Event) (her : er ∈ evs)
    (hsel : er.selected = true)
    (hnote : 0 ≤ (er.d0 : Int) + delta_note ∧ (er.d0 : Int) + delta_note < c_num_keys) :
    (er.is_note_on = false → move_wrap er.timestamp delta_tick length = 0 →
      { er with marked := false, selected := true,
                d0 := ((er.d0 : Int) + delta_note).toNat, timestamp := length - 2 }
        ∈ move_selected_added evs delta_tick delta_note length) ∧
    (er.is_note_off = true → er.is_note_on = false) ∧
    (er.is_note_on = true → move_wrap er.timestamp delta_tick length = length →
      { er with marked := false, selected := true,
                d0 := ((er.d0 : Int) + delta_note).toNat, timestamp := 0 }
        ∈ move_selected_added evs delta_tick delta_note length) := by
  have hmem := move_selected_added_mem evs delta_tick delta_note length er her hsel hnote
  rw [move_timestamp_edge] at hmem
  refine ⟨?_, note_off_not_on er, ?_⟩
  · intro hon hw
    rw [if_pos ⟨hw, hon⟩] at hmem
    exact hmem
  · intro hon hw
    have hne : ¬ (move_wrap er.timestamp delta_tick length = 0 ∧ er.is_note_on = false) := by
      intro h
      rw [hon] at h
      exact absurd h.2 (by simp)
    rw [if_neg hne, if_pos ⟨hw, hon⟩] at hmem
    exact hmem

theorem move_selected_notes_edge_rules_witness :
    sel_off ∈ edit_seq.events ∧ sel_off.is_note_on = false ∧
    move_wrap sel_off.timestamp (-50) 768 = 0 ∧
    { sel_off with timestamp := 766 } ∈ move_selected_added edit_seq.events (-50) 0 768 :=
  ⟨by decide, rfl, by decide,
    (move_selected_notes_edge_rules edit_seq.events (-50) 0 768 sel_off (by decide) rfl
      (by decide)).1 rfl (by decide)⟩

/-! ## Quantizing: the tie -/

/-- C29, the claim fails for an odd snap: with `snap = 3` and `divide = 1` the
event at tick `3 / 2 = 1` is moved by 2 pulses, to tick 3, not by
`snap / 2 = 1`. -/
theorem quantize_events_odd_snap_tie :
    Int.tdiv 3 2 = 1 ∧ quantize_delta 1 3 1 768 = 2 ∧
    (quantize_scan [{ cc_event with timestamp := 1 }] EVENT_CONTROL_CHANGE 7 3 1 768
        false).map (fun st => st.2)
      = some [{ cc_event with timestamp := 3 }] := by
  refine ⟨by decide, by decide, by decide⟩

/-- C29, amended: for every `snap >= 2`, with `divide = 1`, a selected event
of the requested status whose timestamp is `snap / 2` is moved forward to the
snap boundary `snap`, provided `snap` is below the pattern length; the shift
`snap - snap / 2` is exactly `snap / 2` when `snap` is even, and one pulse
more when `snap` is odd. -/
theorem quantize_events_tie_break (evs : List Event) (status cc : Nat)
    (snap length : Int) (linked : Bool) (i : Nat) (er : Event)
    (hlinks : ∀ e ∈ evs, ∀ k, e.linked = some k → k < evs.length)
    (hi : evs[i]? = some er) (hsel : er.selected = true) (hstatus : er.status = status)
    (hcc : status = EVENT_CONTROL_CHANGE → er.d0 = cc)
    (hsnap : 2 ≤ snap) (hts : er.timestamp = snap / 2) (hlen : snap < length) :
    ∃ st, quantize_scan evs status cc snap 1 length linked = some st ∧
      { er with marked := false, timestamp := snap } ∈ st.2 ∧
      snap = er.timestamp + (snap - snap / 2) ∧
      (snap % 2 = 0 → snap - snap / 2 = snap / 2) ∧
      (snap % 2 = 1 → snap - snap / 2 = snap / 2 + 1) := by
  obtain ⟨st, hrun, hmem⟩ := quantize_scan_copy evs status cc snap 1 length linked i er
    (by omega) (by decide) hlinks hi hsel hstatus hcc
  have hts0 : 0 ≤ er.timestamp := by rw [hts]; omega
  rw [quantize_delta_eq er.timestamp snap 1 length hts0 (by omega) (by decide)] at hmem
  have hmod : er.timestamp % snap = snap / 2 := by
    rw [hts]
    exact Int.emod_eq_of_lt (by omega) (by omega)
  have hshift : spec_quantize_shift er.timestamp snap 1 = snap - snap / 2 := by
    unfold spec_quantize_shift
    rw [hmod, if_neg (lt_irrefl _), Int.ediv_one]
  have hsum : er.timestamp + (snap - snap / 2) = snap := by rw [hts]; omega
  rw [hshift, if_neg (by omega), hsum] at hmem
  exact ⟨st, hrun, hmem, hsum.symm, by omega, by omega⟩

theorem quantize_events_tie_break_witness :
    ([{ cc_event with timestamp := 2 }] : List Event)[0]? = some { cc_event with timestamp := 2 } ∧
    (4 : Int) / 2 = 2 ∧
    ∃ st, quantize_scan [{ cc_event with timestamp := 2 }] EVENT_CONTROL_CHANGE 7 4 1 768 false
        = some st ∧
      { cc_event with timestamp := 4 } ∈ st.2 ∧
      (4 : Int) = 2 + (4 - 4 / 2) ∧
      ((4 : Int) % 2 = 0 → (4 : Int) - 4 / 2 = 4 / 2) ∧
      ((4 : Int) % 2 = 1 → (4 : Int) - 4 / 2 = 4 / 2 + 1) :=
  ⟨rfl, by decide,
    quantize_events_tie_break [{ cc_event with timestamp := 2 }] EVENT_CONTROL_CHANGE 7 4 768
      false 0 { cc_event with timestamp := 2 } (by decide) rfl rfl rfl (fun _ => rfl)
      (by decide) (by decide) (by decide)⟩


/-! ## Selecting notes: unlinked events -/

theorem select_note_step_single (evs0 : List Event) (a : Nat) (e0 : Event)
    (hp : links_paired evs0) (ha : evs0[a]? = some e0) (hun : e0.linked = none)
    (tick_s note_h tick_f note_l : Int)
    (hpitch : (e0.get_note : Int) ≤ note_h ∧ (e0.get_note : Int) ≥ note_l)
    (s : Sequence) (r : Int) (i : Nat) (er : Event)
    (hinv : quantize_inv evs0 s.events) (hi : s.events[i]? = some er) :
    ∃ (s1 : Sequence) (r1 : Int),
      select_note_step tick_s note_h tick_f note_l .e_select s r i er
        = some (s1, r1, false) ∧
      quantize_inv evs0 s1.events ∧
      (∀ k, selected_at s.events k = true → selected_at s1.events k = true) ∧
      ((e0.timestamp ≥ tick_s - 16 ∧ e0.timestamp ≤ tick_f) → i = a →
        selected_at s1.events a = true) ∧
      (¬ (e0.timestamp ≥ tick_s - 16 ∧ e0.timestamp ≤ tick_f) →
        selected_at s1.events a = true → selected_at s.events a = true) := by
  obtain ⟨ei, hei, hcore, _⟩ := quantize_inv_back evs0 s.events i er hinv hi
  obtain ⟨hts, _, hd0, hlk⟩ := select_eq_fields er ei hcore
  have hilt : i < s.events.length := (List.getElem?_eq_some_iff.mp hi).1
  cases hl : er.linked with
  | none =>
    rw [select_note_step_unlinked tick_s note_h tick_f note_l s r i er hl]
    have hsame : i = a → er.timestamp = e0.timestamp ∧ er.get_note = e0.get_note := by
      intro h
      rw [h, ha] at hei
      rw [← Option.some.inj hei] at hts hd0
      exact ⟨hts, hd0⟩
    by_cases hc : ((er.get_note : Int) ≤ note_h ∧ (er.get_note : Int) ≥ note_l) ∧
        (er.timestamp ≥ tick_s - 16 ∧ er.timestamp ≤ tick_f)
    · rw [if_pos hc.1, if_pos hc.2]
      refine ⟨_, _, rfl, select_at_inv _ _ _ hinv, ?_, ?_, ?_⟩
      · intro k hk
        exact (selected_at_select_at _ _ _).mpr (Or.inl hk)
      · intro _ hia
        exact (selected_at_select_at _ _ _).mpr (Or.inr ⟨hia.symm, hilt⟩)
      · intro hT hsel
        rcases (selected_at_select_at _ _ _).mp hsel with h | ⟨h, _⟩
        · exact h
        · exfalso
          apply hT
          rw [← (hsame h.symm).1]
          exact hc.2
    · have hres : (if (er.get_note : Int) ≤ note_h ∧ (er.get_note : Int) ≥ note_l then
            if er.timestamp ≥ tick_s - 16 ∧ er.timestamp ≤ tick_f then
              some (({ s with events := select_at s.events i } : Sequence), r + 1, false)
            else some (s, r, false)
          else some (s, r, false)) = some (s, r, false) := by
        by_cases h1 : (er.get_note : Int) ≤ note_h ∧ (er.get_note : Int) ≥ note_l
        · rw [if_pos h1]
          by_cases h2 : er.timestamp ≥ tick_s - 16 ∧ er.timestamp ≤ tick_f
          · exact absurd ⟨h1, h2⟩ hc
          · rw [if_neg h2]
        · rw [if_neg h1]
      rw [hres]
      refine ⟨s, r, rfl, hinv, fun _ h => h, ?_, fun _ h => h⟩
      intro hT hia
      exfalso
      apply hc
      obtain ⟨h1, h2⟩ := hsame hia
      rw [h1, h2]
      exact ⟨hpitch, hT⟩
  | some j =>
    have hl0 : ei.linked = some j := by rw [← hlk]; exact hl
    obtain ⟨ej0, hj0, hback, _⟩ := hp i j ei hei hl0
    obtain ⟨ev, hj, _, _⟩ := hinv.2 j ej0 hj0
    have hia : i ≠ a := by
      intro h
      rw [h, ha] at hei
      rw [← Option.some.inj hei, hun] at hl0
      exact absurd hl0 (by simp)
    have hja : j ≠ a := by
      intro h
      rw [h, ha] at hj0
      rw [← Option.some.inj hj0, hun] at hback
      exact absurd hback (by simp)
    rw [select_note_step_linked tick_s note_h tick_f note_l s r i j er ev hl hj]
    by_cases hc : ((er.get_note : Int) ≤ note_h ∧ (er.get_note : Int) ≥ note_l) ∧
        span_in_range
            (if er.is_note_off then ev.timestamp
              else if er.is_note_on then er.timestamp else 0)
            (if er.is_note_off then er.timestamp
              else if er.is_note_on then ev.timestamp else 0) tick_s tick_f = true
    · rw [if_pos hc.1, if_pos hc.2]
      refine ⟨_, _, rfl, select_at_inv _ _ _ (select_at_inv _ _ _ hinv), ?_, ?_, ?_⟩
      · intro k hk
        exact (selected_at_select_at _ _ _).mpr
          (Or.inl ((selected_at_select_at _ _ _).mpr (Or.inl hk)))
      · intro _ h; exact absurd h hia
      · intro _ hsel
        rcases (selected_at_select_at _ _ _).mp hsel with h | ⟨h, _⟩
        · rcases (selected_at_select_at _ _ _).mp h with h | ⟨h, _⟩
          · exact h
          · exact absurd h.symm hia
        · exact absurd h.symm hja
    · have hres : (if (er.get_note : Int) ≤ note_h ∧ (er.get_note : Int) ≥ note_l then
            if span_in_range
                (if er.is_note_off then ev.timestamp
                  else if er.is_note_on then er.timestamp else 0)
                (if er.is_note_off then er.timestamp
                  else if er.is_note_on then ev.timestamp else 0) tick_s tick_f then
              some (({ s with events := select_at (select_at s.events i) j } : Sequence),
                r + 1, false)
            else some (s, r, false)
          else some (s, r, false)) = some (s, r, false) := by
        by_cases h1 : (er.get_note : Int) ≤ note_h ∧ (er.get_note : Int) ≥ note_l
        · rw [if_pos h1]
          by_cases h2 : span_in_range
                (if er.is_note_off then ev.timestamp
                  else if er.is_note_on then er.timestamp else 0)
                (if er.is_note_off then er.timestamp
                  else if er.is_note_on then ev.timestamp else 0) tick_s tick_f = true
          · exact absurd ⟨h1, h2⟩ hc
          · rw [if_neg h2]
        · rw [if_neg h1]
      rw [hres]
      refine ⟨s, r, rfl, hinv, fun _ h => h, ?_, fun _ h => h⟩
      intro _ h; exact absurd h hia

theorem select_note_loop_single (evs0 : List Event) (a : Nat) (e0 : Event)
    (hp : links_paired evs0) (ha : evs0[a]? = some e0) (hun : e0.linked = none)
    (tick_s note_h tick_f note_l : Int)
    (hpitch : (e0.get_note : Int) ≤ note_h ∧ (e0.get_note : Int) ≥ note_l) :
    ∀ (ps : List Nat) (s : Sequence) (r : Int), (∀ i ∈ ps, i < evs0.length) →
      quantize_inv evs0 s.events →
      ∃ (s1 : Sequence) (r1 : Int),
        select_note_loop tick_s note_h tick_f note_l .e_select ps s r = some (s1, r1) ∧
        quantize_inv evs0 s1.events ∧
        (∀ k, selected_at s.events k = true → selected_at s1.events k = true) ∧
        ((e0.timestamp ≥ tick_s - 16 ∧ e0.timestamp ≤ tick_f) → a ∈ ps →
          selected_at s1.events a = true) ∧
        (¬ (e0.timestamp ≥ tick_s - 16 ∧ e0.timestamp ≤ tick_f) →
          selected_at s1.events a = true → selected_at s.events a = true) := by
  intro ps
  induction ps with
  | nil =>
    intro s r _ hinv
    refine ⟨s, r, rfl, hinv, fun _ h => h, ?_, fun _ h => h⟩
    intro _ h
    exact absurd h (List.not_mem_nil a)
  | cons i ps ih =>
    intro s r hps hinv
    have hilt : i < s.events.length := by
      rw [hinv.1]; exact hps i (List.mem_cons_self i ps)
    have hi : s.events[i]? = some (s.events.get ⟨i, hilt⟩) := List.getElem?_eq_getElem hilt
    obtain ⟨s1, r1, hstep, hinv1, hmono1, hC1, hN1⟩ :=
      select_note_step_single evs0 a e0 hp ha hun tick_s note_h tick_f note_l hpitch
        s r i _ hinv hi
    obtain ⟨s2, r2, hloop, hinv2, hmono2, hC2, hN2⟩ :=
      ih s1 r1 (fun k hk => hps k (List.mem_cons_of_mem i hk)) hinv1
    refine ⟨s2, r2, ?_, hinv2, fun k h => hmono2 k (hmono1 k h), ?_, ?_⟩
    · simp only [select_note_loop]
      rw [hi]
      simp only
      rw [hstep]
      simp only [Bool.false_eq_true, if_false]
      exact hloop
    · intro hT hmem
      rcases List.mem_cons.mp hmem with h | h
      · exact hmono2 a (hC1 hT h.symm)
      · exact hC2 hT h
    · intro hT hsel
      exact hN1 hT (hN2 hT hsel)

/-- C30: in a store whose links are all answered, `select_note_events` with
`e_select` returns, changes nothing but selection flags, and an unlinked event
whose pitch lies in `[note_l, note_h]`, not selected before, is selected
afterwards if and only if `tick_s - 16 <= timestamp <= tick_f`: both bounds
are inclusive, the start bound with a tolerance of 16 pulses. -/
theorem select_note_events_unlinked (s : Sequence) (a : Nat) (e0 : Event)
    (tick_s note_h tick_f note_l : Int)
    (hp : links_paired s.events) (ha : s.events[a]? = some e0) (hun : e0.linked = none)
    (hpitch : note_l ≤ (e0.get_note : Int) ∧ (e0.get_note : Int) ≤ note_h)
    (hsel : e0.selected = false) :
    ∃ (s1 : Sequence) (n : Int),
      select_note_events s tick_s note_h tick_f note_l .e_select = some (s1, n) ∧
      quantize_inv s.events s1.events ∧
      (selected_at s1.events a = true ↔
        (tick_s - 16 ≤ e0.timestamp ∧ e0.timestamp ≤ tick_f)) := by
  obtain ⟨s1, n, hloop, hinv, _, hC, hN⟩ :=
    select_note_loop_single s.events a e0 hp ha hun tick_s note_h tick_f note_l
      ⟨hpitch.2, hpitch.1⟩ (List.range s.events.length) s 0
      (fun i hi => List.mem_range.mp hi) (quantize_inv_refl s.events)
  refine ⟨s1, n, hloop, hinv, ?_⟩
  have halt : a < s.events.length := (List.getElem?_eq_some_iff.mp ha).1
  constructor
  · intro h
    by_contra hT
    have h1 := hN hT h
    unfold selected_at at h1
    rw [ha] at h1
    have h2 : e0.selected = true := h1
    rw [hsel] at h2
    exact absurd h2 (by simp)
  · intro hT
    exact hC hT (List.mem_range.mpr halt)

set_option maxRecDepth 100000 in
theorem select_note_events_unlinked_witness :
    links_paired one_note_seq.events ∧
    (∃ (s1 : Sequence) (n : Int),
      select_note_events one_note_seq 16 127 60 0 .e_select = some (s1, n) ∧
      quantize_inv one_note_seq.events s1.events ∧
      (selected_at s1.events 0 = true ↔
        ((16 : Int) - 16 ≤ on_60.timestamp ∧ on_60.timestamp ≤ 60))) ∧
    (select_note_events one_note_seq 16 127 60 0 .e_select).map
        (fun r => r.1.events.map Event.selected) = some [true] ∧
    (select_note_events one_note_seq 17 127 60 0 .e_select).map
        (fun r => r.1.events.map Event.selected) = some [false] :=
  have hp : links_paired one_note_seq.events := by
    intro a b ea hea hlink
    have ha : a < 1 := (List.getElem?_eq_some_iff.mp hea).1
    interval_cases a
    have h0 := Option.some.inj hea
    subst h0
    have hnone : (one_note_seq.events.get ⟨0, ha⟩).linked = none := rfl
    have hl2 : (one_note_seq.events.get ⟨0, ha⟩).linked = some b := hlink
    rw [hnone] at hl2
    exact absurd hl2 (by simp)
  ⟨hp, select_note_events_unlinked one_note_seq 0 on_60 16 127 60 0 hp rfl rfl
    (by decide) rfl, by decide, by decide⟩


/-! ## Growing notes: lemmas -/

theorem getElem?_mark_selected (evs : List Event) (k : Nat) :
    (mark_selected evs)[k]? = (evs[k]?).map (fun e => if e.selected then e.mark else e) := by
  unfold mark_selected
  rw [List.getElem?_map]

/-- C26: song mode, pattern not muted, the trigger step reports that the
pattern is turning off and leaves it playing for this frame, with a positive
length.  Then the emission loop ends at some iteration `J`, the first whose
stamp is past the end of the frame the step left; `play` returns, having
called `put_event_on_bus` for the events of the iterations before `J` whose
stamp has reached the start of that frame, and only then `set_playing(false)`:
on return `playing` is false, `last_tick` is the end of the frame plus one, and
the sink holds the log after the emissions followed by one note-off per
sounding count and a flush. -/
theorem play_turning_off_after_emission (tp : Sequence → Int → Int → TriggerPlay)
    (s : Sequence) (tick : Int) (hmute : s.song_mute = false)
    (hoff : (tp s s.last_tick tick).turning_off = true)
    (hplay : (tp s s.last_tick tick).seq.playing = true)
    (hL : 0 < (tp s s.last_tick tick).seq.length) :
    ∃ J : Nat,
      (∀ k, k < J →
        occ_stamp (tp s s.last_tick tick).seq.events (tp s s.last_tick tick).seq.length
          (play_offset_base (tp s s.last_tick tick).seq) k
            ≤ play_window_end (tp s s.last_tick tick)) ∧
      (0 < (tp s s.last_tick tick).seq.events.length →
        play_window_end (tp s s.last_tick tick) <
          occ_stamp (tp s s.last_tick tick).seq.events (tp s s.last_tick tick).seq.length
            (play_offset_base (tp s s.last_tick tick).seq) J) ∧
      ∀ fuel, J < fuel →
        ∃ s1, play tp fuel s tick true = some s1 ∧
          s1.playing = false ∧
          s1.last_tick = (tp s s.last_tick tick).end_tick + 1 ∧
          s1.sink = (play_emitted (tp s s.last_tick tick) J).sink ++
            (List.range c_midi_notes).flatMap (fun x =>
              List.replicate ((play_emitted (tp s s.last_tick tick) J).playing_notes x).toNat
                (BusCall.play (play_emitted (tp s s.last_tick tick) J).bus (note_off_event x)
                  (play_emitted (tp s s.last_tick tick) J).midi_channel))
            ++ [BusCall.flush] := by
  have hframe : play_frame tp s tick true = tp s s.last_tick tick := by
    simp [play_frame, hmute]
  obtain ⟨J, hJ1, hJ2, hrun⟩ := play_loop_total (fun st _ _ er => put_event_on_bus st er)
    (tp s s.last_tick tick).seq.events (tp s s.last_tick tick).seq.length
    (play_window_start (tp s s.last_tick tick)) (play_window_end (tp s s.last_tick tick))
    (play_offset_base (tp s s.last_tick tick).seq) hL
  refine ⟨J, hJ1, hJ2, ?_⟩
  intro fuel hfuel
  have hne : ¬ (tp s s.last_tick tick).seq.length = 0 := by omega
  have hloop := hrun fuel (tp s s.last_tick tick).seq hfuel
  have hem : ((List.range' 0 J).filter
        (fun k => decide (play_window_start (tp s s.last_tick tick) ≤
          occ_stamp (tp s s.last_tick tick).seq.events (tp s s.last_tick tick).seq.length
            (play_offset_base (tp s s.last_tick tick).seq) k))).foldl
        (fun st k => put_event_on_bus st (occ_event (tp s s.last_tick tick).seq.events k))
        (tp s s.last_tick tick).seq
      = play_emitted (tp s s.last_tick tick) J := by
    unfold play_emitted loop_events
    rw [List.foldl_map]
  rw [hem] at hloop
  have hpl : (play_emitted (tp s s.last_tick tick) J).playing = true := by
    unfold play_emitted
    rw [(foldl_put_fields _ _).2.2.2.1]
    exact hplay
  have hsp : set_playing (play_emitted (tp s s.last_tick tick) J) false =
      { set_dirty (off_playing_notes
          { play_emitted (tp s s.last_tick tick) J with playing := false }) with
        queued := false } := by
    unfold set_playing
    simp [hpl]
  rw [play_unfold, hframe]
  simp only [hplay, if_true, hne, if_false, hoff]
  have hloop2 : play_loop (fun st _ _ er => put_event_on_bus st er)
      (tp s s.last_tick tick).seq.events (tp s s.last_tick tick).seq.length
      ((tp s s.last_tick tick).start_tick + (tp s s.last_tick tick).seq.length
        - (tp s s.last_tick tick).seq.trigger_offset)
      ((tp s s.last_tick tick).end_tick + (tp s s.last_tick tick).seq.length
        - (tp s s.last_tick tick).seq.trigger_offset)
      fuel 0
      (Int.tdiv (tp s s.last_tick tick).seq.last_tick (tp s s.last_tick tick).seq.length
        * (tp s s.last_tick tick).seq.length)
      (tp s s.last_tick tick).seq = some (play_emitted (tp s s.last_tick tick) J) := hloop
  rw [hloop2, Option.map_some', hsp]
  refine ⟨_, rfl, ?_, rfl, ?_⟩
  · simp only [set_dirty, off_playing_notes_eq]
  · simp only [set_dirty, off_playing_notes_eq]


set_option maxRecDepth 100000 in
theorem play_turning_off_after_emission_witness :
    (triggers_play short_trigger_seq short_trigger_seq.last_tick 767).turning_off = true ∧
    (triggers_play short_trigger_seq short_trigger_seq.last_tick 767).seq.playing = true ∧
    (∃ J : Nat, ∀ fuel, J < fuel →
      ∃ s1, play triggers_play fuel short_trigger_seq 767 true = some s1 ∧
        s1.playing = false ∧ s1.last_tick = 51) ∧
    (play triggers_play 8 short_trigger_seq 767 true).map
        (fun s1 => (s1.playing, sent_events s1.sink))
      = some (false, [on_60, note_off_event 60]) :=
  have h := play_turning_off_after_emission triggers_play short_trigger_seq 767 rfl
    (by decide) (by decide) (by decide)
  ⟨by decide, by decide,
    h.elim fun J hJ => ⟨J, fun fuel hf =>
      (hJ.2.2 fuel hf).elim fun s1 h1 => ⟨s1, h1.1, h1.2.1, h1.2.2.1.trans (by decide)⟩⟩,
    by decide⟩


/-! ## Splitting a trigger -/

theorem adjust_offset_eq (length offset : Int) (hL : 0 < length) :
    adjust_offset length offset = offset % length := by
  unfold adjust_offset
  rw [if_pos hL]
  have hb := tmod_bounds offset length hL
  rw [Int.tmod_eq_emod (by omega) (le_of_lt hL), Int.tmod_def]
  have : offset - length * offset.tdiv length + length
      = offset + length * (1 - offset.tdiv length) := by ring
  rw [this, Int.add_mul_emod_self_left]

theorem adjust_offset_phase (length offset tick : Int) (ht : 0 ≤ tick)
    (ho : offset ≤ tick + length) :
    trigger_phase length (adjust_offset length offset) tick
      = trigger_phase length offset tick := by
  by_cases hL : 0 < length
  · rw [adjust_offset_eq length offset hL]
    unfold trigger_phase
    have hL' : length > 0 := hL
    simp only [hL', if_true]
    have hm0 : 0 ≤ offset % length := Int.emod_nonneg offset (ne_of_gt hL)
    have hm1 : offset % length < length := Int.emod_lt_of_pos offset hL
    have hdm := Int.emod_add_ediv offset length
    rw [Int.tmod_eq_emod (by omega) (le_of_lt hL), Int.tmod_eq_emod (by omega) (le_of_lt hL)]
    have e : tick + length - offset % length
        = tick + length - offset + length * (offset / length) := by omega
    rw [e, Int.add_mul_emod_self_left]
  · unfold trigger_phase adjust_offset
    have hL' : ¬ length > 0 := hL
    simp only [hL', if_false]

theorem triggers_split_at (length : Int) (splittick : Int) (t : Trigger)
    (post : List Trigger) :
    ∀ pre : List Trigger,
      (∀ u ∈ pre, ¬ (u.tick_start ≤ splittick ∧ splittick ≤ u.tick_end)) →
      t.tick_start ≤ splittick ∧ splittick ≤ t.tick_end →
      triggers_split length (pre ++ t :: post) splittick =
        pre ++ (trigger_split length t splittick).1 ::
          (trigger_split length t splittick).2 :: post := by
  intro pre
  induction pre with
  | nil =>
    intro _ ht
    simp only [List.nil_append, triggers_split]
    rw [if_pos ht]
  | cons u pre ih =>
    intro hpre ht
    have hu := hpre u (List.mem_cons_self u pre)
    have hrec := ih (fun v hv => hpre v (List.mem_cons_of_mem u hv)) ht
    show triggers_split length (u :: (pre ++ t :: post)) splittick = u :: _
    simp only [triggers_split]
    rw [if_neg hu, hrec]
    rfl

/-- C23: `split_trigger` on the first trigger that contains the split tick
puts two triggers in its place: the first keeps the ticks from the old start
up to the tick before the split tick, the second has the ticks from the split
tick to the old end, so that a tick lies in the old trigger exactly when it
lies in one of the two; and for a split tick that is not negative, with the
old offset at most one pattern length ahead of it, both give the split tick
the pattern phase the old trigger gave it.  The trigger over `[100, 200)`
split at 150 becomes the triggers over `[100, 150)` and `[150, 200)`. -/
theorem split_trigger_halves (s : Sequence) (splittick : Int) (t : Trigger)
    (pre post : List Trigger) (hs : s.triggers = pre ++ t :: post)
    (hpre : ∀ u ∈ pre, ¬ (u.tick_start ≤ splittick ∧ splittick ≤ u.tick_end))
    (ht : t.tick_start ≤ splittick ∧ splittick ≤ t.tick_end) :
    ∃ a b : Trigger,
      (split_trigger s splittick).triggers = pre ++ a :: b :: post ∧
      a.tick_start = t.tick_start ∧ a.tick_end = splittick - 1 ∧
      b.tick_start = splittick ∧ b.tick_end = t.tick_end ∧
      (∀ x : Int, (t.tick_start ≤ x ∧ x ≤ t.tick_end) ↔
        ((a.tick_start ≤ x ∧ x ≤ a.tick_end) ∨ (b.tick_start ≤ x ∧ x ≤ b.tick_end))) ∧
      (0 ≤ splittick → t.offset ≤ splittick + s.length →
        trigger_phase s.length a.offset splittick
          = trigger_phase s.length t.offset splittick ∧
        trigger_phase s.length b.offset splittick
          = trigger_phase s.length t.offset splittick) ∧
      (split_trigger span_seq 150).triggers =
        [{ tick_start := 100, tick_end := 149, offset := 100, selected := false },
         { tick_start := 150, tick_end := 199, offset := 100, selected := false }] := by
  refine ⟨(trigger_split s.length t splittick).1, (trigger_split s.length t splittick).2,
    ?_, rfl, rfl, rfl, rfl, ?_, ?_, by decide⟩
  · unfold split_trigger
    show triggers_split s.length s.triggers splittick = _
    rw [hs]
    exact triggers_split_at s.length splittick t post pre hpre ht
  · intro x
    show _ ↔ ((t.tick_start ≤ x ∧ x ≤ splittick - 1) ∨ (splittick ≤ x ∧ x ≤ t.tick_end))
    constructor
    · intro h
      by_cases hx : x < splittick
      · exact Or.inl ⟨h.1, by omega⟩
      · exact Or.inr ⟨by omega, h.2⟩
    · intro h
      rcases h with h | h
      · exact ⟨h.1, by omega⟩
      · exact ⟨by omega, h.2⟩
  · intro h0 ho
    exact ⟨rfl, adjust_offset_phase s.length t.offset splittick h0 ho⟩

theorem split_trigger_halves_witness :
    span_seq.triggers
      = [] ++ ({ tick_start := 100, tick_end := 199, offset := 100, selected := false }
          : Trigger) :: [] ∧
    ∃ a b : Trigger,
      (split_trigger span_seq 150).triggers = [] ++ a :: b :: [] ∧
      a.tick_start = 100 ∧ a.tick_end = 150 - 1 ∧ b.tick_start = 150 ∧ b.tick_end = 199 :=
  have h := split_trigger_halves span_seq 150
    { tick_start := 100, tick_end := 199, offset := 100, selected := false } [] [] rfl
    (fun u hu => absurd hu (List.not_mem_nil u)) (by decide)
  ⟨rfl, h.elim fun a h1 => h1.elim fun b h2 =>
    ⟨a, b, h2.1, h2.2.1, h2.2.2.1, h2.2.2.2.1, h2.2.2.2.2.1⟩⟩


/-! ## Transport ticks -/

theorem tick_delta_exact (ppqn bpm sample_rate carry frames : Int) (hr : 0 < sample_rate) :
    (tick_delta ppqn bpm sample_rate carry frames).1 * (sample_rate * 60) +
        (tick_delta ppqn bpm sample_rate carry frames).2
      = frames * ppqn * bpm + carry ∧
    - (sample_rate * 60) ≤ 2 * (tick_delta ppqn bpm sample_rate carry frames).2 ∧
    2 * (tick_delta ppqn bpm sample_rate carry frames).2 < sample_rate * 60 := by
  unfold tick_delta
  simp only
  generalize frames * ppqn * bpm + carry = num
  have hden : 0 < 2 * (sample_rate * 60) := by omega
  have h1 := Int.emod_add_ediv (2 * num + sample_rate * 60) (2 * (sample_rate * 60))
  have h2 := Int.emod_nonneg (2 * num + sample_rate * 60) (ne_of_gt hden)
  have h3 := Int.emod_lt_of_pos (2 * num + sample_rate * 60) hden
  generalize (2 * num + sample_rate * 60) / (2 * (sample_rate * 60)) = q at h1 ⊢
  generalize (2 * num + sample_rate * 60) % (2 * (sample_rate * 60)) = m at h1 h2 h3
  have hq : 2 * (sample_rate * 60) * q = 2 * (q * (sample_rate * 60)) := by ring
  refine ⟨by ring, ?_, ?_⟩
  · omega
  · omega

/-- C24: with `ppqn = 192`, `bpm = 120` and `sample_rate = 48000`, a frame
delta of 24000 frames and no carried remainder give a tick delta of exactly
192 pulses and leave no remainder; for every positive sample rate the tick
delta times `sample_rate * 60` plus the new remainder is
`frames * ppqn * bpm` plus the carried remainder, the remainder is at most
half a pulse, and over any run of calls the tick deltas add up to the exact
value of the frames converted, up to the remainders carried in and out. -/
theorem tick_delta_quarter_note (ppqn bpm sample_rate carry : Int) (deltas : List Int)
    (hr : 0 < sample_rate) :
    tick_delta 192 120 48000 0 24000 = (192, 0) ∧
    (∀ frames : Int,
      (tick_delta ppqn bpm sample_rate carry frames).1 * (sample_rate * 60) +
          (tick_delta ppqn bpm sample_rate carry frames).2
        = frames * ppqn * bpm + carry ∧
      - (sample_rate * 60) ≤ 2 * (tick_delta ppqn bpm sample_rate carry frames).2 ∧
      2 * (tick_delta ppqn bpm sample_rate carry frames).2 < sample_rate * 60) ∧
    (ticks_run ppqn bpm sample_rate carry deltas).1 * (sample_rate * 60) +
        (ticks_run ppqn bpm sample_rate carry deltas).2
      = deltas.sum * ppqn * bpm + carry := by
  refine ⟨by decide, fun frames => tick_delta_exact ppqn bpm sample_rate carry frames hr, ?_⟩
  induction deltas generalizing carry with
  | nil => simp [ticks_run]
  | cons f fs ih =>
    have h1 := (tick_delta_exact ppqn bpm sample_rate carry f hr).1
    have h2 := ih (tick_delta ppqn bpm sample_rate carry f).2
    simp only [ticks_run, List.sum_cons]
    have e : (f + fs.sum) * ppqn * bpm = f * ppqn * bpm + fs.sum * ppqn * bpm := by ring
    rw [e, Int.add_mul]
    omega

theorem tick_delta_quarter_note_witness :
    (0 : Int) < 48000 ∧ tick_delta 192 120 48000 0 24000 = (192, 0) ∧
    (ticks_run 192 120 48000 0 [1000, 1000, 1000]).1 * (48000 * 60) +
        (ticks_run 192 120 48000 0 [1000, 1000, 1000]).2
      = ([1000, 1000, 1000] : List Int).sum * 192 * 120 + 0 :=
  have h := tick_delta_quarter_note 192 120 48000 0 [1000, 1000, 1000] (by decide)
  ⟨by decide, h.1, h.2.2⟩


/-! ## Reading past the end of the store -/

theorem intersect_notes_loop_last (position position_note : Int) (eon : Event)
    (hp : position_note = (eon.get_note : Int)) (hon : eon.is_note_on = true) :
    ∀ pre : List Event,
      intersect_notes_loop position position_note (pre ++ [eon]) ≠ some none := by
  intro pre
  induction pre with
  | nil =>
    simp only [List.nil_append, intersect_notes_loop]
    rw [if_pos ⟨hp, hon⟩]
    exact fun h => by cases h
  | cons e pre ih =>
    have hne : pre ++ [eon] ≠ [] := by simp
    cases hrest : pre ++ [eon] with
    | nil => exact absurd hrest hne
    | cons f rest =>
      rw [hrest] at ih
      rw [List.cons_append, hrest]
      simp only [intersect_notes_loop]
      by_cases h1 : position_note = (e.get_note : Int) ∧ e.is_note_on = true
      · rw [if_pos h1]
        by_cases h2 : e.get_note = f.get_note ∧ f.is_note_off = true ∧
            e.timestamp ≤ position ∧ position ≤ f.timestamp
        · rw [if_pos h2]
          exact fun h => by cases h
        · rw [if_neg h2]
          exact ih
      · rw [if_neg h1]
        exact ih

/-- C39, at the failing input: on the store that holds a note of pitch 60
wrapping around the end of the pattern, note-off first and note-on last,
`intersect_notes` for pitch 60 reads the element after the last one, the end
position; so it does on the store that holds only a note-on of pitch 60; and
on every store whose last event is a note-on of the pitch asked for, the call
either finds a note before it or reads the end position, it never returns
`false`. -/
theorem intersect_notes_reads_end :
    intersect_notes wrapped_note_seq 710 60 = none ∧
    one_note_seq.events = [on_60] ∧
    intersect_notes one_note_seq 0 60 = none ∧
    ∀ (s : Sequence) (pre : List Event) (eon : Event) (position position_note : Int),
      s.events = pre ++ [eon] → position_note = (eon.get_note : Int) →
      eon.is_note_on = true →
      intersect_notes s position position_note ≠ some none := by
  refine ⟨by decide, rfl, by decide, ?_⟩
  intro s pre eon position position_note hs hp hon
  unfold intersect_notes
  rw [hs]
  exact intersect_notes_loop_last position position_note eon hp hon pre

/-! ## Changing event data: the moved end of the range -/

/-- C32, at the failing input: two selected control changes of controller 7,
at ticks 30 and 31.  `change_event_data_range` for the range `[30, 30]` moves
its `tick_f` to 31 when it changes the first one, and then changes the event
at tick 31 too, which is outside the range that was passed in. -/
theorem change_event_data_range_widens_range :
    cc_pair_seq.events = [cc_event, { cc_event with timestamp := 31 }] ∧
    ¬ ((30 : Int) ≤ 31 ∧ (31 : Int) ≤ 30) ∧
    change_event_data_range cc_pair_seq 30 30 EVENT_CONTROL_CHANGE 7 64 64
      = ({ cc_pair_seq with
            events := [{ cc_event with d1 := 64 },
                       { cc_event with timestamp := 31, d1 := 64 }] }, true) ∧
    (change_event_data_range cc_pair_seq 30 30 EVENT_CONTROL_CHANGE 7 64 64).1.events
      ≠ [{ cc_event with d1 := 64 }, { cc_event with timestamp := 31 }] := by
  refine ⟨rfl, by decide, ?_, by decide⟩
  rfl

/-! ## The emission loop ends -/

/-- C36: for a positive pattern length the emission loop of `play` ends for
every store, every frame window and every start offset: on a store that is
not empty the stamp of the first event, one round later each time the loop
wraps to the start of the store, is past the end of the window after
`eto - ob0 - t0 + 1` rounds (`t0` the timestamp of the first event), and the
loop has returned by then, with a result that does not depend on the number
of iterations it is allowed; and `play` in live mode returns for every
pattern of positive length. -/
theorem play_emission_loop_terminates (tp : Sequence → Int → Int → TriggerPlay)
    (s : Sequence) (tick : Int) (evs : List Event) (sto eto ob0 : Int) (hL : 0 < s.length) :
    (0 < evs.length →
      eto < occ_stamp evs s.length ob0
        (evs.length * (eto - ob0 - (evs.getD 0 Event.default).timestamp + 1).toNat)) ∧
    (∃ r : Sequence, ∀ fuel,
      evs.length * (eto - ob0 - (evs.getD 0 Event.default).timestamp + 1).toNat < fuel →
      play_loop (fun st _ _ er => put_event_on_bus st er) evs s.length sto eto fuel 0 ob0 s
        = some r) ∧
    (∃ fuel0, ∀ fuel, fuel0 ≤ fuel → ∃ s1, play tp fuel s tick false = some s1) := by
  have hstop : 0 < evs.length →
      eto < occ_stamp evs s.length ob0
        (evs.length * (eto - ob0 - (evs.getD 0 Event.default).timestamp + 1).toNat) := by
    intro hn
    unfold occ_stamp occ_event occ_base
    rw [Nat.mul_mod_right, Nat.mul_div_cancel_left _ hn]
    generalize (evs.getD 0 Event.default).timestamp = t0
    have hK : eto - ob0 - t0 + 1 ≤ ((eto - ob0 - t0 + 1).toNat : Int) := Int.self_le_toNat _
    have hK0 : (0 : Int) ≤ ((eto - ob0 - t0 + 1).toNat : Int) := Int.natCast_nonneg _
    have hmul : ((eto - ob0 - t0 + 1).toNat : Int) * 1
        ≤ ((eto - ob0 - t0 + 1).toNat : Int) * s.length :=
      Int.mul_le_mul_of_nonneg_left (by omega) hK0
    omega
  refine ⟨hstop, ?_, ?_⟩
  · obtain ⟨J, hJ1, _, hrun⟩ := play_loop_total (fun st _ _ er => put_event_on_bus st er)
      evs s.length sto eto ob0 hL
    by_cases hn : 0 < evs.length
    · have hJB : J ≤ evs.length *
          (eto - ob0 - (evs.getD 0 Event.default).timestamp + 1).toNat := by
        by_contra hlt
        have h1 := hJ1 _ (not_le.mp hlt)
        have h2 := hstop hn
        omega
      exact ⟨_, fun fuel hfuel => hrun fuel s (by omega)⟩
    · have hnil : evs = [] := List.length_eq_zero.mp (by omega)
      subst hnil
      refine ⟨s, fun fuel hfuel => ?_⟩
      obtain ⟨f, rfl⟩ : ∃ f, fuel = f + 1 := ⟨fuel - 1, by omega⟩
      simp [play_loop]
  · have hne : ¬ (play_frame tp s tick false).seq.length = 0 := by
      unfold play_frame
      by_cases hm : s.song_mute = true
      · simp only [hm, if_true, set_playing_length]; omega
      · simp only [hm, if_false, Bool.false_eq_true]; omega
    have hrL : 0 < (play_frame tp s tick false).seq.length := by
      unfold play_frame
      by_cases hm : s.song_mute = true
      · simp only [hm, if_true, set_playing_length]; exact hL
      · simp only [hm, if_false, Bool.false_eq_true]; exact hL
    by_cases hpl : (play_frame tp s tick false).seq.playing = true
    · obtain ⟨J, _, _, hrun⟩ := play_loop_total (fun st _ _ er => put_event_on_bus st er)
        (play_frame tp s tick false).seq.events (play_frame tp s tick false).seq.length
        ((play_frame tp s tick false).start_tick + (play_frame tp s tick false).seq.length
          - (play_frame tp s tick false).seq.trigger_offset)
        ((play_frame tp s tick false).end_tick + (play_frame tp s tick false).seq.length
          - (play_frame tp s tick false).seq.trigger_offset)
        (Int.tdiv (play_frame tp s tick false).seq.last_tick
          (play_frame tp s tick false).seq.length * (play_frame tp s tick false).seq.length)
        hrL
      refine ⟨J + 1, fun fuel hfuel => ?_⟩
      rw [play_unfold, if_pos hpl, if_neg hne, hrun fuel _ (by omega)]
      exact ⟨_, rfl⟩
    · refine ⟨0, fun fuel _ => ?_⟩
      rw [play_unfold, if_neg hpl]
      exact ⟨_, rfl⟩

set_option maxRecDepth 100000 in
theorem play_emission_loop_terminates_witness :
    (0 : Int) < one_bar_seq.length ∧
    (∃ r : Sequence, ∀ fuel,
      one_bar_seq.events.length *
          ((767 : Int) - 0 - (one_bar_seq.events.getD 0 Event.default).timestamp + 1).toNat
        < fuel →
      play_loop (fun st _ _ er => put_event_on_bus st er) one_bar_seq.events
        one_bar_seq.length 0 767 fuel 0 0 one_bar_seq = some r) ∧
    (play triggers_play 8 one_bar_seq 767 false).isSome = true :=
  have h := play_emission_loop_terminates triggers_play one_bar_seq 767 one_bar_seq.events
    0 767 0 (by decide)
  ⟨by decide, h.2.1, by decide⟩


/-! ## The queries of `select_note_events` -/

theorem select_note_step_would_select (tick_s note_h tick_f note_l : Int) (s : Sequence)
    (r : Int) (i : Nat) (er : Event)
    (hl : ∀ j, er.linked = some j → j < s.events.length) :
    select_note_step tick_s note_h tick_f note_l .e_would_select s r i er
      = some (s, (if select_box_test s.events tick_s note_h tick_f note_l er then 1 else r),
          select_box_test s.events tick_s note_h tick_f note_l er) := by
  unfold select_note_step select_box_test
  by_cases hp : (er.get_note : Int) ≤ note_h ∧ (er.get_note : Int) ≥ note_l
  · rw [if_pos hp]
    cases hlk : er.linked with
    | none =>
      by_cases ht : er.timestamp ≥ tick_s - 16 ∧ er.timestamp ≤ tick_f
      · simp [hp, ht, select_single_action]
      · have ht2 : ¬ (tick_s ≤ er.timestamp + 16 ∧ er.timestamp ≤ tick_f) := by omega
        simp [hp, ht2]
    | some j =>
      have hj := hl j hlk
      have hget : s.events[j]? = some (s.events[j]) := List.getElem?_eq_getElem hj
      simp only [hget]
      cases hsp : span_in_range
          (if er.is_note_off then (s.events[j]).timestamp
            else if er.is_note_on then er.timestamp else 0)
          (if er.is_note_off then er.timestamp
            else if er.is_note_on then (s.events[j]).timestamp else 0) tick_s tick_f
      · simp [hp]
      · simp [hp, select_linked_action]
  · rw [if_neg hp]
    simp [hp]

theorem select_note_step_is_selected (tick_s note_h tick_f note_l : Int) (s : Sequence)
    (r : Int) (i : Nat) (er : Event)
    (hl : ∀ j, er.linked = some j → j < s.events.length) :
    select_note_step tick_s note_h tick_f note_l .e_is_selected s r i er
      = some (s,
          (if (select_box_test s.events tick_s note_h tick_f note_l er && er.selected) then 1
            else r),
          (select_box_test s.events tick_s note_h tick_f note_l er && er.selected)) := by
  unfold select_note_step select_box_test
  by_cases hp : (er.get_note : Int) ≤ note_h ∧ (er.get_note : Int) ≥ note_l
  · rw [if_pos hp]
    cases hlk : er.linked with
    | none =>
      by_cases ht : er.timestamp ≥ tick_s - 16 ∧ er.timestamp ≤ tick_f
      · cases hsel : er.selected <;> simp [hp, ht, hsel, select_single_action]
      · have ht2 : ¬ (tick_s ≤ er.timestamp + 16 ∧ er.timestamp ≤ tick_f) := by omega
        simp [hp, ht2]
    | some j =>
      have hj := hl j hlk
      have hget : s.events[j]? = some (s.events[j]) := List.getElem?_eq_getElem hj
      simp only [hget]
      cases hsp : span_in_range
          (if er.is_note_off then (s.events[j]).timestamp
            else if er.is_note_on then er.timestamp else 0)
          (if er.is_note_off then er.timestamp
            else if er.is_note_on then (s.events[j]).timestamp else 0) tick_s tick_f
      · simp [hp]
      · cases hsel : er.selected <;> simp [hp, hsel, select_linked_action]
  · rw [if_neg hp]
    simp [hp]

theorem select_note_loop_query (tick_s note_h tick_f note_l : Int) (action : select_action_e)
    (s : Sequence) (hit : Event → Bool)
    (hstep : ∀ (r : Int) (i : Nat) (er : Event), er ∈ s.events →
      select_note_step tick_s note_h tick_f note_l action s r i er
        = some (s, (if hit er then 1 else r), hit er)) :
    ∀ (m k : Nat) (r : Int), k + m = s.events.length →
      select_note_loop tick_s note_h tick_f note_l action (List.range' k m) s r
        = some (s, if (s.events.drop k).any hit then 1 else r) := by
  intro m
  induction m with
  | zero =>
    intro k r hk
    have hdrop : s.events.drop k = [] := List.drop_eq_nil_of_le (by omega)
    simp [select_note_loop, hdrop]
  | succ m ih =>
    intro k r hk
    have hlt : k < s.events.length := by omega
    have hget : s.events[k]? = some (s.events[k]) := List.getElem?_eq_getElem hlt
    have hdrop : s.events.drop k = s.events[k] :: s.events.drop (k + 1) :=
      List.drop_eq_getElem_cons hlt
    have hmem : s.events[k] ∈ s.events := List.getElem_mem hlt
    rw [List.range'_succ]
    simp only [select_note_loop, hget, hstep r k _ hmem, hdrop, List.any_cons]
    cases hh : hit (s.events[k])
    · simp only [Bool.false_or, if_false, Bool.false_eq_true]
      exact ih (k + 1) r (by omega)
    · simp

/-- C31: the queries of `select_note_events` read only.  In a store in which
no link dangles, the call with `e_would_select` returns 1 when some event of
the store passes the test of the box (pitch in `[note_l, note_h]`, and the
span of a linked note meeting `[tick_s, tick_f]`, or the timestamp of an
unlinked event in `[tick_s - 16, tick_f]`) and 0 otherwise; with
`e_is_selected` it returns 1 when some event that passes the test is selected
and 0 otherwise; both return the pattern as it was. -/
theorem select_note_events_queries_read_only (s : Sequence)
    (tick_s note_h tick_f note_l : Int)
    (hlinks : ∀ e ∈ s.events, ∀ j, e.linked = some j → j < s.events.length) :
    select_note_events s tick_s note_h tick_f note_l .e_would_select
      = some (s,
          if s.events.any (select_box_test s.events tick_s note_h tick_f note_l) then 1
          else 0) ∧
    select_note_events s tick_s note_h tick_f note_l .e_is_selected
      = some (s,
          if s.events.any
              (fun er => select_box_test s.events tick_s note_h tick_f note_l er && er.selected)
          then 1 else 0) := by
  unfold select_note_events
  rw [List.range_eq_range']
  constructor
  · have h := select_note_loop_query tick_s note_h tick_f note_l .e_would_select s
      (select_box_test s.events tick_s note_h tick_f note_l)
      (fun r i er hm => select_note_step_would_select tick_s note_h tick_f note_l s r i er
        (hlinks er hm))
      s.events.length 0 0 (by omega)
    rw [List.drop_zero] at h
    exact h
  · have h := select_note_loop_query tick_s note_h tick_f note_l .e_is_selected s
      (fun er => select_box_test s.events tick_s note_h tick_f note_l er && er.selected)
      (fun r i er hm => select_note_step_is_selected tick_s note_h tick_f note_l s r i er
        (hlinks er hm))
      s.events.length 0 0 (by omega)
    rw [List.drop_zero] at h
    exact h

set_option maxRecDepth 100000 in
theorem select_note_events_queries_read_only_witness :
    (∀ e ∈ edit_seq_linked.events, ∀ j, e.linked = some j →
      j < edit_seq_linked.events.length) ∧
    select_note_events edit_seq_linked 0 127 1000 0 .e_would_select
      = some (edit_seq_linked, 1) ∧
    select_note_events edit_seq_linked 0 127 1000 0 .e_is_selected
      = some (edit_seq_linked, 1) ∧
    select_note_events edit_seq_linked 0 127 1000 70 .e_is_selected
      = some (edit_seq_linked, 0) ∧
    select_note_events edit_seq_linked 0 127 1000 100 .e_would_select
      = some (edit_seq_linked, 0) :=
  have hd : ∀ e ∈ edit_seq_linked.events,
      (match e.linked with
        | some j => decide (j < edit_seq_linked.events.length)
        | none => true) = true := by decide
  have hl : ∀ e ∈ edit_seq_linked.events, ∀ j, e.linked = some j →
      j < edit_seq_linked.events.length := by
    intro e he j hj
    have h := hd e he
    rw [hj] at h
    exact of_decide_eq_true h
  have h1 := select_note_events_queries_read_only edit_seq_linked 0 127 1000 0 hl
  have h2 := select_note_events_queries_read_only edit_seq_linked 0 127 1000 70 hl
  have h3 := select_note_events_queries_read_only edit_seq_linked 0 127 1000 100 hl
  have e1 : (if edit_seq_linked.events.any
      (select_box_test edit_seq_linked.events 0 127 1000 0) then (1 : Int) else 0) = 1 := by
    decide
  have e2 : (if edit_seq_linked.events.any
      (fun er => select_box_test edit_seq_linked.events 0 127 1000 0 er && er.selected)
      then (1 : Int) else 0) = 1 := by decide
  have e3 : (if edit_seq_linked.events.any
      (fun er => select_box_test edit_seq_linked.events 0 127 1000 70 er && er.selected)
      then (1 : Int) else 0) = 0 := by decide
  have e4 : (if edit_seq_linked.events.any
      (select_box_test edit_seq_linked.events 0 127 1000 100) then (1 : Int) else 0) = 0 := by
    decide
  ⟨hl, h1.1.trans (by rw [e1]), h1.2.trans (by rw [e2]), h2.2.trans (by rw [e3]),
    h3.1.trans (by rw [e4])⟩


/-! ## Sounding counts are never negative -/

theorem put_event_on_bus_counts_nonneg (s : Sequence) (ev : Event) (hs : counts_nonneg s) :
    counts_nonneg (put_event_on_bus s ev) := by
  intro n
  have hn := hs n
  have hv := hs ev.get_note
  unfold put_event_on_bus
  by_cases h1 : ev.is_note_on = true <;> by_cases h2 : ev.is_note_off = true <;>
    by_cases h3 : s.playing_notes ev.get_note ≤ 0 <;>
    by_cases h4 : s.playing_notes ev.get_note + 1 ≤ 0 <;>
    simp [h1, h2, h3, h4] <;>
    first
    | omega
    | (split_ifs with hc <;> first | omega | (subst hc; omega))

theorem remove_iterator_body_counts_nonneg (s : Sequence) (i : Nat) (er : Event)
    (hs : counts_nonneg s) : counts_nonneg (remove_iterator_body s i er) := by
  intro n
  have hn := hs n
  unfold remove_iterator_body
  by_cases h : (er.is_note_off && decide (s.playing_notes er.get_note > 0)) = true
  · simp only [h, if_true]
    have h2 : s.playing_notes er.get_note > 0 := by
      simp only [Bool.and_eq_true, decide_eq_true_eq] at h
      exact h.2
    split_ifs with hne
    · subst hne; omega
    · exact hn
  · simp only [h, Bool.false_eq_true, if_false]
    exact hn

theorem remove_marked_loop_inv (P : Sequence → Prop)
    (hP : ∀ (s : Sequence) (i : Nat) (er : Event), P s → P (remove_iterator_body s i er))
    (fuel : Nat) : ∀ (i : Nat) (s : Sequence), P s → P (remove_marked_loop fuel i s) := by
  induction fuel with
  | zero => intro i s h; exact h
  | succ fuel ih =>
    intro i s h
    simp only [remove_marked_loop]
    cases hi : s.events[i]? with
    | none => exact h
    | some er =>
      simp only
      by_cases hm : er.marked = true
      · rw [if_pos hm]; exact ih i _ (hP s i er h)
      · rw [if_neg hm]; exact ih (i + 1) s h

theorem remove_marked_counts_nonneg (s : Sequence) (hs : counts_nonneg s) :
    counts_nonneg (remove_marked s) := by
  have h := remove_marked_loop_inv counts_nonneg remove_iterator_body_counts_nonneg
    s.events.length 0 s hs
  intro n
  exact h n

theorem off_playing_notes_counts_nonneg (s : Sequence) (hs : counts_nonneg s) :
    counts_nonneg (off_playing_notes s) := by
  intro n
  have hn := hs n
  rw [off_playing_notes_eq]
  simp only
  split_ifs <;> omega

theorem set_playing_counts_nonneg (s : Sequence) (p : Bool) (hs : counts_nonneg s) :
    counts_nonneg (set_playing s p) := by
  have hoff : ∀ st : Sequence, counts_nonneg st → counts_nonneg (off_playing_notes st) :=
    off_playing_notes_counts_nonneg
  intro n
  unfold set_playing
  by_cases h1 : (p != s.playing) = true
  · by_cases h2 : (!p) = true
    · simp only [h1, h2, if_true, set_dirty]
      exact hoff { s with playing := p } (fun m => hs m) n
    · simp only [h1, h2, if_true, set_dirty, Bool.false_eq_true, if_false]
      exact hs n
  · simp only [h1, Bool.false_eq_true, if_false]
    exact hs n

theorem play_loop_inv {σ : Type} (put : σ → Nat → Int → Event → σ) (P : σ → Prop)
    (hput : ∀ (st : σ) (i : Nat) (ob : Int) (er : Event), P st → P (put st i ob er))
    (evs : List Event) (L sto eto : Int) :
    ∀ (fuel i : Nat) (ob : Int) (s r : σ), P s →
      play_loop put evs L sto eto fuel i ob s = some r → P r := by
  intro fuel
  induction fuel with
  | zero => intro i ob s r _ h; simp [play_loop] at h
  | succ fuel ih =>
    intro i ob s r hs h
    simp only [play_loop] at h
    cases hi : evs[i]? with
    | none =>
      rw [hi] at h
      cases h
      exact hs
    | some er =>
      rw [hi] at h
      simp only at h
      split_ifs at h with c1 c2 c3 c4
      · exact ih _ _ _ r (hput s i ob er hs) h
      · exact ih _ _ _ r (hput s i ob er hs) h
      · cases h; exact hs
      · exact ih _ _ _ r hs h
      · exact ih _ _ _ r hs h

theorem play_counts_nonneg (tp : Sequence → Int → Int → TriggerPlay)
    (htp : ∀ (st : Sequence) (a b : Int), counts_nonneg st → counts_nonneg (tp st a b).seq)
    (fuel : Nat) (s : Sequence) (tick : Int) (mode : Bool) (hs : counts_nonneg s)
    (s1 : Sequence) (h : play tp fuel s tick mode = some s1) : counts_nonneg s1 := by
  have hframe : counts_nonneg (play_frame tp s tick mode).seq := by
    unfold play_frame
    by_cases hm : s.song_mute = true
    · simp only [hm, if_true]
      exact set_playing_counts_nonneg s false hs
    · simp only [hm, Bool.false_eq_true, if_false]
      by_cases hmode : mode = true
      · simp only [hmode, if_true]
        exact htp s _ _ hs
      · simp only [hmode, Bool.false_eq_true, if_false]
        exact hs
  unfold play at h
  simp only [Option.map_eq_some'] at h
  obtain ⟨s2, hplayed, hres⟩ := h
  have h2 : counts_nonneg s2 := by
    by_cases hpl : (play_frame tp s tick mode).seq.playing = true
    · rw [if_pos hpl] at hplayed
      by_cases hz : (play_frame tp s tick mode).seq.length = 0
      · rw [if_pos hz] at hplayed
        cases hplayed
      · rw [if_neg hz] at hplayed
        exact play_loop_inv (fun st _ _ er => put_event_on_bus st er) counts_nonneg
          (fun st _ _ er hst => put_event_on_bus_counts_nonneg st er hst) _ _ _ _ _ _ _ _ _
          hframe hplayed
    · rw [if_neg hpl] at hplayed
      cases hplayed
      exact hframe
  subst hres
  by_cases hto : (play_frame tp s tick mode).turning_off = true
  · simp only [hto, if_true]
    have h3 := set_playing_counts_nonneg s2 false h2
    intro n
    exact h3 n
  · simp only [hto, Bool.false_eq_true, if_false]
    intro n
    exact h2 n

theorem verify_and_link_counts_nonneg (s : Sequence) (hs : counts_nonneg s) :
    counts_nonneg (verify_and_link s) := by
  unfold verify_and_link
  exact remove_marked_counts_nonneg _ (fun n => hs n)

theorem partial_assign_counts_nonneg (s rhs : Sequence) (hs : counts_nonneg s) :
    counts_nonneg (partial_assign s rhs) := by
  unfold partial_assign
  apply verify_and_link_counts_nonneg
  intro n
  simp only [zero_markers]
  split_ifs
  · exact le_refl 0
  · exact hs n

theorem set_trigger_offset_counts_nonneg (s : Sequence) (o : Int) (hs : counts_nonneg s) :
    counts_nonneg (set_trigger_offset s o) := by
  intro n
  unfold set_trigger_offset
  split_ifs
  · exact hs n
  · exact hs n

theorem triggers_play_counts_nonneg (s : Sequence) (a b : Int) (hs : counts_nonneg s) :
    counts_nonneg (triggers_play s a b).seq := by
  unfold triggers_play
  simp only
  apply set_trigger_offset_counts_nonneg
  have hon := set_playing_counts_nonneg s true hs
  split_ifs
  all_goals first
    | exact hs
    | exact hon
    | exact set_playing_counts_nonneg _ false hs
    | exact set_playing_counts_nonneg _ false hon

/-- C35: sounding counts are never negative.  Every count is 0 after
construction, and when every count of a pattern is at least 0, so is every
count after `put_event_on_bus`, after `remove` (of an iterator and of an
event), after `remove_marked`, `off_playing_notes`, `set_playing`,
`partial_assign`, and after `play`, for a trigger step that keeps the counts
non-negative too; `play` returns, for a frame of positive pattern length,
once it is given enough iterations. -/
theorem sounding_counts_nonneg (tp : Sequence → Int → Int → TriggerPlay)
    (s rhs : Sequence) (ev : Event) (i : Nat) (p : Bool) (tick : Int) (mode : Bool)
    (ppqn : Int) (hs : counts_nonneg s)
    (htp : ∀ (st : Sequence) (a b : Int), counts_nonneg st → counts_nonneg (tp st a b).seq) :
    counts_nonneg (Sequence.create ppqn) ∧
    counts_nonneg (put_event_on_bus s ev) ∧
    (∀ er, s.events[i]? = some er →
      ∃ s1, remove_iterator s i = some s1 ∧ counts_nonneg s1) ∧
    counts_nonneg (remove_event s i) ∧
    counts_nonneg (remove_marked s) ∧
    counts_nonneg (off_playing_notes s) ∧
    counts_nonneg (set_playing s p) ∧
    counts_nonneg (partial_assign s rhs) ∧
    (∀ fuel s1, play tp fuel s tick mode = some s1 → counts_nonneg s1) ∧
    (0 < (play_frame tp s tick mode).seq.length →
      ∃ fuel0, ∀ fuel, fuel0 ≤ fuel →
        ∃ s1, play tp fuel s tick mode = some s1 ∧ counts_nonneg s1) := by
  have hplay : ∀ fuel s1, play tp fuel s tick mode = some s1 → counts_nonneg s1 :=
    fun fuel s1 h => play_counts_nonneg tp htp fuel s tick mode hs s1 h
  refine ⟨fun n => le_refl 0, put_event_on_bus_counts_nonneg s ev hs, ?_, ?_,
    remove_marked_counts_nonneg s hs, off_playing_notes_counts_nonneg s hs,
    set_playing_counts_nonneg s p hs, partial_assign_counts_nonneg s rhs hs, hplay, ?_⟩
  · intro er her
    refine ⟨remove_iterator_body s i er, ?_, remove_iterator_body_counts_nonneg s i er hs⟩
    unfold remove_iterator
    rw [her]
  · intro n
    unfold remove_event
    cases (List.range s.events.length).find? (fun j => j == i) with
    | none => exact hs n
    | some j => exact hs n
  · intro hrL
    have hne : ¬ (play_frame tp s tick mode).seq.length = 0 := by omega
    by_cases hpl : (play_frame tp s tick mode).seq.playing = true
    · obtain ⟨J, _, _, hrun⟩ := play_loop_total (fun st _ _ er => put_event_on_bus st er)
        (play_frame tp s tick mode).seq.events (play_frame tp s tick mode).seq.length
        ((play_frame tp s tick mode).start_tick + (play_frame tp s tick mode).seq.length
          - (play_frame tp s tick mode).seq.trigger_offset)
        ((play_frame tp s tick mode).end_tick + (play_frame tp s tick mode).seq.length
          - (play_frame tp s tick mode).seq.trigger_offset)
        (Int.tdiv (play_frame tp s tick mode).seq.last_tick
          (play_frame tp s tick mode).seq.length * (play_frame tp s tick mode).seq.length)
        hrL
      refine ⟨J + 1, fun fuel hfuel => ?_⟩
      have hsome : ∃ s1, play tp fuel s tick mode = some s1 := by
        rw [play_unfold, if_pos hpl, if_neg hne, hrun fuel _ (by omega)]
        exact ⟨_, rfl⟩
      obtain ⟨s1, h1⟩ := hsome
      exact ⟨s1, h1, hplay fuel s1 h1⟩
    · refine ⟨0, fun fuel _ => ?_⟩
      have hsome : ∃ s1, play tp fuel s tick mode = some s1 := by
        rw [play_unfold, if_neg hpl]
        exact ⟨_, rfl⟩
      obtain ⟨s1, h1⟩ := hsome
      exact ⟨s1, h1, hplay fuel s1 h1⟩

theorem sounding_counts_nonneg_witness :
    counts_nonneg held_off_seq ∧
    counts_nonneg (put_event_on_bus held_off_seq off_60) ∧
    counts_nonneg (remove_marked held_off_seq) ∧
    counts_nonneg (off_playing_notes held_off_seq) ∧
    (∀ fuel s1, play triggers_play fuel held_off_seq 100 true = some s1 →
      counts_nonneg s1) :=
  have hs : counts_nonneg held_off_seq := by
    intro n
    show 0 ≤ (if n = 60 then (1 : Int) else 0)
    split_ifs <;> omega
  have h := sounding_counts_nonneg triggers_play held_off_seq held_off_seq off_60 0 false
    100 true 192 hs triggers_play_counts_nonneg
  ⟨hs, h.2.1, h.2.2.2.2.1, h.2.2.2.2.2.1, h.2.2.2.2.2.2.2.2.1⟩


/-! ## What `remove_marked` leaves in the store -/

theorem erase_event_map {β : Type} (f : Event → β)
    (hf : ∀ (e : Event) (l : Option Nat), f { e with linked := l } = f e)
    (evs : List Event) (k : Nat) :
    (erase_event evs k).map f = (evs.eraseIdx k).map f := by
  unfold erase_event
  rw [List.map_map]
  apply List.map_congr_left
  intro e _
  exact hf e _

theorem erase_event_filter_map {β : Type} (f : Event → β)
    (hf : ∀ (e : Event) (l : Option Nat), f { e with linked := l } = f e)
    (evs : List Event) (k i : Nat) :
    (((erase_event evs k).drop i).filter (fun e => !e.marked)).map f
      = (((evs.eraseIdx k).drop i).filter (fun e => !e.marked)).map f := by
  unfold erase_event
  rw [← List.map_drop, List.filter_map, List.map_map]
  apply List.map_congr_left
  intro e _
  exact hf e _

theorem remove_marked_loop_filter {β : Type} (f : Event → β)
    (hf : ∀ (e : Event) (l : Option Nat), f { e with linked := l } = f e) (fuel : Nat) :
    ∀ (i : Nat) (s : Sequence), s.events.length ≤ i + fuel →
      (remove_marked_loop fuel i s).events.map f
        = (s.events.take i).map f ++
            ((s.events.drop i).filter (fun e => !e.marked)).map f := by
  induction fuel with
  | zero =>
    intro i s h
    have hd : s.events.drop i = [] := List.drop_eq_nil_of_le (by omega)
    have ht : s.events.take i = s.events := List.take_of_length_le (by omega)
    simp [remove_marked_loop, hd, ht]
  | succ fuel ih =>
    intro i s h
    simp only [remove_marked_loop]
    cases hi : s.events[i]? with
    | none =>
      have hge : s.events.length ≤ i := List.getElem?_eq_none_iff.mp hi
      have hd : s.events.drop i = [] := List.drop_eq_nil_of_le hge
      have ht : s.events.take i = s.events := List.take_of_length_le hge
      simp [hd, ht]
    | some er =>
      have hlt : i < s.events.length := (List.getElem?_eq_some_iff.mp hi).1
      have her : s.events[i] = er := (List.getElem?_eq_some_iff.mp hi).2
      have hdrop : s.events.drop i = er :: s.events.drop (i + 1) := by
        rw [← her]; exact List.drop_eq_getElem_cons hlt
      simp only
      by_cases hm : er.marked = true
      · rw [if_pos hm]
        have hev := remove_iterator_body_events s i er
        have hlen : (remove_iterator_body s i er).events.length ≤ i + fuel := by
          rw [hev, erase_event_length _ _ hlt]; omega
        have h1 : (s.events.eraseIdx i).take i = s.events.take i := by
          rw [List.eraseIdx_eq_take_drop_succ, List.take_append_eq_append_take]
          have hl : (s.events.take i).length = i := by
            rw [List.length_take]; omega
          simp [hl]
        have h2 : (s.events.eraseIdx i).drop i = s.events.drop (i + 1) := by
          rw [List.eraseIdx_eq_take_drop_succ, List.drop_append_eq_append_drop]
          have hl : (s.events.take i).length = i := by
            rw [List.length_take]; omega
          simp [hl]
        have h3 : ((erase_event s.events i).take i).map f = (s.events.take i).map f := by
          rw [List.map_take, erase_event_map f hf, ← List.map_take, h1]
        rw [ih i _ hlen, hev, erase_event_filter_map f hf, h2, h3, hdrop]
        simp [hm]
      · rw [if_neg hm]
        have hmf : er.marked = false := by simpa using hm
        rw [ih (i + 1) s (by omega), hdrop]
        have ht : s.events.take (i + 1) = s.events.take i ++ [er] := by
          rw [List.take_succ, hi]; rfl
        rw [ht]
        simp [hmf]

theorem remove_marked_events_filter {β : Type} (f : Event → β)
    (hf : ∀ (e : Event) (l : Option Nat), f { e with linked := l } = f e) (s : Sequence) :
    (remove_marked s).events.map f = (s.events.filter (fun e => !e.marked)).map f := by
  have h := remove_marked_loop_filter f hf s.events.length 0 s (by omega)
  rw [List.take_zero, List.drop_zero, List.map_nil, List.nil_append] at h
  exact h

theorem foldl_add_event_perm (l : List Event) :
    ∀ s : Sequence, (l.foldl add_event s).events.Perm (s.events ++ l) := by
  induction l with
  | nil => intro s; simp
  | cons e l ih =>
    intro s
    rw [List.foldl_cons]
    have h1 : (add_event s e).events.Perm (s.events ++ [e]) := by
      show (event_sort (s.events ++ [e])).Perm (s.events ++ [e])
      exact event_sort_perm _
    have h2 := ih (add_event s e)
    refine h2.trans ?_
    have h3 : ((add_event s e).events ++ l).Perm ((s.events ++ [e]) ++ l) :=
      List.Perm.append_right l h1
    refine h3.trans ?_
    rw [List.append_assoc]
    rfl

theorem filter_unmarked_mark_selected (evs : List Event)
    (hclean : ∀ e ∈ evs, e.marked = false) :
    (mark_selected evs).filter (fun e => !e.marked) = evs.filter (fun e => !e.selected) := by
  induction evs with
  | nil => rfl
  | cons e rest ih =>
    have he : e.marked = false := hclean e (List.mem_cons_self _ _)
    have hrest := ih (fun x hx => hclean x (List.mem_cons_of_mem _ hx))
    unfold mark_selected at hrest ⊢
    rw [List.map_cons, List.filter_cons, List.filter_cons, hrest]
    cases hsel : e.selected
    · simp [he]
    · simp [Event.mark]

theorem move_replacement_unmarked (er : Event) (dt dn L : Int) (x : Event)
    (h : move_replacement er dt dn L = some x) : x.marked = false := by
  unfold move_replacement at h
  by_cases hm : er.marked = true
  · rw [if_pos hm] at h
    simp only at h
    by_cases hr : (er.unmark.get_note : Int) + dn ≥ 0 ∧
        (er.unmark.get_note : Int) + dn < c_num_keys
    · rw [if_pos hr] at h
      have hx := Option.some.inj h
      rw [← hx]
      rfl
    · rw [if_neg hr] at h
      cases h
  · rw [if_neg hm] at h
    cases h

theorem move_selected_added_unmarked (evs : List Event) (dt dn L : Int) :
    ∀ x ∈ move_selected_added evs dt dn L, x.marked = false := by
  intro x hx
  unfold move_selected_added at hx
  obtain ⟨er, _, her⟩ := List.mem_filterMap.mp hx
  exact move_replacement_unmarked er dt dn L x her

theorem midibyte_of_key (n : Int) (h : 0 ≤ n ∧ n < c_num_keys) : midibyte n = n.toNat := by
  unfold midibyte
  unfold c_num_keys at h
  rw [Int.emod_eq_of_lt h.1 (by omega)]

theorem midibyte_midibyte_key (n : Int) (h : 0 ≤ n ∧ n < c_num_keys) :
    midibyte ((midibyte n : Nat) : Int) = n.toNat := by
  rw [midibyte_of_key n h]
  unfold midibyte
  unfold c_num_keys at h
  have h1 : ((n.toNat : Nat) : Int) = n := Int.toNat_of_nonneg h.1
  rw [h1, Int.emod_eq_of_lt h.1 (by omega)]

theorem move_selected_added_eq (evs : List Event) (dt dn L : Int)
    (hclean : ∀ e ∈ evs, e.marked = false) :
    move_selected_added evs dt dn L =
      (evs.filter (fun e => e.selected &&
          decide (0 ≤ (e.get_note : Int) + dn ∧ (e.get_note : Int) + dn < c_num_keys))).map
        (fun e => { e with
          timestamp := move_timestamp e.timestamp dt L e.is_note_on,
          d0 := ((e.get_note : Int) + dn).toNat, selected := true }) := by
  induction evs with
  | nil => rfl
  | cons e rest ih =>
    have he : e.marked = false := hclean e (List.mem_cons_self _ _)
    have hrest := ih (fun x hx => hclean x (List.mem_cons_of_mem _ hx))
    unfold move_selected_added mark_selected at hrest ⊢
    rw [List.map_cons, List.filterMap_cons, List.filter_cons]
    cases hsel : e.selected
    · have h1 : move_replacement e dt dn L = none := by
        unfold move_replacement
        rw [if_neg (by simp [he])]
      simp only [Bool.false_eq_true, if_false, h1, Bool.false_and]
      exact hrest
    · by_cases hr : 0 ≤ (e.get_note : Int) + dn ∧ (e.get_note : Int) + dn < c_num_keys
      · have h1 : move_replacement e.mark dt dn L =
            some { e with
              timestamp := move_timestamp e.timestamp dt L e.is_note_on,
              d0 := ((e.get_note : Int) + dn).toNat, selected := true } := by
          unfold move_replacement
          have hr2 : (e.mark.unmark.get_note : Int) + dn ≥ 0 ∧
              (e.mark.unmark.get_note : Int) + dn < c_num_keys := ⟨hr.1, hr.2⟩
          have hmk : e.mark.marked = true := rfl
          rw [if_pos hmk]
          simp only
          rw [if_pos hr2]
          have hmb := midibyte_midibyte_key _ hr
          simp only [Event.mark, Event.unmark, Event.set_timestamp, Event.set_note,
            Event.select, Event.get_note, Event.is_note_on] at hmb ⊢
          rw [hmb, ← he]
        simp only [if_true, h1, Bool.true_and, hr, decide_True, List.map_cons]
        rw [hrest]
        simp
      · have h1 : move_replacement e.mark dt dn L = none := by
          unfold move_replacement
          have hr2 : ¬ ((e.mark.unmark.get_note : Int) + dn ≥ 0 ∧
              (e.mark.unmark.get_note : Int) + dn < c_num_keys) := fun h => hr ⟨h.1, h.2⟩
          have hmk : e.mark.marked = true := rfl
          rw [if_pos hmk]
          simp only
          rw [if_neg hr2]
        simp only [if_true, h1, Bool.true_and, hr, decide_False, Bool.false_eq_true, if_false]
        exact hrest

/-- C37: `move_selected_notes` before relinking.  On a store in which no event
is marked, the store after the edit holds, links apart, the unselected events
as they were together with the replacements; there is one replacement for
each selected event whose new pitch `note + delta_note` is in
`[0, c_num_keys)`: the event with that pitch, the moved timestamp, selected;
a selected event whose new pitch is outside the range is in neither part. -/
theorem move_selected_notes_replaces (s : Sequence) (delta_tick delta_note : Int)
    (hclean : ∀ e ∈ s.events, e.marked = false) :
    move_selected_notes s delta_tick delta_note
      = verify_and_link (move_selected_notes_edit s delta_tick delta_note) ∧
    ((move_selected_notes_edit s delta_tick delta_note).events.map Event.unlink).Perm
      ((s.events.filter (fun e => !e.selected)).map Event.unlink ++
        (move_selected_added s.events delta_tick delta_note s.length).map Event.unlink) ∧
    move_selected_added s.events delta_tick delta_note s.length =
      (s.events.filter (fun e => e.selected &&
          decide (0 ≤ (e.get_note : Int) + delta_note ∧
            (e.get_note : Int) + delta_note < c_num_keys))).map
        (fun e => { e with
          timestamp := move_timestamp e.timestamp delta_tick s.length e.is_note_on,
          d0 := ((e.get_note : Int) + delta_note).toNat, selected := true }) := by
  refine ⟨rfl, ?_, move_selected_added_eq s.events delta_tick delta_note s.length hclean⟩
  unfold move_selected_notes_edit
  rw [remove_marked_events_filter Event.unlink (fun _ _ => rfl)]
  have hperm := foldl_add_event_perm
    (move_selected_added s.events delta_tick delta_note s.length) s.mark_selected
  have hev : s.mark_selected.events = mark_selected s.events := rfl
  rw [hev] at hperm
  have h2 := (hperm.filter (fun e => !e.marked)).map Event.unlink
  refine h2.trans ?_
  rw [List.filter_append, filter_unmarked_mark_selected s.events hclean, List.map_append]
  have h3 : (move_selected_added s.events delta_tick delta_note s.length).filter
      (fun e => !e.marked) = move_selected_added s.events delta_tick delta_note s.length := by
    apply List.filter_eq_self.mpr
    intro x hx
    rw [move_selected_added_unmarked _ _ _ _ x hx]
    rfl
  rw [h3]

set_option maxRecDepth 100000 in
theorem move_selected_notes_replaces_witness :
    (∀ e ∈ edit_seq.events, e.marked = false) ∧
    ((move_selected_notes_edit edit_seq 5 70).events.map Event.unlink).Perm
      ((edit_seq.events.filter (fun e => !e.selected)).map Event.unlink ++
        (move_selected_added edit_seq.events 5 70 edit_seq.length).map Event.unlink) ∧
    move_selected_added edit_seq.events 5 70 edit_seq.length = [] ∧
    (move_selected_notes_edit edit_seq 5 70).events = [key_72] ∧
    (move_selected_notes_edit edit_seq 5 2).events
      = [key_72, { sel_on with timestamp := 15, d0 := 62 },
          { sel_off with timestamp := 55, d0 := 62 }] :=
  have h := move_selected_notes_replaces edit_seq 5 70 (by decide)
  ⟨by decide, h.2.1, by decide, by decide, by decide⟩


/-! ## Quantizing and transposing: what is removed and what is added -/

theorem select_eq_marked (e e0 : Event) (h : e.select = e0.select) :
    e.marked = e0.marked ∧ e.d1 = e0.d1 ∧ e.painted = e0.painted :=
  have h1 := congrArg Event.marked h
  have h2 := congrArg Event.d1 h
  have h3 := congrArg Event.painted h
  ⟨h1, h2, h3⟩

theorem select_eq_bare (e e0 : Event) (h : e.select = e0.select) : e.bare = e0.bare := by
  have h1 := select_eq_fields e e0 h
  have h2 := select_eq_marked e e0 h
  cases e
  cases e0
  simp only [Event.bare, Event.mk.injEq] at *
  exact ⟨h1.1, h1.2.1, h1.2.2.1, h2.2.1, trivial, trivial, trivial, h2.2.2⟩

theorem select_eq_canselect (e e0 : Event) (status cc : Nat) (h : e.select = e0.select) :
    quantize_canselect e status cc = quantize_canselect e0 status cc := by
  have h1 := select_eq_fields e e0 h
  have h2 := select_eq_marked e e0 h
  unfold quantize_canselect
  rw [h1.2.1, h1.2.2.1, h2.1]

theorem select_eq_shifted (e e0 : Event) (t : Int) (h : e.select = e0.select) :
    (e.unmark.set_timestamp t).select = (e0.unmark.set_timestamp t).select := by
  have h1 := select_eq_fields e e0 h
  have h2 := select_eq_marked e e0 h
  cases e
  cases e0
  simp only [Event.select, Event.unmark, Event.set_timestamp, Event.mk.injEq] at *
  exact ⟨trivial, h1.2.1, h1.2.2.1, h2.2.1, h1.2.2.2, trivial, trivial, h2.2.2⟩

theorem quantize_inv_get (store0 store : List Event) (hinv : quantize_inv store0 store)
    (i : Nat) (er : Event) (hi : store[i]? = some er) :
    ∃ e0, store0[i]? = some e0 ∧ er.select = e0.select := by
  have hlt : i < store.length := (List.getElem?_eq_some_iff.mp hi).1
  have hlt0 : i < store0.length := by rw [← hinv.1]; exact hlt
  obtain ⟨e, he, hcore, _⟩ := hinv.2 i store0[i] (List.getElem?_eq_getElem hlt0)
  rw [hi] at he
  have hee : er = e := Option.some.inj he
  subst hee
  exact ⟨store0[i], List.getElem?_eq_getElem hlt0, hcore⟩

theorem quantize_step_only (store0 : List Event) (status cc : Nat)
    (snap divide length : Int) (linked : Bool) (store q store1 q1 : List Event) (i : Nat)
    (hinv : quantize_inv store0 store)
    (hstep : quantize_step status cc snap divide length linked (store, q) i
      = some (store1, q1)) :
    quantize_inv store0 store1 ∧
      ∀ x ∈ q1, x ∈ q ∨ quantize_pushed store0 status cc snap divide length linked x := by
  unfold quantize_step at hstep
  simp only at hstep
  cases hi : store[i]? with
  | none =>
    rw [hi] at hstep
    simp only [Option.some.injEq, Prod.mk.injEq] at hstep
    obtain ⟨rfl, rfl⟩ := hstep
    exact ⟨hinv, fun x hx => Or.inl hx⟩
  | some er =>
    rw [hi] at hstep
    simp only at hstep
    obtain ⟨e0, he0, hcore⟩ := quantize_inv_get store0 store hinv i er hi
    by_cases hcan : quantize_canselect er status cc = true
    · rw [if_pos hcan] at hstep
      by_cases hzero : snap = 0 ∨ divide = 0
      · rw [if_pos hzero] at hstep
        cases hstep
      rw [if_neg hzero] at hstep
      have hcan0 : quantize_canselect e0 status cc = true := by
        rw [← select_eq_canselect er e0 status cc hcore]; exact hcan
      have hinv1 := quantize_inv_set store0 store i er hinv hi
      have hcopy : (er.unmark.set_timestamp
          (er.unmark.timestamp + quantize_delta er.unmark.timestamp snap divide length)).select
          = (quantize_copy e0 snap divide length).select := by
        have hts : er.unmark.timestamp = e0.unmark.timestamp :=
          (select_eq_fields er e0 hcore).1
        rw [hts]
        exact select_eq_shifted er e0 _ hcore
      have hpush : quantize_pushed store0 status cc snap divide length linked
          (er.unmark.set_timestamp
            (er.unmark.timestamp + quantize_delta er.unmark.timestamp snap divide length)) :=
        ⟨i, e0, he0, hcan0, Or.inl hcopy⟩
      by_cases hl : (er.is_linked && linked) = true
      · rw [if_pos hl] at hstep
        have hlinked : linked = true := by
          simp only [Bool.and_eq_true] at hl; exact hl.2
        cases hk : er.linked with
        | none =>
          rw [hk] at hstep
          simp only [Option.some.injEq, Prod.mk.injEq] at hstep
          obtain ⟨rfl, rfl⟩ := hstep
          refine ⟨hinv1, fun x hx => ?_⟩
          rcases List.mem_cons.mp hx with rfl | hx
          · exact Or.inr hpush
          · exact Or.inl hx
        | some j =>
          rw [hk] at hstep
          simp only at hstep
          cases hp : (store.set i er.select)[j]? with
          | none =>
            rw [hp] at hstep
            cases hstep
          | some partner =>
            rw [hp] at hstep
            simp only [Option.some.injEq, Prod.mk.injEq] at hstep
            obtain ⟨rfl, rfl⟩ := hstep
            obtain ⟨p0, hp0, hpcore⟩ := quantize_inv_get store0 _ hinv1 j partner hp
            refine ⟨quantize_inv_set store0 _ j partner hinv1 hp, fun x hx => ?_⟩
            rcases List.mem_cons.mp hx with rfl | hx
            · refine Or.inr ⟨i, e0, he0, hcan0, Or.inr ⟨hlinked, j, p0, ?_, hp0, ?_⟩⟩
              · rw [← (select_eq_fields er e0 hcore).2.2.2]; exact hk
              · have hts : partner.unmark.timestamp = p0.unmark.timestamp :=
                  (select_eq_fields partner p0 hpcore).1
                have hts2 : er.unmark.timestamp = e0.unmark.timestamp :=
                  (select_eq_fields er e0 hcore).1
                rw [hts, hts2]
                exact select_eq_shifted partner p0 _ hpcore
            · rcases List.mem_cons.mp hx with rfl | hx
              · exact Or.inr hpush
              · exact Or.inl hx
      · rw [if_neg hl] at hstep
        simp only [Option.some.injEq, Prod.mk.injEq] at hstep
        obtain ⟨rfl, rfl⟩ := hstep
        refine ⟨hinv1, fun x hx => ?_⟩
        rcases List.mem_cons.mp hx with rfl | hx
        · exact Or.inr hpush
        · exact Or.inl hx
    · rw [if_neg hcan] at hstep
      simp only [Option.some.injEq, Prod.mk.injEq] at hstep
      obtain ⟨rfl, rfl⟩ := hstep
      exact ⟨hinv, fun x hx => Or.inl hx⟩

theorem quantize_fold_only (store0 : List Event) (status cc : Nat)
    (snap divide length : Int) (linked : Bool) :
    ∀ (is : List Nat) (store q store1 q1 : List Event), quantize_inv store0 store →
      is.foldlM (quantize_step status cc snap divide length linked) (store, q)
        = some (store1, q1) →
      quantize_inv store0 store1 ∧
        ∀ x ∈ q1, x ∈ q ∨ quantize_pushed store0 status cc snap divide length linked x := by
  intro is
  induction is with
  | nil =>
    intro store q store1 q1 hinv h
    simp only [List.foldlM_nil] at h
    have h2 := Option.some.inj h
    simp only [Prod.mk.injEq] at h2
    obtain ⟨rfl, rfl⟩ := h2
    exact ⟨hinv, fun x hx => Or.inl hx⟩
  | cons i is ih =>
    intro store q store1 q1 hinv h
    rw [List.foldlM_cons] at h
    cases hs : quantize_step status cc snap divide length linked (store, q) i with
    | none =>
      rw [hs] at h
      cases h
    | some st =>
      obtain ⟨storem, qm⟩ := st
      rw [hs] at h
      obtain ⟨hinvm, hqm⟩ := quantize_step_only store0 status cc snap divide length linked
        store q storem qm i hinv hs
      obtain ⟨hinv1, hq1⟩ := ih storem qm store1 q1 hinvm h
      refine ⟨hinv1, fun x hx => ?_⟩
      rcases hq1 x hx with hm | hp
      · exact hqm x hm
      · exact Or.inr hp


theorem select_map_filter_bare :
    ∀ (l l0 : List Event), l.map Event.select = l0.map Event.select →
      (l.filter (fun e => !e.marked)).map Event.bare
        = (l0.filter (fun e => !e.marked)).map Event.bare := by
  intro l
  induction l with
  | nil =>
    intro l0 h
    cases l0 with
    | nil => rfl
    | cons e0 r0 => simp at h
  | cons e r ih =>
    intro l0 h
    cases l0 with
    | nil => simp at h
    | cons e0 r0 =>
      simp only [List.map_cons, List.cons.injEq] at h
      have hm := (select_eq_marked e e0 h.1).1
      have hb := select_eq_bare e e0 h.1
      have hr := ih r0 h.2
      rw [List.filter_cons, List.filter_cons, hm]
      cases e0.marked
      · simp only [Bool.not_false, if_true, List.map_cons, hb, hr]
      · simp only [Bool.not_true, Bool.false_eq_true, if_false, hr]

theorem quantize_inv_filter_bare (store0 store : List Event)
    (hinv : quantize_inv store0 store) :
    (store.filter (fun e => !e.marked)).map Event.bare
      = (store0.filter (fun e => !e.marked)).map Event.bare := by
  apply select_map_filter_bare
  apply List.ext_getElem?
  intro j
  rw [List.getElem?_map, List.getElem?_map]
  cases h0 : store0[j]? with
  | none =>
    have hge : store0.length ≤ j := List.getElem?_eq_none_iff.mp h0
    have h1 : store[j]? = none := List.getElem?_eq_none_iff.mpr (by rw [hinv.1]; exact hge)
    rw [h1]
  | some e0 =>
    obtain ⟨e, he, hcore, _⟩ := hinv.2 j e0 h0
    rw [he]
    exact congrArg some hcore

theorem event_list_merge_perm (store el : List Event) :
    (event_list_merge store el true).Perm (store ++ el) := by
  unfold event_list_merge
  simp only [if_true]
  exact (merge_loop_perm _ _ _).trans (List.Perm.append_left store (event_sort_perm el))

theorem mark_selected_links (evs : List Event)
    (hlinks : ∀ e ∈ evs, ∀ k, e.linked = some k → k < evs.length) :
    ∀ (j : Nat) (e0 : Event) (k : Nat), (mark_selected evs)[j]? = some e0 →
      e0.linked = some k → k < (mark_selected evs).length := by
  intro j e0 k h hk
  have hlen : (mark_selected evs).length = evs.length := by simp [mark_selected]
  rw [getElem?_mark_selected] at h
  simp only [Option.map_eq_some'] at h
  obtain ⟨e, he, rfl⟩ := h
  have hmem : e ∈ evs := by
    obtain ⟨hj, hje⟩ := List.getElem?_eq_some_iff.mp he
    rw [← hje]
    exact List.getElem_mem hj
  rw [hlen]
  apply hlinks e hmem k
  by_cases hs : e.selected = true
  · simpa [hs, Event.mark] using hk
  · simpa [hs] using hk

theorem quantize_scan_total (evs : List Event) (status cc : Nat)
    (snap divide length : Int) (linked : Bool) (hsnap : snap ≠ 0) (hdiv : divide ≠ 0)
    (hlinks : ∀ e ∈ evs, ∀ k, e.linked = some k → k < evs.length) :
    ∃ st, quantize_scan evs status cc snap divide length linked = some st ∧
      quantize_inv (mark_selected evs) st.1 ∧
      ∀ x ∈ st.2,
        quantize_pushed (mark_selected evs) status cc snap divide length linked x := by
  have hlen : (mark_selected evs).length = evs.length := by simp [mark_selected]
  obtain ⟨store1, q1, hrun, _, _, _⟩ := quantize_fold (mark_selected evs) status cc snap
    divide length linked hsnap hdiv (mark_selected_links evs hlinks) (List.range evs.length)
    (mark_selected evs) [] (quantize_inv_refl _)
    (fun j hj => by rw [hlen]; exact List.mem_range.mp hj)
  obtain ⟨hinv, honly⟩ := quantize_fold_only (mark_selected evs) status cc snap divide length
    linked (List.range evs.length) (mark_selected evs) [] store1 q1 (quantize_inv_refl _) hrun
  refine ⟨(store1, q1), hrun, hinv, fun x hx => ?_⟩
  rcases honly x hx with hnil | hp
  · exact absurd hnil (List.not_mem_nil x)
  · exact hp

theorem quantize_scan_only (evs : List Event) (status cc : Nat)
    (snap divide length : Int) (linked : Bool) (st : List Event × List Event)
    (hscan : quantize_scan evs status cc snap divide length linked = some st) :
    quantize_inv (mark_selected evs) st.1 ∧
      ∀ x ∈ st.2,
        quantize_pushed (mark_selected evs) status cc snap divide length linked x := by
  obtain ⟨store1, q1⟩ := st
  obtain ⟨hinv, honly⟩ := quantize_fold_only (mark_selected evs) status cc snap divide length
    linked (List.range evs.length) (mark_selected evs) [] store1 q1 (quantize_inv_refl _) hscan
  refine ⟨hinv, fun x hx => ?_⟩
  rcases honly x hx with hnil | hp
  · exact absurd hnil (List.not_mem_nil x)
  · exact hp

theorem canselect_mark_selected (evs : List Event) (status cc : Nat)
    (hclean : ∀ e ∈ evs, e.marked = false) (i : Nat) (e0 : Event)
    (h0 : (mark_selected evs)[i]? = some e0)
    (hcan : quantize_canselect e0 status cc = true) :
    ∃ er, evs[i]? = some er ∧ er ∈ evs ∧ e0 = er.mark ∧ er.selected = true ∧
      er.status = status ∧ (status = EVENT_CONTROL_CHANGE → er.d0 = cc) := by
  rw [getElem?_mark_selected] at h0
  simp only [Option.map_eq_some'] at h0
  obtain ⟨e, he, rfl⟩ := h0
  have hmem : e ∈ evs := by
    obtain ⟨hj, hje⟩ := List.getElem?_eq_some_iff.mp he
    rw [← hje]
    exact List.getElem_mem hj
  have hm := hclean e hmem
  cases hs : e.selected
  · rw [hs] at hcan
    simp [quantize_canselect, hm] at hcan
  · rw [hs] at hcan
    simp only [if_true] at hcan ⊢
    refine ⟨e, he, hmem, rfl, hs, ?_, ?_⟩
    · by_cases h : status = EVENT_CONTROL_CHANGE
      · simp [quantize_canselect, Event.mark, h] at hcan
        rw [h]; exact hcan.1
      · simp [quantize_canselect, Event.mark, h] at hcan
        exact hcan
    · intro h
      simp [quantize_canselect, Event.mark, h] at hcan
      exact hcan.2

theorem quantize_pushed_source (evs : List Event) (status cc : Nat)
    (snap divide length : Int) (linked : Bool) (hclean : ∀ e ∈ evs, e.marked = false)
    (x : Event)
    (hx : quantize_pushed (mark_selected evs) status cc snap divide length linked x) :
    ∃ er ∈ evs, er.selected = true ∧ er.status = status ∧
      (status = EVENT_CONTROL_CHANGE → er.d0 = cc) ∧
      (x.bare = { er.bare with
          timestamp := er.timestamp + quantize_delta er.timestamp snap divide length } ∨
        (linked = true ∧ ∃ (j : Nat) (p : Event), er.linked = some j ∧ evs[j]? = some p ∧
          x.bare = { p.bare with
            timestamp := p.timestamp + quantize_delta er.timestamp snap divide length })) := by
  obtain ⟨i, e0, h0, hcan, hcases⟩ := hx
  obtain ⟨er, _, hmem, rfl, hsel, hst, hcc⟩ :=
    canselect_mark_selected evs status cc hclean i e0 h0 hcan
  refine ⟨er, hmem, hsel, hst, hcc, ?_⟩
  rcases hcases with h | ⟨hl, j, p0, hj, hp0, h⟩
  · left
    rw [select_eq_bare x _ h]
    rfl
  · right
    rw [getElem?_mark_selected] at hp0
    simp only [Option.map_eq_some'] at hp0
    obtain ⟨p, hp, rfl⟩ := hp0
    refine ⟨hl, j, p, hj, hp, ?_⟩
    rw [select_eq_bare x _ h]
    cases hps : p.selected
    · rfl
    · rfl

/-! ### Transposing -/

theorem transposed_events_source (table : Nat → Int) (steps : Nat) :
    ∀ (evs l : List Event), (∀ e ∈ evs, e.marked = false) →
      transposed_events table steps (mark_selected evs) = some l →
      ∀ x ∈ l, ∃ er ∈ evs, er.selected = true ∧ er.is_note = true ∧
        ∃ note, transpose_note table steps er.get_note = some note ∧ x = er.set_note note := by
  intro evs
  induction evs with
  | nil =>
    intro l _ h x hx
    have hl : l = [] := by
      have h2 : some ([] : List Event) = some l := h
      exact (Option.some.inj h2).symm
    rw [hl] at hx
    exact absurd hx (List.not_mem_nil x)
  | cons e rest ih =>
    intro l hclean h x hx
    have he : e.marked = false := hclean e (List.mem_cons_self _ _)
    have hrest : ∀ e ∈ rest, e.marked = false := fun y hy => hclean y (List.mem_cons_of_mem _ hy)
    have hms : mark_selected (e :: rest)
        = (if e.selected then e.mark else e) :: mark_selected rest := rfl
    rw [hms] at h
    simp only [transposed_events] at h
    by_cases hc : ((if e.selected then e.mark else e).marked &&
        (if e.selected then e.mark else e).is_note) = true
    · rw [if_pos hc] at h
      have hsel : e.selected = true := by
        cases hs : e.selected
        · rw [hs] at hc
          simp [he] at hc
        · rfl
      rw [hsel] at hc h
      simp only [if_true] at hc h
      have hnote : e.is_note = true := by
        simp only [Bool.and_eq_true] at hc
        exact hc.2
      cases hn : transpose_note table steps e.mark.get_note with
      | none =>
        rw [hn] at h
        cases h
      | some note =>
        rw [hn] at h
        simp only at h
        cases hr : transposed_events table steps (mark_selected rest) with
        | none =>
          rw [hr] at h
          cases h
        | some l2 =>
          rw [hr] at h
          have hl := (Option.some.inj h).symm
          rw [hl] at hx
          rcases List.mem_cons.mp hx with rfl | hx2
          · refine ⟨e, List.mem_cons_self _ _, hsel, hnote, note, hn, ?_⟩
            show ({ e with marked := false, d0 := midibyte note } : Event)
              = { e with d0 := midibyte note }
            rw [← he]
          · obtain ⟨er, hmem, h1, h2, h3⟩ := ih l2 hrest hr x hx2
            exact ⟨er, List.mem_cons_of_mem _ hmem, h1, h2, h3⟩
    · rw [if_neg hc] at h
      obtain ⟨er, hmem, h1, h2, h3⟩ := ih l hrest h x hx
      exact ⟨er, List.mem_cons_of_mem _ hmem, h1, h2, h3⟩

/-- C38: `quantize_events` and `transpose_notes`, on a store in which no
event is marked and no link dangles.  The loop of `quantize_events` runs to
its end when `snap_tick` and `divide` are not 0 (it divides by them), and
whenever it does, the store it hands to `verify_and_link` holds, links and
editor flags apart, the unselected events as they were together with the
events of `quantized_events`, each of which is the quantized copy of a
selected event of the requested status (and controller), or, when `linked` is
set, the copy of the event such an event is linked to.  Whenever the loop of
`transpose_notes` reads the table inside its bounds, the store it hands to
`verify_and_link` holds the unselected events as they were together with the
transposed copies, each of which is the copy of a selected note event: a
note-on, a note-off or an aftertouch event.  A selected event of another kind
is in neither part. -/
theorem quantize_transpose_delete_selected (table_up table_dn : Nat → Int) (s : Sequence)
    (status cc : Nat) (snap_tick divide : Int) (linked : Bool) (steps : Int)
    (hclean : ∀ e ∈ s.events, e.marked = false)
    (hlinks : ∀ e ∈ s.events, ∀ k, e.linked = some k → k < s.events.length) :
    (snap_tick ≠ 0 → divide ≠ 0 →
      ∃ st, quantize_scan s.events status cc snap_tick divide s.length linked = some st) ∧
    (∀ st, quantize_scan s.events status cc snap_tick divide s.length linked = some st →
      ∃ s1, quantize_events_edit s status cc snap_tick divide linked = some s1 ∧
        quantize_events s status cc snap_tick divide linked = some (verify_and_link s1) ∧
        (s1.events.map Event.bare).Perm
          ((s.events.filter (fun e => !e.selected)).map Event.bare ++ st.2.map Event.bare) ∧
        ∀ x ∈ st.2, ∃ er ∈ s.events, er.selected = true ∧ er.status = status ∧
          (status = EVENT_CONTROL_CHANGE → er.d0 = cc) ∧
          (x.bare = { er.bare with
              timestamp :=
                er.timestamp + quantize_delta er.timestamp snap_tick divide s.length } ∨
            (linked = true ∧ ∃ (j : Nat) (p : Event), er.linked = some j ∧
              s.events[j]? = some p ∧
              x.bare = { p.bare with
                timestamp :=
                  p.timestamp + quantize_delta er.timestamp snap_tick divide s.length }))) ∧
    (∀ l, transposed_events (if steps < 0 then table_dn else table_up)
        (if steps < 0 then steps * -1 else steps).toNat (mark_selected s.events) = some l →
      ∃ s1, transpose_notes_edit table_up table_dn s steps = some s1 ∧
        transpose_notes table_up table_dn s steps = some (verify_and_link s1) ∧
        (s1.events.map Event.bare).Perm
          ((s.events.filter (fun e => !e.selected)).map Event.bare ++ l.map Event.bare) ∧
        ∀ x ∈ l, ∃ er ∈ s.events, er.selected = true ∧
          (er.is_note_on = true ∨ er.is_note_off = true ∨ er.status = EVENT_AFTERTOUCH) ∧
          ∃ note, transpose_note (if steps < 0 then table_dn else table_up)
              (if steps < 0 then steps * -1 else steps).toNat er.get_note = some note ∧
            x = er.set_note note) := by
  have hbare : ∀ (e : Event) (l : Option Nat), Event.bare { e with linked := l } = e.bare :=
    fun _ _ => rfl
  refine ⟨?_, ?_, ?_⟩
  · intro hsnap hdiv
    obtain ⟨st, hscan, _, _⟩ := quantize_scan_total s.events status cc snap_tick divide
      s.length linked hsnap hdiv hlinks
    exact ⟨st, hscan⟩
  · intro st hscan
    obtain ⟨hinv, honly⟩ := quantize_scan_only s.events status cc snap_tick divide s.length
      linked st hscan
    have hedit : quantize_events_edit s status cc snap_tick divide linked
        = some { remove_marked (reset_draw_marker { s with events := st.1 }) with
            events := event_list_merge
              (remove_marked (reset_draw_marker { s with events := st.1 })).events st.2 true } := by
      unfold quantize_events_edit
      rw [hscan]
    refine ⟨_, hedit, ?_, ?_, ?_⟩
    · unfold quantize_events
      rw [hedit]
      rfl
    · have h1 : ((event_list_merge
          (remove_marked (reset_draw_marker { s with events := st.1 })).events st.2 true).map
          Event.bare).Perm
          (((remove_marked (reset_draw_marker { s with events := st.1 })).events ++ st.2).map
            Event.bare) := (event_list_merge_perm _ _).map Event.bare
      refine h1.trans ?_
      rw [List.map_append, remove_marked_events_filter Event.bare hbare]
      have h2 : (reset_draw_marker { s with events := st.1 }).events = st.1 := rfl
      rw [h2, quantize_inv_filter_bare _ _ hinv, filter_unmarked_mark_selected s.events hclean]
    · intro x hx
      exact quantize_pushed_source s.events status cc snap_tick divide s.length linked hclean x
        (honly x hx)
  · intro l hl
    have hedit : transpose_notes_edit table_up table_dn s steps
        = some { remove_marked s.mark_selected with
            events := event_list_merge (remove_marked s.mark_selected).events l true } := by
      unfold transpose_notes_edit
      have hev : s.mark_selected.events = mark_selected s.events := rfl
      simp only [hev, hl]
    refine ⟨_, hedit, ?_, ?_, ?_⟩
    · unfold transpose_notes
      rw [hedit]
      rfl
    · have h1 : ((event_list_merge (remove_marked s.mark_selected).events l true).map
          Event.bare).Perm
          (((remove_marked s.mark_selected).events ++ l).map Event.bare) :=
        (event_list_merge_perm _ _).map Event.bare
      refine h1.trans ?_
      rw [List.map_append, remove_marked_events_filter Event.bare hbare]
      have h2 : s.mark_selected.events = mark_selected s.events := rfl
      rw [h2, filter_unmarked_mark_selected s.events hclean]
    · intro x hx
      obtain ⟨er, hmem, hsel, hnote, hrest⟩ :=
        transposed_events_source _ _ s.events l hclean hl x hx
      refine ⟨er, hmem, hsel, ?_, hrest⟩
      unfold Event.is_note at hnote
      simp only [Bool.or_eq_true, beq_iff_eq] at hnote
      rcases hnote with (h | h) | h
      · exact Or.inl h
      · exact Or.inr (Or.inl h)
      · exact Or.inr (Or.inr h)

set_option maxRecDepth 100000 in
theorem quantize_transpose_delete_selected_witness :
    (∀ e ∈ mixed_seq.events, e.marked = false) ∧
    (∀ e ∈ mixed_seq.events, ∀ k, e.linked = some k → k < mixed_seq.events.length) ∧
    (∃ (st : List Event × List Event) (s1 : Sequence),
      quantize_events_edit mixed_seq EVENT_NOTE_ON 0 16 1 false = some s1 ∧
      (s1.events.map Event.bare).Perm
        ((mixed_seq.events.filter (fun e => !e.selected)).map Event.bare ++
          st.2.map Event.bare)) ∧
    (quantize_events_edit mixed_seq EVENT_NOTE_ON 0 16 1 false).map (fun r => r.events)
      = some [{ sel_on with timestamp := 16 }] ∧
    (quantize_events_edit mixed_seq EVENT_NOTE_ON 0 0 1 false).map (fun r => r.events)
      = none ∧
    (transpose_notes_edit chromatic_up chromatic_dn mixed_seq 2).map (fun r => r.events)
      = some [{ sel_on with d0 := 62 }, { sel_touch with d0 := 62 },
          { sel_off with d0 := 62 }] :=
  have hclean : ∀ e ∈ mixed_seq.events, e.marked = false := by decide
  have hd : ∀ e ∈ mixed_seq.events,
      (match e.linked with
        | some j => decide (j < mixed_seq.events.length)
        | none => true) = true := by decide
  have hl : ∀ e ∈ mixed_seq.events, ∀ k, e.linked = some k →
      k < mixed_seq.events.length := by
    intro e he j hj
    have h := hd e he
    rw [hj] at h
    exact of_decide_eq_true h
  have h := quantize_transpose_delete_selected chromatic_up chromatic_dn mixed_seq
    EVENT_NOTE_ON 0 16 1 false 2 hclean hl
  match h.1 (by decide) (by decide) with
  | ⟨st, hscan⟩ =>
    match h.2.1 st hscan with
    | ⟨s1, h2, _, h4, _⟩ =>
      ⟨hclean, hl, ⟨st, s1, h2, h4⟩, by decide, by decide, by decide⟩


/-! ## Who pushes the undo snapshot -/

theorem remove_marked_undo (s : Sequence) :
    (remove_marked s).events_undo = s.events_undo ∧ (remove_marked s).length = s.length := by
  constructor
  · exact remove_marked_loop_proj (fun t => t.events_undo)
      (fun t i er => (remove_iterator_body_fields t i er).2.2.2.1) s.events.length 0 s
  · exact remove_marked_loop_proj (fun t => t.length)
      (fun t i er => (remove_iterator_body_fields t i er).1) s.events.length 0 s

theorem foldl_add_event_undo (l : List Event) :
    ∀ s : Sequence, (l.foldl add_event s).events_undo = s.events_undo := by
  induction l with
  | nil => intro s; rfl
  | cons e l ih =>
    intro s
    rw [List.foldl_cons, ih]
    rfl

theorem add_note_paint_loop_undo (tick note : Int) :
    ∀ (l : List Nat) (s : Sequence) (r : Sequence × Bool),
      add_note_paint_loop tick note l s = some r → r.1.events_undo = s.events_undo := by
  intro l
  induction l with
  | nil =>
    intro s r h
    simp only [add_note_paint_loop, Option.some.injEq] at h
    rw [← h]
  | cons i rest ih =>
    intro s r h
    simp only [add_note_paint_loop] at h
    cases hi : s.events[i]? with
    | none =>
      rw [hi] at h
      simp only [Option.some.injEq] at h
      rw [← h]
    | some er =>
      rw [hi] at h
      simp only at h
      split_ifs at h with c1 c2
      · simp only [Option.some.injEq] at h
        rw [← h]
      · cases hk : er.linked with
        | none =>
          rw [hk] at h
          simp only at h
          have h2 := ih _ r h
          exact h2
        | some j =>
          rw [hk] at h
          simp only at h
          cases hp : (mark_at s.events i)[j]? with
          | none =>
            rw [hp] at h
            cases h
          | some p =>
            rw [hp] at h
            simp only at h
            have h2 := ih _ r h
            exact h2
      · exact ih s r h

theorem add_note_undo (s : Sequence) (tick length note : Int) (paint : Bool) (r : Sequence)
    (h : add_note s tick length note paint = some r) : r.events_undo = s.events_undo := by
  unfold add_note at h
  simp only [Option.map_eq_some'] at h
  obtain ⟨s1, h1, rfl⟩ := h
  rw [(verify_and_link_fields s1).2.2.2.1]
  have hpair : ∀ (t : Sequence) (ig : Bool),
      (add_note_pair t tick length note paint ig).events_undo = t.events_undo := by
    intro t ig
    unfold add_note_pair
    cases ig
    · rfl
    · rfl
  unfold add_note_events at h1
  split_ifs at h1 with c1 c2
  · cases hl : add_note_paint_loop tick note (List.range s.events.length) s with
    | none =>
      rw [hl] at h1
      cases h1
    | some r1 =>
      rw [hl] at h1
      simp only [Option.some.injEq] at h1
      rw [← h1, hpair, (remove_marked_undo r1.1).1]
      exact add_note_paint_loop_undo tick note _ s r1 hl
  · simp only [Option.some.injEq] at h1
    rw [← h1, hpair]
  · simp only [Option.some.injEq] at h1
    rw [← h1]

theorem stretch_selected_undo (scaled : Nat → Nat → Int → Int) (s : Sequence)
    (delta_tick : Int) : (stretch_selected scaled s delta_tick).events_undo = s.events_undo := by
  unfold stretch_selected
  simp only
  split_ifs
  · rw [(verify_and_link_fields _).2.2.2.1, (remove_marked_undo _).1, foldl_add_event_undo]
    rfl
  · rfl

/-- C33, amended: of the seven editing operations only `cut_selected` pushes
the snapshot.  `cut_selected`, which returns unless it is asked to copy while
nothing is selected, leaves the store it found on top of the undo stack, and
a `pop_undo` issued right after it makes the store that store after
`verify_and_link` and `unselect`: the store before the cut up to links and
editor flags, when relinking finds nothing to prune.  `add_note`,
`move_selected_notes`, `stretch_selected`, `grow_selected`, `quantize_events`
and `transpose_notes` leave the undo stack as it was; after one of them on an
empty undo stack `pop_undo` changes nothing. -/
theorem cut_selected_pushes_undo (table_up table_dn : Nat → Int)
    (scaled : Nat → Nat → Int → Int) (s : Sequence)
    (clipboard : List Event) (copyevents : Bool) (tick length note : Int) (paint : Bool)
    (delta_tick delta_note : Int) (status cc : Nat) (snap_tick divide : Int) (linked : Bool)
    (steps : Int) :
    ((copyevents = false ∨ ∃ e ∈ s.events, e.selected = true) →
      ∃ r, cut_selected s clipboard copyevents = some r) ∧
    (∀ r, cut_selected s clipboard copyevents = some r →
      r.1.events_undo = s.events :: s.events_undo ∧
      (pop_undo r.1).events = unselect_all (verify_and_link s).events ∧
      (pop_undo r.1).events_undo = s.events_undo ∧
      ((∀ e ∈ event_list_verify_and_link s.length s.events, e.marked = false) →
        (pop_undo r.1).events.map Event.bare = s.events.map Event.bare)) ∧
    (∀ r, add_note s tick length note paint = some r → r.events_undo = s.events_undo) ∧
    (move_selected_notes s delta_tick delta_note).events_undo = s.events_undo ∧
    (stretch_selected scaled s delta_tick).events_undo = s.events_undo ∧
    (∀ r, grow_selected s delta_tick = some r → r.events_undo = s.events_undo) ∧
    (∀ r, quantize_events s status cc snap_tick divide linked = some r →
      r.events_undo = s.events_undo) ∧
    (∀ r, transpose_notes table_up table_dn s steps = some r →
      r.events_undo = s.events_undo) ∧
    (∀ r : Sequence, r.events_undo = s.events_undo → s.events_undo = [] → pop_undo r = r) := by
  refine ⟨?_, ?_, add_note_undo s tick length note paint, ?_,
    stretch_selected_undo scaled s delta_tick, ?_, ?_, ?_, ?_⟩
  · intro h
    unfold cut_selected
    cases hc : copyevents
    · exact ⟨_, rfl⟩
    · have hsel : ∃ e ∈ s.events, e.selected = true := by
        rcases h with h | h
        · rw [hc] at h; cases h
        · exact h
      obtain ⟨e, he, hes⟩ := hsel
      have hmem : e ∈ (push_undo s).events.filter (fun e => e.selected) :=
        List.mem_filter.mpr ⟨he, hes⟩
      simp only [if_true, copy_selected]
      cases hf : (push_undo s).events.filter (fun e => e.selected) with
      | nil =>
        rw [hf] at hmem
        exact absurd hmem (List.not_mem_nil e)
      | cons first rest => exact ⟨_, rfl⟩
  · intro r hr
    have hr1 : r.1 = remove_marked (push_undo s).mark_selected := by
      unfold cut_selected at hr
      simp only at hr
      cases hclip : (if copyevents then copy_selected (push_undo s) else some clipboard) with
      | none =>
        rw [hclip] at hr
        cases hr
      | some c =>
        rw [hclip] at hr
        simp only [Option.some.injEq] at hr
        rw [← hr]
    have hundo : r.1.events_undo = s.events :: s.events_undo := by
      rw [hr1, (remove_marked_undo _).1]
      rfl
    have hlen : r.1.length = s.length := by
      rw [hr1, (remove_marked_undo _).2]
      rfl
    have hu := pop_undo_eq r.1 s.events s.events_undo hundo
    have hf := verify_and_link_fields
      { r.1 with events_redo := r.1.events :: r.1.events_redo, events := s.events,
                 events_undo := s.events_undo }
    have hev : (pop_undo r.1).events = unselect_all (verify_and_link s).events := by
      rw [hu]
      exact congrArg unselect_all (verify_and_link_events_eq _ s rfl hlen)
    refine ⟨hundo, hev, ?_, ?_⟩
    · rw [hu]
      exact hf.2.2.2.1
    · intro hclean
      rw [hev, unselect_all_bare]
      exact verify_and_link_clean s hclean
  · unfold move_selected_notes move_selected_notes_edit
    rw [(verify_and_link_fields _).2.2.2.1, (remove_marked_undo _).1, foldl_add_event_undo]
    rfl
  · intro r hr
    unfold grow_selected at hr
    cases hg : grow_selected_scan s.events delta_tick s.length with
    | none =>
      rw [hg] at hr
      cases hr
    | some p =>
      obtain ⟨store, added⟩ := p
      rw [hg] at hr
      simp only [Option.some.injEq] at hr
      rw [← hr, (verify_and_link_fields _).2.2.2.1, (remove_marked_undo _).1,
        foldl_add_event_undo]
      rfl
  · intro r hr
    unfold quantize_events at hr
    simp only [Option.map_eq_some'] at hr
    obtain ⟨s1, h1, rfl⟩ := hr
    rw [(verify_and_link_fields s1).2.2.2.1]
    unfold quantize_events_edit at h1
    cases hq : quantize_scan s.events status cc snap_tick divide s.length linked with
    | none =>
      rw [hq] at h1
      cases h1
    | some st =>
      rw [hq] at h1
      simp only [Option.some.injEq] at h1
      rw [← h1]
      show (remove_marked _).events_undo = _
      rw [(remove_marked_undo _).1]
      rfl
  · intro r hr
    unfold transpose_notes at hr
    simp only [Option.map_eq_some'] at hr
    obtain ⟨s1, h1, rfl⟩ := hr
    rw [(verify_and_link_fields s1).2.2.2.1]
    unfold transpose_notes_edit at h1
    simp only at h1
    cases ht : transposed_events (if steps < 0 then table_dn else table_up)
        (if steps < 0 then steps * -1 else steps).toNat s.mark_selected.events with
    | none =>
      rw [ht] at h1
      cases h1
    | some l =>
      rw [ht] at h1
      simp only [Option.some.injEq] at h1
      rw [← h1]
      show (remove_marked _).events_undo = _
      rw [(remove_marked_undo _).1]
      rfl
  · intro r hr hempty
    unfold pop_undo
    rw [hr, hempty]

set_option maxRecDepth 100000 in
/-- C33, as stated, fails for `add_note`: on the pattern holding the linked
note of pitch 60, with an empty undo stack, `add_note` adds a note of pitch 62
and leaves the undo stack empty, so that `pop_undo` issued right after it
changes nothing and the store still holds the added note. -/
theorem add_note_pushes_no_snapshot :
    linked_note_seq.events_undo = [] ∧
    linked_note_seq.events.length = 2 ∧
    (add_note linked_note_seq 200 50 62 false).map (fun r => r.events_undo) = some [] ∧
    (add_note linked_note_seq 200 50 62 false).map (fun r => (pop_undo r).events.length)
      = some 4 ∧
    (add_note linked_note_seq 200 50 62 false).map
        (fun r => (pop_undo r).events.map Event.bare)
      ≠ some (linked_note_seq.events.map Event.bare) := by
  refine ⟨rfl, rfl, by decide, by decide, by decide⟩

set_option maxRecDepth 100000 in
theorem cut_selected_pushes_undo_witness :
    (∃ r, cut_selected mixed_seq [] true = some r) ∧
    (cut_selected mixed_seq [] true).map (fun r => r.1.events) = some [] ∧
    (cut_selected mixed_seq [] true).map (fun r => r.1.events_undo)
      = some [mixed_seq.events] ∧
    (cut_selected mixed_seq [] true).map (fun r => (pop_undo r.1).events.map Event.bare)
      = some (mixed_seq.events.map Event.bare) :=
  have h := cut_selected_pushes_undo chromatic_up chromatic_dn (fun _ _ x => x) mixed_seq []
    true 0 0 0 false 0 0 0 0 1 1 false 0
  ⟨h.1 (Or.inr ⟨sel_on, by decide, rfl⟩), by decide, by decide, by decide⟩


/-! ## Growing notes: the store after the edit -/

end Seq64
